import Mathlib

/-!
# sFlow v5 enrichment relay: parser, in-place mutator and enrichment engine

A shallow embedding of `internal/sflow/sflow.go`, of `enrichPacket` from
`cmd/sflow-enricher/main.go` and of the parts of `internal/config/config.go`
they use.

Conventions of the embedding

* A Go `[]byte` is a `List (Fin 256)`.  A Go `uint32` is a `Nat` below `2^32`
  (every such value is produced by `be32`), a Go `int` is a `Nat`: lengths and
  offsets are far below `2^63` (a datagram has at most 65535 bytes), so the
  additions of the source do not wrap.
* Functions that return `(T, error)` return `Except Fault T`.  The fault
  `Fault.error e` is a Go `error` value handed back to the caller, the fault
  `Fault.panic` is a Go run-time panic (index or slice bounds out of range).
  Every read of the source is embedded as a checked read, so that an
  out-of-bounds access of the source is a `Fault.panic` of the model.
* Functions that mutate their `[]byte` argument in place return the new
  contents of the buffer.
-/

namespace SFlow

deriving instance DecidableEq for Except

/-! ## Bytes, big-endian words, slices -/

abbrev Byte := Fin 256

abbrev Bytes := List Byte

/-- The `error` values built by the parsers (the formatted numbers are dropped). -/
inductive ParseError where
  | packetTooShort
  | unsupportedVersion
  | unsupportedAgentAddrType
  | flowSampleTooShort
  | gatewayTooShort
  | unsupportedNextHopType
  | gatewayTooShortForAS
deriving DecidableEq, Repr

/-- Ways in which a Go function fails to return a value. -/
inductive Fault where
  | error (e : ParseError)
  | panic
deriving DecidableEq, Repr

/-- Big-endian value of four bytes. -/
def be32 (b0 b1 b2 b3 : Byte) : Nat :=
  b0.val * 16777216 + b1.val * 65536 + b2.val * 256 + b3.val

/-- Big-endian value of two bytes. -/
def be16 (b0 b1 : Byte) : Nat := b0.val * 256 + b1.val

/-- The byte `data[i]` (0 beyond the end; used only under a bounds check). -/
def byteAt (data : Bytes) (i : Nat) : Byte := data.getD i 0

/-- The big-endian word stored at `off`. -/
def u32At (data : Bytes) (off : Nat) : Nat :=
  be32 (byteAt data off) (byteAt data (off + 1)) (byteAt data (off + 2)) (byteAt data (off + 3))

/-- The big-endian half-word stored at `off`. -/
def u16At (data : Bytes) (off : Nat) : Nat :=
  be16 (byteAt data off) (byteAt data (off + 1))

/-- Go `binary.BigEndian.Uint32(data[off:])`: panics unless four bytes are there. -/
def Uint32 (data : Bytes) (off : Nat) : Except Fault Nat :=
  if off + 4 ≤ data.length then .ok (u32At data off) else .error .panic

/-- The bytes `data[lo:hi]`. -/
def slice (data : Bytes) (lo hi : Nat) : Bytes := (data.drop lo).take (hi - lo)

/-- Go slice expression `data[lo:hi]`, checked against the length.  (Go checks
against the capacity; every slice expression of the source sits behind a check
against the length, so the difference is never observed.) -/
def Slice (data : Bytes) (lo hi : Nat) : Except Fault Bytes :=
  if lo ≤ hi ∧ hi ≤ data.length then .ok (slice data lo hi) else .error .panic

/-- Go `byte(v >> s)`. -/
def byteOf (v s : Nat) : Byte := Fin.ofNat (v >>> s)

/-- The four assignments of `binary.BigEndian.PutUint32`. -/
def writeU32 (packet : Bytes) (off v : Nat) : Bytes :=
  (((packet.set off (byteOf v 24)).set (off + 1) (byteOf v 16)).set (off + 2)
    (byteOf v 8)).set (off + 3) (byteOf v 0)

/-- Go `binary.BigEndian.PutUint32(packet[off:], v)`. -/
def PutUint32 (packet : Bytes) (off v : Nat) : Except Fault Bytes :=
  if off + 4 ≤ packet.length then .ok (writeU32 packet off v) else .error .panic

/-! ## Data model (`sflow.go`, lines 32-89) -/

/-- Go `Sample`: a tagged element and the offset of its header. -/
structure Sample where
  Enterprise : Nat
  Format : Nat
  Length : Nat
  Data : Bytes
  Offset : Nat
deriving DecidableEq, Repr

/-- The tag, the length and the offset of an element, without its payload. -/
def Sample.header (s : Sample) : Nat × Nat × Nat × Nat :=
  (s.Enterprise, s.Format, s.Length, s.Offset)

/-- Go `FlowRecord` has the field list of `Sample`; `Offset` is relative to the
flow-sample payload. -/
abbrev FlowRecord := Sample

/-- Go `Datagram`. -/
structure Datagram where
  Version : Nat
  AgentAddrType : Nat
  AgentAddr : Bytes
  SubAgentID : Nat
  SequenceNum : Nat
  Uptime : Nat
  NumSamples : Nat
  Samples : List Sample
  Raw : Bytes
deriving DecidableEq, Repr

/-- Go `FlowSample`. -/
structure FlowSample where
  SequenceNum : Nat
  SourceIDType : Nat
  SourceIDIndex : Nat
  SamplingRate : Nat
  SamplePool : Nat
  Drops : Nat
  Input : Nat
  Output : Nat
  NumRecords : Nat
  Records : List FlowRecord
deriving DecidableEq, Repr

/-- Go `ExtendedGateway`. -/
structure ExtendedGateway where
  NextHopType : Nat
  NextHop : Bytes
  AS : Nat
  SrcAS : Nat
  SrcPeerAS : Nat
  DstASPathLen : Nat
  DstASPath : List Nat
  CommunitiesLen : Nat
  Communities : List Nat
  LocalPref : Nat
deriving DecidableEq, Repr

/-! ## Parsers (`sflow.go`, lines 92-330) -/

/-- The tag+length loop shared by `Parse` (lines 142-167) and `ParseFlowSample`
(lines 225-250); the first argument is the number of iterations the counter
still allows (`NumSamples - i`). -/
def tlvLoop (data : Bytes) : Nat → Nat → Except Fault (List Sample)
  | 0, _ => .ok []
  | n + 1, offset =>
    if ¬ offset < data.length then .ok []
    else if offset + 8 > data.length then .ok []
    else
      (Uint32 data offset).bind fun header =>
      (Uint32 data (offset + 4)).bind fun len =>
      if offset + 8 + len > data.length then .ok []
      else
        (Slice data (offset + 8) (offset + 8 + len)).bind fun payload =>
        (tlvLoop data n (offset + 8 + len)).bind fun rest =>
        .ok ({ Enterprise := header >>> 12, Format := header &&& 0xFFF, Length := len,
               Data := payload, Offset := offset } :: rest)

/-- The elements `tlvLoop` returns, written with unchecked reads (see
`tlvLoop_eq`). -/
def tlv (data : Bytes) : Nat → Nat → List Sample
  | 0, _ => []
  | n + 1, offset =>
    if offset + 8 ≤ data.length ∧ offset + 8 + u32At data (offset + 4) ≤ data.length then
      { Enterprise := u32At data offset >>> 12, Format := u32At data offset &&& 0xFFF,
        Length := u32At data (offset + 4),
        Data := slice data (offset + 8) (offset + 8 + u32At data (offset + 4)),
        Offset := offset } :: tlv data n (offset + 8 + u32At data (offset + 4))
    else []

/-- Go `Parse`. -/
def Parse (data : Bytes) : Except Fault Datagram :=
  if data.length < 28 then .error (.error .packetTooShort)
  else
    (Uint32 data 0).bind fun version =>
    if version ≠ 5 then .error (.error .unsupportedVersion)
    else
      (Uint32 data 4).bind fun addrType =>
      (if addrType = 1 then (Slice data 8 12).bind fun a => .ok (a, 12)
       else if addrType = 2 then (Slice data 8 24).bind fun a => .ok (a, 24)
       else .error (.error .unsupportedAgentAddrType)).bind fun (agent : Bytes × Nat) =>
      (Uint32 data agent.2).bind fun subAgent =>
      (Uint32 data (agent.2 + 4)).bind fun seq =>
      (Uint32 data (agent.2 + 8)).bind fun uptime =>
      (Uint32 data (agent.2 + 12)).bind fun numSamples =>
      (tlvLoop data numSamples (agent.2 + 16)).bind fun samples =>
      .ok { Version := version, AgentAddrType := addrType, AgentAddr := agent.1,
            SubAgentID := subAgent, SequenceNum := seq, Uptime := uptime,
            NumSamples := numSamples, Samples := samples, Raw := data }

/-- Go `ParseFlowSample`. -/
def ParseFlowSample (data : Bytes) (expanded : Bool) : Except Fault FlowSample :=
  if data.length < 32 then .error (.error .flowSampleTooShort)
  else
    (Uint32 data 0).bind fun seq =>
    (if expanded then
        (Uint32 data 4).bind fun ty => (Uint32 data 8).bind fun idx => .ok (ty, idx, 12)
      else
        (Uint32 data 4).bind fun sourceID =>
          .ok (sourceID >>> 24, sourceID &&& 0x00FFFFFF, 8)).bind
      fun (src : Nat × Nat × Nat) =>
    (Uint32 data src.2.2).bind fun rate =>
    (Uint32 data (src.2.2 + 4)).bind fun pool =>
    (Uint32 data (src.2.2 + 8)).bind fun drops =>
    (if expanded then
        (Uint32 data (src.2.2 + 12)).bind fun input =>
        (Uint32 data (src.2.2 + 20)).bind fun output => .ok (input, output, src.2.2 + 28)
      else
        (Uint32 data (src.2.2 + 12)).bind fun input =>
        (Uint32 data (src.2.2 + 16)).bind fun output => .ok (input, output, src.2.2 + 20)).bind
      fun (ifs : Nat × Nat × Nat) =>
    (Uint32 data ifs.2.2).bind fun numRecords =>
    (tlvLoop data numRecords (ifs.2.2 + 4)).bind fun records =>
    .ok { SequenceNum := seq, SourceIDType := src.1, SourceIDIndex := src.2.1,
          SamplingRate := rate, SamplePool := pool, Drops := drops,
          Input := ifs.1, Output := ifs.2.1, NumRecords := numRecords, Records := records }

/-- The inner loops of `ParseExtendedGateway` (lines 305-309 and 318-322): read
up to `n` words while four bytes remain, appending them to `acc`; returns the
offset reached and the list. -/
def wordLoop (data : Bytes) : Nat → Nat → List Nat → Except Fault (Nat × List Nat)
  | 0, offset, acc => .ok (offset, acc)
  | n + 1, offset, acc =>
    if offset + 4 ≤ data.length then
      (Uint32 data offset).bind fun w => wordLoop data n (offset + 4) (acc ++ [w])
    else .ok (offset, acc)

/-- The AS-path segment loop of `ParseExtendedGateway` (lines 296-310). -/
def segmentLoop (data : Bytes) : Nat → Nat → List Nat → Except Fault (Nat × List Nat)
  | 0, offset, path => .ok (offset, path)
  | n + 1, offset, path =>
    if offset + 8 ≤ data.length then
      (Uint32 data offset).bind fun _segType =>
      (Uint32 data (offset + 4)).bind fun segLen =>
      (wordLoop data segLen (offset + 8) path).bind fun r =>
      segmentLoop data n r.1 r.2
    else .ok (offset, path)

/-- Lines 291-327 of `ParseExtendedGateway`: the AS path, the communities and
the local preference that follow the fixed prefix, each read when enough bytes
remain.  Returns `(DstASPathLen, DstASPath, CommunitiesLen, Communities,
LocalPref)`. -/
def gatewayTail (data : Bytes) (offset : Nat) :
    Except Fault (Nat × List Nat × Nat × List Nat × Nat) :=
  (if offset + 4 ≤ data.length then
      (Uint32 data offset).bind fun pathLen =>
      (segmentLoop data pathLen (offset + 4) []).bind fun r => .ok (pathLen, r.2, r.1)
    else .ok (0, [], offset)).bind fun (path : Nat × List Nat × Nat) =>
  (if path.2.2 + 4 ≤ data.length then
      (Uint32 data path.2.2).bind fun commLen =>
      (wordLoop data commLen (path.2.2 + 4) []).bind fun r => .ok (commLen, r.2, r.1)
    else .ok (0, [], path.2.2)).bind fun (comm : Nat × List Nat × Nat) =>
  (if comm.2.2 + 4 ≤ data.length then Uint32 data comm.2.2 else .ok 0).bind fun localPref =>
  .ok (path.1, path.2.1, comm.1, comm.2.1, localPref)

/-- Go `ParseExtendedGateway`. -/
def ParseExtendedGateway (data : Bytes) : Except Fault ExtendedGateway :=
  if data.length < 20 then .error (.error .gatewayTooShort)
  else
    (Uint32 data 0).bind fun nextHopType =>
    (if nextHopType = 1 then (Slice data 4 8).bind fun a => .ok (a, 8)
     else if nextHopType = 2 then (Slice data 4 20).bind fun a => .ok (a, 20)
     else .error (.error .unsupportedNextHopType)).bind fun (hop : Bytes × Nat) =>
    if hop.2 + 12 > data.length then .error (.error .gatewayTooShortForAS)
    else
      (Uint32 data hop.2).bind fun routerAS =>
      (Uint32 data (hop.2 + 4)).bind fun srcAS =>
      (Uint32 data (hop.2 + 8)).bind fun srcPeerAS =>
      (gatewayTail data (hop.2 + 12)).bind fun t =>
      .ok { NextHopType := nextHopType, NextHop := hop.1, AS := routerAS, SrcAS := srcAS,
            SrcPeerAS := srcPeerAS, DstASPathLen := t.1, DstASPath := t.2.1,
            CommunitiesLen := t.2.2.1, Communities := t.2.2.2.1, LocalPref := t.2.2.2.2 }

/-! ## In-place mutators (`sflow.go`, lines 388-441) -/

/-- The largest Go `int` (64 bits wide). -/
def maxInt : Nat := 9223372036854775807

/-- The body of Go `ModifySrcAS` with the position of the field inside the
gateway payload left open: the word written is the one `k` bytes after the next
hop.  The source has `k = 4` (`recordDataStart + 4 + 4 + 4` for an IPv4 next
hop, `recordDataStart + 4 + 16 + 4` for an IPv6 one).

The offsets are non-negative Go `int`s.  A sum beyond `maxInt` wraps to a
negative number, so the guard `> len(packet)` it is compared in does not fire,
and the slice expression after the guard (`packet[sampleOffset+4:]`,
`packet[absRecordOffset+4:]`) panics on an index that is negative or beyond
the length.  Only `sampleOffset+8` and `absRecordOffset+8` can wrap: every
later sum adds a 32-bit length or a constant to a position inside the packet
(a buffer holds one UDP datagram, or that and the 12 bytes `ModifyDstAS`
adds per record; the reasoning holds up to `2^63 - 2^32` bytes). -/
def setASField (k : Nat) (packet : Bytes) (sampleOffset recordOffset newAS : Nat) :
    Except Fault Bytes :=
  if sampleOffset + 8 > packet.length then
    if sampleOffset + 8 > maxInt then .error .panic else .ok packet
  else
    (Uint32 packet (sampleOffset + 4)).bind fun sampleLen =>
    if sampleOffset + 8 + sampleLen > packet.length then .ok packet
    else if sampleOffset + 8 + recordOffset + 8 > packet.length then
      if sampleOffset + 8 + recordOffset + 8 > maxInt then .error .panic else .ok packet
    else
      (Uint32 packet (sampleOffset + 8 + recordOffset + 4)).bind fun recordLen =>
      if sampleOffset + 8 + recordOffset + 8 + recordLen > packet.length then .ok packet
      else if sampleOffset + 8 + recordOffset + 8 + 4 > packet.length then .ok packet
      else
        (Uint32 packet (sampleOffset + 8 + recordOffset + 8)).bind fun nextHopType =>
        if nextHopType = 1 then
          if sampleOffset + 8 + recordOffset + 8 + 4 + 4 + k + 4 > packet.length then .ok packet
          else PutUint32 packet (sampleOffset + 8 + recordOffset + 8 + 4 + 4 + k) newAS
        else if nextHopType = 2 then
          if sampleOffset + 8 + recordOffset + 8 + 4 + 16 + k + 4 > packet.length then .ok packet
          else PutUint32 packet (sampleOffset + 8 + recordOffset + 8 + 4 + 16 + k) newAS
        else .ok packet

/-- Go `ModifySrcAS`: the new contents of `packet`. -/
def ModifySrcAS (packet : Bytes) (sampleOffset recordOffset newAS : Nat) : Except Fault Bytes :=
  setASField 4 packet sampleOffset recordOffset newAS

/-- Modelled from the spec: `set_src_peer_as`, whose source (`sflow.ModifySrcPeerAS`)
is not part of the files at hand.  "Overwrite SrcPeerAS at `… + addr_len + 8`.
In-place", after the same validation of the sample and record length fields as
`set_src_as`. -/
def ModifySrcPeerAS (packet : Bytes) (sampleOffset recordOffset newAS : Nat) :
    Except Fault Bytes :=
  setASField 8 packet sampleOffset recordOffset newAS

/-- Modelled from the spec: `set_router_as`, whose source (`sflow.ModifyRouterAS`)
is not part of the files at hand.  "Overwrite the router AS field at
`record_data_start + 4 + addr_len`. In-place", after the same validation of the
sample and record length fields as `set_src_as`. -/
def ModifyRouterAS (packet : Bytes) (sampleOffset recordOffset newAS : Nat) :
    Except Fault Bytes :=
  setASField 0 packet sampleOffset recordOffset newAS

/-- The offset of the word `setASField k` writes, when all its checks pass. -/
def fieldPos (k : Nat) (packet : Bytes) (sampleOffset recordOffset : Nat) : Option Nat :=
  if sampleOffset + 8 ≤ packet.length ∧
      sampleOffset + 8 + u32At packet (sampleOffset + 4) ≤ packet.length ∧
      sampleOffset + 8 + recordOffset + 8 ≤ packet.length ∧
      sampleOffset + 8 + recordOffset + 8 + u32At packet (sampleOffset + 8 + recordOffset + 4)
        ≤ packet.length ∧
      sampleOffset + 8 + recordOffset + 8 + 4 ≤ packet.length then
    if u32At packet (sampleOffset + 8 + recordOffset + 8) = 1 then
      if sampleOffset + 8 + recordOffset + 8 + 4 + 4 + k + 4 ≤ packet.length then
        some (sampleOffset + 8 + recordOffset + 8 + 4 + 4 + k)
      else none
    else if u32At packet (sampleOffset + 8 + recordOffset + 8) = 2 then
      if sampleOffset + 8 + recordOffset + 8 + 4 + 16 + k + 4 ≤ packet.length then
        some (sampleOffset + 8 + recordOffset + 8 + 4 + 16 + k)
      else none
    else none
  else none

/-- The buffer `setASField k` leaves behind when it returns (see
`setASField_ok_inv`). -/
def poke (k : Nat) (packet : Bytes) (sampleOffset recordOffset newAS : Nat) : Bytes :=
  match fieldPos k packet sampleOffset recordOffset with
  | some pos => writeU32 packet pos newAS
  | none => packet

/-- The offsets at which a guard of `setASField` compares a sum that has
wrapped: `sampleOffset + 8` is beyond `maxInt`, or the sample header passes its
checks and `sampleOffset + 8 + recordOffset + 8` is beyond `maxInt`.  A sum
within the length of the packet has not wrapped, the length being an `int`. -/
def wraps (packet : Bytes) (sampleOffset recordOffset : Nat) : Prop :=
  (packet.length < sampleOffset + 8 ∧ maxInt < sampleOffset + 8) ∨
  (sampleOffset + 8 + u32At packet (sampleOffset + 4) ≤ packet.length ∧
    packet.length < sampleOffset + 8 + recordOffset + 8 ∧
    maxInt < sampleOffset + 8 + recordOffset + 8)

instance (packet : Bytes) (sampleOffset recordOffset : Nat) :
    Decidable (wraps packet sampleOffset recordOffset) := by
  unfold wraps
  infer_instance

/-- The Extended Gateway record whose header is at `sampleOffset + 8 +
recordOffset` in `packet`, parsed: its payload is the `length` bytes after the
8-byte record header. -/
def gatewayAt (packet : Bytes) (sampleOffset recordOffset : Nat) : Except Fault ExtendedGateway :=
  ParseExtendedGateway
    (slice packet (sampleOffset + 8 + recordOffset + 8)
      (sampleOffset + 8 + recordOffset + 8 + u32At packet (sampleOffset + 8 + recordOffset + 4)))

/-- The spec's `splice`: remove `count` bytes at `offset` and insert `ins` there. -/
def splice (data : Bytes) (offset count : Nat) (ins : Bytes) : Bytes :=
  data.take offset ++ ins ++ data.drop (offset + count)

/-- The four bytes of a big-endian word. -/
def wordBytes (v : Nat) : Bytes := [byteOf v 24, byteOf v 16, byteOf v 8, byteOf v 0]

/-- Modelled from the spec: `set_dst_as`, whose source (`sflow.ModifyDstAS`) is
not part of the files at hand.  The sample and record length fields are re-read
and validated as in `set_src_as`; the path-length word sits after the next hop
and the three AS words; when it is 0 it is consumed and the words 1, 2
(AS_SEQUENCE), 1, `newAS` are spliced in, then the record length and the sample
length are each rewritten to `old + 12` (as 32-bit words).  The result is a new
buffer; `ok = false` (with the buffer as it was) when a bounds check fails or
the path length is not 0. -/
def ModifyDstAS (packet : Bytes) (sampleOffset recordOffset newAS : Nat) : Bytes × Bool :=
  if sampleOffset + 8 > packet.length then (packet, false)
  else
    let sampleLen := u32At packet (sampleOffset + 4)
    if sampleOffset + 8 + sampleLen > packet.length then (packet, false)
    else if sampleOffset + 8 + recordOffset + 8 > packet.length then (packet, false)
    else
      let recordLen := u32At packet (sampleOffset + 8 + recordOffset + 4)
      let recordDataStart := sampleOffset + 8 + recordOffset + 8
      if recordDataStart + recordLen > packet.length then (packet, false)
      else if recordDataStart + 4 > packet.length then (packet, false)
      else
        let nextHopType := u32At packet recordDataStart
        if nextHopType ≠ 1 ∧ nextHopType ≠ 2 then (packet, false)
        else
          let pathOffset := recordDataStart + 4 + (if nextHopType = 1 then 4 else 16) + 12
          if pathOffset + 4 > packet.length then (packet, false)
          else if u32At packet pathOffset ≠ 0 then (packet, false)
          else
            let spliced :=
              splice packet pathOffset 4 (wordBytes 1 ++ wordBytes 2 ++ wordBytes 1 ++ wordBytes newAS)
            let withRecordLen := writeU32 spliced (sampleOffset + 8 + recordOffset + 4) (recordLen + 12)
            (writeU32 withRecordLen (sampleOffset + 4) (sampleLen + 12), true)

/-! ## Packet header inspector -/

/-- The bytes `c[lo:hi]` when they are all there. -/
def ipField (c : Bytes) (lo hi : Nat) : Option Bytes :=
  if hi ≤ c.length then some (slice c lo hi) else none

/-- Modelled from the spec: `src_dst_ip`, whose source
(`sflow.GetSrcDstIPFromRawPacket`) is not part of the files at hand.  The
captured bytes are the `header length` bytes after the 16-byte prefix; they are
read as an Ethernet frame (EtherType at 12, one optional VLAN tag of 4 bytes);
IPv4 source at 12..16 and destination at 16..20 of the IP header, IPv6 source at
8..24 and destination at 24..40; a side whose bytes are not all captured is
`none`. -/
def GetSrcDstIPFromRawPacket (data : Bytes) : Option Bytes × Option Bytes :=
  if data.length < 16 then (none, none)
  else
    let headerLen := u32At data 12
    if 16 + headerLen > data.length then (none, none)
    else
      let captured := slice data 16 (16 + headerLen)
      if captured.length < 14 then (none, none)
      else
        let outer := u16At captured 12
        if outer = 0x8100 ∧ captured.length < 18 then (none, none)
        else
          let etherType := if outer = 0x8100 then u16At captured 16 else outer
          let ip := if outer = 0x8100 then 18 else 14
          if etherType = 0x0800 then
            (ipField captured (ip + 12) (ip + 16), ipField captured (ip + 16) (ip + 20))
          else if etherType = 0x86DD then
            (ipField captured (ip + 8) (ip + 24), ipField captured (ip + 24) (ip + 40))
          else (none, none)

/-! ## Configuration (`config.go`) -/

/-- Go `*net.IPNet` (standard library), represented by its membership test
`Contains`. -/
structure IPNet where
  Contains : Bytes → Bool

/-- Go `EnrichmentRule`. -/
structure EnrichmentRule where
  Name : String
  Network : String
  MatchAS : Nat
  SetAS : Nat
  Overwrite : Bool
  IPNet : IPNet

/-- The network `a.b.c.d/bits` as an `IPNet`: a 4-byte address is a member when
its first `bits` bits are those of `a.b.c.d`. -/
def cidr4 (a b c d : Byte) (bits : Nat) : IPNet where
  Contains ip :=
    ip.length == 4 && u32At ip 0 >>> (32 - bits) == be32 a b c d >>> (32 - bits)

/-- Go `ip != nil && ipnet.Contains(ip)`. -/
def ipIn (ip : Option Bytes) (n : IPNet) : Bool :=
  match ip with
  | none => false
  | some a => n.Contains a

/-! ## Enrichment engine (`main.go`, lines 490-648) -/

/-- The four mutators of the `sflow` package. -/
inductive Mutator where
  | srcAS
  | srcPeerAS
  | routerAS
  | dstAS
deriving DecidableEq, Repr

/-- One call of a mutator: the buffer and the arguments it was given. -/
structure Call where
  op : Mutator
  packet : Bytes
  sampleOffset : Nat
  recordOffset : Nat
  value : Nat
deriving DecidableEq, Repr

/-- The mutator and the arguments of a call, without the buffer. -/
def Call.sig (c : Call) : Mutator × Nat × Nat × Nat :=
  (c.op, c.sampleOffset, c.recordOffset, c.value)

/-- The variables of `enrichPacket` while it runs.  `view` is the array of the
buffer the caller passed in: `datagram.Samples[i].Data` and `record.Data` are Go
slices of that array, so what the parsers read through them is what the array
holds at that moment.  The variable `packet` is that same array until
`ModifyDstAS` succeeds, and the buffer `ModifyDstAS` returned (`resized`) from
then on.  `calls` records the mutator calls made so far (it is not a variable of
the source). -/
structure EnrichState where
  view : Bytes
  resized : Option Bytes
  enriched : Bool
  calls : List Call
deriving DecidableEq, Repr

/-- The current value of the variable `packet`. -/
def EnrichState.packet (st : EnrichState) : Bytes := st.resized.getD st.view

/-- The effect of an in-place write to `packet`. -/
def EnrichState.setPacket (st : EnrichState) (b : Bytes) : EnrichState :=
  match st.resized with
  | none => { st with view := b }
  | some _ => { st with resized := some b }

/-- A call `f(packet, sampleOffset, recordOffset, value)` of an in-place mutator. -/
def EnrichState.inPlace (st : EnrichState) (op : Mutator)
    (f : Bytes → Nat → Nat → Nat → Except Fault Bytes)
    (sampleOffset recordOffset value : Nat) : Except Fault EnrichState :=
  (f st.packet sampleOffset recordOffset value).bind fun b =>
    .ok { st.setPacket b with
          calls := st.calls ++ [⟨op, st.packet, sampleOffset, recordOffset, value⟩] }

/-- The test `shouldApply` of lines 558-565. -/
def shouldApply (rule : EnrichmentRule) (srcIP : Option Bytes) (eg : ExtendedGateway) : Bool :=
  if rule.Overwrite then ipIn srcIP rule.IPNet
  else eg.SrcAS == rule.MatchAS && ipIn srcIP rule.IPNet

/-- Lines 576-603: what is done for the rule that fires on the source side. -/
def applySrcRule (rule : EnrichmentRule) (sampleOffset recordOffset : Nat)
    (eg : ExtendedGateway) (st : EnrichState) : Except Fault EnrichState :=
  (st.inPlace .srcAS ModifySrcAS sampleOffset recordOffset rule.SetAS).bind fun st1 =>
  (if eg.SrcPeerAS = 0 then
      { st1 with enriched := true }.inPlace .srcPeerAS ModifySrcPeerAS sampleOffset recordOffset
        rule.SetAS
    else .ok { st1 with enriched := true }).bind fun st2 =>
  if eg.AS = 0 then st2.inPlace .routerAS ModifyRouterAS sampleOffset recordOffset rule.SetAS
  else .ok st2

/-- Lines 556-606: the rule loop of the source side, left at the first rule that
fires. -/
def srcSide (srcIP : Option Bytes) (sampleOffset recordOffset : Nat) (eg : ExtendedGateway) :
    List EnrichmentRule → EnrichState → Except Fault EnrichState
  | [], st => .ok st
  | rule :: rest, st =>
    if shouldApply rule srcIP eg then applySrcRule rule sampleOffset recordOffset eg st
    else srcSide srcIP sampleOffset recordOffset eg rest st

/-- Lines 621-639: what is done for the rule that fires on the destination side. -/
def applyDstRule (rule : EnrichmentRule) (sampleOffset recordOffset : Nat)
    (eg : ExtendedGateway) (st : EnrichState) : Except Fault EnrichState :=
  let r := ModifyDstAS st.packet sampleOffset recordOffset rule.SetAS
  let st1 : EnrichState :=
    { st with calls := st.calls ++ [⟨.dstAS, st.packet, sampleOffset, recordOffset, rule.SetAS⟩] }
  let st2 : EnrichState := if r.2 then { st1 with resized := some r.1, enriched := true } else st1
  if eg.AS = 0 then
    (st2.inPlace .routerAS ModifyRouterAS sampleOffset recordOffset rule.SetAS).bind fun st3 =>
      .ok { st3 with enriched := true }
  else .ok st2

/-- Lines 611-642: the rule loop of the destination side, left at the first rule
whose network holds the destination address. -/
def dstSide (dstIP : Option Bytes) (sampleOffset recordOffset : Nat) (eg : ExtendedGateway) :
    List EnrichmentRule → EnrichState → Except Fault EnrichState
  | [], st => .ok st
  | rule :: rest, st =>
    if ipIn dstIP rule.IPNet then applyDstRule rule sampleOffset recordOffset eg st
    else dstSide dstIP sampleOffset recordOffset eg rest st

/-- Lines 555-643: the processing of one parsed Extended Gateway record. -/
def processGateway (rules : List EnrichmentRule) (srcIP dstIP : Option Bytes)
    (sampleOffset recordOffset : Nat) (eg : ExtendedGateway) (st : EnrichState) :
    Except Fault EnrichState :=
  (srcSide srcIP sampleOffset recordOffset eg rules st).bind fun st1 =>
  if eg.DstASPathLen = 0 then dstSide dstIP sampleOffset recordOffset eg rules st1
  else .ok st1

/-- What `record.Data` holds for a record of `sample` when the array is `view`. -/
def recordData (view : Bytes) (sample : Sample) (record : FlowRecord) : Bytes :=
  slice view (sample.Offset + 8 + record.Offset + 8)
    (sample.Offset + 8 + record.Offset + 8 + record.Length)

/-- Lines 543-643: the body of the loop over the records of a flow sample. -/
def processRecord (rules : List EnrichmentRule) (srcIP dstIP : Option Bytes)
    (sample : Sample) (record : FlowRecord) (st : EnrichState) : Except Fault EnrichState :=
  if record.Enterprise ≠ 0 ∨ record.Format ≠ 1003 then .ok st
  else
    match ParseExtendedGateway (recordData st.view sample record) with
    | .error (.error _) => .ok st
    | .error .panic => .error .panic
    | .ok eg => processGateway rules srcIP dstIP sample.Offset record.Offset eg st

/-- Lines 542-644: the loop over the records of a flow sample. -/
def recordLoop (rules : List EnrichmentRule) (srcIP dstIP : Option Bytes) (sample : Sample) :
    List FlowRecord → EnrichState → Except Fault EnrichState
  | [], st => .ok st
  | record :: rest, st =>
    (processRecord rules srcIP dstIP sample record st).bind fun st1 =>
      recordLoop rules srcIP dstIP sample rest st1

/-- Lines 533-539: the addresses of the first Raw Packet Header record. -/
def rawPacketIPs : List FlowRecord → Option Bytes × Option Bytes
  | [] => (none, none)
  | record :: rest =>
    if record.Enterprise = 0 ∧ record.Format = 1 then GetSrcDstIPFromRawPacket record.Data
    else rawPacketIPs rest

/-- What `sample.Data` holds when the array is `view`. -/
def sampleData (view : Bytes) (sample : Sample) : Bytes :=
  slice view (sample.Offset + 8) (sample.Offset + 8 + sample.Length)

/-- Lines 509-644: the body of the loop over the samples. -/
def processSample (rules : List EnrichmentRule) (sample : Sample) (st : EnrichState) :
    Except Fault EnrichState :=
  if sample.Enterprise ≠ 0 then .ok st
  else if sample.Format ≠ 1 ∧ sample.Format ≠ 3 then .ok st
  else
    match ParseFlowSample (sampleData st.view sample) (sample.Format == 3) with
    | .error (.error _) => .ok st
    | .error .panic => .error .panic
    | .ok flowSample =>
      recordLoop rules (rawPacketIPs flowSample.Records).1 (rawPacketIPs flowSample.Records).2
        sample flowSample.Records st

/-- Lines 508-645: the loop over the samples, given in the order they are
visited. -/
def sampleLoop (rules : List EnrichmentRule) : List Sample → EnrichState → Except Fault EnrichState
  | [], st => .ok st
  | sample :: rest, st =>
    (processSample rules sample st).bind fun st1 => sampleLoop rules rest st1

/-- The state `enrichPacket` starts from. -/
def EnrichState.init (packet : Bytes) : EnrichState :=
  { view := packet, resized := none, enriched := false, calls := [] }

/-- Go `enrichPacket` with the mutator calls it made: the samples are visited
from the last index to the first. -/
def enrichRun (rules : List EnrichmentRule) (packet : Bytes) : Except Fault EnrichState :=
  match Parse packet with
  | .error (.error _) => .ok (EnrichState.init packet)
  | .error .panic => .error .panic
  | .ok datagram => sampleLoop rules datagram.Samples.reverse (EnrichState.init packet)

/-- Go `enrichPacket`: the buffer to forward and the flag `enriched`. -/
def enrichPacket (rules : List EnrichmentRule) (packet : Bytes) : Except Fault (Bytes × Bool) :=
  (enrichRun rules packet).bind fun st => .ok (st.packet, st.enriched)

/-! ## Source address of a raw packet header (`sflow.go`, lines 332-385) -/

/-- Go `binary.BigEndian.Uint16(data[off:off+2])`: the slice expression panics
when `off + 2` is beyond the length. -/
def Uint16 (data : Bytes) (off : Nat) : Except Fault Nat :=
  if off + 2 ≤ data.length then .ok (u16At data off) else .error .panic

/-- Go `GetSrcIPFromRawPacket`; `none` is the nil address. -/
def GetSrcIPFromRawPacket (data : Bytes) : Except Fault (Option Bytes) :=
  if data.length < 20 then .ok none
  else
    (Uint32 data 0).bind fun _protocol =>
    (Uint32 data 12).bind fun headerLen =>
    if 16 + headerLen > data.length ∨ headerLen < 20 then .ok none
    else
      (Slice data 16 (16 + headerLen)).bind fun header =>
      if header.length ≥ 34 then
        (Uint16 header 12).bind fun etherType =>
        if etherType = 0x0800 then
          if header.length ≥ 34 then (Slice header 26 30).bind fun ip => .ok (some ip)
          else .ok none
        else if etherType = 0x86DD then
          if header.length ≥ 54 then (Slice header 22 38).bind fun ip => .ok (some ip)
          else .ok none
        else if etherType = 0x8100 then
          if header.length ≥ 38 then
            (Uint16 header 16).bind fun innerType =>
            if innerType = 0x0800 ∧ header.length ≥ 38 then
              (Slice header 30 34).bind fun ip => .ok (some ip)
            else .ok none
          else .ok none
        else .ok none
      else .ok none

/-! ## Configuration file (`config.go`) -/

/-- Go `ListenConfig`. -/
structure ListenConfig where
  Address : String
  Port : Int
deriving DecidableEq, Repr

/-- Go `HTTPConfig`. -/
structure HTTPConfig where
  Enabled : Bool
  Address : String
  Port : Int
deriving DecidableEq, Repr

/-- Go `DestinationConfig`. -/
structure DestinationConfig where
  Name : String
  Address : String
  Port : Int
  Enabled : Bool
  Primary : Bool
  Failover : String
deriving DecidableEq, Repr

/-- Go `EnrichmentConfig`. -/
structure EnrichmentConfig where
  Rules : List EnrichmentRule

/-- Go `LoggingConfig`. -/
structure LoggingConfig where
  Level : String
  Format : String
  StatsInterval : Int
deriving DecidableEq, Repr

/-- Go `SecurityConfig`.  `WhitelistNets` holds pointers: `none` is the nil
pointer. -/
structure SecurityConfig where
  WhitelistEnabled : Bool
  WhitelistSources : List String
  WhitelistNets : List (Option IPNet)

/-- Go `TelegramConfig`.  `DropRateThreshold` is a `float64` read from the
file; it is only compared with 0 and replaced by 5.0, and is kept as a
rational. -/
structure TelegramConfig where
  Enabled : Bool
  BotToken : String
  ChatID : String
  AlertOn : List String
  DropRateThreshold : Rat
  HTTPTimeout : Int
  FlapCooldown : Int
  IPv6Fallback : Bool
deriving DecidableEq, Repr

/-- Go `Config` (the mutex is left out: one caller at a time). -/
structure Config where
  Listen : ListenConfig
  HTTP : HTTPConfig
  Destinations : List DestinationConfig
  Enrichment : EnrichmentConfig
  Logging : LoggingConfig
  Security : SecurityConfig
  Telegram : TelegramConfig

/-- The errors of `Load`, `Reload` and `parse`. -/
inductive ConfigError where
  /-- "failed to read config file" -/
  | readFile
  /-- "failed to parse config file" -/
  | yaml
  /-- "invalid network" -/
  | invalidNetwork (network : String)
  /-- "invalid whitelist source" -/
  | invalidWhitelistSource (source : String)
deriving DecidableEq, Repr

/-- What `config.go` takes from outside the repository: `os.ReadFile`,
`yaml.Unmarshal` into a zero `Config` (the `yaml:"-"` fields `IPNet` and
`WhitelistNets` stay nil: `Unmarshal` gives the decoded fields, the nil `IPNet`
of a rule is a placeholder that `parse` overwrites before anything reads it),
`net.ParseCIDR` (the network, when the text is valid), and `net.ParseIP`
followed by `To4` (`some true` for an address with a 4-byte form, `some false`
for another valid address, `none` for invalid text). -/
structure ConfigEnv where
  ReadFile : String → Option String
  Unmarshal : String → Option Config
  ParseCIDR : String → Option IPNet
  ParseIP : String → Option Bool

/-- The first loop of `parse` (lines 102-108). -/
def parseRules (env : ConfigEnv) : List EnrichmentRule → Except ConfigError (List EnrichmentRule)
  | [] => .ok []
  | rule :: rest =>
    match env.ParseCIDR rule.Network with
    | none => .error (.invalidNetwork rule.Network)
    | some ipnet =>
      (parseRules env rest).bind fun rest' => .ok ({ rule with IPNet := ipnet } :: rest')

/-- The second loop of `parse` (lines 111-126): the networks appended to
`WhitelistNets`. -/
def parseWhitelist (env : ConfigEnv) : List String → Except ConfigError (List (Option IPNet))
  | [] => .ok []
  | src :: rest =>
    (match env.ParseCIDR src with
      | some ipnet => (.ok (some ipnet) : Except ConfigError (Option IPNet))
      | none =>
        match env.ParseIP src with
        | none => .error (.invalidWhitelistSource src)
        | some true => .ok (env.ParseCIDR (src ++ "/32"))
        | some false => .ok (env.ParseCIDR (src ++ "/128"))).bind fun ipnet =>
    (parseWhitelist env rest).bind fun rest' => .ok (ipnet :: rest')

/-- Go `(*Config).parse`: the configuration it leaves behind when it returns
nil, the error otherwise. -/
def Config.parse (env : ConfigEnv) (c : Config) : Except ConfigError Config :=
  (parseRules env c.Enrichment.Rules).bind fun rules =>
  (parseWhitelist env c.Security.WhitelistSources).bind fun nets =>
  .ok { c with
    Enrichment := { Rules := rules }
    Security := { c.Security with WhitelistNets := c.Security.WhitelistNets ++ nets }
    Logging := { c.Logging with
      Format := if c.Logging.Format = "" then "text" else c.Logging.Format
      StatsInterval := if c.Logging.StatsInterval = 0 then 60 else c.Logging.StatsInterval }
    HTTP := { c.HTTP with
      Address := if c.HTTP.Address = "" then "127.0.0.1" else c.HTTP.Address
      Port := if c.HTTP.Port = 0 then 8080 else c.HTTP.Port }
    Telegram := { c.Telegram with
      DropRateThreshold :=
        if c.Telegram.DropRateThreshold = 0 then 5 else c.Telegram.DropRateThreshold
      HTTPTimeout := if c.Telegram.HTTPTimeout = 0 then 15 else c.Telegram.HTTPTimeout
      FlapCooldown := if c.Telegram.FlapCooldown = 0 then 300 else c.Telegram.FlapCooldown } }

/-- Go `Load`. -/
def Load (env : ConfigEnv) (path : String) : Except ConfigError Config :=
  match env.ReadFile path with
  | none => .error .readFile
  | some data =>
    match env.Unmarshal data with
    | none => .error .yaml
    | some cfg => cfg.parse env

/-- Go `(*Config).Reload`: the live configuration after the call and the error
returned (`none` is nil). -/
def Config.Reload (env : ConfigEnv) (c : Config) (path : String) : Config × Option ConfigError :=
  match env.ReadFile path with
  | none => (c, some .readFile)
  | some data =>
    match env.Unmarshal data with
    | none => (c, some .yaml)
    | some newCfg =>
      match newCfg.parse env with
      | .error e => (c, some e)
      | .ok newCfg =>
        ({ c with
            Enrichment := newCfg.Enrichment
            Security := newCfg.Security
            Telegram := newCfg.Telegram
            Logging := { c.Logging with Level := newCfg.Logging.Level } }, none)

/-- The loop of `IsWhitelisted` (lines 197-201); `Contains` on a nil pointer
panics. -/
def whitelistLoop : List (Option IPNet) → Bytes → Except Fault Bool
  | [], _ => .ok false
  | none :: _, _ => .error .panic
  | some ipnet :: rest, ip => if ipnet.Contains ip then .ok true else whitelistLoop rest ip

/-- Go `(*Config).IsWhitelisted`. -/
def Config.IsWhitelisted (c : Config) (ip : Bytes) : Except Fault Bool :=
  if !c.Security.WhitelistEnabled then .ok true
  else whitelistLoop c.Security.WhitelistNets ip

/-! ## Destinations and failover (`main.go`, lines 331-488) -/

/-- Go `Destination`.  The table `destinations` holds pointers; a destination
is named by its index in the table, and `FailoverDst` is the index of the peer
(`none` is nil).  The socket `Conn` of a destination is named by the same
index; health is read through `Healthy.Load()`. -/
structure Destination where
  Config : DestinationConfig
  FailoverDst : Option Nat
deriving DecidableEq, Repr

/-- The errors of `setupDestinations`. -/
inductive SetupError where
  /-- "failed to resolve destination" -/
  | resolve (name : String)
  /-- "failed to create connection to" -/
  | dial (name : String)
  /-- "no enabled destinations configured" -/
  | noDestinations
deriving DecidableEq, Repr

/-- The first loop of `setupDestinations` (lines 334-372): the configurations
of the destinations appended to the table, in order.  `resolve` and `dial` say
whether `net.ResolveUDPAddr` and `net.DialUDP` succeed. -/
def enabledDestinations (resolve dial : DestinationConfig → Bool) :
    List DestinationConfig → Except SetupError (List DestinationConfig)
  | [] => .ok []
  | destCfg :: rest =>
    if !destCfg.Enabled then enabledDestinations resolve dial rest
    else if !resolve destCfg then .error (.resolve destCfg.Name)
    else if !dial destCfg then .error (.dial destCfg.Name)
    else (enabledDestinations resolve dial rest).bind fun tl => .ok (destCfg :: tl)

/-- The lookup `destMap[name]` after the first loop: every destination was
stored under its name in table order, so the entry is the last one with that
name. -/
def destMapLookup (table : List DestinationConfig) (name : String) : Option Nat :=
  (List.range table.length).reverse.find? fun i => (table[i]?).map (fun c => c.Name) == some name

/-- Go `setupDestinations`: the table `destinations` it leaves behind. -/
def setupDestinations (resolve dial : DestinationConfig → Bool)
    (cfgs : List DestinationConfig) : Except SetupError (List Destination) :=
  (enabledDestinations resolve dial cfgs).bind fun table =>
    if table.length = 0 then .error .noDestinations
    else
      .ok (table.map fun c =>
        { Config := c,
          FailoverDst := if c.Failover ≠ "" then destMapLookup table c.Failover else none })

/-- Lines 456-459 of `sendToDestination`: the index of `targetDest` for the
destination with index `i`, when `healthy` is what `Healthy.Load()` gives. -/
def sendTarget (table : List Destination) (healthy : Nat → Bool) (i : Nat) : Nat :=
  match (table[i]?).bind (fun d => d.FailoverDst) with
  | some j => if !healthy i && healthy j then j else i
  | none => i

/-- A call of `Conn.Write`: the socket (named by the index of its destination)
and the bytes. -/
structure SocketWrite where
  socket : Nat
  payload : Bytes
deriving DecidableEq, Repr

/-- Lines 444-447 of `processPackets`: the writes made when one datagram is
forwarded to all destinations, in order. -/
def forwardAll (table : List Destination) (healthy : Nat → Bool) (packet : Bytes) :
    List SocketWrite :=
  (List.range table.length).map fun i => ⟨sendTarget table healthy i, packet⟩

/-! ## The tag+length walk and the serialisation, as the specification words them -/

/-- The tag+length walk of the specification: the offset at which element `j`
starts when the walk starts at `start` and every element is an 8-byte header
(tag word, length word) followed by as many bytes as its length word says. -/
def walkOffset (data : Bytes) (start : Nat) : Nat → Nat
  | 0 => start
  | j + 1 => walkOffset data start j + 8 + u32At data (walkOffset data start j + 4)

/-- Element `j` of the walk lies wholly inside the buffer: its header does, and
so does its payload. -/
def fitsAt (data : Bytes) (start j : Nat) : Prop :=
  walkOffset data start j + 8 ≤ data.length ∧ walkOffset data start (j + 1) ≤ data.length

instance (data : Bytes) (start j : Nat) : Decidable (fitsAt data start j) := by
  unfold fitsAt
  exact inferInstance

/-- The length of the datagram header: 28 bytes with an IPv4 agent address
(type 1), 40 bytes with an IPv6 one. -/
def headerLength (addrType : Nat) : Nat := if addrType = 1 then 28 else 40

/-- A sample written back: the tag word `enterprise * 2^12 + format`, the length
word and the sample data. -/
def serializeSample (s : Sample) : Bytes :=
  wordBytes (s.Enterprise * 4096 + s.Format) ++ wordBytes s.Length ++ s.Data

/-- The samples written back one after the other. -/
def serializeSamples : List Sample → Bytes
  | [] => []
  | s :: rest => serializeSample s ++ serializeSamples rest

/-- The serialisation of a parsed datagram: the header fields in wire order,
then the samples in order. -/
def serialize (d : Datagram) : Bytes :=
  wordBytes d.Version ++ wordBytes d.AgentAddrType ++ d.AgentAddr ++ wordBytes d.SubAgentID ++
    wordBytes d.SequenceNum ++ wordBytes d.Uptime ++ wordBytes d.NumSamples ++
    serializeSamples d.Samples

/-! ## The datagrams of the back-to-back enrichment scenarios -/

/-- The element `tlvLoop` builds for the walk position `off` of `data`: the tag
word split into enterprise and format, the length word, and the bytes after the
8-byte header. -/
def sampleAt (data : Bytes) (off : Nat) : Sample :=
  { Enterprise := u32At data off >>> 12, Format := u32At data off &&& 0xFFF,
    Length := u32At data (off + 4),
    Data := slice data (off + 8) (off + 8 + u32At data (off + 4)), Offset := off }

/-- A flow sample (compact or expanded) that parses to exactly two records, a
Raw Packet Header record followed by an Extended Gateway record; the gateway
record parses with an empty destination AS path and holds its path-length word
(the word after the next hop and the three AS words); and the first rule of
`rules` whose network holds the destination address of the raw packet header
sets the AS `v`. -/
def emptyPathSample (rules : List EnrichmentRule) (v : Nat) (s : Sample) : Bool :=
  s.Enterprise == 0 && (s.Format == 1 || s.Format == 3) &&
  match ParseFlowSample s.Data (s.Format == 3) with
  | .ok fs =>
    (match fs.Records with
    | [raw, eg] =>
      raw.Enterprise == 0 && raw.Format == 1 && eg.Enterprise == 0 && eg.Format == 1003 &&
      ((rules.find? fun r => ipIn (GetSrcDstIPFromRawPacket raw.Data).2 r.IPNet).map
        EnrichmentRule.SetAS == some v) &&
      (match ParseExtendedGateway eg.Data with
      | .ok g =>
        g.DstASPathLen == 0 && decide ((if g.NextHopType = 1 then 8 else 20) + 16 ≤ eg.Length)
      | .error _ => false)
    | _ => false)
  | .error _ => false

/-- A flow sample that parses to exactly two records, a Raw Packet Header
record followed by an Extended Gateway record whose destination AS path is one
segment holding the single AS `v`. -/
def dstPathIs (v : Nat) (s : Sample) : Bool :=
  match ParseFlowSample s.Data (s.Format == 3) with
  | .ok fs =>
    (match fs.Records with
    | [raw, eg] =>
      raw.Enterprise == 0 && raw.Format == 1 && eg.Enterprise == 0 && eg.Format == 1003 &&
      (match ParseExtendedGateway eg.Data with
      | .ok g => g.DstASPathLen == 1 && g.DstASPath == [v]
      | .error _ => false)
    | _ => false)
  | .error _ => false

/-- The sample-offset table of a buffer: the offsets of the samples a fresh
`Parse` of it returns (empty when `Parse` returns no datagram). -/
def offsetTable (data : Bytes) : List Nat :=
  match Parse data with
  | .ok d => d.Samples.map Sample.Offset
  | .error _ => []

/-! ## Example data -/

/-- The rule of the end-to-end scenarios: network 10.0.0.0/24, match AS 64500,
set AS 65001, no overwrite. -/
def ownRule : EnrichmentRule :=
  ⟨"own", "10.0.0.0/24", 64500, 65001, false, cidr4 10 0 0 0 24⟩

/-- A rule for 192.168.0.0/16 that overwrites with AS 65002. -/
def otherRule : EnrichmentRule :=
  ⟨"other", "192.168.0.0/16", 0, 65002, true, cidr4 192 168 0 0 16⟩

/-- A datagram with one flow sample (header at offset 28) holding a Raw Packet
Header record (untagged IPv4 frame, source 10.0.0.5, destination 8.8.8.8) and,
at offset 92 of the sample payload, an Extended Gateway record with IPv4 next
hop, router AS 0, source AS 64500, source peer AS 0, an empty destination AS
path, no communities and local preference 100. -/
def outboundDatagram : Bytes :=
  [0, 0, 0, 5, 0, 0, 0, 1, 10, 1, 1, 1, 0, 0, 0, 0, 0, 0, 0, 1, 0, 0, 3, 232, 0, 0, 0, 1, 0, 0,
   0, 1, 0, 0, 0, 132, 0, 0, 0, 7, 0, 0, 0, 5, 0, 0, 3, 232, 0, 0, 7, 208, 0, 0, 0, 0, 0, 0, 0,
   1, 0, 0, 0, 2, 0, 0, 0, 2, 0, 0, 0, 1, 0, 0, 0, 52, 0, 0, 0, 1, 0, 0, 0, 64, 0, 0, 0, 0, 0, 0,
   0, 34, 0, 0, 0, 0, 0, 0, 0, 0, 0, 0, 0, 0, 8, 0, 69, 0, 0, 20, 0, 0, 0, 0, 64, 6, 0, 0, 10, 0,
   0, 5, 8, 8, 8, 8, 0, 0, 0, 0, 3, 235, 0, 0, 0, 32, 0, 0, 0, 1, 192, 0, 2, 1, 0, 0, 0, 0, 0, 0,
   251, 244, 0, 0, 0, 0, 0, 0, 0, 0, 0, 0, 0, 0, 0, 0, 0, 100]

/-- As `outboundDatagram` with source 8.8.8.8, destination 10.0.0.7 and router
AS 42. -/
def inboundDatagram : Bytes :=
  [0, 0, 0, 5, 0, 0, 0, 1, 10, 1, 1, 1, 0, 0, 0, 0, 0, 0, 0, 1, 0, 0, 3, 232, 0, 0, 0, 1, 0, 0,
   0, 1, 0, 0, 0, 132, 0, 0, 0, 7, 0, 0, 0, 5, 0, 0, 3, 232, 0, 0, 7, 208, 0, 0, 0, 0, 0, 0, 0,
   1, 0, 0, 0, 2, 0, 0, 0, 2, 0, 0, 0, 1, 0, 0, 0, 52, 0, 0, 0, 1, 0, 0, 0, 64, 0, 0, 0, 0, 0, 0,
   0, 34, 0, 0, 0, 0, 0, 0, 0, 0, 0, 0, 0, 0, 8, 0, 69, 0, 0, 20, 0, 0, 0, 0, 64, 6, 0, 0, 8, 8,
   8, 8, 10, 0, 0, 7, 0, 0, 0, 0, 3, 235, 0, 0, 0, 32, 0, 0, 0, 1, 192, 0, 2, 1, 0, 0, 0, 42, 0,
   0, 251, 244, 0, 0, 0, 0, 0, 0, 0, 0, 0, 0, 0, 0, 0, 0, 0, 100]

/-- As `inboundDatagram` with the destination AS path holding one AS_SEQUENCE
segment with the single AS 3356. -/
def transitDatagram : Bytes :=
  [0, 0, 0, 5, 0, 0, 0, 1, 10, 1, 1, 1, 0, 0, 0, 0, 0, 0, 0, 1, 0, 0, 3, 232, 0, 0, 0, 1, 0, 0,
   0, 1, 0, 0, 0, 144, 0, 0, 0, 7, 0, 0, 0, 5, 0, 0, 3, 232, 0, 0, 7, 208, 0, 0, 0, 0, 0, 0, 0,
   1, 0, 0, 0, 2, 0, 0, 0, 2, 0, 0, 0, 1, 0, 0, 0, 52, 0, 0, 0, 1, 0, 0, 0, 64, 0, 0, 0, 0, 0, 0,
   0, 34, 0, 0, 0, 0, 0, 0, 0, 0, 0, 0, 0, 0, 8, 0, 69, 0, 0, 20, 0, 0, 0, 0, 64, 6, 0, 0, 8, 8,
   8, 8, 10, 0, 0, 7, 0, 0, 0, 0, 3, 235, 0, 0, 0, 44, 0, 0, 0, 1, 192, 0, 2, 1, 0, 0, 0, 42, 0,
   0, 251, 244, 0, 0, 0, 0, 0, 0, 0, 1, 0, 0, 0, 2, 0, 0, 0, 1, 0, 0, 13, 28, 0, 0, 0, 0, 0, 0,
   0, 100]

/-- A datagram with one Expanded Flow Sample (header at offset 28) holding a Raw
Packet Header record (source 10.0.0.5, destination 8.8.8.8) and, at offset 104
of the sample payload, an Extended Gateway record with the IPv6 next hop
2001:db8::1, router AS 0, source AS 64500, source peer AS 0, an empty
destination AS path, no communities and local preference 100. -/
def ipv6HopDatagram : Bytes :=
  [0, 0, 0, 5, 0, 0, 0, 1, 10, 1, 1, 1, 0, 0, 0, 0, 0, 0, 0, 1, 0, 0, 3, 232, 0, 0, 0, 1, 0, 0,
   0, 3, 0, 0, 0, 156, 0, 0, 0, 7, 0, 0, 0, 0, 0, 0, 0, 5, 0, 0, 3, 232, 0, 0, 7, 208, 0, 0, 0,
   0, 0, 0, 0, 0, 0, 0, 0, 1, 0, 0, 0, 0, 0, 0, 0, 2, 0, 0, 0, 2, 0, 0, 0, 1, 0, 0, 0, 52, 0, 0,
   0, 1, 0, 0, 0, 64, 0, 0, 0, 0, 0, 0, 0, 34, 0, 0, 0, 0, 0, 0, 0, 0, 0, 0, 0, 0, 8, 0, 69, 0,
   0, 20, 0, 0, 0, 0, 64, 6, 0, 0, 10, 0, 0, 5, 8, 8, 8, 8, 0, 0, 0, 0, 3, 235, 0, 0, 0, 44, 0,
   0, 0, 2, 32, 1, 13, 184, 0, 0, 0, 0, 0, 0, 0, 0, 0, 0, 0, 1, 0, 0, 0, 0, 0, 0, 251, 244, 0, 0,
   0, 0, 0, 0, 0, 0, 0, 0, 0, 0, 0, 0, 0, 100]

/-- A datagram with two flow samples back to back (headers at offsets 28 and
168), each holding a Raw Packet Header record and, at offset 92 of the sample
payload, an Extended Gateway record with IPv4 next hop, source AS 64500, source
peer AS 0, an empty destination AS path, no communities and local preference
100.  The first sample has source 8.8.8.8, destination 10.0.0.7 and router AS
42; the second has source 8.8.4.4, destination 10.0.0.9 and router AS 0. -/
def twoSampleDatagram : Bytes :=
  [0, 0, 0, 5, 0, 0, 0, 1, 10, 1, 1, 1, 0, 0, 0, 0, 0, 0, 0, 1, 0, 0, 3, 232, 0, 0, 0, 2, 0, 0,
   0, 1, 0, 0, 0, 132, 0, 0, 0, 7, 0, 0, 0, 5, 0, 0, 3, 232, 0, 0, 7, 208, 0, 0, 0, 0, 0, 0, 0,
   1, 0, 0, 0, 2, 0, 0, 0, 2, 0, 0, 0, 1, 0, 0, 0, 52, 0, 0, 0, 1, 0, 0, 0, 64, 0, 0, 0, 0, 0, 0,
   0, 34, 0, 0, 0, 0, 0, 0, 0, 0, 0, 0, 0, 0, 8, 0, 69, 0, 0, 20, 0, 0, 0, 0, 64, 6, 0, 0, 8, 8,
   8, 8, 10, 0, 0, 7, 0, 0, 0, 0, 3, 235, 0, 0, 0, 32, 0, 0, 0, 1, 192, 0, 2, 1, 0, 0, 0, 42, 0,
   0, 251, 244, 0, 0, 0, 0, 0, 0, 0, 0, 0, 0, 0, 0, 0, 0, 0, 100, 0, 0, 0, 1, 0, 0, 0, 132, 0, 0,
   0, 7, 0, 0, 0, 5, 0, 0, 3, 232, 0, 0, 7, 208, 0, 0, 0, 0, 0, 0, 0, 1, 0, 0, 0, 2, 0, 0, 0, 2,
   0, 0, 0, 1, 0, 0, 0, 52, 0, 0, 0, 1, 0, 0, 0, 64, 0, 0, 0, 0, 0, 0, 0, 34, 0, 0, 0, 0, 0, 0,
   0, 0, 0, 0, 0, 0, 8, 0, 69, 0, 0, 20, 0, 0, 0, 0, 64, 6, 0, 0, 8, 8, 4, 4, 10, 0, 0, 9, 0, 0,
   0, 0, 3, 235, 0, 0, 0, 32, 0, 0, 0, 1, 192, 0, 2, 1, 0, 0, 0, 0, 0, 0, 251, 244, 0, 0, 0, 0,
   0, 0, 0, 0, 0, 0, 0, 0, 0, 0, 0, 100]

/-- What `enrichPacket` returns on `twoSampleDatagram` with the rule `ownRule`
(see `enrichPacket_twoSampleDatagram`): both gateway records carry the
destination AS path 65001, the second one also the router AS 65001; the sample
headers are at offsets 28 and 180. -/
def twoSampleEnriched : Bytes :=
  [0, 0, 0, 5, 0, 0, 0, 1, 10, 1, 1, 1, 0, 0, 0, 0, 0, 0, 0, 1, 0, 0, 3, 232, 0, 0, 0, 2, 0, 0,
   0, 1, 0, 0, 0, 144, 0, 0, 0, 7, 0, 0, 0, 5, 0, 0, 3, 232, 0, 0, 7, 208, 0, 0, 0, 0, 0, 0, 0,
   1, 0, 0, 0, 2, 0, 0, 0, 2, 0, 0, 0, 1, 0, 0, 0, 52, 0, 0, 0, 1, 0, 0, 0, 64, 0, 0, 0, 0, 0, 0,
   0, 34, 0, 0, 0, 0, 0, 0, 0, 0, 0, 0, 0, 0, 8, 0, 69, 0, 0, 20, 0, 0, 0, 0, 64, 6, 0, 0, 8, 8,
   8, 8, 10, 0, 0, 7, 0, 0, 0, 0, 3, 235, 0, 0, 0, 44, 0, 0, 0, 1, 192, 0, 2, 1, 0, 0, 0, 42, 0,
   0, 251, 244, 0, 0, 0, 0, 0, 0, 0, 1, 0, 0, 0, 2, 0, 0, 0, 1, 0, 0, 253, 233, 0, 0, 0, 0, 0, 0,
   0, 100, 0, 0, 0, 1, 0, 0, 0, 144, 0, 0, 0, 7, 0, 0, 0, 5, 0, 0, 3, 232, 0, 0, 7, 208, 0, 0, 0,
   0, 0, 0, 0, 1, 0, 0, 0, 2, 0, 0, 0, 2, 0, 0, 0, 1, 0, 0, 0, 52, 0, 0, 0, 1, 0, 0, 0, 64, 0, 0,
   0, 0, 0, 0, 0, 34, 0, 0, 0, 0, 0, 0, 0, 0, 0, 0, 0, 0, 8, 0, 69, 0, 0, 20, 0, 0, 0, 0, 64, 6,
   0, 0, 8, 8, 4, 4, 10, 0, 0, 9, 0, 0, 0, 0, 3, 235, 0, 0, 0, 44, 0, 0, 0, 1, 192, 0, 2, 1, 0,
   0, 253, 233, 0, 0, 251, 244, 0, 0, 0, 0, 0, 0, 0, 1, 0, 0, 0, 2, 0, 0, 0, 1, 0, 0, 253, 233,
   0, 0, 0, 0, 0, 0, 0, 100]

/-- A Raw Packet Header payload whose captured portion is the first 30 bytes of
an untagged Ethernet frame carrying IPv4: the 14-byte Ethernet header and the
first 16 bytes of the IPv4 header, source address 10.0.0.5 included. -/
def shortIPv4RawHeader : Bytes :=
  [0, 0, 0, 1, 0, 0, 0, 64, 0, 0, 0, 0, 0, 0, 0, 30, 0, 0, 0, 0, 0, 0, 0, 0, 0, 0, 0, 0, 8, 0,
   69, 0, 0, 20, 0, 0, 0, 0, 64, 6, 0, 0, 10, 0, 0, 5]

/-- A Raw Packet Header payload holding an untagged Ethernet frame with a whole
IPv6 header, source 2001:db8::5, destination 2001:db8::9 (54 bytes captured). -/
def ipv6RawHeader : Bytes :=
  [0, 0, 0, 1, 0, 0, 0, 78, 0, 0, 0, 0, 0, 0, 0, 54, 0, 0, 0, 0, 0, 0, 0, 0, 0, 0, 0, 0, 134,
   221, 96, 0, 0, 0, 0, 0, 6, 64, 32, 1, 13, 184, 0, 0, 0, 0, 0, 0, 0, 0, 0, 0, 0, 5, 32, 1, 13,
   184, 0, 0, 0, 0, 0, 0, 0, 0, 0, 0, 0, 9]

/-- A Raw Packet Header payload holding a VLAN-tagged Ethernet frame (outer
EtherType 0x8100) with a whole IPv4 header, source 10.0.0.5 (38 bytes
captured). -/
def vlanIPv4RawHeader : Bytes :=
  [0, 0, 0, 1, 0, 0, 0, 68, 0, 0, 0, 0, 0, 0, 0, 38, 0, 0, 0, 0, 0, 0, 0, 0, 0, 0, 0, 0, 129, 0,
   0, 100, 8, 0, 69, 0, 0, 20, 0, 0, 0, 0, 64, 6, 0, 0, 10, 0, 0, 5, 8, 8, 8, 8]

/-- A Raw Packet Header payload holding a VLAN-tagged Ethernet frame (outer
EtherType 0x8100) with a whole IPv6 header, source 2001:db8::5 (58 bytes
captured). -/
def vlanIPv6RawHeader : Bytes :=
  [0, 0, 0, 1, 0, 0, 0, 82, 0, 0, 0, 0, 0, 0, 0, 58, 0, 0, 0, 0, 0, 0, 0, 0, 0, 0, 0, 0, 129, 0,
   0, 100, 134, 221, 96, 0, 0, 0, 0, 0, 6, 64, 32, 1, 13, 184, 0, 0, 0, 0, 0, 0, 0, 0, 0, 0, 0,
   5, 32, 1, 13, 184, 0, 0, 0, 0, 0, 0, 0, 0, 0, 0, 0, 9]

/-- A datagram with one flow sample (header at offset 28) holding a Raw Packet
Header record (source 10.0.0.5, destination 10.0.0.7) and two Extended Gateway
records, at offsets 92 and 132 of the sample payload, each with IPv4 next hop,
router AS 42, source AS 64500, source peer AS 7, an empty destination AS path,
no communities and local preference 100. -/
def twoGatewayDatagram : Bytes :=
  [0, 0, 0, 5, 0, 0, 0, 1, 10, 1, 1, 1, 0, 0, 0, 0, 0, 0, 0, 1, 0, 0, 3, 232, 0, 0, 0, 1, 0, 0,
   0, 1, 0, 0, 0, 172, 0, 0, 0, 7, 0, 0, 0, 5, 0, 0, 3, 232, 0, 0, 7, 208, 0, 0, 0, 0, 0, 0, 0,
   1, 0, 0, 0, 2, 0, 0, 0, 3, 0, 0, 0, 1, 0, 0, 0, 52, 0, 0, 0, 1, 0, 0, 0, 64, 0, 0, 0, 0, 0, 0,
   0, 34, 0, 0, 0, 0, 0, 0, 0, 0, 0, 0, 0, 0, 8, 0, 69, 0, 0, 20, 0, 0, 0, 0, 64, 6, 0, 0, 10, 0,
   0, 5, 10, 0, 0, 7, 0, 0, 0, 0, 3, 235, 0, 0, 0, 32, 0, 0, 0, 1, 192, 0, 2, 1, 0, 0, 0, 42, 0,
   0, 251, 244, 0, 0, 0, 7, 0, 0, 0, 0, 0, 0, 0, 0, 0, 0, 0, 100, 0, 0, 3, 235, 0, 0, 0, 32, 0,
   0, 0, 1, 192, 0, 2, 1, 0, 0, 0, 42, 0, 0, 251, 244, 0, 0, 0, 7, 0, 0, 0, 0, 0, 0, 0, 0, 0, 0,
   0, 100]

/-- As `outboundDatagram` with router AS 42, source AS 65001, source peer AS
3356 and the destination AS path 3356. -/
def settledDatagram : Bytes :=
  [0, 0, 0, 5, 0, 0, 0, 1, 10, 1, 1, 1, 0, 0, 0, 0, 0, 0, 0, 1, 0, 0, 3, 232, 0, 0, 0, 1, 0, 0,
   0, 1, 0, 0, 0, 144, 0, 0, 0, 7, 0, 0, 0, 5, 0, 0, 3, 232, 0, 0, 7, 208, 0, 0, 0, 0, 0, 0, 0,
   1, 0, 0, 0, 2, 0, 0, 0, 2, 0, 0, 0, 1, 0, 0, 0, 52, 0, 0, 0, 1, 0, 0, 0, 64, 0, 0, 0, 0, 0, 0,
   0, 34, 0, 0, 0, 0, 0, 0, 0, 0, 0, 0, 0, 0, 8, 0, 69, 0, 0, 20, 0, 0, 0, 0, 64, 6, 0, 0, 10, 0,
   0, 5, 8, 8, 8, 8, 0, 0, 0, 0, 3, 235, 0, 0, 0, 44, 0, 0, 0, 1, 192, 0, 2, 1, 0, 0, 0, 42, 0,
   0, 253, 233, 0, 0, 13, 28, 0, 0, 0, 1, 0, 0, 0, 2, 0, 0, 0, 1, 0, 0, 13, 28, 0, 0, 0, 0, 0, 0,
   0, 100]

/-- A rule for 10.0.0.0/24 that overwrites the source AS with 65001 whatever
it was. -/
def forceRule : EnrichmentRule :=
  ⟨"force", "10.0.0.0/24", 0, 65001, true, cidr4 10 0 0 0 24⟩

/-- A primary destination whose failover peer is `backupDest`. -/
def primaryDest : DestinationConfig :=
  ⟨"primary", "192.0.2.10", 6343, true, true, "backup"⟩

/-- The failover peer of `primaryDest`, an enabled destination of its own. -/
def backupDest : DestinationConfig :=
  ⟨"backup", "192.0.2.20", 6343, true, false, ""⟩

/-- A live configuration: whitelist enabled with the network 10.1.1.0/24, the
rule `ownRule`, two destinations. -/
def liveConfig : Config :=
  { Listen := ⟨"0.0.0.0", 6343⟩, HTTP := ⟨true, "127.0.0.1", 8080⟩,
    Destinations := [primaryDest, backupDest], Enrichment := ⟨[ownRule]⟩,
    Logging := ⟨"info", "text", 60⟩,
    Security := ⟨true, ["10.1.1.0/24"], [some (cidr4 10 1 1 0 24)]⟩,
    Telegram := ⟨false, "", "", [], 5, 15, 300, false⟩ }

/-- What decoding a new configuration file gives: another listen port, no
destinations, the rule `otherRule` (its network not parsed yet), log level
`debug`, the whitelist disabled. -/
def fileConfig : Config :=
  { Listen := ⟨"0.0.0.0", 9999⟩, HTTP := ⟨false, "", 0⟩, Destinations := [],
    Enrichment := ⟨[{ otherRule with IPNet := ⟨fun _ => false⟩ }]⟩,
    Logging := ⟨"debug", "json", 0⟩, Security := ⟨false, [], []⟩,
    Telegram := ⟨true, "token", "chat", ["startup"], 0, 0, 0, false⟩ }

/-- As `fileConfig` with a rule whose network is not a CIDR. -/
def badRuleConfig : Config :=
  { fileConfig with
    Enrichment := ⟨[{ otherRule with Network := "not-a-network", IPNet := ⟨fun _ => false⟩ }]⟩ }

/-- An environment with three files: `good.yaml` decodes to `fileConfig`,
`bad-rule.yaml` to `badRuleConfig`, `garbage.yaml` is not YAML; any other path
cannot be read.  Two network texts are valid CIDRs. -/
def fileEnv : ConfigEnv :=
  { ReadFile := fun path =>
      if path = "good.yaml" then some "good"
      else if path = "bad-rule.yaml" then some "bad-rule"
      else if path = "garbage.yaml" then some "garbage"
      else none
    Unmarshal := fun data =>
      if data = "good" then some fileConfig
      else if data = "bad-rule" then some badRuleConfig
      else none
    ParseCIDR := fun s =>
      if s = "192.168.0.0/16" then some (cidr4 192 168 0 0 16)
      else if s = "10.1.1.0/24" then some (cidr4 10 1 1 0 24)
      else none
    ParseIP := fun _ => none }

/-- A 32-byte buffer: a sample header with length 12 at offset 0, then a record
header with tag 1003 and length 12, next-hop type 1, next hop 192.0.2.1, router
AS 42, and one more word.  The record payload is the 12 bytes 16..27; the
sample payload is the 12 bytes 8..19. -/
def shortRecordPacket : Bytes :=
  [0, 0, 0, 1, 0, 0, 0, 12, 0, 0, 3, 235, 0, 0, 0, 12, 0, 0, 0, 1, 192, 0, 2, 1, 0, 0, 0, 42,
   0, 0, 0, 1]

/-- A datagram with one flow sample (header at offset 28) holding a Raw Packet
Header record (source 10.0.0.5, destination 10.0.0.7) and four Extended Gateway
records with IPv4 next hop, router AS 42 and source peer AS 7, at offsets 92,
132, 172 and 216 of the sample payload: two with source AS 64501 and an empty
destination AS path (local preference 2 and 100), one with source AS 64501
that ends with its destination AS path 3356, and one with source AS 64500 and
the destination AS path 174. -/
def fourGatewayDatagram : Bytes :=
  [0, 0, 0, 5, 0, 0, 0, 1, 10, 1, 1, 1, 0, 0, 0, 0, 0, 0, 0, 1, 0, 0, 3, 232, 0, 0, 0, 1, 0, 0,
   0, 1, 0, 0, 1, 12, 0, 0, 0, 7, 0, 0, 0, 5, 0, 0, 3, 232, 0, 0, 7, 208, 0, 0, 0, 0, 0, 0, 0, 1,
   0, 0, 0, 2, 0, 0, 0, 5, 0, 0, 0, 1, 0, 0, 0, 52, 0, 0, 0, 1, 0, 0, 0, 64, 0, 0, 0, 0, 0, 0, 0,
   34, 0, 0, 0, 0, 0, 0, 0, 0, 0, 0, 0, 0, 8, 0, 69, 0, 0, 20, 0, 0, 0, 0, 64, 6, 0, 0, 10, 0, 0,
   5, 10, 0, 0, 7, 0, 0, 0, 0, 3, 235, 0, 0, 0, 32, 0, 0, 0, 1, 192, 0, 2, 1, 0, 0, 0, 42, 0, 0,
   251, 245, 0, 0, 0, 7, 0, 0, 0, 0, 0, 0, 0, 0, 0, 0, 0, 2, 0, 0, 3, 235, 0, 0, 0, 32, 0, 0, 0,
   1, 192, 0, 2, 1, 0, 0, 0, 42, 0, 0, 251, 245, 0, 0, 0, 7, 0, 0, 0, 0, 0, 0, 0, 0, 0, 0, 0,
   100, 0, 0, 3, 235, 0, 0, 0, 36, 0, 0, 0, 1, 192, 0, 2, 1, 0, 0, 0, 42, 0, 0, 251, 245, 0, 0,
   0, 7, 0, 0, 0, 1, 0, 0, 0, 2, 0, 0, 0, 1, 0, 0, 13, 28, 0, 0, 3, 235, 0, 0, 0, 44, 0, 0, 0, 1,
   192, 0, 2, 1, 0, 0, 0, 42, 0, 0, 251, 244, 0, 0, 0, 7, 0, 0, 0, 1, 0, 0, 0, 2, 0, 0, 0, 1, 0,
   0, 0, 174, 0, 0, 0, 0, 0, 0, 0, 100]

/-- A rule for 8.8.8.0/24 with `set_as` 65002, `match_as` 0 and no overwrite. -/
def dnsRule : EnrichmentRule :=
  ⟨"dns", "8.8.8.0/24", 0, 65002, false, cidr4 8 8 8 0 24⟩

/-- The gateway record of `ipv6HopDatagram`. -/
def ipv6HopGateway : ExtendedGateway :=
  { NextHopType := 2, NextHop := [32, 1, 13, 184, 0, 0, 0, 0, 0, 0, 0, 0, 0, 0, 0, 1], AS := 0,
    SrcAS := 64500, SrcPeerAS := 0, DstASPathLen := 0, DstASPath := [], CommunitiesLen := 0,
    Communities := [], LocalPref := 100 }

/-- The gateway record of `outboundDatagram`. -/
def outboundGateway : ExtendedGateway :=
  { NextHopType := 1, NextHop := [192, 0, 2, 1], AS := 0, SrcAS := 64500, SrcPeerAS := 0,
    DstASPathLen := 0, DstASPath := [], CommunitiesLen := 0, Communities := [], LocalPref := 100 }

/-- The gateway record of `inboundDatagram`. -/
def inboundGateway : ExtendedGateway :=
  { NextHopType := 1, NextHop := [192, 0, 2, 1], AS := 42, SrcAS := 64500, SrcPeerAS := 0,
    DstASPathLen := 0, DstASPath := [], CommunitiesLen := 0, Communities := [], LocalPref := 100 }

/-- The gateway record of `transitDatagram`. -/
def transitGateway : ExtendedGateway :=
  { NextHopType := 1, NextHop := [192, 0, 2, 1], AS := 42, SrcAS := 64500, SrcPeerAS := 0,
    DstASPathLen := 1, DstASPath := [3356], CommunitiesLen := 0, Communities := [],
    LocalPref := 100 }

/-! ## Basic facts about reads, slices and writes -/

theorem Uint32_ok {data : Bytes} {off : Nat} (h : off + 4 ≤ data.length) :
    Uint32 data off = .ok (u32At data off) := by
  simp [Uint32, h]

theorem Uint32_panic {data : Bytes} {off : Nat} (h : data.length < off + 4) :
    Uint32 data off = .error .panic := by
  have : ¬ off + 4 ≤ data.length := by omega
  simp [Uint32, this]

theorem Slice_ok {data : Bytes} {lo hi : Nat} (h1 : lo ≤ hi) (h2 : hi ≤ data.length) :
    Slice data lo hi = .ok (slice data lo hi) := by
  simp [Slice, h1, h2]

theorem slice_length {data : Bytes} {lo hi : Nat} (h2 : hi ≤ data.length) :
    (slice data lo hi).length = hi - lo := by
  simp [slice]; omega

theorem byteAt_slice {data : Bytes} {lo hi i : Nat} (h : lo + i < hi) :
    byteAt (slice data lo hi) i = byteAt data (lo + i) := by
  have hi' : i < hi - lo := by omega
  simp [byteAt, slice, List.getD_eq_getElem?_getD, List.getElem?_take, hi', List.getElem?_drop]

theorem u32At_slice {data : Bytes} {lo hi off : Nat} (h : lo + off + 4 ≤ hi) :
    u32At (slice data lo hi) off = u32At data (lo + off) := by
  simp only [u32At]
  rw [byteAt_slice (by omega), byteAt_slice (by omega), byteAt_slice (by omega),
    byteAt_slice (by omega)]
  simp [Nat.add_assoc]

theorem tlvLoop_eq (data : Bytes) (n offset : Nat) :
    tlvLoop data n offset = .ok (tlv data n offset) := by
  induction n generalizing offset with
  | zero => simp [tlvLoop, tlv]
  | succ n ih =>
    unfold tlvLoop tlv
    by_cases h1 : offset + 8 ≤ data.length
    · have h0 : offset < data.length := by omega
      have h1' : ¬ data.length < offset + 8 := by omega
      have ha : offset + 4 ≤ data.length := by omega
      have hb : offset + 4 + 4 ≤ data.length := by omega
      by_cases h2 : offset + 8 + u32At data (offset + 4) ≤ data.length
      · have h2' : ¬ data.length < offset + 8 + u32At data (offset + 4) := by omega
        simp [h0, h1, h2, h1', h2', Uint32_ok, Slice_ok, Except.bind, ih, ha, hb]
      · have h2' : data.length < offset + 8 + u32At data (offset + 4) := by omega
        simp [h0, h1, h2, h1', h2', Uint32_ok, Except.bind, ha, hb]
    · have h1' : data.length < offset + 8 := by omega
      by_cases h0 : offset < data.length
      · simp [h0, h1, h1']
      · simp [h0, h1]

theorem length_writeU32 (p : Bytes) (off v : Nat) : (writeU32 p off v).length = p.length := by
  simp [writeU32]

theorem byteAt_writeU32_of_ne {p : Bytes} {off v i : Nat} (h : i < off ∨ off + 4 ≤ i) :
    byteAt (writeU32 p off v) i = byteAt p i := by
  have h0 : off ≠ i := by omega
  have h1 : off + 1 ≠ i := by omega
  have h2 : off + 2 ≠ i := by omega
  have h3 : off + 3 ≠ i := by omega
  simp [byteAt, writeU32, List.getD_eq_getElem?_getD, List.getElem?_set_ne, h0, h1, h2, h3]

theorem byteOf_val (v s : Nat) : (byteOf v s).val = v / 2 ^ s % 256 := by
  simp [byteOf, Fin.ofNat, Nat.shiftRight_eq_div_pow]

theorem be32_byteOf {v : Nat} (h : v < 4294967296) :
    be32 (byteOf v 24) (byteOf v 16) (byteOf v 8) (byteOf v 0) = v := by
  simp only [be32, byteOf_val]
  norm_num
  omega

theorem be32_lt (b0 b1 b2 b3 : Byte) : be32 b0 b1 b2 b3 < 4294967296 := by
  have h0 := b0.isLt
  have h1 := b1.isLt
  have h2 := b2.isLt
  have h3 := b3.isLt
  simp only [be32]
  omega

theorem u32At_lt (data : Bytes) (off : Nat) : u32At data off < 4294967296 := be32_lt _ _ _ _

theorem byteAt_set (p : Bytes) (i j : Nat) (b : Byte) :
    byteAt (p.set i b) j = if i = j ∧ j < p.length then b else byteAt p j := by
  by_cases h : i = j
  · subst h
    by_cases hl : i < p.length
    · simp [byteAt, List.getD_eq_getElem?_getD, List.getElem?_set_self, hl]
    · have hl' : p.length ≤ i := Nat.le_of_not_lt hl
      simp [byteAt, List.getD_eq_getElem?_getD, hl, List.set_eq_of_length_le hl',
        List.getElem?_eq_none hl']
  · simp [byteAt, List.getD_eq_getElem?_getD, List.getElem?_set_ne, h]

theorem u32At_writeU32 {p : Bytes} {off v : Nat} (h : off + 4 ≤ p.length) :
    u32At (writeU32 p off v) off = v % 4294967296 := by
  have h0 : off < p.length := by omega
  have h1 : off + 1 < p.length := by omega
  have h2 : off + 2 < p.length := by omega
  have h3 : off + 3 < p.length := by omega
  simp only [u32At, writeU32, byteAt_set, List.length_set, be32]
  simp [h0, h1, h2, h3, byteOf_val]
  omega

theorem u32At_congr {a b : Bytes} {off : Nat}
    (h : ∀ i, off ≤ i → i < off + 4 → byteAt a i = byteAt b i) : u32At a off = u32At b off := by
  unfold u32At
  rw [h off (by omega) (by omega), h (off + 1) (by omega) (by omega),
    h (off + 2) (by omega) (by omega), h (off + 3) (by omega) (by omega)]

theorem u32At_writeU32_of_disjoint {p : Bytes} {w v off : Nat} (h : off + 4 ≤ w ∨ w + 4 ≤ off) :
    u32At (writeU32 p w v) off = u32At p off :=
  u32At_congr fun _ _ _ => byteAt_writeU32_of_ne (by omega)

theorem writeU32_of_short {p : Bytes} {off v : Nat} (h : p.length ≤ off) :
    writeU32 p off v = p := by
  simp [writeU32, List.set_eq_of_length_le, h, Nat.le_succ_of_le, show p.length ≤ off + 1 by omega,
    show p.length ≤ off + 2 by omega, show p.length ≤ off + 3 by omega]

/-! ### `Parse` case by case -/

theorem Parse_short {data : Bytes} (h : data.length < 28) :
    Parse data = .error (.error .packetTooShort) := by
  simp [Parse, h]

theorem Parse_version {data : Bytes} (h : 28 ≤ data.length) (hv : u32At data 0 ≠ 5) :
    Parse data = .error (.error .unsupportedVersion) := by
  have h' : ¬ data.length < 28 := by omega
  simp [Parse, h', Uint32_ok (show 0 + 4 ≤ data.length by omega), Except.bind, hv]

theorem Parse_addrType {data : Bytes} (h : 28 ≤ data.length) (hv : u32At data 0 = 5)
    (h1 : u32At data 4 ≠ 1) (h2 : u32At data 4 ≠ 2) :
    Parse data = .error (.error .unsupportedAgentAddrType) := by
  have h' : ¬ data.length < 28 := by omega
  simp [Parse, h', Uint32_ok (show 0 + 4 ≤ data.length by omega),
    Uint32_ok (show 4 + 4 ≤ data.length by omega), Except.bind, hv, h1, h2]

theorem Parse_ipv4 {data : Bytes} (h : 28 ≤ data.length) (hv : u32At data 0 = 5)
    (h1 : u32At data 4 = 1) :
    Parse data = .ok { Version := 5, AgentAddrType := 1, AgentAddr := slice data 8 12,
                       SubAgentID := u32At data 12, SequenceNum := u32At data 16,
                       Uptime := u32At data 20, NumSamples := u32At data 24,
                       Samples := tlv data (u32At data 24) 28, Raw := data } := by
  have h' : ¬ data.length < 28 := by omega
  simp [Parse, h', Uint32_ok (show 0 + 4 ≤ data.length by omega),
    Uint32_ok (show 4 + 4 ≤ data.length by omega), Uint32_ok (show 12 + 4 ≤ data.length by omega),
    Uint32_ok (show 16 + 4 ≤ data.length by omega), Uint32_ok (show 20 + 4 ≤ data.length by omega),
    Uint32_ok (show 24 + 4 ≤ data.length by omega),
    Slice_ok (show 8 ≤ 12 by omega) (show 12 ≤ data.length by omega),
    Except.bind, hv, h1, tlvLoop_eq]

theorem Parse_ipv6 {data : Bytes} (h : 40 ≤ data.length) (hv : u32At data 0 = 5)
    (h2 : u32At data 4 = 2) :
    Parse data = .ok { Version := 5, AgentAddrType := 2, AgentAddr := slice data 8 24,
                       SubAgentID := u32At data 24, SequenceNum := u32At data 28,
                       Uptime := u32At data 32, NumSamples := u32At data 36,
                       Samples := tlv data (u32At data 36) 40, Raw := data } := by
  have h' : ¬ data.length < 28 := by omega
  simp [Parse, h', Uint32_ok (show 0 + 4 ≤ data.length by omega),
    Uint32_ok (show 4 + 4 ≤ data.length by omega), Uint32_ok (show 24 + 4 ≤ data.length by omega),
    Uint32_ok (show 28 + 4 ≤ data.length by omega), Uint32_ok (show 32 + 4 ≤ data.length by omega),
    Uint32_ok (show 36 + 4 ≤ data.length by omega),
    Slice_ok (show 8 ≤ 24 by omega) (show 24 ≤ data.length by omega),
    Except.bind, hv, h2, tlvLoop_eq]

theorem Parse_ipv6_short {data : Bytes} (h : 28 ≤ data.length) (hs : data.length < 40)
    (hv : u32At data 0 = 5) (h2 : u32At data 4 = 2) : Parse data = .error .panic := by
  have h' : ¬ data.length < 28 := by omega
  by_cases ha : 28 + 4 ≤ data.length
  · by_cases hb : 32 + 4 ≤ data.length
    · simp [Parse, h', Uint32_ok (show 0 + 4 ≤ data.length by omega),
        Uint32_ok (show 4 + 4 ≤ data.length by omega),
        Uint32_ok (show 24 + 4 ≤ data.length by omega), Uint32_ok ha, Uint32_ok hb,
        Uint32_panic (show data.length < 36 + 4 by omega),
        Slice_ok (show 8 ≤ 24 by omega) (show 24 ≤ data.length by omega), Except.bind, hv, h2]
    · simp [Parse, h', Uint32_ok (show 0 + 4 ≤ data.length by omega),
        Uint32_ok (show 4 + 4 ≤ data.length by omega),
        Uint32_ok (show 24 + 4 ≤ data.length by omega), Uint32_ok ha,
        Uint32_panic (show data.length < 32 + 4 by omega),
        Slice_ok (show 8 ≤ 24 by omega) (show 24 ≤ data.length by omega), Except.bind, hv, h2]
  · simp [Parse, h', Uint32_ok (show 0 + 4 ≤ data.length by omega),
      Uint32_ok (show 4 + 4 ≤ data.length by omega),
      Uint32_ok (show 24 + 4 ≤ data.length by omega),
      Uint32_panic (show data.length < 28 + 4 by omega),
      Slice_ok (show 8 ≤ 24 by omega) (show 24 ≤ data.length by omega), Except.bind, hv, h2]

/-- What a successful `Parse` returned. -/
theorem Parse_ok_inv {data : Bytes} {d : Datagram} (h : Parse data = .ok d) :
    u32At data 0 = 5 ∧
    ((u32At data 4 = 1 ∧ 28 ≤ data.length ∧ d.Samples = tlv data (u32At data 24) 28) ∨
     (u32At data 4 = 2 ∧ 40 ≤ data.length ∧ d.Samples = tlv data (u32At data 36) 40)) := by
  by_cases hl : data.length < 28
  · rw [Parse_short hl] at h; cases h
  · have hl' : 28 ≤ data.length := by omega
    by_cases hv : u32At data 0 = 5
    · refine ⟨hv, ?_⟩
      by_cases h1 : u32At data 4 = 1
      · rw [Parse_ipv4 hl' hv h1] at h
        injection h with h
        subst h
        exact Or.inl ⟨h1, hl', rfl⟩
      · by_cases h2 : u32At data 4 = 2
        · by_cases h40 : 40 ≤ data.length
          · rw [Parse_ipv6 h40 hv h2] at h
            injection h with h
            subst h
            exact Or.inr ⟨h2, h40, rfl⟩
          · rw [Parse_ipv6_short hl' (by omega) hv h2] at h; cases h
        · rw [Parse_addrType hl' hv h1 h2] at h; cases h
    · rw [Parse_version hl' hv] at h; cases h

/-! ## Out-of-bounds reads of the header parsers -/

/-- C1: `Parse` is to return an error or a datagram for every byte string,
with every read inside the input.  The code breaks this.  On the 28-byte
datagram with version 5 and agent address type 2 (IPv6)
the length check `len(data) < 28` passes, the 16-byte agent address takes the
header to 40 bytes, and the read of the sequence number at offset 28 is past
the end of the input: the run ends in a panic, neither an error nor a
datagram. -/
theorem Parse_panics_on_short_ipv6_header :
    Parse ([0, 0, 0, 5, 0, 0, 0, 2] ++ List.replicate 20 0) = .error .panic := by
  decide

/-- C2: `ParseFlowSample` is to return an error or a flow sample for every
payload and both header shapes, with every read inside the payload.  The code
breaks this.  An expanded header is 44 bytes long but
the length check is `len(data) < 32`: on a 32-byte payload with
`expanded = true` the read of the output interface at offset 32 is past the end
of the payload and the run ends in a panic. -/
theorem ParseFlowSample_panics_on_short_expanded_header :
    ParseFlowSample (List.replicate 32 0) true = .error .panic := by
  decide

/-! ## `enrichPacket` when nothing is to be done -/

theorem enrichPacket_of_error {rules : List EnrichmentRule} {packet : Bytes} {e : ParseError}
    (h : Parse packet = .error (.error e)) : enrichPacket rules packet = .ok (packet, false) := by
  simp [enrichPacket, enrichRun, h, Except.bind, EnrichState.init, EnrichState.packet]

/-- C3.  When `Parse` fails with an error, `enrichPacket` returns the input
bytes unchanged together with `enriched = false`, whatever the rules; this is
so in particular for every packet whose version word is not 5. -/
theorem enrichPacket_parse_failure (rules : List EnrichmentRule) (packet : Bytes) :
    (∀ e, Parse packet = .error (.error e) → enrichPacket rules packet = .ok (packet, false)) ∧
    (u32At packet 0 ≠ 5 → (∃ e, Parse packet = .error (.error e)) ∧
      enrichPacket rules packet = .ok (packet, false)) := by
  refine ⟨fun e h => enrichPacket_of_error h, fun hv => ?_⟩
  by_cases hl : packet.length < 28
  · exact ⟨⟨_, Parse_short hl⟩, enrichPacket_of_error (Parse_short hl)⟩
  · have h := Parse_version (Nat.le_of_not_lt hl) hv
    exact ⟨⟨_, h⟩, enrichPacket_of_error h⟩

/-- Witness for C3: a 28-byte datagram of version 4 is returned as it came. -/
theorem enrichPacket_parse_failure_witness :
    (∃ e, Parse ([0, 0, 0, 4] ++ List.replicate 24 0) = .error (.error e)) ∧
    enrichPacket [⟨"own", "10.0.0.0/24", 64500, 65001, false, cidr4 10 0 0 0 24⟩]
      ([0, 0, 0, 4] ++ List.replicate 24 0) = .ok ([0, 0, 0, 4] ++ List.replicate 24 0, false) :=
  (enrichPacket_parse_failure _ _).2 (by decide)

/-- C4: with an empty rule set `enrichPacket` is to return `(P, false)` for
every byte string `P`.  The code breaks this.  `enrichPacket`
parses before it looks at the rules, so on the 28-byte datagram with version 5
and an IPv6 agent address it ends in the panic of `Parse` and returns
nothing. -/
theorem enrichPacket_nil_rules_panics :
    enrichPacket [] ([0, 0, 0, 5, 0, 0, 0, 2] ++ List.replicate 20 0) = .error .panic := by
  decide

theorem processGateway_nil (srcIP dstIP : Option Bytes) (so ro : Nat) (eg : ExtendedGateway)
    (st : EnrichState) : processGateway [] srcIP dstIP so ro eg st = .ok st := by
  simp [processGateway, srcSide, dstSide, Except.bind]

theorem processRecord_nil (srcIP dstIP : Option Bytes) (sample : Sample) (record : FlowRecord)
    (st : EnrichState) :
    processRecord [] srcIP dstIP sample record st = .ok st ∨
    processRecord [] srcIP dstIP sample record st = .error .panic := by
  unfold processRecord
  split
  · exact Or.inl rfl
  · split
    · exact Or.inl rfl
    · exact Or.inr rfl
    · exact Or.inl (processGateway_nil ..)

theorem recordLoop_nil (srcIP dstIP : Option Bytes) (sample : Sample) (records : List FlowRecord)
    (st : EnrichState) :
    recordLoop [] srcIP dstIP sample records st = .ok st ∨
    recordLoop [] srcIP dstIP sample records st = .error .panic := by
  induction records with
  | nil => exact Or.inl rfl
  | cons r rest ih =>
    unfold recordLoop
    rcases processRecord_nil srcIP dstIP sample r st with h | h
    · rw [h]; exact ih
    · rw [h]; exact Or.inr rfl

theorem processSample_nil (sample : Sample) (st : EnrichState) :
    processSample [] sample st = .ok st ∨ processSample [] sample st = .error .panic := by
  unfold processSample
  split
  · exact Or.inl rfl
  · split
    · exact Or.inl rfl
    · split
      · exact Or.inl rfl
      · exact Or.inr rfl
      · exact recordLoop_nil ..

theorem sampleLoop_nil (samples : List Sample) (st : EnrichState) :
    sampleLoop [] samples st = .ok st ∨ sampleLoop [] samples st = .error .panic := by
  induction samples with
  | nil => exact Or.inl rfl
  | cons s rest ih =>
    unfold sampleLoop
    rcases processSample_nil s st with h | h
    · rw [h]; exact ih
    · rw [h]; exact Or.inr rfl

/-- With an empty rule set `enrichPacket` returns `(P, false)` on every input
on which no parser panics. -/
theorem enrichPacket_nil_rules (packet : Bytes) :
    enrichPacket [] packet = .ok (packet, false) ∨ enrichPacket [] packet = .error .panic := by
  unfold enrichPacket enrichRun
  split
  · exact Or.inl rfl
  · exact Or.inr rfl
  · rename_i d _
    rcases sampleLoop_nil d.Samples.reverse (EnrichState.init packet) with h | h
    · rw [h]; exact Or.inl rfl
    · rw [h]; exact Or.inr rfl

/-- C5: a datagram on which no rule fires is to be returned byte-for-byte with
`enriched = false`.  The code breaks this.  The datagram below
holds one Expanded Flow Sample (enterprise 0, format 3) with a 32-byte payload
and no record at all: no rule fires on it, yet `enrichPacket` ends in the panic
of `ParseFlowSample`, which reads the 44-byte expanded header after a check for
32 bytes only, and returns nothing. -/
theorem enrichPacket_panics_without_firing :
    enrichPacket [⟨"own", "10.0.0.0/24", 64500, 65001, false, cidr4 10 0 0 0 24⟩]
      ([0, 0, 0, 5, 0, 0, 0, 1, 10, 1, 1, 1, 0, 0, 0, 0, 0, 0, 0, 1, 0, 0, 3, 232, 0, 0, 0, 1,
        0, 0, 0, 3, 0, 0, 0, 32] ++ List.replicate 32 0) = .error .panic := by
  decide

/-! ### A run that made no mutator call left everything as it was -/

theorem inPlace_calls {st st' : EnrichState} {op : Mutator}
    {f : Bytes → Nat → Nat → Nat → Except Fault Bytes} {so ro v : Nat}
    (h : st.inPlace op f so ro v = .ok st') :
    st'.calls = st.calls ++ [⟨op, st.packet, so, ro, v⟩] := by
  unfold EnrichState.inPlace at h
  cases hf : f st.packet so ro v with
  | error e => rw [hf] at h; cases h
  | ok b =>
    rw [hf] at h
    simp only [Except.bind] at h
    injection h with h
    subst h
    cases hr : st.resized <;> simp [EnrichState.setPacket, hr]

theorem applySrcRule_calls {rule : EnrichmentRule} {so ro : Nat} {eg : ExtendedGateway}
    {st st' : EnrichState} (h : applySrcRule rule so ro eg st = .ok st') :
    st.calls.length < st'.calls.length := by
  unfold applySrcRule at h
  cases h1 : st.inPlace .srcAS ModifySrcAS so ro rule.SetAS with
  | error e => rw [h1] at h; cases h
  | ok st1 =>
    rw [h1] at h
    simp only [Except.bind] at h
    have c1 := inPlace_calls h1
    by_cases hp : eg.SrcPeerAS = 0
    · simp only [hp, if_true] at h
      cases h2 : EnrichState.inPlace { st1 with enriched := true } .srcPeerAS ModifySrcPeerAS
          so ro rule.SetAS with
      | error e => rw [h2] at h; cases h
      | ok st2 =>
        rw [h2] at h
        have c2 := inPlace_calls h2
        by_cases ha : eg.AS = 0
        · simp only [ha, if_true] at h
          have c3 := inPlace_calls h
          simp [c3, c2, c1]
        · simp only [ha, if_false] at h
          injection h with h
          subst h
          simp [c2, c1]
    · simp only [hp, if_false] at h
      by_cases ha : eg.AS = 0
      · simp only [ha, if_true] at h
        have c3 := inPlace_calls h
        simp [c3, c1]
      · simp only [ha, if_false] at h
        injection h with h
        subst h
        simp [c1]

theorem srcSide_calls {srcIP : Option Bytes} {so ro : Nat} {eg : ExtendedGateway}
    {rules : List EnrichmentRule} {st st' : EnrichState}
    (h : srcSide srcIP so ro eg rules st = .ok st') :
    st.calls.length ≤ st'.calls.length ∧ (st'.calls.length = st.calls.length → st' = st) := by
  induction rules with
  | nil =>
    simp only [srcSide] at h
    injection h with h
    subst h
    exact ⟨Nat.le_refl _, fun _ => rfl⟩
  | cons rule rest ih =>
    unfold srcSide at h
    by_cases hs : shouldApply rule srcIP eg = true
    · simp only [hs, if_true] at h
      have := applySrcRule_calls h
      exact ⟨by omega, fun he => by omega⟩
    · simp only [hs] at h
      exact ih h

theorem applyDstRule_calls {rule : EnrichmentRule} {so ro : Nat} {eg : ExtendedGateway}
    {st st' : EnrichState} (h : applyDstRule rule so ro eg st = .ok st') :
    st.calls.length < st'.calls.length := by
  unfold applyDstRule at h
  simp only at h
  by_cases ha : eg.AS = 0
  · simp only [ha, if_true] at h
    split at h
    · rename_i hok
      cases h3 : EnrichState.inPlace _ .routerAS ModifyRouterAS so ro rule.SetAS with
      | error e => rw [h3] at h; cases h
      | ok st3 =>
        rw [h3] at h
        simp only [Except.bind] at h
        injection h with h
        subst h
        have c3 := inPlace_calls h3
        simp [c3]
    · cases h3 : EnrichState.inPlace _ .routerAS ModifyRouterAS so ro rule.SetAS with
      | error e => rw [h3] at h; cases h
      | ok st3 =>
        rw [h3] at h
        simp only [Except.bind] at h
        injection h with h
        subst h
        have c3 := inPlace_calls h3
        simp [c3]
  · simp only [ha, if_false] at h
    injection h with h
    subst h
    split <;> simp

theorem dstSide_calls {dstIP : Option Bytes} {so ro : Nat} {eg : ExtendedGateway}
    {rules : List EnrichmentRule} {st st' : EnrichState}
    (h : dstSide dstIP so ro eg rules st = .ok st') :
    st.calls.length ≤ st'.calls.length ∧ (st'.calls.length = st.calls.length → st' = st) := by
  induction rules with
  | nil =>
    simp only [dstSide] at h
    injection h with h
    subst h
    exact ⟨Nat.le_refl _, fun _ => rfl⟩
  | cons rule rest ih =>
    unfold dstSide at h
    by_cases hs : ipIn dstIP rule.IPNet = true
    · simp only [hs, if_true] at h
      have := applyDstRule_calls h
      exact ⟨by omega, fun he => by omega⟩
    · simp only [hs] at h
      exact ih h

theorem processGateway_calls {rules : List EnrichmentRule} {srcIP dstIP : Option Bytes}
    {so ro : Nat} {eg : ExtendedGateway} {st st' : EnrichState}
    (h : processGateway rules srcIP dstIP so ro eg st = .ok st') :
    st.calls.length ≤ st'.calls.length ∧ (st'.calls.length = st.calls.length → st' = st) := by
  unfold processGateway at h
  cases h1 : srcSide srcIP so ro eg rules st with
  | error e => rw [h1] at h; cases h
  | ok st1 =>
    rw [h1] at h
    simp only [Except.bind] at h
    have c1 := srcSide_calls h1
    by_cases hp : eg.DstASPathLen = 0
    · simp only [hp, if_true] at h
      have c2 := dstSide_calls h
      refine ⟨by omega, fun he => ?_⟩
      have e1 : st1 = st := c1.2 (by omega)
      subst e1
      exact c2.2 he
    · simp only [hp, if_false] at h
      injection h with h
      subst h
      exact c1

theorem processRecord_calls {rules : List EnrichmentRule} {srcIP dstIP : Option Bytes}
    {sample : Sample} {record : FlowRecord} {st st' : EnrichState}
    (h : processRecord rules srcIP dstIP sample record st = .ok st') :
    st.calls.length ≤ st'.calls.length ∧ (st'.calls.length = st.calls.length → st' = st) := by
  unfold processRecord at h
  split at h
  · injection h with h
    subst h
    exact ⟨Nat.le_refl _, fun _ => rfl⟩
  · split at h
    · injection h with h
      subst h
      exact ⟨Nat.le_refl _, fun _ => rfl⟩
    · cases h
    · exact processGateway_calls h

theorem recordLoop_calls {rules : List EnrichmentRule} {srcIP dstIP : Option Bytes}
    {sample : Sample} {records : List FlowRecord} {st st' : EnrichState}
    (h : recordLoop rules srcIP dstIP sample records st = .ok st') :
    st.calls.length ≤ st'.calls.length ∧ (st'.calls.length = st.calls.length → st' = st) := by
  induction records generalizing st with
  | nil =>
    simp only [recordLoop] at h
    injection h with h
    subst h
    exact ⟨Nat.le_refl _, fun _ => rfl⟩
  | cons r rest ih =>
    unfold recordLoop at h
    cases h1 : processRecord rules srcIP dstIP sample r st with
    | error e => rw [h1] at h; cases h
    | ok st1 =>
      rw [h1] at h
      simp only [Except.bind] at h
      have c1 := processRecord_calls h1
      have c2 := ih h
      refine ⟨by omega, fun he => ?_⟩
      have e1 : st1 = st := c1.2 (by omega)
      subst e1
      exact c2.2 he

theorem processSample_calls {rules : List EnrichmentRule} {sample : Sample}
    {st st' : EnrichState} (h : processSample rules sample st = .ok st') :
    st.calls.length ≤ st'.calls.length ∧ (st'.calls.length = st.calls.length → st' = st) := by
  unfold processSample at h
  split at h
  · injection h with h
    subst h
    exact ⟨Nat.le_refl _, fun _ => rfl⟩
  · split at h
    · injection h with h
      subst h
      exact ⟨Nat.le_refl _, fun _ => rfl⟩
    · split at h
      · injection h with h
        subst h
        exact ⟨Nat.le_refl _, fun _ => rfl⟩
      · cases h
      · exact recordLoop_calls h

theorem sampleLoop_calls {rules : List EnrichmentRule} {samples : List Sample}
    {st st' : EnrichState} (h : sampleLoop rules samples st = .ok st') :
    st.calls.length ≤ st'.calls.length ∧ (st'.calls.length = st.calls.length → st' = st) := by
  induction samples generalizing st with
  | nil =>
    simp only [sampleLoop] at h
    injection h with h
    subst h
    exact ⟨Nat.le_refl _, fun _ => rfl⟩
  | cons s rest ih =>
    unfold sampleLoop at h
    cases h1 : processSample rules s st with
    | error e => rw [h1] at h; cases h
    | ok st1 =>
      rw [h1] at h
      simp only [Except.bind] at h
      have c1 := processSample_calls h1
      have c2 := ih h
      refine ⟨by omega, fun he => ?_⟩
      have e1 : st1 = st := c1.2 (by omega)
      subst e1
      exact c2.2 he

/-- Whenever `enrichPacket` returns after a run in which no rule fired (no
mutator was called), it returns the input byte-for-byte with
`enriched = false`. -/
theorem enrichRun_unchanged_of_no_call {rules : List EnrichmentRule} {packet : Bytes}
    {st : EnrichState} (h : enrichRun rules packet = .ok st) (hc : st.calls = []) :
    st = EnrichState.init packet ∧ enrichPacket rules packet = .ok (packet, false) := by
  have key : st = EnrichState.init packet := by
    unfold enrichRun at h
    split at h
    · injection h with h
      exact h.symm
    · cases h
    · exact (sampleLoop_calls h).2 (by simp [hc, EnrichState.init])
  refine ⟨key, ?_⟩
  simp [enrichPacket, h, Except.bind, key, EnrichState.init, EnrichState.packet]

/-! ## The in-place mutators -/

theorem PutUint32_ok {p : Bytes} {off v : Nat} (h : off + 4 ≤ p.length) :
    PutUint32 p off v = .ok (writeU32 p off v) := by
  simp [PutUint32, h]

/-- `setASField` panics at the offsets where a guard's sum has wrapped, and
returns the buffer `poke` describes at all others. -/
theorem setASField_cases (k : Nat) (packet : Bytes) (so ro v : Nat) :
    (wraps packet so ro ∧ setASField k packet so ro v = .error .panic) ∨
    (¬ wraps packet so ro ∧ setASField k packet so ro v = .ok (poke k packet so ro v)) := by
  unfold wraps setASField poke fieldPos
  by_cases h1 : so + 8 ≤ packet.length
  · have h1' : ¬ packet.length < so + 8 := by omega
    have r1 : Uint32 packet (so + 4) = .ok (u32At packet (so + 4)) := Uint32_ok (by omega)
    by_cases h2 : so + 8 + u32At packet (so + 4) ≤ packet.length
    · have h2' : ¬ packet.length < so + 8 + u32At packet (so + 4) := by omega
      by_cases h3 : so + 8 + ro + 8 ≤ packet.length
      · have h3' : ¬ packet.length < so + 8 + ro + 8 := by omega
        right
        refine ⟨by omega, ?_⟩
        have r2 : Uint32 packet (so + 8 + ro + 4) = .ok (u32At packet (so + 8 + ro + 4)) :=
          Uint32_ok (by omega)
        by_cases h4 : so + 8 + ro + 8 + u32At packet (so + 8 + ro + 4) ≤ packet.length
        · have h4' : ¬ packet.length < so + 8 + ro + 8 + u32At packet (so + 8 + ro + 4) := by
            omega
          by_cases h5 : so + 8 + ro + 8 + 4 ≤ packet.length
          · have h5' : ¬ packet.length < so + 8 + ro + 8 + 4 := by omega
            have r3 : Uint32 packet (so + 8 + ro + 8) = .ok (u32At packet (so + 8 + ro + 8)) :=
              Uint32_ok h5
            by_cases t1 : u32At packet (so + 8 + ro + 8) = 1
            · by_cases h6 : so + 8 + ro + 8 + 4 + 4 + k + 4 ≤ packet.length
              · have h6' : ¬ packet.length < so + 8 + ro + 8 + 4 + 4 + k + 4 := by omega
                simp [h1, h1', h2, h2', h3, h3', h4, h4', h5, h5', r1, r2, r3, Except.bind, t1, h6,
                  h6', PutUint32_ok h6]
              · have h6' : packet.length < so + 8 + ro + 8 + 4 + 4 + k + 4 := by omega
                simp [h1, h1', h2, h2', h3, h3', h4, h4', h5, h5', r1, r2, r3, Except.bind, t1, h6,
                  h6']
            · by_cases t2 : u32At packet (so + 8 + ro + 8) = 2
              · by_cases h6 : so + 8 + ro + 8 + 4 + 16 + k + 4 ≤ packet.length
                · have h6' : ¬ packet.length < so + 8 + ro + 8 + 4 + 16 + k + 4 := by omega
                  simp [h1, h1', h2, h2', h3, h3', h4, h4', h5, h5', r1, r2, r3, Except.bind, t2,
                    h6, h6', PutUint32_ok h6]
                · have h6' : packet.length < so + 8 + ro + 8 + 4 + 16 + k + 4 := by omega
                  simp [h1, h1', h2, h2', h3, h3', h4, h4', h5, h5', r1, r2, r3, Except.bind, t2,
                    h6, h6']
              · simp [h1, h1', h2, h2', h3, h3', h4, h4', h5, h5', r1, r2, r3, Except.bind, t1, t2]
          · have h5' : packet.length < so + 8 + ro + 8 + 4 := by omega
            simp [h1, h1', h2, h2', h3, h3', h4, h4', h5, h5', r1, r2, Except.bind]
        · have h4' : packet.length < so + 8 + ro + 8 + u32At packet (so + 8 + ro + 4) := by omega
          simp [h1, h1', h2, h2', h3, h3', h4, h4', r1, r2, Except.bind]
      · have h3' : packet.length < so + 8 + ro + 8 := by omega
        by_cases hw : maxInt < so + 8 + ro + 8
        · left
          refine ⟨Or.inr ⟨h2, h3', hw⟩, ?_⟩
          simp [h1, h1', h2, h2', h3, h3', hw, r1, Except.bind]
        · right
          refine ⟨by omega, ?_⟩
          simp [h1, h1', h2, h2', h3, h3', hw, r1, Except.bind]
    · have h2' : packet.length < so + 8 + u32At packet (so + 4) := by omega
      right
      refine ⟨by omega, ?_⟩
      simp [h1, h1', h2, h2', r1, Except.bind]
  · have h1' : packet.length < so + 8 := by omega
    by_cases hw : maxInt < so + 8
    · left
      exact ⟨Or.inl ⟨h1', hw⟩, by simp [h1, h1', hw]⟩
    · right
      exact ⟨by omega, by simp [h1, h1', hw]⟩

/-- Offsets whose sum lies within the packet or within `maxInt` do not wrap. -/
theorem not_wraps_of_fit {packet : Bytes} {so ro : Nat}
    (h : so + 8 + ro + 8 ≤ packet.length ∨ so + 8 + ro + 8 ≤ maxInt) : ¬ wraps packet so ro := by
  unfold wraps
  omega

/-- At offsets that do not wrap, `setASField` returns the buffer `poke`
describes. -/
theorem setASField_eq (k : Nat) (packet : Bytes) (so ro v : Nat) (h : ¬ wraps packet so ro) :
    setASField k packet so ro v = .ok (poke k packet so ro v) := by
  rcases setASField_cases k packet so ro v with ⟨hw, _⟩ | ⟨_, e⟩
  · exact absurd hw h
  · exact e

/-- Whenever `setASField` returns, no sum has wrapped and the buffer is the
one `poke` describes. -/
theorem setASField_ok_inv {k : Nat} {packet : Bytes} {so ro v : Nat} {out : Bytes}
    (h : setASField k packet so ro v = .ok out) :
    ¬ wraps packet so ro ∧ out = poke k packet so ro v := by
  rcases setASField_cases k packet so ro v with ⟨_, e⟩ | ⟨hw, e⟩
  · rw [e] at h
    cases h
  · rw [e] at h
    injection h with h
    exact ⟨hw, h.symm⟩

theorem length_poke (k : Nat) (packet : Bytes) (so ro v : Nat) :
    (poke k packet so ro v).length = packet.length := by
  unfold poke
  split <;> simp [length_writeU32]

theorem fieldPos_some {k : Nat} {p : Bytes} {so ro pos : Nat} (h : fieldPos k p so ro = some pos) :
    so + 8 + u32At p (so + 4) ≤ p.length ∧
    so + 8 + ro + 8 + u32At p (so + 8 + ro + 4) ≤ p.length ∧
    pos + 4 ≤ p.length ∧
    ((u32At p (so + 8 + ro + 8) = 1 ∧ pos = so + 8 + ro + 8 + 4 + 4 + k) ∨
     (u32At p (so + 8 + ro + 8) = 2 ∧ pos = so + 8 + ro + 8 + 4 + 16 + k)) := by
  unfold fieldPos at h
  split at h
  · rename_i hb
    split at h
    · rename_i t1
      split at h
      · injection h with h
        subst h
        exact ⟨hb.2.1, hb.2.2.2.1, by omega, Or.inl ⟨t1, rfl⟩⟩
      · cases h
    · split at h
      · rename_i t2
        split at h
        · injection h with h
          subst h
          exact ⟨hb.2.1, hb.2.2.2.1, by omega, Or.inr ⟨t2, rfl⟩⟩
        · cases h
      · cases h
  · cases h

theorem fieldPos_none {k : Nat} {p : Bytes} {so ro : Nat} (h : fieldPos k p so ro = none) :
    p.length < so + 8 ∨ p.length < so + 8 + u32At p (so + 4) ∨ p.length < so + 8 + ro + 8 ∨
    p.length < so + 8 + ro + 8 + u32At p (so + 8 + ro + 4) ∨ p.length < so + 8 + ro + 8 + 4 ∨
    (u32At p (so + 8 + ro + 8) ≠ 1 ∧ u32At p (so + 8 + ro + 8) ≠ 2) ∨
    (u32At p (so + 8 + ro + 8) = 1 ∧ p.length < so + 8 + ro + 8 + 4 + 4 + k + 4) ∨
    (u32At p (so + 8 + ro + 8) = 2 ∧ p.length < so + 8 + ro + 8 + 4 + 16 + k + 4) := by
  unfold fieldPos at h
  split at h
  · split at h
    · rename_i t1
      split at h
      · cases h
      · right; right; right; right; right; right; left
        exact ⟨t1, by omega⟩
    · rename_i t1
      split at h
      · rename_i t2
        split at h
        · cases h
        · right; right; right; right; right; right; right
          exact ⟨t2, by omega⟩
      · rename_i t2
        right; right; right; right; right; left
        exact ⟨t1, t2⟩
  · rename_i hb
    by_cases a1 : p.length < so + 8
    · exact Or.inl a1
    · by_cases a2 : p.length < so + 8 + u32At p (so + 4)
      · exact Or.inr (Or.inl a2)
      · by_cases a3 : p.length < so + 8 + ro + 8
        · exact Or.inr (Or.inr (Or.inl a3))
        · by_cases a4 : p.length < so + 8 + ro + 8 + u32At p (so + 8 + ro + 4)
          · exact Or.inr (Or.inr (Or.inr (Or.inl a4)))
          · by_cases a5 : p.length < so + 8 + ro + 8 + 4
            · exact Or.inr (Or.inr (Or.inr (Or.inr (Or.inl a5))))
            · exact absurd ⟨by omega, by omega, by omega, by omega, by omega⟩ hb

theorem fieldPos_of_valid {k : Nat} {p : Bytes} {so ro hop : Nat}
    (h1 : so + 8 + u32At p (so + 4) ≤ p.length)
    (h2 : so + 8 + ro + 8 + u32At p (so + 8 + ro + 4) ≤ p.length)
    (h3 : so + 8 + ro + 8 + hop + k + 4 ≤ p.length)
    (ht : (u32At p (so + 8 + ro + 8) = 1 ∧ hop = 8) ∨ (u32At p (so + 8 + ro + 8) = 2 ∧ hop = 20)) :
    fieldPos k p so ro = some (so + 8 + ro + 8 + hop + k) := by
  unfold fieldPos
  have hb : so + 8 ≤ p.length ∧ so + 8 + u32At p (so + 4) ≤ p.length ∧
      so + 8 + ro + 8 ≤ p.length ∧
      so + 8 + ro + 8 + u32At p (so + 8 + ro + 4) ≤ p.length ∧
      so + 8 + ro + 8 + 4 ≤ p.length := by
    rcases ht with ⟨_, rfl⟩ | ⟨_, rfl⟩ <;> exact ⟨by omega, h1, by omega, h2, by omega⟩
  rw [if_pos hb]
  rcases ht with ⟨t, rfl⟩ | ⟨t, rfl⟩
  · rw [if_pos t, if_pos (by omega)]
  · rw [if_neg (by omega), if_pos t, if_pos (by omega)]

set_option maxRecDepth 100000 in
/-- C10, as stated, fails.  The sample offset `2^63 - 8` is a non-negative
`int`; `sampleOffset+8` wraps, the guard does not fire and the slice expression
`packet[sampleOffset+4:]` panics.  On `outboundDatagram` with this sample
offset `ModifySrcAS` returns no buffer. -/
theorem ModifySrcAS_panics_on_wrapped_offset :
    9223372036854775800 ≤ maxInt ∧
    ModifySrcAS outboundDatagram 9223372036854775800 0 65001 = .error .panic := by
  decide

/-- C10, amended.  `ModifySrcAS` is length-preserving and touches at most one
field at every offset where no guard compares a wrapped sum, in particular
whenever `sample_off + 8 + record_off + 8` is at most the largest `int` or lies
within the packet: for every packet and 32-bit value `v` it then returns a
buffer of the length of the input; a byte that differs from the input lies in
the 4 bytes at `sample_off + 8 + record_off + 8 + 4 + addr_len + 4`, where
`addr_len` is 4 for next-hop type 1 and 16 for type 2, and these 4 bytes then
hold `v` in big-endian; when a bounds check fails or the next-hop type is
neither 1 nor 2 the buffer is returned as it was; when every check passes the
field holds `v` afterwards.  At the offsets where `sample_off + 8`, or after a
passed sample check `sample_off + 8 + record_off + 8`, is beyond the largest
`int`, it panics. -/
theorem ModifySrcAS_frame (packet : Bytes) (so ro v : Nat) (hv : v < 4294967296) :
    (wraps packet so ro → ModifySrcAS packet so ro v = .error .panic) ∧
    (so + 8 + ro + 8 ≤ packet.length ∨ so + 8 + ro + 8 ≤ maxInt → ¬ wraps packet so ro) ∧
    (¬ wraps packet so ro →
    ∃ out, ModifySrcAS packet so ro v = .ok out ∧ out.length = packet.length ∧
      (∀ i, byteAt out i ≠ byteAt packet i →
        ∃ addrLen, ((u32At packet (so + 8 + ro + 8) = 1 ∧ addrLen = 4) ∨
            (u32At packet (so + 8 + ro + 8) = 2 ∧ addrLen = 16)) ∧
          so + 8 + ro + 8 + 4 + addrLen + 4 ≤ i ∧ i < so + 8 + ro + 8 + 4 + addrLen + 4 + 4 ∧
          u32At out (so + 8 + ro + 8 + 4 + addrLen + 4) = v) ∧
      ((packet.length < so + 8 ∨ packet.length < so + 8 + u32At packet (so + 4) ∨
          packet.length < so + 8 + ro + 8 ∨
          packet.length < so + 8 + ro + 8 + u32At packet (so + 8 + ro + 4) ∨
          packet.length < so + 8 + ro + 8 + 4 ∨
          (u32At packet (so + 8 + ro + 8) ≠ 1 ∧ u32At packet (so + 8 + ro + 8) ≠ 2) ∨
          (u32At packet (so + 8 + ro + 8) = 1 ∧ packet.length < so + 8 + ro + 8 + 4 + 4 + 4 + 4) ∨
          (u32At packet (so + 8 + ro + 8) = 2 ∧ packet.length < so + 8 + ro + 8 + 4 + 16 + 4 + 4))
        → out = packet) ∧
      (∀ addrLen, so + 8 + u32At packet (so + 4) ≤ packet.length →
        so + 8 + ro + 8 + u32At packet (so + 8 + ro + 4) ≤ packet.length →
        so + 8 + ro + 8 + 4 + addrLen + 4 + 4 ≤ packet.length →
        ((u32At packet (so + 8 + ro + 8) = 1 ∧ addrLen = 4) ∨
          (u32At packet (so + 8 + ro + 8) = 2 ∧ addrLen = 16)) →
        u32At out (so + 8 + ro + 8 + 4 + addrLen + 4) = v)) := by
  refine ⟨fun hw => ?_, not_wraps_of_fit, fun hw => ?_⟩
  · rcases setASField_cases 4 packet so ro v with ⟨_, e⟩ | ⟨hn, _⟩
    · exact e
    · exact absurd hw hn
  · refine ⟨poke 4 packet so ro v, setASField_eq 4 packet so ro v hw, length_poke .., ?_, ?_, ?_⟩
    · intro i hi
      unfold poke at hi ⊢
      cases hp : fieldPos 4 packet so ro with
      | none => rw [hp] at hi; exact absurd rfl hi
      | some pos =>
        rw [hp] at hi
        simp only at hi ⊢
        obtain ⟨_, _, hlen, ht⟩ := fieldPos_some hp
        have hin : pos ≤ i ∧ i < pos + 4 := by
          by_contra hcon
          exact hi (byteAt_writeU32_of_ne (by omega))
        have hval : u32At (writeU32 packet pos v) pos = v := by
          rw [u32At_writeU32 hlen, Nat.mod_eq_of_lt hv]
        rcases ht with ⟨t, rfl⟩ | ⟨t, rfl⟩
        · exact ⟨4, Or.inl ⟨t, rfl⟩, hin.1, hin.2, hval⟩
        · exact ⟨16, Or.inr ⟨t, rfl⟩, hin.1, hin.2, hval⟩
    · intro hfail
      unfold poke
      cases hp : fieldPos 4 packet so ro with
      | none => rfl
      | some pos =>
        exfalso
        obtain ⟨h1, h2, hlen, ht⟩ := fieldPos_some hp
        rcases ht with ⟨t, rfl⟩ | ⟨t, rfl⟩ <;> omega
    · intro addrLen h1 h2 h3 ht
      have hp : fieldPos 4 packet so ro = some (so + 8 + ro + 8 + (addrLen + 4) + 4) := by
        apply fieldPos_of_valid h1 h2 (by omega)
        rcases ht with ⟨t, rfl⟩ | ⟨t, rfl⟩
        · exact Or.inl ⟨t, rfl⟩
        · exact Or.inr ⟨t, rfl⟩
      unfold poke
      rw [hp]
      simp only
      have e : so + 8 + ro + 8 + 4 + addrLen + 4 = so + 8 + ro + 8 + (addrLen + 4) + 4 := by omega
      rw [e, u32At_writeU32 (by omega), Nat.mod_eq_of_lt hv]

/-! ## The rule loops of `enrichPacket` -/

theorem packet_setPacket (st : EnrichState) (b : Bytes) : (st.setPacket b).packet = b := by
  cases hr : st.resized <;> simp [EnrichState.setPacket, EnrichState.packet, hr]

theorem enriched_setPacket (st : EnrichState) (b : Bytes) :
    (st.setPacket b).enriched = st.enriched := by
  cases hr : st.resized <;> simp [EnrichState.setPacket, hr]

theorem calls_setPacket (st : EnrichState) (b : Bytes) : (st.setPacket b).calls = st.calls := by
  cases hr : st.resized <;> simp [EnrichState.setPacket, hr]

/-- A write of `poke` leaves the length of the packet and the sample length
word as they were, hence also whether the offsets wrap. -/
theorem wraps_poke (k : Nat) (p : Bytes) (so ro v : Nat) :
    wraps (poke k p so ro v) so ro ↔ wraps p so ro := by
  have hl : (poke k p so ro v).length = p.length := length_poke ..
  have hu : u32At (poke k p so ro v) (so + 4) = u32At p (so + 4) := by
    unfold poke
    cases hp : fieldPos k p so ro with
    | none => rfl
    | some pos =>
      obtain ⟨_, _, _, ht⟩ := fieldPos_some hp
      exact u32At_writeU32_of_disjoint (by rcases ht with ⟨_, rfl⟩ | ⟨_, rfl⟩ <;> omega)
  unfold wraps
  rw [hl, hu]

/-- An in-place mutator call that returns was made at offsets that do not
wrap, and left `poke` in the packet. -/
theorem inPlace_ok_inv {st st' : EnrichState} {op : Mutator} {k so ro v : Nat}
    (h : st.inPlace op (setASField k) so ro v = .ok st') :
    ¬ wraps st.packet so ro ∧
      st' = { st.setPacket (poke k st.packet so ro v) with
        calls := st.calls ++ [⟨op, st.packet, so, ro, v⟩] } := by
  unfold EnrichState.inPlace at h
  cases hf : setASField k st.packet so ro v with
  | error e => rw [hf] at h; cases h
  | ok b =>
    rw [hf] at h
    simp only [Except.bind] at h
    injection h with h
    obtain ⟨hw, hb⟩ := setASField_ok_inv hf
    subst hb
    exact ⟨hw, h.symm⟩

/-- An in-place mutator call at offsets that do not wrap returns; it leaves
`poke` in the packet. -/
theorem inPlace_setASField (st : EnrichState) (op : Mutator) (k so ro v : Nat)
    (hw : ¬ wraps st.packet so ro) :
    ∃ st', st.inPlace op (setASField k) so ro v = .ok st' ∧
      st'.packet = poke k st.packet so ro v ∧ st'.enriched = st.enriched ∧
      st'.calls = st.calls ++ [⟨op, st.packet, so, ro, v⟩] := by
  refine ⟨{ st.setPacket (poke k st.packet so ro v) with
      calls := st.calls ++ [⟨op, st.packet, so, ro, v⟩] }, ?_, ?_, ?_, ?_⟩
  · unfold EnrichState.inPlace
    rw [setASField_eq _ _ _ _ _ hw]
    rfl
  · cases hr : st.resized <;> simp [EnrichState.setPacket, EnrichState.packet, hr]
  · cases hr : st.resized <;> simp [EnrichState.setPacket, hr]
  · rfl

/-- What `applySrcRule` does at offsets that do not wrap: it returns, sets
`enriched`, calls `ModifySrcAS` and then `ModifySrcPeerAS` and
`ModifyRouterAS`, each of the two when the parsed value is 0. -/
theorem applySrcRule_ok (rule : EnrichmentRule) (so ro : Nat) (eg : ExtendedGateway)
    (st : EnrichState) (hw : ¬ wraps st.packet so ro) :
    ∃ st', applySrcRule rule so ro eg st = .ok st' ∧ st'.enriched = true ∧
      st'.packet =
        (if eg.AS = 0 then fun p => poke 0 p so ro rule.SetAS else id)
          ((if eg.SrcPeerAS = 0 then fun p => poke 8 p so ro rule.SetAS else id)
            (poke 4 st.packet so ro rule.SetAS)) ∧
      st'.calls.map Call.sig = st.calls.map Call.sig ++
        ((Mutator.srcAS, so, ro, rule.SetAS) ::
          ((if eg.SrcPeerAS = 0 then [(Mutator.srcPeerAS, so, ro, rule.SetAS)] else []) ++
           (if eg.AS = 0 then [(Mutator.routerAS, so, ro, rule.SetAS)] else []))) ∧
      (∃ c rest, st'.calls = st.calls ++ c :: rest ∧
        c = ⟨.srcAS, st.packet, so, ro, rule.SetAS⟩ ∧ ∀ x ∈ rest, x.op ≠ .srcAS ∧ x.op ≠ .dstAS) := by
  obtain ⟨st1, e1, p1, n1, c1⟩ := inPlace_setASField st .srcAS 4 so ro rule.SetAS hw
  have hw1 : ¬ wraps (EnrichState.packet { st1 with enriched := true }) so ro := by
    have e : EnrichState.packet { st1 with enriched := true }
        = poke 4 st.packet so ro rule.SetAS := p1
    rw [e, wraps_poke]
    exact hw
  unfold applySrcRule
  have e1' : st.inPlace .srcAS ModifySrcAS so ro rule.SetAS = .ok st1 := e1
  rw [e1']
  simp only [Except.bind]
  by_cases hp : eg.SrcPeerAS = 0
  · obtain ⟨st2, e2, p2, n2, c2⟩ :=
      inPlace_setASField { st1 with enriched := true } .srcPeerAS 8 so ro rule.SetAS hw1
    have e2' : EnrichState.inPlace { st1 with enriched := true } .srcPeerAS ModifySrcPeerAS so ro
        rule.SetAS = .ok st2 := e2
    simp only [hp, if_true, e2']
    have p2' : st2.packet = poke 8 (poke 4 st.packet so ro rule.SetAS) so ro rule.SetAS := by
      rw [p2, ← p1]; rfl
    have hw2 : ¬ wraps st2.packet so ro := by
      rw [p2', wraps_poke, wraps_poke]
      exact hw
    by_cases ha : eg.AS = 0
    · obtain ⟨st3, e3, p3, n3, c3⟩ := inPlace_setASField st2 .routerAS 0 so ro rule.SetAS hw2
      have e3' : st2.inPlace .routerAS ModifyRouterAS so ro rule.SetAS = .ok st3 := e3
      simp only [ha, if_true, e3']
      refine ⟨st3, rfl, by rw [n3, n2], by rw [p3, p2'], ?_, ?_⟩
      · rw [c3, c2]; simp [c1, Call.sig]
      · refine ⟨_, _, by rw [c3, c2]; simp only [c1, List.append_assoc, List.singleton_append]; rfl,
          rfl, ?_⟩
        intro x hx
        simp at hx
        rcases hx with rfl | rfl <;> simp
    · simp only [ha, if_false]
      refine ⟨st2, rfl, by rw [n2], by rw [p2']; rfl, ?_, ?_⟩
      · rw [c2]; simp [c1, Call.sig]
      · refine ⟨_, _, by rw [c2]; simp only [c1, List.append_assoc, List.singleton_append]; rfl,
          rfl, ?_⟩
        intro x hx
        simp at hx
        subst hx
        simp
  · simp only [hp, if_false]
    by_cases ha : eg.AS = 0
    · obtain ⟨st3, e3, p3, n3, c3⟩ :=
        inPlace_setASField { st1 with enriched := true } .routerAS 0 so ro rule.SetAS hw1
      have e3' : EnrichState.inPlace { st1 with enriched := true } .routerAS ModifyRouterAS so ro
          rule.SetAS = .ok st3 := e3
      simp only [ha, if_true, e3']
      refine ⟨st3, rfl, by rw [n3], ?_, ?_, ?_⟩
      · rw [p3, ← p1]; rfl
      · rw [c3]; simp [c1, Call.sig]
      · refine ⟨_, _, by rw [c3]; simp only [c1, List.append_assoc, List.singleton_append]; rfl,
          rfl, ?_⟩
        intro x hx
        simp at hx
        subst hx
        simp
    · simp only [ha, if_false]
      refine ⟨_, rfl, rfl, ?_, ?_, ?_⟩
      · exact p1
      · simp [c1, Call.sig]
      · exact ⟨_, [], by simp [c1], rfl, by simp⟩

/-- Whenever `applySrcRule` returns, its first call was made at offsets that
do not wrap. -/
theorem applySrcRule_ok_inv {rule : EnrichmentRule} {so ro : Nat} {eg : ExtendedGateway}
    {st st' : EnrichState} (h : applySrcRule rule so ro eg st = .ok st') :
    ¬ wraps st.packet so ro := by
  unfold applySrcRule at h
  cases h1 : st.inPlace .srcAS ModifySrcAS so ro rule.SetAS with
  | error e => rw [h1] at h; cases h
  | ok st1 =>
    have h1' : st.inPlace .srcAS (setASField 4) so ro rule.SetAS = .ok st1 := h1
    exact (inPlace_ok_inv h1').1

/-! ## `ParseExtendedGateway` and writes into the fixed prefix -/

theorem Uint32_congr {a b : Bytes} {m off : Nat} (hl : a.length = b.length)
    (h : ∀ i, m ≤ i → byteAt a i = byteAt b i) (ho : m ≤ off) : Uint32 a off = Uint32 b off := by
  unfold Uint32 u32At
  rw [hl, h off ho, h (off + 1) (by omega), h (off + 2) (by omega), h (off + 3) (by omega)]

theorem wordLoop_fst_ge {data : Bytes} {n off : Nat} {acc : List Nat} {r : Nat × List Nat}
    (h : wordLoop data n off acc = .ok r) : off ≤ r.1 := by
  induction n generalizing off acc with
  | zero =>
    simp only [wordLoop] at h
    injection h with h
    subst h
    exact Nat.le_refl _
  | succ n ih =>
    unfold wordLoop at h
    split at h
    · rename_i hb
      rw [Uint32_ok hb] at h
      simp only [Except.bind] at h
      have := ih h
      omega
    · injection h with h
      subst h
      exact Nat.le_refl _

theorem wordLoop_congr {a b : Bytes} {m : Nat} (hl : a.length = b.length)
    (h : ∀ i, m ≤ i → byteAt a i = byteAt b i) (n : Nat) {off : Nat} (ho : m ≤ off)
    (acc : List Nat) : wordLoop a n off acc = wordLoop b n off acc := by
  induction n generalizing off acc with
  | zero => simp [wordLoop]
  | succ n ih =>
    unfold wordLoop
    rw [hl, Uint32_congr hl h ho]
    split
    · rename_i hb
      rw [Uint32_ok hb]
      simp only [Except.bind]
      exact ih (by omega) _
    · rfl

theorem segmentLoop_congr {a b : Bytes} {m : Nat} (hl : a.length = b.length)
    (h : ∀ i, m ≤ i → byteAt a i = byteAt b i) (n : Nat) {off : Nat} (ho : m ≤ off)
    (acc : List Nat) : segmentLoop a n off acc = segmentLoop b n off acc := by
  induction n generalizing off acc with
  | zero => simp [segmentLoop]
  | succ n ih =>
    unfold segmentLoop
    rw [hl, Uint32_congr hl h ho, Uint32_congr hl h (show m ≤ off + 4 by omega)]
    split
    · rename_i hb
      rw [Uint32_ok (show off + 4 ≤ b.length by omega), Uint32_ok (show off + 4 + 4 ≤ b.length by omega)]
      simp only [Except.bind]
      rw [wordLoop_congr hl h _ (show m ≤ off + 8 by omega)]
      cases hw : wordLoop b (u32At b (off + 4)) (off + 8) acc with
      | error e => rfl
      | ok r =>
        simp only
        exact ih (by have := wordLoop_fst_ge hw; omega) _
    · rfl

theorem segmentLoop_fst_ge {data : Bytes} {n off : Nat} {acc : List Nat} {r : Nat × List Nat}
    (h : segmentLoop data n off acc = .ok r) : off ≤ r.1 := by
  induction n generalizing off acc with
  | zero =>
    simp only [segmentLoop] at h
    injection h with h
    subst h
    exact Nat.le_refl _
  | succ n ih =>
    unfold segmentLoop at h
    split at h
    · rename_i hb
      rw [Uint32_ok (show off + 4 ≤ data.length by omega),
        Uint32_ok (show off + 4 + 4 ≤ data.length by omega)] at h
      simp only [Except.bind] at h
      cases hw : wordLoop data (u32At data (off + 4)) (off + 8) acc with
      | error e => rw [hw] at h; cases h
      | ok r1 =>
        rw [hw] at h
        simp only at h
        have := ih h
        have := wordLoop_fst_ge hw
        omega
    · injection h with h
      subst h
      exact Nat.le_refl _

theorem gatewayTail_congr {a b : Bytes} {m : Nat} (hl : a.length = b.length)
    (h : ∀ i, m ≤ i → byteAt a i = byteAt b i) {off : Nat} (ho : m ≤ off) :
    gatewayTail a off = gatewayTail b off := by
  unfold gatewayTail
  rw [hl, Uint32_congr hl h ho]
  have e1 : ∀ n, segmentLoop a n (off + 4) [] = segmentLoop b n (off + 4) [] :=
    fun n => segmentLoop_congr hl h n (by omega) _
  simp only [e1]
  have key : ∀ path : Nat × List Nat × Nat, off ≤ path.2.2 →
      ((if path.2.2 + 4 ≤ b.length then
          (Uint32 a path.2.2).bind fun commLen =>
          (wordLoop a commLen (path.2.2 + 4) []).bind fun r => .ok (commLen, r.2, r.1)
        else .ok (0, [], path.2.2)).bind fun (comm : Nat × List Nat × Nat) =>
      (if comm.2.2 + 4 ≤ b.length then Uint32 a comm.2.2 else .ok 0).bind fun localPref =>
      (.ok (path.1, path.2.1, comm.1, comm.2.1, localPref) :
        Except Fault (Nat × List Nat × Nat × List Nat × Nat))) =
      ((if path.2.2 + 4 ≤ b.length then
          (Uint32 b path.2.2).bind fun commLen =>
          (wordLoop b commLen (path.2.2 + 4) []).bind fun r => .ok (commLen, r.2, r.1)
        else .ok (0, [], path.2.2)).bind fun (comm : Nat × List Nat × Nat) =>
      (if comm.2.2 + 4 ≤ b.length then Uint32 b comm.2.2 else .ok 0).bind fun localPref =>
      .ok (path.1, path.2.1, comm.1, comm.2.1, localPref)) := by
    intro path hp
    rw [Uint32_congr hl h (show m ≤ path.2.2 by omega)]
    have e2 : ∀ n, wordLoop a n (path.2.2 + 4) [] = wordLoop b n (path.2.2 + 4) [] :=
      fun n => wordLoop_congr hl h n (by omega) _
    simp only [e2]
    split
    · rename_i hb
      rw [Uint32_ok hb]
      simp only [Except.bind]
      cases hw : wordLoop b (u32At b path.2.2) (path.2.2 + 4) [] with
      | error e => rfl
      | ok r =>
        simp only
        have := wordLoop_fst_ge hw
        rw [Uint32_congr hl h (show m ≤ r.1 by omega)]
    · simp only [Except.bind]
      rw [Uint32_congr hl h (show m ≤ path.2.2 by omega)]
  split
  · rename_i hb
    rw [Uint32_ok hb]
    simp only [Except.bind]
    cases hs : segmentLoop b (u32At b off) (off + 4) [] with
    | error e => rfl
    | ok r =>
      simp only
      have := segmentLoop_fst_ge hs
      exact key (u32At b off, r.2, r.1) (by simp only; omega)
  · simp only [Except.bind]
    exact key (0, [], off) (Nat.le_refl _)

theorem getElem?_eq_of_byteAt {a b : Bytes} {i : Nat} (hl : a.length = b.length)
    (h : byteAt a i = byteAt b i) : a[i]? = b[i]? := by
  by_cases hi : i < a.length
  · have hi' : i < b.length := by omega
    simp only [byteAt, List.getD_eq_getElem?_getD, List.getElem?_eq_getElem hi,
      List.getElem?_eq_getElem hi', Option.getD_some] at h
    rw [List.getElem?_eq_getElem hi, List.getElem?_eq_getElem hi', h]
  · rw [List.getElem?_eq_none (by omega), List.getElem?_eq_none (by omega)]

theorem slice_congr {a b : Bytes} {lo hi : Nat} (hl : a.length = b.length)
    (h : ∀ i, lo ≤ i → i < hi → byteAt a i = byteAt b i) : slice a lo hi = slice b lo hi := by
  apply List.ext_getElem?
  intro i
  simp only [slice, List.getElem?_take, List.getElem?_drop]
  split
  · exact getElem?_eq_of_byteAt hl (h _ (by omega) (by omega))
  · rfl

/-- `ParseExtendedGateway` on a payload whose fixed prefix is present. -/
theorem ParseExtendedGateway_eq {data : Bytes} {hop : Nat}
    (ht : (u32At data 0 = 1 ∧ hop = 8) ∨ (u32At data 0 = 2 ∧ hop = 20))
    (h : hop + 12 ≤ data.length) :
    ParseExtendedGateway data =
      (gatewayTail data (hop + 12)).bind fun t =>
        .ok { NextHopType := u32At data 0, NextHop := slice data 4 hop, AS := u32At data hop,
              SrcAS := u32At data (hop + 4), SrcPeerAS := u32At data (hop + 8),
              DstASPathLen := t.1, DstASPath := t.2.1, CommunitiesLen := t.2.2.1,
              Communities := t.2.2.2.1, LocalPref := t.2.2.2.2 } := by
  unfold ParseExtendedGateway
  rcases ht with ⟨t, rfl⟩ | ⟨t, rfl⟩
  · have h' : ¬ data.length < 20 := by omega
    simp [h', Uint32_ok (show 0 + 4 ≤ data.length by omega),
      Uint32_ok (show 8 + 4 ≤ data.length by omega), Uint32_ok (show 12 + 4 ≤ data.length by omega),
      Uint32_ok (show 16 + 4 ≤ data.length by omega),
      Slice_ok (show 4 ≤ 8 by omega) (show 8 ≤ data.length by omega), Except.bind, t]
  · have h' : ¬ data.length < 20 := by omega
    have h'' : ¬ data.length < 32 := by omega
    simp [h', h'', Uint32_ok (show 0 + 4 ≤ data.length by omega),
      Uint32_ok (show 20 + 4 ≤ data.length by omega), Uint32_ok (show 24 + 4 ≤ data.length by omega),
      Uint32_ok (show 28 + 4 ≤ data.length by omega),
      Slice_ok (show 4 ≤ 20 by omega) (show 20 ≤ data.length by omega), Except.bind, t]

/-- A successful `ParseExtendedGateway` saw next-hop type 1 or 2 and the whole
fixed prefix. -/
theorem ParseExtendedGateway_ok_inv {data : Bytes} {g : ExtendedGateway}
    (h : ParseExtendedGateway data = .ok g) :
    ∃ hop, ((u32At data 0 = 1 ∧ hop = 8) ∨ (u32At data 0 = 2 ∧ hop = 20)) ∧
      hop + 12 ≤ data.length := by
  unfold ParseExtendedGateway at h
  split at h
  · cases h
  · rename_i hl
    rw [Uint32_ok (show 0 + 4 ≤ data.length by omega)] at h
    simp only [Except.bind] at h
    by_cases t1 : u32At data 0 = 1
    · exact ⟨8, Or.inl ⟨t1, rfl⟩, by omega⟩
    · by_cases t2 : u32At data 0 = 2
      · refine ⟨20, Or.inr ⟨t2, rfl⟩, ?_⟩
        simp only [t2, Slice_ok (show 4 ≤ 20 by omega) (show 20 ≤ data.length by omega)] at h
        simp at h
        split at h
        · cases h
        · omega
      · simp [t1, t2] at h

/-- Overwriting one of the three AS words of the fixed prefix (`k = 0` router
AS, `k = 4` source AS, `k = 8` source peer AS) changes that field of the parsed
gateway and nothing else. -/
theorem ParseExtendedGateway_field {data data' : Bytes} {g : ExtendedGateway} {hop k v : Nat}
    (h : ParseExtendedGateway data = .ok g)
    (ht : (u32At data 0 = 1 ∧ hop = 8) ∨ (u32At data 0 = 2 ∧ hop = 20))
    (hk : k = 0 ∨ k = 4 ∨ k = 8) (hl : data'.length = data.length)
    (hag : ∀ i, i < hop + k ∨ hop + k + 4 ≤ i → byteAt data' i = byteAt data i)
    (hv : u32At data' (hop + k) = v) :
    ParseExtendedGateway data' =
      .ok { g with AS := if k = 0 then v else g.AS, SrcAS := if k = 4 then v else g.SrcAS,
                   SrcPeerAS := if k = 8 then v else g.SrcPeerAS } := by
  obtain ⟨hop', ht', hlen'⟩ := ParseExtendedGateway_ok_inv h
  have hh : hop' = hop := by
    rcases ht with ⟨t, rfl⟩ | ⟨t, rfl⟩ <;> rcases ht' with ⟨t', rfl⟩ | ⟨t', rfl⟩ <;> omega
  subst hh
  have hop8 : 8 ≤ hop' := by rcases ht with ⟨_, rfl⟩ | ⟨_, rfl⟩ <;> omega
  have e0 : u32At data' 0 = u32At data 0 := u32At_congr fun i _ _ => hag i (by omega)
  have htl : gatewayTail data' (hop' + 12) = gatewayTail data (hop' + 12) :=
    gatewayTail_congr (m := hop' + k + 4) hl (fun i hi => hag i (by omega))
      (by rcases hk with rfl | rfl | rfl <;> omega)
  have hsl : slice data' 4 hop' = slice data 4 hop' :=
    slice_congr hl fun i _ _ => hag i (by omega)
  rw [ParseExtendedGateway_eq ht hlen'] at h
  rw [ParseExtendedGateway_eq (by rw [e0]; exact ht) (by omega), htl, e0, hsl]
  cases hg : gatewayTail data (hop' + 12) with
  | error e => rw [hg] at h; cases h
  | ok t =>
    rw [hg] at h
    simp only [Except.bind] at h ⊢
    injection h with h
    subst h
    rcases hk with rfl | rfl | rfl
    · have e1 : u32At data' (hop' + 4) = u32At data (hop' + 4) :=
        u32At_congr fun i _ _ => hag i (by omega)
      have e2 : u32At data' (hop' + 8) = u32At data (hop' + 8) :=
        u32At_congr fun i _ _ => hag i (by omega)
      simp only [Nat.add_zero] at hv
      simp [hv, e1, e2]
    · have e1 : u32At data' hop' = u32At data hop' :=
        u32At_congr fun i _ _ => hag i (by omega)
      have e2 : u32At data' (hop' + 8) = u32At data (hop' + 8) :=
        u32At_congr fun i _ _ => hag i (by omega)
      simp [hv, e1, e2]
    · have e1 : u32At data' hop' = u32At data hop' :=
        u32At_congr fun i _ _ => hag i (by omega)
      have e2 : u32At data' (hop' + 4) = u32At data (hop' + 4) :=
        u32At_congr fun i _ _ => hag i (by omega)
      simp [hv, e1, e2]

theorem byteAt_of_length_le {data : Bytes} {i : Nat} (h : data.length ≤ i) : byteAt data i = 0 := by
  simp [byteAt, List.getD_eq_getElem?_getD, List.getElem?_eq_none h]

/-- Two slices of the same length agree wherever the buffers they are cut from
agree. -/
theorem byteAt_slice_congr {a b : Bytes} {lo hi i : Nat} (hl : a.length = b.length)
    (hhi : hi ≤ a.length) (h : lo + i < hi → byteAt a (lo + i) = byteAt b (lo + i)) :
    byteAt (slice a lo hi) i = byteAt (slice b lo hi) i := by
  by_cases hi' : lo + i < hi
  · rw [byteAt_slice hi', byteAt_slice hi', h hi']
  · by_cases hlo : lo ≤ hi
    · rw [byteAt_of_length_le, byteAt_of_length_le]
      · rw [slice_length (by omega)]; omega
      · rw [slice_length hhi]; omega
    · have e1 : slice a lo hi = [] := by simp [slice]; omega
      have e2 : slice b lo hi = [] := by simp [slice]; omega
      rw [e1, e2]

/-- The gateway record at valid offsets after `poke k`: field `k` is `v`,
everything else is as before. -/
theorem gatewayAt_poke {p : Bytes} {so ro k v : Nat} {g : ExtendedGateway}
    (h : gatewayAt p so ro = .ok g)
    (hs : so + 8 + u32At p (so + 4) ≤ p.length)
    (hr : so + 8 + ro + 8 + u32At p (so + 8 + ro + 4) ≤ p.length)
    (hk : k = 0 ∨ k = 4 ∨ k = 8) (hv : v < 4294967296) :
    gatewayAt (poke k p so ro v) so ro =
      .ok { g with AS := if k = 0 then v else g.AS, SrcAS := if k = 4 then v else g.SrcAS,
                   SrcPeerAS := if k = 8 then v else g.SrcPeerAS } ∧
    so + 8 + u32At (poke k p so ro v) (so + 4) ≤ (poke k p so ro v).length ∧
    so + 8 + ro + 8 + u32At (poke k p so ro v) (so + 8 + ro + 4) ≤ (poke k p so ro v).length := by
  unfold gatewayAt at h
  obtain ⟨hop, ht, hlen⟩ := ParseExtendedGateway_ok_inv h
  rw [slice_length hr] at hlen
  have hlen' : hop + 12 ≤ u32At p (so + 8 + ro + 4) := by omega
  have hop8 : 8 ≤ hop := by rcases ht with ⟨_, rfl⟩ | ⟨_, rfl⟩ <;> omega
  have e0 : u32At (slice p (so + 8 + ro + 8) (so + 8 + ro + 8 + u32At p (so + 8 + ro + 4))) 0
      = u32At p (so + 8 + ro + 8) := by
    rw [u32At_slice (by omega)]
  have hp : fieldPos k p so ro = some (so + 8 + ro + 8 + hop + k) :=
    fieldPos_of_valid hs hr (by rcases hk with rfl | rfl | rfl <;> omega) (by rw [← e0]; exact ht)
  have hpoke : poke k p so ro v = writeU32 p (so + 8 + ro + 8 + hop + k) v := by
    unfold poke; rw [hp]
  rw [hpoke]
  have eL : u32At (writeU32 p (so + 8 + ro + 8 + hop + k) v) (so + 8 + ro + 4)
      = u32At p (so + 8 + ro + 4) := u32At_writeU32_of_disjoint (by omega)
  have eS : u32At (writeU32 p (so + 8 + ro + 8 + hop + k) v) (so + 4) = u32At p (so + 4) :=
    u32At_writeU32_of_disjoint (by omega)
  refine ⟨?_, by rw [eS, length_writeU32]; exact hs, by rw [eL, length_writeU32]; exact hr⟩
  unfold gatewayAt
  rw [eL]
  apply ParseExtendedGateway_field h ht hk
  · rw [slice_length (by rw [length_writeU32]; exact hr), slice_length hr]
  · intro i hi
    apply byteAt_slice_congr (length_writeU32 ..) (by rw [length_writeU32]; exact hr)
    intro _
    exact byteAt_writeU32_of_ne (by omega)
  · rw [u32At_slice (by rcases hk with rfl | rfl | rfl <;> omega)]
    have e : so + 8 + ro + 8 + (hop + k) = so + 8 + ro + 8 + hop + k := by omega
    rw [e, u32At_writeU32 (by rcases hk with rfl | rfl | rfl <;> omega), Nat.mod_eq_of_lt hv]

/-- The gateway record at valid offsets after the writes of `applySrcRule`. -/
theorem gatewayAt_srcWrites {p : Bytes} {so ro v : Nat} {g : ExtendedGateway} (peer router : Bool)
    (h : gatewayAt p so ro = .ok g)
    (hs : so + 8 + u32At p (so + 4) ≤ p.length)
    (hr : so + 8 + ro + 8 + u32At p (so + 8 + ro + 4) ≤ p.length) (hv : v < 4294967296) :
    gatewayAt
        ((if router then fun q => poke 0 q so ro v else id)
          ((if peer then fun q => poke 8 q so ro v else id) (poke 4 p so ro v))) so ro =
      .ok { g with SrcAS := v, SrcPeerAS := if peer then v else g.SrcPeerAS,
                   AS := if router then v else g.AS } := by
  obtain ⟨h1, s1, r1⟩ := gatewayAt_poke (k := 4) h hs hr (by omega) hv
  simp only [show (4 : Nat) ≠ 0 by omega, show (4 : Nat) ≠ 8 by omega, if_false, if_true] at h1
  cases peer
  · cases router
    · simpa using h1
    · obtain ⟨h3, _, _⟩ := gatewayAt_poke (k := 0) h1 s1 r1 (by omega) hv
      simpa using h3
  · obtain ⟨h2, s2, r2⟩ := gatewayAt_poke (k := 8) h1 s1 r1 (by omega) hv
    simp only [show (8 : Nat) ≠ 0 by omega, show (8 : Nat) ≠ 4 by omega, if_false, if_true] at h2
    cases router
    · simpa using h2
    · obtain ⟨h3, _, _⟩ := gatewayAt_poke (k := 0) h2 s2 r2 (by omega) hv
      simpa using h3

theorem shouldApply_iff (rule : EnrichmentRule) (srcIP : Option Bytes) (eg : ExtendedGateway) :
    shouldApply rule srcIP eg = true ↔
      ∃ ip, srcIP = some ip ∧ rule.IPNet.Contains ip = true ∧
        (rule.Overwrite = true ∨ eg.SrcAS = rule.MatchAS) := by
  unfold shouldApply ipIn
  cases srcIP with
  | none => cases rule.Overwrite <;> simp
  | some ip => cases ho : rule.Overwrite <;> simp [and_comm]

theorem srcSide_of_none {srcIP : Option Bytes} {so ro : Nat} {eg : ExtendedGateway}
    {rules : List EnrichmentRule} (st : EnrichState)
    (h : ∀ q ∈ rules, shouldApply q srcIP eg = false) :
    srcSide srcIP so ro eg rules st = .ok st := by
  induction rules with
  | nil => rfl
  | cons r rest ih =>
    unfold srcSide
    rw [h r (List.mem_cons_self _ _)]
    simp only [Bool.false_eq_true, if_false]
    exact ih fun q hq => h q (List.mem_cons_of_mem _ hq)

theorem srcSide_of_first {srcIP : Option Bytes} {so ro : Nat} {eg : ExtendedGateway}
    {pre : List EnrichmentRule} {rule : EnrichmentRule} (post : List EnrichmentRule)
    (st : EnrichState) (h : ∀ q ∈ pre, shouldApply q srcIP eg = false)
    (hf : shouldApply rule srcIP eg = true) :
    srcSide srcIP so ro eg (pre ++ rule :: post) st = applySrcRule rule so ro eg st := by
  induction pre with
  | nil =>
    simp only [List.nil_append]
    unfold srcSide
    rw [hf]
    simp
  | cons r rest ih =>
    simp only [List.cons_append]
    unfold srcSide
    rw [h r (List.mem_cons_self _ _)]
    simp only [Bool.false_eq_true, if_false]
    exact ih fun q hq => h q (List.mem_cons_of_mem _ hq)

/-- Every rule list either has no firing rule or splits at its first one. -/
theorem first_split {α : Type} (f : α → Bool) (l : List α) :
    (∀ q ∈ l, f q = false) ∨
    ∃ pre x post, l = pre ++ x :: post ∧ (∀ q ∈ pre, f q = false) ∧ f x = true := by
  induction l with
  | nil => exact Or.inl (by simp)
  | cons a rest ih =>
    by_cases ha : f a = true
    · exact Or.inr ⟨[], a, rest, rfl, by simp, ha⟩
    · have ha' : f a = false := by simpa using ha
      rcases ih with h | ⟨pre, x, post, e, hp, hx⟩
      · left
        intro q hq
        rcases List.mem_cons.mp hq with rfl | hq
        · exact ha'
        · exact h q hq
      · right
        refine ⟨a :: pre, x, post, by rw [e]; rfl, ?_, hx⟩
        intro q hq
        rcases List.mem_cons.mp hq with rfl | hq
        · exact ha'
        · exact hp q hq

/-! ## `ModifyDstAS` and the destination side -/

theorem ModifyDstAS_cases (p : Bytes) (so ro v : Nat) :
    ModifyDstAS p so ro v = (p, false) ∨ (ModifyDstAS p so ro v).2 = true := by
  unfold ModifyDstAS
  simp only
  by_cases h1 : so + 8 > p.length
  · simp [h1]
  · by_cases h2 : so + 8 + u32At p (so + 4) > p.length
    · simp [h1, h2]
    · by_cases h3 : so + 8 + ro + 8 > p.length
      · simp [h1, h2, h3]
      · by_cases h4 : so + 8 + ro + 8 + u32At p (so + 8 + ro + 4) > p.length
        · simp [h1, h2, h3, h4]
        · by_cases h5 : so + 8 + ro + 8 + 4 > p.length
          · simp [h1, h2, h3, h4, h5]
          · by_cases t1 : u32At p (so + 8 + ro + 8) = 1
            · by_cases h6 : so + 8 + ro + 8 + 4 + 4 + 12 + 4 > p.length
              · simp [h1, h2, h3, h4, h5, t1, h6]
              · by_cases h7 : u32At p (so + 8 + ro + 8 + 4 + 4 + 12) = 0
                · simp [h1, h2, h3, h4, h5, t1, h6, h7]
                · simp [h1, h2, h3, h4, h5, t1, h6, h7]
            · by_cases t2 : u32At p (so + 8 + ro + 8) = 2
              · by_cases h6 : so + 8 + ro + 8 + 4 + 16 + 12 + 4 > p.length
                · simp [h1, h2, h3, h4, h5, t2, h6]
                · by_cases h7 : u32At p (so + 8 + ro + 8 + 4 + 16 + 12) = 0
                  · simp [h1, h2, h3, h4, h5, t2, h6, h7]
                  · simp [h1, h2, h3, h4, h5, t2, h6, h7]
              · simp [h1, h2, h3, h4, h5, t1, t2]

/-- When `ModifyDstAS` reports failure the buffer is the one it was given. -/
theorem ModifyDstAS_fst_of_fail {p : Bytes} {so ro v : Nat}
    (h : (ModifyDstAS p so ro v).2 = false) : (ModifyDstAS p so ro v).1 = p := by
  rcases ModifyDstAS_cases p so ro v with e | e
  · rw [e]
  · rw [e] at h; cases h

/-- What a successful `ModifyDstAS` checked and built. -/
theorem ModifyDstAS_ok_inv {p : Bytes} {so ro v : Nat} (h : (ModifyDstAS p so ro v).2 = true) :
    ∃ hop, ((u32At p (so + 8 + ro + 8) = 1 ∧ hop = 8) ∨ (u32At p (so + 8 + ro + 8) = 2 ∧ hop = 20)) ∧
      so + 8 + u32At p (so + 4) ≤ p.length ∧
      so + 8 + ro + 8 + u32At p (so + 8 + ro + 4) ≤ p.length ∧
      so + 8 + ro + 8 + hop + 12 + 4 ≤ p.length ∧
      u32At p (so + 8 + ro + 8 + hop + 12) = 0 ∧
      (ModifyDstAS p so ro v).1 =
        writeU32
          (writeU32
            (splice p (so + 8 + ro + 8 + hop + 12) 4
              (wordBytes 1 ++ wordBytes 2 ++ wordBytes 1 ++ wordBytes v))
            (so + 8 + ro + 4) (u32At p (so + 8 + ro + 4) + 12))
          (so + 4) (u32At p (so + 4) + 12) := by
  unfold ModifyDstAS at h ⊢
  simp only at h ⊢
  by_cases h1 : so + 8 > p.length
  · simp [h1] at h
  · by_cases h2 : so + 8 + u32At p (so + 4) > p.length
    · simp [h1, h2] at h
    · by_cases h3 : so + 8 + ro + 8 > p.length
      · simp [h1, h2, h3] at h
      · by_cases h4 : so + 8 + ro + 8 + u32At p (so + 8 + ro + 4) > p.length
        · simp [h1, h2, h3, h4] at h
        · by_cases h5 : so + 8 + ro + 8 + 4 > p.length
          · simp [h1, h2, h3, h4, h5] at h
          · by_cases t1 : u32At p (so + 8 + ro + 8) = 1
            · by_cases h6 : so + 8 + ro + 8 + 4 + 4 + 12 + 4 > p.length
              · simp [h1, h2, h3, h4, h5, t1, h6] at h
              · by_cases h7 : u32At p (so + 8 + ro + 8 + 4 + 4 + 12) = 0
                · refine ⟨8, Or.inl ⟨t1, rfl⟩, by omega, by omega, by omega, h7, ?_⟩
                  simp [h1, h2, h3, h4, h5, t1, h6, h7]
                · simp [h1, h2, h3, h4, h5, t1, h6, h7] at h
            · by_cases t2 : u32At p (so + 8 + ro + 8) = 2
              · by_cases h6 : so + 8 + ro + 8 + 4 + 16 + 12 + 4 > p.length
                · simp [h1, h2, h3, h4, h5, t2, h6] at h
                · by_cases h7 : u32At p (so + 8 + ro + 8 + 4 + 16 + 12) = 0
                  · refine ⟨20, Or.inr ⟨t2, rfl⟩, by omega, by omega, by omega, h7, ?_⟩
                    simp [h1, h2, h3, h4, h5, t2, h6, h7]
                  · simp [h1, h2, h3, h4, h5, t2, h6, h7] at h
              · simp [h1, h2, h3, h4, h5, t1, t2] at h

theorem routerStep_ok (eg : ExtendedGateway) (so ro v : Nat) (st2 : EnrichState)
    (hw : eg.AS = 0 → ¬ wraps st2.packet so ro) :
    ∃ st', (if eg.AS = 0 then
          (st2.inPlace .routerAS ModifyRouterAS so ro v).bind fun st3 =>
            .ok { st3 with enriched := true }
        else .ok st2) = Except.ok st' ∧
      st'.packet = (if eg.AS = 0 then fun q => poke 0 q so ro v else id) st2.packet ∧
      (st'.enriched = true ↔ (st2.enriched = true ∨ eg.AS = 0)) ∧
      ∃ rest, st'.calls = st2.calls ++ rest ∧
        (∀ x ∈ rest, x.op = .routerAS) ∧ (rest = [] ↔ eg.AS ≠ 0) := by
  by_cases ha : eg.AS = 0
  · obtain ⟨st3, e3, p3, n3, c3⟩ := inPlace_setASField st2 .routerAS 0 so ro v (hw ha)
    have e3' : st2.inPlace .routerAS ModifyRouterAS so ro v = .ok st3 := e3
    refine ⟨{ st3 with enriched := true }, by simp [ha, e3', Except.bind], ?_, by simp [ha],
      [⟨.routerAS, st2.packet, so, ro, v⟩], c3, by simp, by simp [ha]⟩
    simp only [ha, if_true]
    exact p3
  · exact ⟨st2, by simp [ha], by simp [ha], by simp [ha], [], by simp, by simp, by simp [ha]⟩

/-- Whenever `applyDstRule` returns after a `ModifyRouterAS` call, the call
was made at offsets that do not wrap. -/
theorem applyDstRule_ok_inv {rule : EnrichmentRule} {so ro : Nat} {eg : ExtendedGateway}
    {st st' : EnrichState} (h : applyDstRule rule so ro eg st = .ok st') (ha : eg.AS = 0) :
    ¬ wraps (ModifyDstAS st.packet so ro rule.SetAS).1 so ro := by
  unfold applyDstRule at h
  simp only [ha, if_true] at h
  cases h3 : EnrichState.inPlace
      (if (ModifyDstAS st.packet so ro rule.SetAS).2 then
        { st with calls := st.calls ++ [⟨.dstAS, st.packet, so, ro, rule.SetAS⟩],
                  resized := some (ModifyDstAS st.packet so ro rule.SetAS).1, enriched := true }
      else { st with calls := st.calls ++ [⟨.dstAS, st.packet, so, ro, rule.SetAS⟩] })
      .routerAS ModifyRouterAS so ro rule.SetAS with
  | error e =>
    have : (EnrichState.inPlace _ .routerAS ModifyRouterAS so ro rule.SetAS).bind
        (fun st3 => Except.ok { st3 with enriched := true }) = Except.ok st' := h
    rw [h3] at this
    cases this
  | ok st3 =>
    have h3' : EnrichState.inPlace
        (if (ModifyDstAS st.packet so ro rule.SetAS).2 then
          { st with calls := st.calls ++ [⟨.dstAS, st.packet, so, ro, rule.SetAS⟩],
                    resized := some (ModifyDstAS st.packet so ro rule.SetAS).1, enriched := true }
        else { st with calls := st.calls ++ [⟨.dstAS, st.packet, so, ro, rule.SetAS⟩] })
        .routerAS (setASField 0) so ro rule.SetAS = .ok st3 := h3
    have hw := (inPlace_ok_inv h3').1
    cases hok : (ModifyDstAS st.packet so ro rule.SetAS).2
    · rw [hok] at hw
      rw [ModifyDstAS_fst_of_fail hok]
      exact hw
    · rw [hok] at hw
      exact hw

/-- What `applyDstRule` does when its `ModifyRouterAS` call, if any, is made
at offsets that do not wrap: it returns, calls `ModifyDstAS` on the current
packet and keeps the buffer it returns, then calls `ModifyRouterAS` when the
parsed router AS is 0. -/
theorem applyDstRule_ok (rule : EnrichmentRule) (so ro : Nat) (eg : ExtendedGateway)
    (st : EnrichState)
    (hw : eg.AS = 0 → ¬ wraps (ModifyDstAS st.packet so ro rule.SetAS).1 so ro) :
    ∃ st', applyDstRule rule so ro eg st = .ok st' ∧
      st'.packet =
        (if eg.AS = 0 then fun q => poke 0 q so ro rule.SetAS else id)
          (ModifyDstAS st.packet so ro rule.SetAS).1 ∧
      (st'.enriched = true ↔
        (st.enriched = true ∨ (ModifyDstAS st.packet so ro rule.SetAS).2 = true ∨ eg.AS = 0)) ∧
      ∃ rest, st'.calls = st.calls ++ ⟨.dstAS, st.packet, so, ro, rule.SetAS⟩ :: rest ∧
        (∀ x ∈ rest, x.op = .routerAS) ∧ (rest = [] ↔ eg.AS ≠ 0) := by
  have key : ∀ st2 : EnrichState, st2.packet = (ModifyDstAS st.packet so ro rule.SetAS).1 →
      (st2.enriched = true ↔
        (st.enriched = true ∨ (ModifyDstAS st.packet so ro rule.SetAS).2 = true)) →
      st2.calls = st.calls ++ [⟨.dstAS, st.packet, so, ro, rule.SetAS⟩] →
      ∃ st', (if eg.AS = 0 then
          (st2.inPlace .routerAS ModifyRouterAS so ro rule.SetAS).bind fun st3 =>
            .ok { st3 with enriched := true }
        else .ok st2) = Except.ok st' ∧
      st'.packet =
        (if eg.AS = 0 then fun q => poke 0 q so ro rule.SetAS else id)
          (ModifyDstAS st.packet so ro rule.SetAS).1 ∧
      (st'.enriched = true ↔
        (st.enriched = true ∨ (ModifyDstAS st.packet so ro rule.SetAS).2 = true ∨ eg.AS = 0)) ∧
      ∃ rest, st'.calls = st.calls ++ ⟨.dstAS, st.packet, so, ro, rule.SetAS⟩ :: rest ∧
        (∀ x ∈ rest, x.op = .routerAS) ∧ (rest = [] ↔ eg.AS ≠ 0) := by
    intro st2 hp he hc
    obtain ⟨st', e, p, n, rest, c, hr, hn⟩ := routerStep_ok eg so ro rule.SetAS st2
      (by rw [hp]; exact hw)
    refine ⟨st', e, by rw [p, hp], by rw [n, he, or_assoc], rest, ?_, hr, hn⟩
    rw [c, hc]
    simp
  unfold applyDstRule
  simp only
  cases hok : (ModifyDstAS st.packet so ro rule.SetAS).2
  · have hfst := ModifyDstAS_fst_of_fail hok
    have := key { st with calls := st.calls ++ [⟨.dstAS, st.packet, so, ro, rule.SetAS⟩] }
      (by rw [hfst]; rfl) (by simp [hok]) rfl
    simpa [hok] using this
  · have := key { st with calls := st.calls ++ [⟨.dstAS, st.packet, so, ro, rule.SetAS⟩],
                          resized := some (ModifyDstAS st.packet so ro rule.SetAS).1,
                          enriched := true } rfl (by simp [hok]) rfl
    simpa [hok] using this

theorem dstSide_of_none {dstIP : Option Bytes} {so ro : Nat} {eg : ExtendedGateway}
    {rules : List EnrichmentRule} (st : EnrichState)
    (h : ∀ q ∈ rules, ipIn dstIP q.IPNet = false) :
    dstSide dstIP so ro eg rules st = .ok st := by
  induction rules with
  | nil => rfl
  | cons r rest ih =>
    unfold dstSide
    rw [h r (List.mem_cons_self _ _)]
    simp only [Bool.false_eq_true, if_false]
    exact ih fun q hq => h q (List.mem_cons_of_mem _ hq)

theorem dstSide_of_first {dstIP : Option Bytes} {so ro : Nat} {eg : ExtendedGateway}
    {pre : List EnrichmentRule} {rule : EnrichmentRule} (post : List EnrichmentRule)
    (st : EnrichState) (h : ∀ q ∈ pre, ipIn dstIP q.IPNet = false)
    (hf : ipIn dstIP rule.IPNet = true) :
    dstSide dstIP so ro eg (pre ++ rule :: post) st = applyDstRule rule so ro eg st := by
  induction pre with
  | nil =>
    simp only [List.nil_append]
    unfold dstSide
    rw [hf]
    simp
  | cons r rest ih =>
    simp only [List.cons_append]
    unfold dstSide
    rw [h r (List.mem_cons_self _ _)]
    simp only [Bool.false_eq_true, if_false]
    exact ih fun q hq => h q (List.mem_cons_of_mem _ hq)

/-- Whenever the source side returns, it has made no `ModifyDstAS` call and
has left in the packet the writes of the first rule that fires. -/
theorem srcSide_ok_inv {srcIP : Option Bytes} {so ro : Nat} {eg : ExtendedGateway}
    {rules : List EnrichmentRule} {st st1 : EnrichState}
    (h : srcSide srcIP so ro eg rules st = .ok st1) :
    st1.calls.filter (fun c => c.op = .dstAS) = st.calls.filter (fun c => c.op = .dstAS) ∧
    st1.packet = (match rules.find? (fun r => shouldApply r srcIP eg) with
      | none => st.packet
      | some rule =>
        (if eg.AS = 0 then fun p => poke 0 p so ro rule.SetAS else id)
          ((if eg.SrcPeerAS = 0 then fun p => poke 8 p so ro rule.SetAS else id)
            (poke 4 st.packet so ro rule.SetAS))) := by
  induction rules with
  | nil =>
    simp only [srcSide] at h
    injection h with h
    subst h
    exact ⟨rfl, rfl⟩
  | cons r rest ih =>
    unfold srcSide at h
    by_cases hf : shouldApply r srcIP eg = true
    · simp only [hf, if_true] at h
      obtain ⟨st', e, _, hpk, _, c, tl, hc, hceq, htl⟩ :=
        applySrcRule_ok r so ro eg st (applySrcRule_ok_inv h)
      rw [h] at e
      injection e with e
      subst e
      refine ⟨?_, by simp [List.find?, hf, hpk]⟩
      rw [hc, hceq, List.filter_append, List.filter_cons]
      have hr : tl.filter (fun c => decide (c.op = Mutator.dstAS)) = [] := by
        rw [List.filter_eq_nil_iff]
        intro x hx
        simpa using (htl x hx).2
      simp [hr]
    · simp only [hf] at h
      obtain ⟨hc, hpk⟩ := ih h
      have hf' : shouldApply r srcIP eg = false := by simpa using hf
      exact ⟨hc, by simp [List.find?, hf', hpk]⟩

/-- At offsets that do not wrap the source side returns; it never calls
`ModifyDstAS`. -/
theorem srcSide_ok (srcIP : Option Bytes) (so ro : Nat) (eg : ExtendedGateway)
    (rules : List EnrichmentRule) (st : EnrichState) (hw : ¬ wraps st.packet so ro) :
    ∃ st1, srcSide srcIP so ro eg rules st = .ok st1 ∧
      st1.calls.filter (fun c => c.op = .dstAS) = st.calls.filter (fun c => c.op = .dstAS) ∧
      st1.packet = (match rules.find? (fun r => shouldApply r srcIP eg) with
        | none => st.packet
        | some rule =>
          (if eg.AS = 0 then fun p => poke 0 p so ro rule.SetAS else id)
            ((if eg.SrcPeerAS = 0 then fun p => poke 8 p so ro rule.SetAS else id)
              (poke 4 st.packet so ro rule.SetAS))) := by
  have hex : ∃ st1, srcSide srcIP so ro eg rules st = .ok st1 := by
    induction rules with
    | nil => exact ⟨st, rfl⟩
    | cons r rest ih =>
      unfold srcSide
      by_cases hf : shouldApply r srcIP eg = true
      · obtain ⟨st', e, _⟩ := applySrcRule_ok r so ro eg st hw
        exact ⟨st', by simp [hf, e]⟩
      · obtain ⟨st1, e⟩ := ih
        exact ⟨st1, by simp [hf, e]⟩
  obtain ⟨st1, e⟩ := hex
  exact ⟨st1, e, srcSide_ok_inv e⟩

theorem wordLoop_ok (data : Bytes) (n off : Nat) (acc : List Nat) :
    ∃ r, wordLoop data n off acc = .ok r := by
  induction n generalizing off acc with
  | zero => exact ⟨_, rfl⟩
  | succ n ih =>
    unfold wordLoop
    split
    · rename_i hb
      rw [Uint32_ok hb]
      exact ih _ _
    · exact ⟨_, rfl⟩

theorem segmentLoop_ok (data : Bytes) (n off : Nat) (acc : List Nat) :
    ∃ r, segmentLoop data n off acc = .ok r := by
  induction n generalizing off acc with
  | zero => exact ⟨_, rfl⟩
  | succ n ih =>
    unfold segmentLoop
    split
    · rename_i hb
      rw [Uint32_ok (show off + 4 ≤ data.length by omega),
        Uint32_ok (show off + 4 + 4 ≤ data.length by omega)]
      simp only [Except.bind]
      obtain ⟨r, hr⟩ := wordLoop_ok data (u32At data (off + 4)) (off + 8) acc
      rw [hr]
      exact ih _ _
    · exact ⟨_, rfl⟩

/-- The tail of `ParseExtendedGateway` never fails and never panics. -/
theorem gatewayTail_ok (data : Bytes) (off : Nat) : ∃ t, gatewayTail data off = .ok t := by
  unfold gatewayTail
  have key : ∀ path : Nat × List Nat × Nat,
      ∃ t, ((if path.2.2 + 4 ≤ data.length then
          (Uint32 data path.2.2).bind fun commLen =>
          (wordLoop data commLen (path.2.2 + 4) []).bind fun r => .ok (commLen, r.2, r.1)
        else .ok (0, [], path.2.2)).bind fun (comm : Nat × List Nat × Nat) =>
      (if comm.2.2 + 4 ≤ data.length then Uint32 data comm.2.2 else .ok 0).bind fun localPref =>
      (.ok (path.1, path.2.1, comm.1, comm.2.1, localPref) :
        Except Fault (Nat × List Nat × Nat × List Nat × Nat))) = .ok t := by
    intro path
    have last : ∀ comm : Nat × List Nat × Nat,
        ∃ t, ((if comm.2.2 + 4 ≤ data.length then Uint32 data comm.2.2 else .ok 0).bind
          fun localPref =>
          (.ok (path.1, path.2.1, comm.1, comm.2.1, localPref) :
            Except Fault (Nat × List Nat × Nat × List Nat × Nat))) = .ok t := by
      intro comm
      split
      · rename_i hb
        rw [Uint32_ok hb]
        exact ⟨_, rfl⟩
      · exact ⟨_, rfl⟩
    split
    · rename_i hb
      rw [Uint32_ok hb]
      simp only [Except.bind]
      obtain ⟨r, hr⟩ := wordLoop_ok data (u32At data path.2.2) (path.2.2 + 4) []
      rw [hr]
      exact last _
    · exact last _
  split
  · rename_i hb
    rw [Uint32_ok hb]
    simp only [Except.bind]
    obtain ⟨r, hr⟩ := segmentLoop_ok data (u32At data off) (off + 4) []
    rw [hr]
    exact key _
  · exact key _

/-- The fields a successful `ParseExtendedGateway` read from the fixed prefix. -/
theorem ParseExtendedGateway_ok_fields {data : Bytes} {g : ExtendedGateway}
    (h : ParseExtendedGateway data = .ok g) :
    ∃ hop, ((u32At data 0 = 1 ∧ hop = 8) ∨ (u32At data 0 = 2 ∧ hop = 20)) ∧
      hop + 12 ≤ data.length ∧ g.NextHopType = u32At data 0 ∧ g.NextHop = slice data 4 hop ∧
      g.AS = u32At data hop ∧ g.SrcAS = u32At data (hop + 4) ∧
      g.SrcPeerAS = u32At data (hop + 8) := by
  obtain ⟨hop, ht, hlen⟩ := ParseExtendedGateway_ok_inv h
  rw [ParseExtendedGateway_eq ht hlen] at h
  obtain ⟨t, e⟩ := gatewayTail_ok data (hop + 12)
  rw [e] at h
  simp only [Except.bind] at h
  injection h with h
  subst h
  exact ⟨hop, ht, hlen, rfl, rfl, rfl, rfl, rfl⟩

/-- A payload with next-hop type 1 or 2 and a complete fixed prefix parses, and
the three AS fields are the words after the next hop. -/
theorem ParseExtendedGateway_ok_of_fixed {data : Bytes} {hop : Nat}
    (ht : (u32At data 0 = 1 ∧ hop = 8) ∨ (u32At data 0 = 2 ∧ hop = 20))
    (hlen : hop + 12 ≤ data.length) :
    ∃ g, ParseExtendedGateway data = .ok g ∧ g.AS = u32At data hop ∧
      g.SrcAS = u32At data (hop + 4) ∧ g.SrcPeerAS = u32At data (hop + 8) := by
  rw [ParseExtendedGateway_eq ht hlen]
  obtain ⟨t, e⟩ := gatewayTail_ok data (hop + 12)
  rw [e]
  exact ⟨_, rfl, rfl, rfl, rfl⟩

theorem length_splice {p : Bytes} {off cnt : Nat} {ins : Bytes} (h : off + cnt ≤ p.length) :
    (splice p off cnt ins).length = p.length - cnt + ins.length := by
  simp [splice]
  omega

theorem byteAt_splice_lt {p : Bytes} {off cnt i : Nat} {ins : Bytes} (h : i < off)
    (ho : off ≤ p.length) : byteAt (splice p off cnt ins) i = byteAt p i := by
  have h1 : i < (List.take off p).length := by simp; omega
  simp only [byteAt, splice, List.getD_eq_getElem?_getD, List.append_assoc]
  rw [List.getElem?_append_left h1, List.getElem?_take_of_lt h]

theorem length_wordBytes (v : Nat) : (wordBytes v).length = 4 := rfl

/-- `ModifyDstAS` leaves the router AS, the source AS and the source peer AS of
the record it is pointed at as they were. -/
theorem gatewayAt_ModifyDstAS {p : Bytes} {so ro : Nat} (v : Nat) {eg : ExtendedGateway}
    (h : gatewayAt p so ro = .ok eg) (hl : p.length ≤ 65535) :
    ∃ g', gatewayAt (ModifyDstAS p so ro v).1 so ro = .ok g' ∧ g'.AS = eg.AS ∧
      g'.SrcAS = eg.SrcAS ∧ g'.SrcPeerAS = eg.SrcPeerAS := by
  rcases ModifyDstAS_cases p so ro v with e | e
  · rw [e]
    exact ⟨eg, h, rfl, rfl, rfl⟩
  · obtain ⟨hop, ht, hs, hr, hpl, _, hout⟩ := ModifyDstAS_ok_inv e
    rw [hout]
    unfold gatewayAt at h ⊢
    obtain ⟨hop', ht', hlen', _, _, hAS, hSrc, hPeer⟩ := ParseExtendedGateway_ok_fields h
    rw [slice_length hr] at hlen'
    have hL : hop' + 12 ≤ u32At p (so + 8 + ro + 4) := by omega
    rw [u32At_slice (by omega)] at ht'
    have hh : hop' = hop := by
      rcases ht with ⟨t, rfl⟩ | ⟨t, rfl⟩ <;> rcases ht' with ⟨t', rfl⟩ | ⟨t', rfl⟩ <;>
        simp only [Nat.add_zero] at t' <;> omega
    subst hh
    have hop8 : 8 ≤ hop' := by rcases ht with ⟨_, rfl⟩ | ⟨_, rfl⟩ <;> omega
    rw [u32At_slice (by omega)] at hAS hSrc hPeer
    have hSlen : (splice p (so + 8 + ro + 8 + hop' + 12) 4
        (wordBytes 1 ++ wordBytes 2 ++ wordBytes 1 ++ wordBytes v)).length = p.length + 12 := by
      rw [length_splice (by omega)]
      simp [length_wordBytes]
      omega
    have hOlen : (writeU32 (writeU32 (splice p (so + 8 + ro + 8 + hop' + 12) 4
        (wordBytes 1 ++ wordBytes 2 ++ wordBytes 1 ++ wordBytes v)) (so + 8 + ro + 4)
        (u32At p (so + 8 + ro + 4) + 12)) (so + 4) (u32At p (so + 4) + 12)).length
        = p.length + 12 := by
      rw [length_writeU32, length_writeU32, hSlen]
    have hLen' : u32At (writeU32 (writeU32 (splice p (so + 8 + ro + 8 + hop' + 12) 4
        (wordBytes 1 ++ wordBytes 2 ++ wordBytes 1 ++ wordBytes v)) (so + 8 + ro + 4)
        (u32At p (so + 8 + ro + 4) + 12)) (so + 4) (u32At p (so + 4) + 12)) (so + 8 + ro + 4)
        = u32At p (so + 8 + ro + 4) + 12 := by
      rw [u32At_writeU32_of_disjoint (by omega), u32At_writeU32 (by rw [hSlen]; omega)]
      apply Nat.mod_eq_of_lt
      omega
    have hpre : ∀ x, x + 4 ≤ hop' + 12 →
        u32At (slice (writeU32 (writeU32 (splice p (so + 8 + ro + 8 + hop' + 12) 4
          (wordBytes 1 ++ wordBytes 2 ++ wordBytes 1 ++ wordBytes v)) (so + 8 + ro + 4)
          (u32At p (so + 8 + ro + 4) + 12)) (so + 4) (u32At p (so + 4) + 12))
          (so + 8 + ro + 8) (so + 8 + ro + 8 + (u32At p (so + 8 + ro + 4) + 12))) x
        = u32At p (so + 8 + ro + 8 + x) := by
      intro x hx
      rw [u32At_slice (by omega)]
      apply u32At_congr
      intro i hi1 hi2
      rw [byteAt_writeU32_of_ne (by omega), byteAt_writeU32_of_ne (by omega),
        byteAt_splice_lt (by omega) (by omega)]
    rw [hLen']
    obtain ⟨g', hg, gAS, gSrc, gPeer⟩ := @ParseExtendedGateway_ok_of_fixed
      (slice (writeU32 (writeU32 (splice p (so + 8 + ro + 8 + hop' + 12) 4
          (wordBytes 1 ++ wordBytes 2 ++ wordBytes 1 ++ wordBytes v)) (so + 8 + ro + 4)
          (u32At p (so + 8 + ro + 4) + 12)) (so + 4) (u32At p (so + 4) + 12))
          (so + 8 + ro + 8) (so + 8 + ro + 8 + (u32At p (so + 8 + ro + 4) + 12))) hop'
      (by rw [hpre 0 (by omega)]; exact ht)
      (by rw [slice_length (by rw [hOlen]; omega)]; omega)
    refine ⟨g', hg, ?_, ?_, ?_⟩
    · rw [gAS, hpre _ (by omega), hAS]
    · rw [gSrc, hpre _ (by omega), hSrc]
    · rw [gPeer, hpre _ (by omega), hPeer]

theorem ipIn_iff (ip : Option Bytes) (n : IPNet) :
    ipIn ip n = true ↔ ∃ a, ip = some a ∧ n.Contains a = true := by
  cases ip <;> simp [ipIn]

/-- The gateway record at valid offsets keeps its destination AS path through
the source side. -/
theorem gatewayAt_srcSide {srcIP : Option Bytes} {so ro : Nat} {eg g : ExtendedGateway}
    {rules : List EnrichmentRule} {st st1 : EnrichState}
    (h1 : srcSide srcIP so ro eg rules st = .ok st1) (hg : gatewayAt st.packet so ro = .ok g)
    (hs : so + 8 + u32At st.packet (so + 4) ≤ st.packet.length)
    (hr : so + 8 + ro + 8 + u32At st.packet (so + 8 + ro + 4) ≤ st.packet.length)
    (hv : ∀ q ∈ rules, q.SetAS < 4294967296) :
    ∃ g', gatewayAt st1.packet so ro = .ok g' ∧ g'.DstASPathLen = g.DstASPathLen ∧
      g'.DstASPath = g.DstASPath := by
  obtain ⟨_, hpk⟩ := srcSide_ok_inv h1
  rw [hpk]
  cases hf : rules.find? (fun r => shouldApply r srcIP eg) with
  | none => exact ⟨g, hg, rfl, rfl⟩
  | some rule =>
    have hmem : rule ∈ rules := List.mem_of_find?_eq_some hf
    have := gatewayAt_srcWrites (decide (eg.SrcPeerAS = 0)) (decide (eg.AS = 0)) hg hs hr
      (hv rule hmem)
    refine ⟨{ g with SrcAS := rule.SetAS,
                     SrcPeerAS := if decide (eg.SrcPeerAS = 0) then rule.SetAS else g.SrcPeerAS,
                     AS := if decide (eg.AS = 0) then rule.SetAS else g.AS }, ?_, rfl, rfl⟩
    simp only
    rw [← this]
    simp

/-! ## The tag+length walk -/

/-- What `tlv` recorded about each element it returned. -/
theorem tlv_mem {data : Bytes} {n off : Nat} {x : Sample} (h : x ∈ tlv data n off) :
    off ≤ x.Offset ∧ x.Offset + 8 + x.Length ≤ data.length ∧
    x.Length = u32At data (x.Offset + 4) ∧
    x.Data = slice data (x.Offset + 8) (x.Offset + 8 + x.Length) ∧
    x.Enterprise = u32At data x.Offset >>> 12 ∧ x.Format = u32At data x.Offset &&& 0xFFF := by
  induction n generalizing off with
  | zero => simp [tlv] at h
  | succ n ih =>
    unfold tlv at h
    split at h
    · rename_i hc
      rcases List.mem_cons.mp h with rfl | h
      · exact ⟨Nat.le_refl _, hc.2, rfl, rfl, rfl, rfl⟩
      · have := ih h
        exact ⟨by omega, this.2⟩
    · simp at h

/-- Two buffers that differ only inside the payload of one element of the walk
(or before the walk starts) give walks with the same tags, lengths and
offsets. -/
theorem tlv_header_congr {a b : Bytes} {lo hi : Nat} (hl : b.length = a.length)
    (hag : ∀ i, i < lo ∨ hi ≤ i → byteAt b i = byteAt a i) (n : Nat) {off : Nat}
    (hw : hi ≤ off ∨ ∃ x ∈ tlv a n off, x.Offset + 8 ≤ lo ∧ hi ≤ x.Offset + 8 + x.Length) :
    (tlv b n off).map Sample.header = (tlv a n off).map Sample.header := by
  induction n generalizing off with
  | zero => simp [tlv]
  | succ n ih =>
    have hhead : ∀ i, off ≤ i → i < off + 8 → byteAt b i = byteAt a i := by
      intro i h1 h2
      apply hag
      rcases hw with hw | ⟨x, hx, h3, _⟩
      · right; omega
      · have := (tlv_mem hx).1
        left; omega
    have e0 : u32At b off = u32At a off := u32At_congr fun i h1 h2 => hhead i h1 (by omega)
    have e4 : u32At b (off + 4) = u32At a (off + 4) :=
      u32At_congr fun i h1 h2 => hhead i (by omega) (by omega)
    unfold tlv
    rw [hl, e0, e4]
    split
    · rename_i hc
      simp only [List.map_cons, Sample.header]
      congr 1
      apply ih
      rcases hw with hw | ⟨x, hx, h3, h4⟩
      · left; omega
      · unfold tlv at hx
        rw [if_pos hc] at hx
        rcases List.mem_cons.mp hx with rfl | hx
        · left; exact h4
        · right; exact ⟨x, hx, h3, h4⟩
    · rfl

/-! ### `ParseFlowSample` case by case -/

theorem ParseFlowSample_short {data : Bytes} {expanded : Bool} (h : data.length < 32) :
    ParseFlowSample data expanded = .error (.error .flowSampleTooShort) := by
  simp [ParseFlowSample, h]

theorem ParseFlowSample_compact {data : Bytes} (h : 32 ≤ data.length) :
    ParseFlowSample data false =
      .ok { SequenceNum := u32At data 0, SourceIDType := u32At data 4 >>> 24,
            SourceIDIndex := u32At data 4 &&& 0x00FFFFFF, SamplingRate := u32At data 8,
            SamplePool := u32At data 12, Drops := u32At data 16, Input := u32At data 20,
            Output := u32At data 24, NumRecords := u32At data 28,
            Records := tlv data (u32At data 28) 32 } := by
  have h' : ¬ data.length < 32 := by omega
  simp [ParseFlowSample, h', Uint32_ok (show 0 + 4 ≤ data.length by omega),
    Uint32_ok (show 4 + 4 ≤ data.length by omega), Uint32_ok (show 8 + 4 ≤ data.length by omega),
    Uint32_ok (show 12 + 4 ≤ data.length by omega), Uint32_ok (show 16 + 4 ≤ data.length by omega),
    Uint32_ok (show 20 + 4 ≤ data.length by omega), Uint32_ok (show 24 + 4 ≤ data.length by omega),
    Uint32_ok (show 28 + 4 ≤ data.length by omega), Except.bind, tlvLoop_eq]

theorem ParseFlowSample_expanded {data : Bytes} (h : 44 ≤ data.length) :
    ParseFlowSample data true =
      .ok { SequenceNum := u32At data 0, SourceIDType := u32At data 4,
            SourceIDIndex := u32At data 8, SamplingRate := u32At data 12,
            SamplePool := u32At data 16, Drops := u32At data 20, Input := u32At data 24,
            Output := u32At data 32, NumRecords := u32At data 40,
            Records := tlv data (u32At data 40) 44 } := by
  have h' : ¬ data.length < 32 := by omega
  simp [ParseFlowSample, h', Uint32_ok (show 0 + 4 ≤ data.length by omega),
    Uint32_ok (show 4 + 4 ≤ data.length by omega), Uint32_ok (show 8 + 4 ≤ data.length by omega),
    Uint32_ok (show 12 + 4 ≤ data.length by omega), Uint32_ok (show 16 + 4 ≤ data.length by omega),
    Uint32_ok (show 20 + 4 ≤ data.length by omega), Uint32_ok (show 24 + 4 ≤ data.length by omega),
    Uint32_ok (show 32 + 4 ≤ data.length by omega), Uint32_ok (show 40 + 4 ≤ data.length by omega),
    Except.bind, tlvLoop_eq]

theorem ParseFlowSample_expanded_short {data : Bytes} (h : 32 ≤ data.length)
    (hs : data.length < 44) : ParseFlowSample data true = .error .panic := by
  have h' : ¬ data.length < 32 := by omega
  by_cases ha : 32 + 4 ≤ data.length
  · simp [ParseFlowSample, h', Uint32_ok (show 0 + 4 ≤ data.length by omega),
      Uint32_ok (show 4 + 4 ≤ data.length by omega), Uint32_ok (show 8 + 4 ≤ data.length by omega),
      Uint32_ok (show 12 + 4 ≤ data.length by omega),
      Uint32_ok (show 16 + 4 ≤ data.length by omega),
      Uint32_ok (show 20 + 4 ≤ data.length by omega),
      Uint32_ok (show 24 + 4 ≤ data.length by omega), Uint32_ok ha,
      Uint32_panic (show data.length < 40 + 4 by omega), Except.bind]
  · simp [ParseFlowSample, h', Uint32_ok (show 0 + 4 ≤ data.length by omega),
      Uint32_ok (show 4 + 4 ≤ data.length by omega), Uint32_ok (show 8 + 4 ≤ data.length by omega),
      Uint32_ok (show 12 + 4 ≤ data.length by omega),
      Uint32_ok (show 16 + 4 ≤ data.length by omega),
      Uint32_ok (show 20 + 4 ≤ data.length by omega),
      Uint32_ok (show 24 + 4 ≤ data.length by omega),
      Uint32_panic (show data.length < 32 + 4 by omega), Except.bind]

/-- What a successful `ParseFlowSample` saw: the header is complete and the
records are the walk that starts right after it. -/
theorem ParseFlowSample_ok_inv {data : Bytes} {expanded : Bool} {fs : FlowSample}
    (h : ParseFlowSample data expanded = .ok fs) :
    ∃ hdr, ((expanded = false ∧ hdr = 32) ∨ (expanded = true ∧ hdr = 44)) ∧
      hdr ≤ data.length ∧ fs.Records = tlv data (u32At data (hdr - 4)) hdr := by
  by_cases hl : data.length < 32
  · rw [ParseFlowSample_short hl] at h; cases h
  · cases expanded
    · rw [ParseFlowSample_compact (by omega)] at h
      injection h with h
      subst h
      exact ⟨32, Or.inl ⟨rfl, rfl⟩, by omega, rfl⟩
    · by_cases h44 : 44 ≤ data.length
      · rw [ParseFlowSample_expanded h44] at h
        injection h with h
        subst h
        exact ⟨44, Or.inr ⟨rfl, rfl⟩, h44, rfl⟩
      · rw [ParseFlowSample_expanded_short (by omega) (by omega)] at h; cases h

/-! ## Parsing a buffer again after a write inside one record -/

/-- A write inside the payload of one parsed sample leaves the header and the
tags, lengths and offsets of the samples as `Parse` sees them. -/
theorem Parse_congr {a b : Bytes} {lo hi : Nat} {d : Datagram} {s : Sample}
    (h : Parse a = .ok d) (hs : s ∈ d.Samples) (hlo : s.Offset + 8 ≤ lo)
    (hl : b.length = a.length) (hag : ∀ i, i < lo ∨ hi ≤ i → byteAt b i = byteAt a i)
    (hhi : hi ≤ s.Offset + 8 + s.Length) :
    ∃ d', Parse b = .ok d' ∧ { d' with Samples := d.Samples, Raw := d.Raw } = d ∧
      d'.Samples.map Sample.header = d.Samples.map Sample.header := by
  obtain ⟨hv, hcase⟩ := Parse_ok_inv h
  rcases hcase with ⟨ht, hlen, hsam⟩ | ⟨ht, hlen, hsam⟩
  · rw [hsam] at hs
    have hoff := (tlv_mem hs).1
    have e : ∀ x, x + 4 ≤ 28 → u32At b x = u32At a x :=
      fun x hx => u32At_congr fun i _ _ => hag i (by omega)
    rw [Parse_ipv4 hlen hv ht] at h
    injection h with h
    subst h
    refine ⟨_, Parse_ipv4 (by omega) (by rw [e 0 (by omega)]; exact hv)
      (by rw [e 4 (by omega)]; exact ht), ?_, ?_⟩
    · simp only [e 12 (by omega), e 16 (by omega), e 20 (by omega), e 24 (by omega),
        @slice_congr b a 8 12 hl (fun i _ _ => hag i (by omega))]
    · simp only [e 24 (by omega)]
      exact tlv_header_congr hl hag _ (Or.inr ⟨s, hs, hlo, hhi⟩)
  · rw [hsam] at hs
    have hoff := (tlv_mem hs).1
    have e : ∀ x, x + 4 ≤ 40 → u32At b x = u32At a x :=
      fun x hx => u32At_congr fun i _ _ => hag i (by omega)
    rw [Parse_ipv6 hlen hv ht] at h
    injection h with h
    subst h
    refine ⟨_, Parse_ipv6 (by omega) (by rw [e 0 (by omega)]; exact hv)
      (by rw [e 4 (by omega)]; exact ht), ?_, ?_⟩
    · simp only [e 24 (by omega), e 28 (by omega), e 32 (by omega), e 36 (by omega),
        @slice_congr b a 8 24 hl (fun i _ _ => hag i (by omega))]
    · simp only [e 36 (by omega)]
      exact tlv_header_congr hl hag _ (Or.inr ⟨s, hs, hlo, hhi⟩)

/-- A write inside the payload of one parsed record leaves the header of the
flow sample and the tags, lengths and offsets of its records as
`ParseFlowSample` sees them. -/
theorem ParseFlowSample_congr {a b : Bytes} {lo hi : Nat} {expanded : Bool} {fs : FlowSample}
    {r : FlowRecord} (h : ParseFlowSample a expanded = .ok fs) (hr : r ∈ fs.Records)
    (hlo : r.Offset + 8 ≤ lo) (hl : b.length = a.length)
    (hag : ∀ i, i < lo ∨ hi ≤ i → byteAt b i = byteAt a i)
    (hhi : hi ≤ r.Offset + 8 + r.Length) :
    ∃ fs', ParseFlowSample b expanded = .ok fs' ∧ { fs' with Records := fs.Records } = fs ∧
      fs'.Records.map Sample.header = fs.Records.map Sample.header := by
  obtain ⟨hdr, hcase, hlen, hrec⟩ := ParseFlowSample_ok_inv h
  rw [hrec] at hr
  have hoff := (tlv_mem hr).1
  rcases hcase with ⟨rfl, rfl⟩ | ⟨rfl, rfl⟩
  · have e : ∀ x, x + 4 ≤ 32 → u32At b x = u32At a x :=
      fun x hx => u32At_congr fun i _ _ => hag i (by omega)
    rw [ParseFlowSample_compact hlen] at h
    injection h with h
    subst h
    refine ⟨_, ParseFlowSample_compact (by omega), ?_, ?_⟩
    · simp only [e 0 (by omega), e 4 (by omega), e 8 (by omega), e 12 (by omega),
        e 16 (by omega), e 20 (by omega), e 24 (by omega), e 28 (by omega)]
    · simp only [e 28 (by omega)]
      exact tlv_header_congr hl hag _ (Or.inr ⟨r, hr, hlo, hhi⟩)
  · have e : ∀ x, x + 4 ≤ 44 → u32At b x = u32At a x :=
      fun x hx => u32At_congr fun i _ _ => hag i (by omega)
    rw [ParseFlowSample_expanded hlen] at h
    injection h with h
    subst h
    refine ⟨_, ParseFlowSample_expanded (by omega), ?_, ?_⟩
    · simp only [e 0 (by omega), e 4 (by omega), e 8 (by omega), e 12 (by omega),
        e 16 (by omega), e 20 (by omega), e 24 (by omega), e 32 (by omega), e 40 (by omega)]
    · simp only [e 40 (by omega)]
      exact tlv_header_congr hl hag _ (Or.inr ⟨r, hr, hlo, hhi⟩)

theorem Parse_samples_mem {data : Bytes} {d : Datagram} {s : Sample} (h : Parse data = .ok d)
    (hs : s ∈ d.Samples) :
    28 ≤ s.Offset ∧ s.Offset + 8 + s.Length ≤ data.length ∧
    s.Length = u32At data (s.Offset + 4) ∧
    s.Data = slice data (s.Offset + 8) (s.Offset + 8 + s.Length) ∧
    s.Enterprise = u32At data s.Offset >>> 12 ∧ s.Format = u32At data s.Offset &&& 0xFFF := by
  obtain ⟨_, hcase⟩ := Parse_ok_inv h
  rcases hcase with ⟨_, _, hsam⟩ | ⟨_, _, hsam⟩
  · rw [hsam] at hs
    exact tlv_mem hs
  · rw [hsam] at hs
    have := tlv_mem hs
    exact ⟨by omega, this.2⟩

theorem ParseFlowSample_records_mem {data : Bytes} {expanded : Bool} {fs : FlowSample}
    {r : FlowRecord} (h : ParseFlowSample data expanded = .ok fs) (hr : r ∈ fs.Records) :
    32 ≤ r.Offset ∧ r.Offset + 8 + r.Length ≤ data.length ∧
    r.Length = u32At data (r.Offset + 4) ∧
    r.Data = slice data (r.Offset + 8) (r.Offset + 8 + r.Length) ∧
    r.Enterprise = u32At data r.Offset >>> 12 ∧ r.Format = u32At data r.Offset &&& 0xFFF := by
  obtain ⟨hdr, hcase, _, hrec⟩ := ParseFlowSample_ok_inv h
  rw [hrec] at hr
  have := tlv_mem hr
  rcases hcase with ⟨_, rfl⟩ | ⟨_, rfl⟩
  · exact this
  · exact ⟨by omega, this.2⟩

theorem exists_mem_of_map_header {l l' : List Sample} {x : Sample}
    (h : l'.map Sample.header = l.map Sample.header) (hx : x ∈ l) :
    ∃ x' ∈ l', x'.Offset = x.Offset := by
  have : x.header ∈ l'.map Sample.header := by
    rw [h]; exact List.mem_map_of_mem _ hx
  obtain ⟨x', hx', e⟩ := List.mem_map.mp this
  refine ⟨x', hx', ?_⟩
  simp only [Sample.header, Prod.mk.injEq] at e
  exact e.2.2.2

/-- C9.  Set/parse round trip for SrcAS.  Let `Parse P` succeed, `s` be one of
its samples, `r` a record of `ParseFlowSample s.Data expanded` (for either
shape) and `ParseExtendedGateway r.Data = g` (IPv4 or IPv6 next hop).  Then
`ModifySrcAS P s.Offset r.Offset v` returns a buffer on which `Parse` succeeds
with the same header and samples of the same tags, lengths and offsets; the
sample at `s.Offset` parses to a flow sample with the same header and records of
the same tags, lengths and offsets; and the record at `r.Offset` parses to `g`
with `SrcAS = v` and every other field unchanged. -/
theorem ModifySrcAS_roundtrip (P : Bytes) (d : Datagram) (s : Sample) (expanded : Bool)
    (fs : FlowSample) (r : FlowRecord) (g : ExtendedGateway) (v : Nat)
    (hP : Parse P = .ok d) (hs : s ∈ d.Samples)
    (hfs : ParseFlowSample s.Data expanded = .ok fs) (hr : r ∈ fs.Records)
    (hg : ParseExtendedGateway r.Data = .ok g) (hv : v < 4294967296) :
    ∃ P' d', ModifySrcAS P s.Offset r.Offset v = .ok P' ∧ Parse P' = .ok d' ∧
      { d' with Samples := d.Samples, Raw := d.Raw } = d ∧
      d'.Samples.map Sample.header = d.Samples.map Sample.header ∧
      (∃ s' ∈ d'.Samples, s'.Offset = s.Offset) ∧
      ∀ s' ∈ d'.Samples, s'.Offset = s.Offset →
        ∃ fs', ParseFlowSample s'.Data expanded = .ok fs' ∧
          { fs' with Records := fs.Records } = fs ∧
          fs'.Records.map Sample.header = fs.Records.map Sample.header ∧
          (∃ r' ∈ fs'.Records, r'.Offset = r.Offset) ∧
          ∀ r' ∈ fs'.Records, r'.Offset = r.Offset →
            ParseExtendedGateway r'.Data = .ok { g with SrcAS := v } := by
  obtain ⟨hsOff, hsEnd, hsLen, hsData, _, _⟩ := Parse_samples_mem hP hs
  obtain ⟨hrOff, hrEnd, hrLen, hrData, _, _⟩ := ParseFlowSample_records_mem hfs hr
  have hsDlen : s.Data.length = s.Length := by rw [hsData, slice_length hsEnd]; omega
  rw [hsDlen] at hrEnd
  have hrDlen : r.Data.length = r.Length := by
    rw [hrData, slice_length (by rw [hsDlen]; exact hrEnd)]; omega
  obtain ⟨hop, ht, hlen⟩ := ParseExtendedGateway_ok_inv hg
  rw [hrDlen] at hlen
  have hop8 : 8 ≤ hop := by rcases ht with ⟨_, rfl⟩ | ⟨_, rfl⟩ <;> omega
  -- the words `ModifySrcAS` reads back from the packet
  have eRL : u32At P (s.Offset + 8 + r.Offset + 4) = r.Length := by
    rw [hrLen, hsData, u32At_slice (by omega)]
    congr 1
  have eT : u32At r.Data 0 = u32At P (s.Offset + 8 + r.Offset + 8) := by
    rw [hrData, u32At_slice (by omega), hsData, u32At_slice (by omega)]
    congr 1
  have hp : fieldPos 4 P s.Offset r.Offset = some (s.Offset + 8 + r.Offset + 8 + hop + 4) :=
    fieldPos_of_valid (by rw [← hsLen]; exact hsEnd) (by rw [eRL]; omega) (by omega)
      (by rw [← eT]; exact ht)
  have hpoke : poke 4 P s.Offset r.Offset v
      = writeU32 P (s.Offset + 8 + r.Offset + 8 + hop + 4) v := by
    unfold poke; rw [hp]
  have hl : (writeU32 P (s.Offset + 8 + r.Offset + 8 + hop + 4) v).length = P.length :=
    length_writeU32 ..
  have hag : ∀ i, i < s.Offset + 8 + r.Offset + 8 + hop + 4 ∨
      s.Offset + 8 + r.Offset + 8 + hop + 4 + 4 ≤ i →
      byteAt (writeU32 P (s.Offset + 8 + r.Offset + 8 + hop + 4) v) i = byteAt P i :=
    fun i hi => byteAt_writeU32_of_ne hi
  obtain ⟨d', hd', hdeq, hdmap⟩ := Parse_congr hP hs (by omega) hl hag (by omega)
  have hrun : ModifySrcAS P s.Offset r.Offset v
      = .ok (writeU32 P (s.Offset + 8 + r.Offset + 8 + hop + 4) v) := by
    rw [← hpoke]
    exact setASField_eq 4 P s.Offset r.Offset v (not_wraps_of_fit (Or.inl (by omega)))
  refine ⟨_, d', hrun, hd', hdeq, hdmap,
    exists_mem_of_map_header hdmap hs, ?_⟩
  intro s' hs' hoff
  obtain ⟨_, hs'End, hs'Len, hs'Data, _, _⟩ := Parse_samples_mem hd' hs'
  have hs'L : s'.Length = s.Length := by
    rw [hs'Len, hsLen, hoff]
    exact u32At_congr fun i _ _ => hag i (by omega)
  rw [hoff, hs'L] at hs'Data
  have hl2 : s'.Data.length = s.Data.length := by
    rw [hs'Data, hsData, slice_length (by rw [hl]; exact hsEnd), slice_length hsEnd]
  have hag2 : ∀ i, i < r.Offset + 8 + hop + 4 ∨ r.Offset + 8 + hop + 4 + 4 ≤ i →
      byteAt s'.Data i = byteAt s.Data i := by
    intro i hi
    rw [hs'Data, hsData]
    exact byteAt_slice_congr hl (by rw [hl]; exact hsEnd) fun _ => hag _ (by omega)
  obtain ⟨fs', hfs', hfeq, hfmap⟩ := ParseFlowSample_congr hfs hr (by omega) hl2 hag2 (by omega)
  refine ⟨fs', hfs', hfeq, hfmap, exists_mem_of_map_header hfmap hr, ?_⟩
  intro r' hr' hroff
  obtain ⟨_, hr'End, hr'Len, hr'Data, _, _⟩ := ParseFlowSample_records_mem hfs' hr'
  have hr'L : r'.Length = r.Length := by
    rw [hr'Len, hrLen, hroff]
    exact u32At_congr fun i _ _ => hag2 i (by omega)
  rw [hroff, hr'L] at hr'Data
  have hfield := @ParseExtendedGateway_field r.Data r'.Data g hop 4 v hg ht (by omega)
    (by
      rw [hr'Data, hrData, slice_length (by rw [hl2, hsDlen]; exact hrEnd),
        slice_length (by rw [hsDlen]; exact hrEnd)])
    (by
      intro i hi
      rw [hr'Data, hrData]
      exact byteAt_slice_congr hl2 (by rw [hl2, hsDlen]; exact hrEnd) fun _ => hag2 _ (by omega))
    (by
      rw [hr'Data, u32At_slice (by omega), hs'Data, u32At_slice (by omega)]
      have e : s.Offset + 8 + (r.Offset + 8 + (hop + 4)) = s.Offset + 8 + r.Offset + 8 + hop + 4 := by
        omega
      rw [e, u32At_writeU32 (by omega), Nat.mod_eq_of_lt hv])
  rw [hfield]
  simp

set_option maxRecDepth 100000 in
/-- Witness for C9: the round trip on the gateway record of `outboundDatagram`
(flow sample, IPv4 next hop) and on that of `ipv6HopDatagram` (expanded flow
sample, IPv6 next hop). -/
theorem ModifySrcAS_roundtrip_witness :
    (∃ P' d', ModifySrcAS outboundDatagram 28 92 65001 = .ok P' ∧ Parse P' = .ok d' ∧
      (∃ s' ∈ d'.Samples, s'.Offset = 28) ∧
      ∀ s' ∈ d'.Samples, s'.Offset = 28 →
        ∃ fs', ParseFlowSample s'.Data false = .ok fs' ∧
          (∃ r' ∈ fs'.Records, r'.Offset = 92) ∧
          ∀ r' ∈ fs'.Records, r'.Offset = 92 →
            ParseExtendedGateway r'.Data = .ok { outboundGateway with SrcAS := 65001 }) ∧
    (∃ P' d', ModifySrcAS ipv6HopDatagram 28 104 65001 = .ok P' ∧ Parse P' = .ok d' ∧
      (∃ s' ∈ d'.Samples, s'.Offset = 28) ∧
      ∀ s' ∈ d'.Samples, s'.Offset = 28 →
        ∃ fs', ParseFlowSample s'.Data true = .ok fs' ∧
          (∃ r' ∈ fs'.Records, r'.Offset = 104) ∧
          ∀ r' ∈ fs'.Records, r'.Offset = 104 →
            ParseExtendedGateway r'.Data = .ok { ipv6HopGateway with SrcAS := 65001 }) := by
  constructor
  · obtain ⟨P', d', h1, h2, _, _, h5, h6⟩ := ModifySrcAS_roundtrip outboundDatagram _
      ⟨0, 1, 132, slice outboundDatagram 36 168, 28⟩ false _
      ⟨0, 1003, 32, slice (slice outboundDatagram 36 168) 100 132, 92⟩ outboundGateway 65001
      (Parse_ipv4 (by decide) (by decide) (by decide)) (by decide)
      (ParseFlowSample_compact (by decide)) (by decide) (by decide) (by decide)
    refine ⟨P', d', h1, h2, h5, fun s' hs' ho => ?_⟩
    obtain ⟨fs', f1, _, _, f4, f5⟩ := h6 s' hs' ho
    exact ⟨fs', f1, f4, f5⟩
  · obtain ⟨P', d', h1, h2, _, _, h5, h6⟩ := ModifySrcAS_roundtrip ipv6HopDatagram _
      ⟨0, 3, 156, slice ipv6HopDatagram 36 192, 28⟩ true _
      ⟨0, 1003, 44, slice (slice ipv6HopDatagram 36 192) 112 156, 104⟩ ipv6HopGateway 65001
      (Parse_ipv4 (by decide) (by decide) (by decide)) (by decide)
      (ParseFlowSample_expanded (by decide)) (by decide) (by decide) (by decide)
    refine ⟨P', d', h1, h2, h5, fun s' hs' ho => ?_⟩
    obtain ⟨fs', f1, _, _, f4, f5⟩ := h6 s' hs' ho
    exact ⟨fs', f1, f4, f5⟩

set_option maxRecDepth 100000 in
/-- Witness for the amended C10: on `outboundDatagram` the call
`ModifySrcAS(P, 28, 92, 65001)` passes every check (IPv4 next hop) and the word
at `28 + 8 + 92 + 8 + 4 + 4 + 4` holds 65001 afterwards; with the record offset
4000 a bounds check fails and the buffer is returned as it was; with the sample
offset `2^63 - 8` the call panics. -/
theorem ModifySrcAS_frame_witness :
    (∃ out, ModifySrcAS outboundDatagram 28 92 65001 = .ok out ∧
      out.length = outboundDatagram.length ∧ u32At out (28 + 8 + 92 + 8 + 4 + 4 + 4) = 65001) ∧
    (∃ out, ModifySrcAS outboundDatagram 28 4000 65001 = .ok out ∧ out = outboundDatagram) ∧
    ModifySrcAS outboundDatagram 9223372036854775800 0 65001 = .error .panic := by
  refine ⟨?_, ?_, ?_⟩
  · obtain ⟨out, h1, h2, _, _, h5⟩ :=
      (ModifySrcAS_frame outboundDatagram 28 92 65001 (by decide)).2.2 (by decide)
    exact ⟨out, h1, h2, h5 4 (by decide) (by decide) (by decide) (by decide)⟩
  · obtain ⟨out, h1, _, _, h4, _⟩ :=
      (ModifySrcAS_frame outboundDatagram 28 4000 65001 (by decide)).2.2 (by decide)
    exact ⟨out, h1, h4 (by decide)⟩
  · exact (ModifySrcAS_frame outboundDatagram 9223372036854775800 0 65001 (by decide)).1
      (by decide)

/-! ## What the walk returns, against the walk of the specification -/

theorem walkOffset_succ_start (data : Bytes) (start j : Nat) :
    walkOffset data start (j + 1) =
      walkOffset data (start + 8 + u32At data (start + 4)) j := by
  induction j with
  | zero => rfl
  | succ j ih =>
    rw [walkOffset, ih]
    rfl

theorem fitsAt_succ_start (data : Bytes) (start j : Nat) :
    fitsAt data start (j + 1) ↔ fitsAt data (start + 8 + u32At data (start + 4)) j := by
  unfold fitsAt
  rw [walkOffset_succ_start data start j, walkOffset_succ_start data start (j + 1)]

theorem walkOffset_mono (data : Bytes) (start : Nat) {i j : Nat} (h : i ≤ j) :
    walkOffset data start i + 8 * (j - i) ≤ walkOffset data start j := by
  induction j with
  | zero =>
    have : i = 0 := by omega
    subst this
    simp
  | succ j ih =>
    by_cases hij : i = j + 1
    · subst hij; simp
    · have := ih (by omega)
      rw [walkOffset]
      omega

/-- The elements `tlv` returns are the longest run of elements of the walk,
not longer than the count, that lie wholly inside the buffer. -/
theorem tlv_walk (data : Bytes) (n start : Nat) :
    (tlv data n start).length ≤ n ∧
    (∀ j, j < (tlv data n start).length →
      fitsAt data start j ∧
      ((tlv data n start)[j]?).map Sample.Offset = some (walkOffset data start j)) ∧
    ((tlv data n start).length < n → ¬ fitsAt data start (tlv data n start).length) := by
  induction n generalizing start with
  | zero => simp [tlv]
  | succ n ih =>
    unfold tlv
    split
    · rename_i hc
      obtain ⟨h1, h2, h3⟩ := ih (start + 8 + u32At data (start + 4))
      refine ⟨by simp; omega, ?_, ?_⟩
      · intro j hj
        cases j with
        | zero =>
          refine ⟨⟨hc.1, hc.2⟩, ?_⟩
          simp [walkOffset]
        | succ j =>
          simp only [List.length_cons] at hj
          obtain ⟨f, o⟩ := h2 j (by omega)
          refine ⟨(fitsAt_succ_start data start j).mpr f, ?_⟩
          rw [walkOffset_succ_start]
          simpa using o
      · intro hlt
        simp only [List.length_cons] at hlt ⊢
        rw [fitsAt_succ_start]
        exact h3 (by omega)
    · rename_i hc
      refine ⟨by simp, by simp, ?_⟩
      intro _
      simp only [List.length_nil]
      intro hf
      exact hc ⟨hf.1, hf.2⟩

theorem tag_split (x : Nat) (h : x < 4294967296) :
    x = (x >>> 12) * 4096 + (x &&& 0xFFF) ∧ (x &&& 0xFFF) < 4096 ∧ x >>> 12 < 1048576 := by
  have e1 : x >>> 12 = x / 4096 := by rw [Nat.shiftRight_eq_div_pow]
  have e2 : x &&& 0xFFF = x % 4096 := Nat.and_pow_two_sub_one_eq_mod x 12
  rw [e1, e2]
  omega

theorem slice_eq_drop_take (data : Bytes) (lo len : Nat) :
    slice data lo (lo + len) = (data.drop lo).take len := by
  simp [slice]

/-- Every field of the datagram a successful `Parse` returned. -/
theorem Parse_ok_fields {data : Bytes} {d : Datagram} (h : Parse data = .ok d) :
    (d.AgentAddrType = 1 ∨ d.AgentAddrType = 2) ∧
    headerLength d.AgentAddrType ≤ data.length ∧ d.Version = 5 ∧ u32At data 0 = 5 ∧
    d.AgentAddrType = u32At data 4 ∧
    d.AgentAddr = slice data 8 (headerLength d.AgentAddrType - 16) ∧
    d.SubAgentID = u32At data (headerLength d.AgentAddrType - 16) ∧
    d.SequenceNum = u32At data (headerLength d.AgentAddrType - 12) ∧
    d.Uptime = u32At data (headerLength d.AgentAddrType - 8) ∧
    d.NumSamples = u32At data (headerLength d.AgentAddrType - 4) ∧
    d.Samples = tlv data d.NumSamples (headerLength d.AgentAddrType) ∧ d.Raw = data := by
  obtain ⟨hv, hcase⟩ := Parse_ok_inv h
  rcases hcase with ⟨ht, hlen, _⟩ | ⟨ht, hlen, _⟩
  · rw [Parse_ipv4 hlen hv ht] at h
    injection h with h
    subst h
    simp [headerLength, hlen, hv, ht]
  · rw [Parse_ipv6 hlen hv ht] at h
    injection h with h
    subst h
    simp [headerLength, hlen, hv, ht]

/-- Every field of the flow sample a successful `ParseFlowSample` returned that
the record walk depends on. -/
theorem ParseFlowSample_ok_fields {data : Bytes} {expanded : Bool} {fs : FlowSample}
    (h : ParseFlowSample data expanded = .ok fs) :
    (if expanded then 44 else 32) ≤ data.length ∧
    fs.NumRecords = u32At data ((if expanded then 44 else 32) - 4) ∧
    fs.Records = tlv data fs.NumRecords (if expanded then 44 else 32) := by
  obtain ⟨hdr, hcase, hlen, _⟩ := ParseFlowSample_ok_inv h
  rcases hcase with ⟨rfl, rfl⟩ | ⟨rfl, rfl⟩
  · rw [ParseFlowSample_compact hlen] at h
    injection h with h
    subst h
    simp [hlen]
  · rw [ParseFlowSample_expanded hlen] at h
    injection h with h
    subst h
    simp [hlen]

/-- C16.  For every input on which `Parse` succeeds and every returned sample
`s`: the word at `s.Offset` is `s.Enterprise * 2^12 + s.Format` with
`s.Format < 2^12` and `s.Enterprise < 2^20`, the word at `s.Offset + 4` is
`s.Length`, `s.Data` is exactly the `s.Length` bytes of the input that start at
`s.Offset + 8`, and `s.Offset + 8 + s.Length` does not exceed the input
length. -/
theorem Parse_sample_fields (data : Bytes) (d : Datagram) (s : Sample)
    (h : Parse data = .ok d) (hs : s ∈ d.Samples) :
    u32At data s.Offset = s.Enterprise * 4096 + s.Format ∧ s.Format < 4096 ∧
    s.Enterprise < 1048576 ∧ u32At data (s.Offset + 4) = s.Length ∧
    s.Data = (data.drop (s.Offset + 8)).take s.Length ∧ s.Data.length = s.Length ∧
    (∀ i, i < s.Length → byteAt s.Data i = byteAt data (s.Offset + 8 + i)) ∧
    s.Offset + 8 + s.Length ≤ data.length := by
  obtain ⟨_, hEnd, hLen, hData, hE, hF⟩ := Parse_samples_mem h hs
  obtain ⟨t1, t2, t3⟩ := tag_split (u32At data s.Offset) (u32At_lt _ _)
  refine ⟨by rw [hE, hF]; exact t1, by rw [hF]; exact t2, by rw [hE]; exact t3, hLen.symm,
    by rw [hData, slice_eq_drop_take], by rw [hData, slice_length hEnd]; omega, ?_, hEnd⟩
  intro i hi
  rw [hData, byteAt_slice (by omega)]

set_option maxRecDepth 100000 in
/-- Witness for C16: the one sample of `outboundDatagram`. -/
theorem Parse_sample_fields_witness :
    u32At outboundDatagram 28 = 0 * 4096 + 1 ∧ u32At outboundDatagram (28 + 4) = 132 ∧
    28 + 8 + 132 ≤ outboundDatagram.length := by
  obtain ⟨h1, _, _, h4, _, _, _, h8⟩ := Parse_sample_fields outboundDatagram _
    ⟨0, 1, 132, slice outboundDatagram 36 168, 28⟩
    (Parse_ipv4 (by decide) (by decide) (by decide)) (by decide)
  exact ⟨h1, h4, h8⟩

/-- C18.  `Parse` fails for every input shorter than 28 bytes, for every input
of at least 28 bytes whose version word is not 5, and for every version-5 input
of at least 28 bytes whose agent address type is neither 1 (IPv4) nor 2
(IPv6). -/
theorem Parse_rejects (data : Bytes) :
    (data.length < 28 → Parse data = .error (.error .packetTooShort)) ∧
    (28 ≤ data.length → u32At data 0 ≠ 5 → Parse data = .error (.error .unsupportedVersion)) ∧
    (28 ≤ data.length → u32At data 0 = 5 → u32At data 4 ≠ 1 → u32At data 4 ≠ 2 →
      Parse data = .error (.error .unsupportedAgentAddrType)) :=
  ⟨Parse_short, Parse_version, Parse_addrType⟩

/-- Witness for C18: a 27-byte input, a 28-byte input of version 4 and a 28-byte
version-5 input with agent address type 3. -/
theorem Parse_rejects_witness :
    Parse (List.replicate 27 0) = .error (.error .packetTooShort) ∧
    Parse ([0, 0, 0, 4] ++ List.replicate 24 0) = .error (.error .unsupportedVersion) ∧
    Parse ([0, 0, 0, 5, 0, 0, 0, 3] ++ List.replicate 20 0)
      = .error (.error .unsupportedAgentAddrType) :=
  ⟨(Parse_rejects _).1 (by decide), (Parse_rejects _).2.1 (by decide) (by decide),
    (Parse_rejects _).2.2 (by decide) (by decide) (by decide) (by decide)⟩

/-- C17.  Best-effort prefix parse.  With a complete header of version 5 and an
agent address of type 1 or 2, `Parse` returns a datagram, never an error,
whatever the samples look like.  The samples it returns are the first `k`
elements of the tag+length walk that starts right after the header (offset 28
for an IPv4 agent, 40 for an IPv6 agent), where `k` is the largest number not
exceeding `sample_count` such that each of these `k` elements lies wholly
inside the buffer: `k` is at most `sample_count`, each of the first `k` elements
fits and is the sample returned at its index, and when `k` is less than
`sample_count` element `k` does not fit. -/
theorem Parse_best_effort (data : Bytes) :
    (u32At data 0 = 5 → (u32At data 4 = 1 ∨ u32At data 4 = 2) →
      headerLength (u32At data 4) ≤ data.length → ∃ d, Parse data = .ok d) ∧
    (∀ d, Parse data = .ok d →
      d.Samples.length ≤ d.NumSamples ∧
      (∀ j, j < d.Samples.length →
        fitsAt data (headerLength d.AgentAddrType) j ∧
        (d.Samples[j]?).map Sample.Offset
          = some (walkOffset data (headerLength d.AgentAddrType) j)) ∧
      (d.Samples.length < d.NumSamples →
        ¬ fitsAt data (headerLength d.AgentAddrType) d.Samples.length)) := by
  constructor
  · intro hv ht hl
    rcases ht with ht | ht
    · rw [ht] at hl
      exact ⟨_, Parse_ipv4 (by simpa [headerLength] using hl) hv ht⟩
    · rw [ht] at hl
      exact ⟨_, Parse_ipv6 (by simpa [headerLength] using hl) hv ht⟩
  · intro d h
    obtain ⟨_, _, _, _, _, _, _, _, _, _, hS, _⟩ := Parse_ok_fields h
    rw [hS]
    exact tlv_walk data d.NumSamples (headerLength d.AgentAddrType)

set_option maxRecDepth 100000 in
/-- Witness for C17: `outboundDatagram` with its sample count raised to 2 holds
one sample only; `Parse` returns that sample and no error, and element 1 of the
walk does not fit. -/
theorem Parse_best_effort_witness :
    ∃ d, Parse (writeU32 outboundDatagram 24 2) = .ok d ∧ d.NumSamples = 2 ∧
      d.Samples.length = 1 ∧ fitsAt (writeU32 outboundDatagram 24 2) 28 0 ∧
      ¬ fitsAt (writeU32 outboundDatagram 24 2) 28 1 := by
  obtain ⟨d, hd⟩ := (Parse_best_effort (writeU32 outboundDatagram 24 2)).1 (by decide)
    (by decide) (by decide)
  obtain ⟨_, h2, h3⟩ := (Parse_best_effort (writeU32 outboundDatagram 24 2)).2 d hd
  have hc : (Parse (writeU32 outboundDatagram 24 2)).map
      (fun d => (d.AgentAddrType, d.NumSamples, d.Samples.length)) = .ok (1, 2, 1) := by decide
  rw [hd] at hc
  simp only [Except.map, Except.ok.injEq, Prod.mk.injEq] at hc
  obtain ⟨ht, hn, hl⟩ := hc
  rw [ht, hl, hn] at h3
  rw [ht, hl] at h2
  exact ⟨d, hd, hn, hl, (h2 0 (by omega)).1, h3 (by omega)⟩

/-- C20.  For every payload on which `ParseFlowSample` succeeds: the records
returned are the longest run, of at most `record_count` elements, of the
tag+length walk that starts at offset 32 (non-expanded) or 44 (expanded) of the
payload and whose elements lie wholly inside the payload, so the first record is
at that offset and each later one at the previous offset + 8 + length; and for
every returned record `r` the word at `r.Offset` of the payload is
`r.Enterprise * 2^12 + r.Format` (high 20 and low 12 bits), the word at
`r.Offset + 4` is `r.Length`, and `r.Data` is the `r.Length` bytes of the payload
that start at `r.Offset + 8`. -/
theorem ParseFlowSample_record_fields (data : Bytes) (expanded : Bool) (fs : FlowSample)
    (h : ParseFlowSample data expanded = .ok fs) :
    fs.Records.length ≤ fs.NumRecords ∧
    (∀ j, j < fs.Records.length →
      fitsAt data (if expanded then 44 else 32) j ∧
      (fs.Records[j]?).map Sample.Offset
        = some (walkOffset data (if expanded then 44 else 32) j)) ∧
    (fs.Records.length < fs.NumRecords →
      ¬ fitsAt data (if expanded then 44 else 32) fs.Records.length) ∧
    (∀ r ∈ fs.Records,
      u32At data r.Offset = r.Enterprise * 4096 + r.Format ∧ r.Format < 4096 ∧
      r.Enterprise < 1048576 ∧ u32At data (r.Offset + 4) = r.Length ∧
      r.Data = (data.drop (r.Offset + 8)).take r.Length ∧ r.Data.length = r.Length ∧
      r.Offset + 8 + r.Length ≤ data.length) := by
  obtain ⟨_, _, hR⟩ := ParseFlowSample_ok_fields h
  have hw := tlv_walk data fs.NumRecords (if expanded then 44 else 32)
  rw [← hR] at hw
  refine ⟨hw.1, hw.2.1, hw.2.2, ?_⟩
  intro r hr
  obtain ⟨_, hEnd, hLen, hData, hE, hF⟩ := ParseFlowSample_records_mem h hr
  obtain ⟨t1, t2, t3⟩ := tag_split (u32At data r.Offset) (u32At_lt _ _)
  exact ⟨by rw [hE, hF]; exact t1, by rw [hF]; exact t2, by rw [hE]; exact t3, hLen.symm,
    by rw [hData, slice_eq_drop_take], by rw [hData, slice_length hEnd]; omega, hEnd⟩

set_option maxRecDepth 100000 in
/-- Witness for C20: the flow sample of `outboundDatagram` holds its two records
at offsets 32 and 92 of the payload. -/
theorem ParseFlowSample_record_fields_witness :
    ∃ fs, ParseFlowSample (slice outboundDatagram 36 168) false = .ok fs ∧
      fs.Records.map Sample.Offset = [32, 92] ∧
      walkOffset (slice outboundDatagram 36 168) 32 1 = 92 ∧
      ∀ r ∈ fs.Records, u32At (slice outboundDatagram 36 168) (r.Offset + 4) = r.Length := by
  refine ⟨_, ParseFlowSample_compact (by decide), by decide, by decide, ?_⟩
  intro r hr
  exact ((ParseFlowSample_record_fields (slice outboundDatagram 36 168) false _
    (ParseFlowSample_compact (by decide))).2.2.2 r hr).2.2.2.1

/-! ## Parse, then serialise -/

theorem wordBytes_be32 (b0 b1 b2 b3 : Byte) : wordBytes (be32 b0 b1 b2 b3) = [b0, b1, b2, b3] := by
  have h0 := b0.isLt
  have h1 := b1.isLt
  have h2 := b2.isLt
  have h3 := b3.isLt
  simp only [wordBytes, List.cons.injEq, and_true]
  refine ⟨?_, ?_, ?_, ?_⟩ <;>
  · apply Fin.ext
    rw [byteOf_val]
    simp only [be32]
    omega

theorem slice_cons {data : Bytes} {lo hi : Nat} (h1 : lo < hi) (h2 : lo < data.length) :
    slice data lo hi = byteAt data lo :: slice data (lo + 1) hi := by
  unfold slice byteAt
  rw [List.drop_eq_getElem_cons h2]
  have e : hi - lo = (hi - (lo + 1)) + 1 := by omega
  rw [e, List.take_succ_cons]
  simp [List.getD_eq_getElem?_getD, List.getElem?_eq_getElem h2]

theorem slice_self (data : Bytes) (lo : Nat) : slice data lo lo = [] := by
  simp [slice]

theorem wordBytes_u32At {data : Bytes} {off : Nat} (h : off + 4 ≤ data.length) :
    wordBytes (u32At data off) = slice data off (off + 4) := by
  rw [slice_cons (by omega) (by omega), slice_cons (by omega) (by omega),
    slice_cons (by omega) (by omega), slice_cons (by omega) (by omega), slice_self]
  exact wordBytes_be32 _ _ _ _

theorem slice_append {data : Bytes} {a b c : Nat} (h1 : a ≤ b) (h2 : b ≤ c) :
    slice data a b ++ slice data b c = slice data a c := by
  unfold slice
  have e : c - a = (b - a) + (c - b) := by omega
  rw [e, List.take_add, List.drop_drop]
  congr 3
  omega

theorem slice_full (data : Bytes) : slice data 0 data.length = data := by
  simp [slice]

/-- Writing back the elements of a walk that ends inside the buffer gives the
bytes the walk went over. -/
theorem serializeSamples_tlv (data : Bytes) (n off : Nat)
    (h : walkOffset data off n ≤ data.length) :
    serializeSamples (tlv data n off) = slice data off (walkOffset data off n) := by
  induction n generalizing off with
  | zero => simp [tlv, serializeSamples, walkOffset, slice_self]
  | succ n ih =>
    have hm := walkOffset_mono data off (show 1 ≤ n + 1 by omega)
    have h1 : walkOffset data off 1 = off + 8 + u32At data (off + 4) := rfl
    rw [walkOffset_succ_start] at h ⊢
    have hm' := walkOffset_mono data (off + 8 + u32At data (off + 4)) (Nat.zero_le n)
    have h0 : walkOffset data (off + 8 + u32At data (off + 4)) 0
        = off + 8 + u32At data (off + 4) := rfl
    have hc : off + 8 ≤ data.length ∧ off + 8 + u32At data (off + 4) ≤ data.length := by
      constructor <;> omega
    unfold tlv
    rw [if_pos hc]
    simp only [serializeSamples, serializeSample]
    rw [ih _ h]
    obtain ⟨t1, _, _⟩ := tag_split (u32At data off) (u32At_lt _ _)
    rw [← t1, wordBytes_u32At (show off + 4 ≤ data.length by omega),
      wordBytes_u32At (show off + 4 + 4 ≤ data.length by omega),
      slice_append (by omega) (by omega), slice_append (by omega) (by omega),
      slice_append (by omega) (by omega)]

/-- C19.  Parse then serialise is the identity.  Let `P` be a well-formed sFlow
v5 datagram: version 5, agent address type 1 or 2, a complete header, and the
tag+length walk over `sample_count` samples after the header ending exactly at
the end of the buffer.  Then `Parse P` succeeds, writing the header fields
followed, for each parsed sample in order, by the tag word
`enterprise * 2^12 + format`, the length word and the sample data gives `P`
byte-for-byte, and the `Raw` field is `P`. -/
theorem serialize_Parse (P : Bytes) (hv : u32At P 0 = 5)
    (ht : u32At P 4 = 1 ∨ u32At P 4 = 2) (hl : headerLength (u32At P 4) ≤ P.length)
    (hfill : walkOffset P (headerLength (u32At P 4))
      (u32At P (headerLength (u32At P 4) - 4)) = P.length) :
    ∃ d, Parse P = .ok d ∧ serialize d = P ∧ d.Raw = P ∧
      d.Samples.length = d.NumSamples := by
  rcases ht with ht | ht
  · rw [ht] at hl hfill
    simp only [headerLength, if_true] at hl hfill
    replace hfill : walkOffset P 28 (u32At P 24) = P.length := hfill
    refine ⟨_, Parse_ipv4 hl hv ht, ?_, rfl, ?_⟩
    · simp only [serialize]
      rw [serializeSamples_tlv P _ 28 (by omega), hfill]
      have e5 : (5 : Nat) = u32At P 0 := hv.symm
      have e1 : (1 : Nat) = u32At P 4 := ht.symm
      rw [e5, e1, wordBytes_u32At (show 0 + 4 ≤ P.length by omega),
        wordBytes_u32At (show 4 + 4 ≤ P.length by omega),
        wordBytes_u32At (show 12 + 4 ≤ P.length by omega),
        wordBytes_u32At (show 16 + 4 ≤ P.length by omega),
        wordBytes_u32At (show 20 + 4 ≤ P.length by omega),
        wordBytes_u32At (show 24 + 4 ≤ P.length by omega)]
      simp only [Nat.zero_add, Nat.reduceAdd]
      rw [slice_append (by omega) (by omega), slice_append (by omega) (by omega),
        slice_append (by omega) (by omega), slice_append (by omega) (by omega),
        slice_append (by omega) (by omega), slice_append (by omega) (by omega),
        slice_append (by omega) (by omega), slice_full]
    · have hw := tlv_walk P (u32At P 24) 28
      by_contra hne
      have hlt : (tlv P (u32At P 24) 28).length < u32At P 24 := by
        have := hw.1
        simp only at hne
        omega
      apply hw.2.2 hlt
      have hm := walkOffset_mono P 28 (show (tlv P (u32At P 24) 28).length + 1 ≤ u32At P 24 from hlt)
      have hs : walkOffset P 28 (tlv P (u32At P 24) 28).length + 8
          ≤ walkOffset P 28 ((tlv P (u32At P 24) 28).length + 1) := by
        rw [walkOffset]; omega
      exact ⟨by omega, by omega⟩
  · rw [ht] at hl hfill
    simp only [headerLength, show (2 : Nat) ≠ 1 by omega, if_false] at hl hfill
    replace hfill : walkOffset P 40 (u32At P 36) = P.length := hfill
    refine ⟨_, Parse_ipv6 hl hv ht, ?_, rfl, ?_⟩
    · simp only [serialize]
      rw [serializeSamples_tlv P _ 40 (by omega), hfill]
      have e5 : (5 : Nat) = u32At P 0 := hv.symm
      have e1 : (2 : Nat) = u32At P 4 := ht.symm
      rw [e5, e1, wordBytes_u32At (show 0 + 4 ≤ P.length by omega),
        wordBytes_u32At (show 4 + 4 ≤ P.length by omega),
        wordBytes_u32At (show 24 + 4 ≤ P.length by omega),
        wordBytes_u32At (show 28 + 4 ≤ P.length by omega),
        wordBytes_u32At (show 32 + 4 ≤ P.length by omega),
        wordBytes_u32At (show 36 + 4 ≤ P.length by omega)]
      simp only [Nat.zero_add, Nat.reduceAdd]
      rw [slice_append (by omega) (by omega), slice_append (by omega) (by omega),
        slice_append (by omega) (by omega), slice_append (by omega) (by omega),
        slice_append (by omega) (by omega), slice_append (by omega) (by omega),
        slice_append (by omega) (by omega), slice_full]
    · have hw := tlv_walk P (u32At P 36) 40
      by_contra hne
      have hlt : (tlv P (u32At P 36) 40).length < u32At P 36 := by
        have := hw.1
        simp only at hne
        omega
      apply hw.2.2 hlt
      have hm := walkOffset_mono P 40 (show (tlv P (u32At P 36) 40).length + 1 ≤ u32At P 36 from hlt)
      have hs : walkOffset P 40 (tlv P (u32At P 36) 40).length + 8
          ≤ walkOffset P 40 ((tlv P (u32At P 36) 40).length + 1) := by
        rw [walkOffset]; omega
      exact ⟨by omega, by omega⟩

set_option maxRecDepth 100000 in
/-- Witness for C19: `outboundDatagram` is well formed and is the serialisation
of what `Parse` returns on it. -/
theorem serialize_Parse_witness :
    ∃ d, Parse outboundDatagram = .ok d ∧ serialize d = outboundDatagram ∧
      d.Raw = outboundDatagram ∧ d.Samples.length = d.NumSamples :=
  serialize_Parse outboundDatagram (by decide) (by decide) (by decide) (by decide)

/-! ## What holds across every step holds across the processing of a sample -/

theorem applySrcRule_rel (R : EnrichState → EnrichState → Prop) (so : Nat)
    (htrans : ∀ a b c, R a b → R b c → R a c)
    (hflag : ∀ st : EnrichState, R st { st with enriched := true })
    (hpoke : ∀ (st st' : EnrichState) (op : Mutator) (k ro v : Nat),
      st.inPlace op (setASField k) so ro v = .ok st' → R st st')
    {rule : EnrichmentRule} {ro : Nat} {eg : ExtendedGateway} {st st' : EnrichState}
    (h : applySrcRule rule so ro eg st = .ok st') : R st st' := by
  unfold applySrcRule at h
  cases h1 : st.inPlace .srcAS ModifySrcAS so ro rule.SetAS with
  | error e => rw [h1] at h; cases h
  | ok st1 =>
    rw [h1] at h
    simp only [Except.bind] at h
    have r1 : R st st1 := hpoke st st1 .srcAS 4 ro rule.SetAS h1
    have r1' : R st { st1 with enriched := true } := htrans _ _ _ r1 (hflag st1)
    by_cases hp : eg.SrcPeerAS = 0
    · simp only [hp, if_true] at h
      cases h2 : EnrichState.inPlace { st1 with enriched := true } .srcPeerAS ModifySrcPeerAS
          so ro rule.SetAS with
      | error e => rw [h2] at h; cases h
      | ok st2 =>
        rw [h2] at h
        have r2 : R st st2 := htrans _ _ _ r1' (hpoke _ st2 .srcPeerAS 8 ro rule.SetAS h2)
        by_cases ha : eg.AS = 0
        · simp only [ha, if_true] at h
          exact htrans _ _ _ r2 (hpoke _ st' .routerAS 0 ro rule.SetAS h)
        · simp only [ha, if_false] at h
          injection h with h
          subst h
          exact r2
    · simp only [hp, if_false] at h
      by_cases ha : eg.AS = 0
      · simp only [ha, if_true] at h
        exact htrans _ _ _ r1' (hpoke _ st' .routerAS 0 ro rule.SetAS h)
      · simp only [ha, if_false] at h
        injection h with h
        subst h
        exact r1'

theorem applyDstRule_rel (R : EnrichState → EnrichState → Prop) (so : Nat)
    (htrans : ∀ a b c, R a b → R b c → R a c)
    (hflag : ∀ st : EnrichState, R st { st with enriched := true })
    (hpoke : ∀ (st st' : EnrichState) (op : Mutator) (k ro v : Nat),
      st.inPlace op (setASField k) so ro v = .ok st' → R st st')
    (hdst : ∀ (st : EnrichState) (ro v : Nat),
      R st (if (ModifyDstAS st.packet so ro v).2 then
          { st with calls := st.calls ++ [⟨.dstAS, st.packet, so, ro, v⟩],
                    resized := some (ModifyDstAS st.packet so ro v).1, enriched := true }
        else { st with calls := st.calls ++ [⟨.dstAS, st.packet, so, ro, v⟩] }))
    {rule : EnrichmentRule} {ro : Nat} {eg : ExtendedGateway} {st st' : EnrichState}
    (h : applyDstRule rule so ro eg st = .ok st') : R st st' := by
  unfold applyDstRule at h
  simp only at h
  have r2 := hdst st ro rule.SetAS
  by_cases ha : eg.AS = 0
  · simp only [ha, if_true] at h
    cases h3 : EnrichState.inPlace
        (if (ModifyDstAS st.packet so ro rule.SetAS).2 then
          { st with calls := st.calls ++ [⟨.dstAS, st.packet, so, ro, rule.SetAS⟩],
                    resized := some (ModifyDstAS st.packet so ro rule.SetAS).1, enriched := true }
        else { st with calls := st.calls ++ [⟨.dstAS, st.packet, so, ro, rule.SetAS⟩] })
        .routerAS ModifyRouterAS so ro rule.SetAS with
    | error e =>
      have : (EnrichState.inPlace _ .routerAS ModifyRouterAS so ro rule.SetAS).bind
          (fun st3 => Except.ok { st3 with enriched := true }) = Except.ok st' := h
      rw [h3] at this
      cases this
    | ok st3 =>
      have : (EnrichState.inPlace _ .routerAS ModifyRouterAS so ro rule.SetAS).bind
          (fun st3 => Except.ok { st3 with enriched := true }) = Except.ok st' := h
      rw [h3] at this
      simp only [Except.bind] at this
      injection this with this
      subst this
      exact htrans _ _ _ r2 (htrans _ _ _ (hpoke _ st3 .routerAS 0 ro rule.SetAS h3) (hflag st3))
  · simp only [ha, if_false] at h
    injection h with h
    subst h
    exact r2

/-- A reflexive and transitive relation between states that holds across
setting the flag `enriched`, across every in-place mutator call made with the
sample offset `sample.Offset` and across every `ModifyDstAS` call made with it
holds between the state before and the state after the processing of
`sample`. -/
theorem processSample_rel (R : EnrichState → EnrichState → Prop) (sample : Sample)
    (hrefl : ∀ st, R st st)
    (htrans : ∀ a b c, R a b → R b c → R a c)
    (hflag : ∀ st : EnrichState, R st { st with enriched := true })
    (hpoke : ∀ (st st' : EnrichState) (op : Mutator) (k ro v : Nat),
      st.inPlace op (setASField k) sample.Offset ro v = .ok st' → R st st')
    (hdst : ∀ (st : EnrichState) (ro v : Nat),
      R st (if (ModifyDstAS st.packet sample.Offset ro v).2 then
          { st with calls := st.calls ++ [⟨.dstAS, st.packet, sample.Offset, ro, v⟩],
                    resized := some (ModifyDstAS st.packet sample.Offset ro v).1,
                    enriched := true }
        else { st with calls := st.calls ++ [⟨.dstAS, st.packet, sample.Offset, ro, v⟩] }))
    {rules : List EnrichmentRule} {st st' : EnrichState}
    (h : processSample rules sample st = .ok st') : R st st' := by
  have hsrc : ∀ (srcIP : Option Bytes) (ro : Nat) (eg : ExtendedGateway)
      (rs : List EnrichmentRule) (a b : EnrichState),
      srcSide srcIP sample.Offset ro eg rs a = .ok b → R a b := by
    intro srcIP ro eg rs a b hs
    induction rs with
    | nil =>
      simp only [srcSide] at hs
      injection hs with hs
      subst hs
      exact hrefl _
    | cons rule rest ih =>
      unfold srcSide at hs
      by_cases hf : shouldApply rule srcIP eg = true
      · simp only [hf, if_true] at hs
        exact applySrcRule_rel R sample.Offset htrans hflag hpoke hs
      · simp only [hf] at hs
        exact ih hs
  have hdstS : ∀ (dstIP : Option Bytes) (ro : Nat) (eg : ExtendedGateway)
      (rs : List EnrichmentRule) (a b : EnrichState),
      dstSide dstIP sample.Offset ro eg rs a = .ok b → R a b := by
    intro dstIP ro eg rs a b hs
    induction rs with
    | nil =>
      simp only [dstSide] at hs
      injection hs with hs
      subst hs
      exact hrefl _
    | cons rule rest ih =>
      unfold dstSide at hs
      by_cases hf : ipIn dstIP rule.IPNet = true
      · simp only [hf, if_true] at hs
        exact applyDstRule_rel R sample.Offset htrans hflag hpoke hdst hs
      · simp only [hf] at hs
        exact ih hs
  have hgw : ∀ (srcIP dstIP : Option Bytes) (ro : Nat) (eg : ExtendedGateway)
      (a b : EnrichState),
      processGateway rules srcIP dstIP sample.Offset ro eg a = .ok b → R a b := by
    intro srcIP dstIP ro eg a b hs
    unfold processGateway at hs
    cases h1 : srcSide srcIP sample.Offset ro eg rules a with
    | error e => rw [h1] at hs; cases hs
    | ok st1 =>
      rw [h1] at hs
      simp only [Except.bind] at hs
      have r1 := hsrc _ _ _ _ _ _ h1
      by_cases hp : eg.DstASPathLen = 0
      · simp only [hp, if_true] at hs
        exact htrans _ _ _ r1 (hdstS _ _ _ _ _ _ hs)
      · simp only [hp, if_false] at hs
        injection hs with hs
        subst hs
        exact r1
  have hrec : ∀ (srcIP dstIP : Option Bytes) (record : FlowRecord) (a b : EnrichState),
      processRecord rules srcIP dstIP sample record a = .ok b → R a b := by
    intro srcIP dstIP record a b hs
    unfold processRecord at hs
    split at hs
    · injection hs with hs
      subst hs
      exact hrefl _
    · split at hs
      · injection hs with hs
        subst hs
        exact hrefl _
      · cases hs
      · exact hgw _ _ _ _ _ _ hs
  have hloop : ∀ (srcIP dstIP : Option Bytes) (records : List FlowRecord) (a b : EnrichState),
      recordLoop rules srcIP dstIP sample records a = .ok b → R a b := by
    intro srcIP dstIP records
    induction records with
    | nil =>
      intro a b hs
      simp only [recordLoop] at hs
      injection hs with hs
      subst hs
      exact hrefl _
    | cons r rest ih =>
      intro a b hs
      unfold recordLoop at hs
      cases h1 : processRecord rules srcIP dstIP sample r a with
      | error e => rw [h1] at hs; cases hs
      | ok st1 =>
        rw [h1] at hs
        simp only [Except.bind] at hs
        exact htrans _ _ _ (hrec _ _ _ _ _ h1) (ih _ _ hs)
  unfold processSample at h
  split at h
  · injection h with h
    subst h
    exact hrefl _
  · split at h
    · injection h with h
      subst h
      exact hrefl _
    · split at h
      · injection h with h
        subst h
        exact hrefl _
      · cases h
      · exact hloop _ _ _ _ _ h

/-! ## The order in which the samples are visited -/

theorem tlv_offsets_increasing (data : Bytes) (n off : Nat) :
    (tlv data n off).Pairwise (fun a b => a.Offset < b.Offset) := by
  induction n generalizing off with
  | zero => simp [tlv]
  | succ n ih =>
    unfold tlv
    split
    · refine List.pairwise_cons.mpr ⟨?_, ih _⟩
      intro b hb
      have := (tlv_mem hb).1
      show off < b.Offset
      omega
    · exact List.Pairwise.nil

theorem pairwise_of_forall₂ {α β : Type} {R : α → β → Prop} {S : α → α → Prop}
    {T : β → β → Prop} (hT : ∀ a b x y, S a b → R a x → R b y → T x y) {l1 : List α}
    {l2 : List β} (h : List.Forall₂ R l1 l2) (hs : l1.Pairwise S) : l2.Pairwise T := by
  induction h with
  | nil => exact List.Pairwise.nil
  | cons hab _ ih =>
    rename_i a x l1 l2 hrest
    obtain ⟨h1, h2⟩ := List.pairwise_cons.mp hs
    refine List.pairwise_cons.mpr ⟨?_, ih h2⟩
    intro y hy
    obtain ⟨b, hb, hby⟩ : ∃ b, b ∈ l1 ∧ R b y := by
      clear ih h2 h1 hs
      induction hrest with
      | nil => cases hy
      | cons hcd _ ih2 =>
        rename_i c z l3 l4 _
        rcases List.mem_cons.mp hy with rfl | hy
        · exact ⟨c, List.mem_cons_self _ _, hcd⟩
        · obtain ⟨b, hb, hr⟩ := ih2 hy
          exact ⟨b, List.mem_cons_of_mem _ hb, hr⟩
    exact hT a b x y (h1 b hb) hab hby

/-- The mutator calls made while a sample is processed all carry the offset of
that sample. -/
theorem processSample_offsets {rules : List EnrichmentRule} {sample : Sample}
    {st st' : EnrichState} (h : processSample rules sample st = .ok st') :
    ∃ g, st'.calls = st.calls ++ g ∧ ∀ c ∈ g, c.sampleOffset = sample.Offset := by
  refine processSample_rel
    (fun a b => ∃ g, b.calls = a.calls ++ g ∧ ∀ c ∈ g, c.sampleOffset = sample.Offset) sample
    ?_ ?_ ?_ ?_ ?_ h
  · intro st
    exact ⟨[], by simp, by simp⟩
  · rintro a b c ⟨g1, e1, h1⟩ ⟨g2, e2, h2⟩
    refine ⟨g1 ++ g2, by rw [e2, e1, List.append_assoc], ?_⟩
    intro x hx
    rcases List.mem_append.mp hx with hx | hx
    · exact h1 x hx
    · exact h2 x hx
  · intro st
    exact ⟨[], by simp, by simp⟩
  · intro st st' op k ro v hs
    refine ⟨_, inPlace_calls hs, ?_⟩
    intro c hc
    rw [List.mem_singleton.mp hc]
  · intro st ro v
    refine ⟨[⟨.dstAS, st.packet, sample.Offset, ro, v⟩], ?_, ?_⟩
    · split <;> rfl
    · intro c hc
      rw [List.mem_singleton.mp hc]

/-- The trace of a run of the sample loop is the trace before it followed by one
group of calls for each sample, in the order the samples were given, each group
carrying the offset of its sample. -/
theorem sampleLoop_groups {rules : List EnrichmentRule} {samples : List Sample}
    {st st' : EnrichState} (h : sampleLoop rules samples st = .ok st') :
    ∃ groups : List (List Call), st'.calls = st.calls ++ groups.flatten ∧
      List.Forall₂ (fun (s : Sample) (g : List Call) => ∀ c ∈ g, c.sampleOffset = s.Offset)
        samples groups := by
  induction samples generalizing st with
  | nil =>
    simp only [sampleLoop] at h
    injection h with h
    subst h
    exact ⟨[], by simp, List.Forall₂.nil⟩
  | cons s rest ih =>
    unfold sampleLoop at h
    cases h1 : processSample rules s st with
    | error e => rw [h1] at h; cases h
    | ok st1 =>
      rw [h1] at h
      simp only [Except.bind] at h
      obtain ⟨g, eg, hg⟩ := processSample_offsets h1
      obtain ⟨gs, egs, hgs⟩ := ih h
      exact ⟨g :: gs, by rw [egs, eg, List.flatten_cons, List.append_assoc],
        List.Forall₂.cons hg hgs⟩

/-- C14.  `enrichPacket` processes the samples in strictly descending order of
sample offset.  The offsets `Parse` records are strictly increasing with the
sample index; the mutator calls of a run are, in the order they were made, one
group of calls per sample taken from the last index to the first, every call of
a group carrying the offset of its sample; so every call made for a sample
carries a sample offset strictly smaller than that of every call made for a
sample visited before it. -/
theorem enrichPacket_descending_sample_offsets (rules : List EnrichmentRule) (P : Bytes)
    (d : Datagram) (st : EnrichState) (hp : Parse P = .ok d)
    (h : enrichRun rules P = .ok st) :
    d.Samples.Pairwise (fun a b => a.Offset < b.Offset) ∧
    ∃ groups : List (List Call), st.calls = groups.flatten ∧
      List.Forall₂ (fun (s : Sample) (g : List Call) => ∀ c ∈ g, c.sampleOffset = s.Offset)
        d.Samples.reverse groups ∧
      groups.Pairwise (fun g1 g2 => ∀ a ∈ g1, ∀ b ∈ g2, b.sampleOffset < a.sampleOffset) := by
  have hinc : d.Samples.Pairwise (fun a b => a.Offset < b.Offset) := by
    rw [(Parse_ok_fields hp).2.2.2.2.2.2.2.2.2.2.1]
    exact tlv_offsets_increasing _ _ _
  refine ⟨hinc, ?_⟩
  unfold enrichRun at h
  rw [hp] at h
  obtain ⟨groups, e, hf⟩ := sampleLoop_groups h
  refine ⟨groups, by simpa [EnrichState.init] using e, hf, ?_⟩
  refine pairwise_of_forall₂ ?_ hf (List.pairwise_reverse.mpr hinc)
  intro s1 s2 g1 g2 hlt h1 h2 a ha b hb
  rw [h1 a ha, h2 b hb]
  exact hlt

set_option maxRecDepth 100000 in
/-- Witness for C14: the run on `twoSampleDatagram` with the rule `ownRule`,
which mutates both samples. -/
theorem enrichPacket_descending_sample_offsets_witness :
    ∃ (d : Datagram) (st : EnrichState), Parse twoSampleDatagram = .ok d ∧
      enrichRun [ownRule] twoSampleDatagram = .ok st ∧
      d.Samples.Pairwise (fun a b => a.Offset < b.Offset) ∧
      ∃ groups : List (List Call), st.calls = groups.flatten ∧
        List.Forall₂ (fun (s : Sample) (g : List Call) => ∀ c ∈ g, c.sampleOffset = s.Offset)
          d.Samples.reverse groups ∧
        groups.Pairwise (fun g1 g2 => ∀ a ∈ g1, ∀ b ∈ g2, b.sampleOffset < a.sampleOffset) := by
  have hp := @Parse_ipv4 twoSampleDatagram (by decide) (by decide) (by decide)
  have hok : (enrichRun [ownRule] twoSampleDatagram).toBool = true := by decide
  obtain ⟨st, h⟩ : ∃ st, enrichRun [ownRule] twoSampleDatagram = .ok st := by
    cases h : enrichRun [ownRule] twoSampleDatagram with
    | error e => rw [h] at hok; cases hok
    | ok st => exact ⟨st, rfl⟩
  exact ⟨_, st, hp, h, enrichPacket_descending_sample_offsets [ownRule] twoSampleDatagram _ st hp h⟩

/-! ## The datagram header is never written -/

theorem getElem?_eq_byteAt {a : Bytes} {i : Nat} (h : i < a.length) :
    a[i]? = some (byteAt a i) := by
  simp [byteAt, List.getD_eq_getElem?_getD, List.getElem?_eq_getElem h]

theorem slice_eq_of_byteAt {a b : Bytes} {lo hi : Nat} (ha : hi ≤ a.length) (hb : hi ≤ b.length)
    (h : ∀ i, lo ≤ i → i < hi → byteAt a i = byteAt b i) : slice a lo hi = slice b lo hi := by
  apply List.ext_getElem?
  intro i
  simp only [slice, List.getElem?_take, List.getElem?_drop]
  split
  · rw [getElem?_eq_byteAt (show lo + i < a.length by omega),
      getElem?_eq_byteAt (show lo + i < b.length by omega), h _ (by omega) (by omega)]
  · rfl

theorem byteAt_poke_lt {k : Nat} {p : Bytes} {so ro v i : Nat} (h : i < so + 24) :
    byteAt (poke k p so ro v) i = byteAt p i := by
  unfold poke
  cases hf : fieldPos k p so ro with
  | none => rfl
  | some pos =>
    have := fieldPos_some hf
    exact byteAt_writeU32_of_ne (by omega)

theorem byteAt_ModifyDstAS_lt {p : Bytes} {so ro v i : Nat} (h : i < so + 4) :
    byteAt (ModifyDstAS p so ro v).1 i = byteAt p i := by
  rcases ModifyDstAS_cases p so ro v with e | e
  · rw [e]
  · obtain ⟨hop, _, _, _, h3, _, heq⟩ := ModifyDstAS_ok_inv e
    rw [heq, byteAt_writeU32_of_ne (by omega), byteAt_writeU32_of_ne (by omega),
      byteAt_splice_lt (by omega) (by omega)]

theorem length_ModifyDstAS_le (p : Bytes) (so ro v : Nat) :
    p.length ≤ (ModifyDstAS p so ro v).1.length := by
  rcases ModifyDstAS_cases p so ro v with e | e
  · rw [e]
  · obtain ⟨hop, _, _, _, h3, _, heq⟩ := ModifyDstAS_ok_inv e
    rw [heq, length_writeU32, length_writeU32, length_splice (by omega)]
    simp [length_wordBytes]
    omega

/-- The processing of a sample leaves every byte before the sample header as it
was and does not shorten the packet. -/
theorem processSample_frame {rules : List EnrichmentRule} {sample : Sample}
    {st st' : EnrichState} (h : processSample rules sample st = .ok st') :
    st.packet.length ≤ st'.packet.length ∧
    ∀ i, i < sample.Offset → byteAt st'.packet i = byteAt st.packet i := by
  refine processSample_rel
    (fun a b => a.packet.length ≤ b.packet.length ∧
      ∀ i, i < sample.Offset → byteAt b.packet i = byteAt a.packet i) sample
    ?_ ?_ ?_ ?_ ?_ h
  · intro st
    exact ⟨Nat.le_refl _, fun _ _ => rfl⟩
  · rintro a b c ⟨l1, h1⟩ ⟨l2, h2⟩
    exact ⟨Nat.le_trans l1 l2, fun i hi => by rw [h2 i hi, h1 i hi]⟩
  · intro st
    exact ⟨Nat.le_refl _, fun _ _ => rfl⟩
  · intro st st' op k ro v hs
    obtain ⟨st'', e, hp, _, _⟩ :=
      inPlace_setASField st op k sample.Offset ro v (inPlace_ok_inv hs).1
    rw [hs] at e
    injection e with e
    subst e
    rw [hp, length_poke]
    exact ⟨Nat.le_refl _, fun i hi => byteAt_poke_lt (by omega)⟩
  · intro st ro v
    split
    · exact ⟨length_ModifyDstAS_le _ _ _ _, fun i hi => byteAt_ModifyDstAS_lt (by omega)⟩
    · exact ⟨Nat.le_refl _, fun _ _ => rfl⟩

theorem sampleLoop_frame {rules : List EnrichmentRule} {samples : List Sample} {H : Nat}
    (hH : ∀ s ∈ samples, H ≤ s.Offset) {st st' : EnrichState}
    (h : sampleLoop rules samples st = .ok st') :
    st.packet.length ≤ st'.packet.length ∧
    ∀ i, i < H → byteAt st'.packet i = byteAt st.packet i := by
  induction samples generalizing st with
  | nil =>
    simp only [sampleLoop] at h
    injection h with h
    subst h
    exact ⟨Nat.le_refl _, fun _ _ => rfl⟩
  | cons s rest ih =>
    unfold sampleLoop at h
    cases h1 : processSample rules s st with
    | error e => rw [h1] at h; cases h
    | ok st1 =>
      rw [h1] at h
      simp only [Except.bind] at h
      obtain ⟨l1, f1⟩ := processSample_frame h1
      obtain ⟨l2, f2⟩ := ih (fun x hx => hH x (List.mem_cons_of_mem _ hx)) h
      have := hH s (List.mem_cons_self _ _)
      exact ⟨Nat.le_trans l1 l2, fun i hi => by rw [f2 i hi, f1 i (by omega)]⟩

/-- C15.  Whatever `enrichPacket` returns, the datagram header is that of the
input.  When `Parse` rejects the input the output is the input; when `Parse`
accepts it the output is at least as long as the input, its first 28 bytes (40
with an IPv6 agent address) are those of the input byte-for-byte, and `Parse`
of the output succeeds with the same version, agent address type and address,
sub-agent id, sequence number, uptime and sample count. -/
theorem enrichPacket_keeps_header (rules : List EnrichmentRule) (P out : Bytes) (e : Bool)
    (h : enrichPacket rules P = .ok (out, e)) :
    P.length ≤ out.length ∧
    (∀ err, Parse P = .error (.error err) → out = P) ∧
    ∀ d, Parse P = .ok d →
      slice out 0 (headerLength d.AgentAddrType) = slice P 0 (headerLength d.AgentAddrType) ∧
      ∃ d', Parse out = .ok d' ∧ d'.Version = d.Version ∧
        d'.AgentAddrType = d.AgentAddrType ∧ d'.AgentAddr = d.AgentAddr ∧
        d'.SubAgentID = d.SubAgentID ∧ d'.SequenceNum = d.SequenceNum ∧
        d'.Uptime = d.Uptime ∧ d'.NumSamples = d.NumSamples := by
  unfold enrichPacket at h
  cases hr : enrichRun rules P with
  | error x => rw [hr] at h; cases h
  | ok st =>
    rw [hr] at h
    simp only [Except.bind] at h
    injection h with h
    injection h with ho he
    subst ho
    unfold enrichRun at hr
    cases hp : Parse P with
    | error x =>
      rw [hp] at hr
      cases x with
      | panic => cases hr
      | error err =>
        simp only at hr
        injection hr with hr
        subst hr
        exact ⟨Nat.le_refl _, fun _ _ => rfl, fun d hd => by cases hd⟩
    | ok d =>
      rw [hp] at hr
      simp only at hr
      obtain ⟨ht, hlen, hv, hv0, hty, haddr, hsub, hseq, hup, hnum, hsam, _⟩ := Parse_ok_fields hp
      have hH : ∀ s ∈ d.Samples.reverse, headerLength d.AgentAddrType ≤ s.Offset := by
        intro s hs
        rw [List.mem_reverse, hsam] at hs
        exact (tlv_mem hs).1
      obtain ⟨hl, hf⟩ := sampleLoop_frame hH hr
      have hl' : P.length ≤ st.packet.length := hl
      have hf' : ∀ i, i < headerLength d.AgentAddrType → byteAt st.packet i = byteAt P i := hf
      refine ⟨hl', fun err he => (by cases he), ?_⟩
      intro d0 hd0
      injection hd0 with hd0
      subst hd0
      have hw : ∀ off, off + 4 ≤ headerLength d.AgentAddrType →
          u32At st.packet off = u32At P off :=
        fun off ho => u32At_congr fun i _ _ => hf' i (by omega)
      have hsl : ∀ lo hi, hi ≤ headerLength d.AgentAddrType →
          slice st.packet lo hi = slice P lo hi :=
        fun lo hi hh => slice_eq_of_byteAt (by omega) (by omega) fun i _ _ => hf' i (by omega)
      refine ⟨hsl _ _ (Nat.le_refl _), ?_⟩
      have h28 : 28 ≤ headerLength d.AgentAddrType := by
        unfold headerLength; split <;> omega
      rcases ht with ht | ht
      · have hh : headerLength d.AgentAddrType = 28 := by simp [headerLength, ht]
        have e0 := Parse_ipv4 (show 28 ≤ st.packet.length by omega)
          (by rw [hw 0 (by omega)]; exact hv0) (by rw [hw 4 (by omega), ← hty]; exact ht)
        refine ⟨_, e0, ?_⟩
        rw [hh] at haddr hsub hseq hup hnum hw hsl
        simp only [hv, ht, haddr, hsub, hseq, hup, hnum]
        exact ⟨trivial, trivial, hsl _ _ (by omega), hw _ (by omega), hw _ (by omega), hw _ (by omega),
          hw _ (by omega)⟩
      · have hh : headerLength d.AgentAddrType = 40 := by simp [headerLength, ht]
        have e0 := Parse_ipv6 (show 40 ≤ st.packet.length by omega)
          (by rw [hw 0 (by omega)]; exact hv0) (by rw [hw 4 (by omega), ← hty]; exact ht)
        refine ⟨_, e0, ?_⟩
        rw [hh] at haddr hsub hseq hup hnum hw hsl
        simp only [hv, ht, haddr, hsub, hseq, hup, hnum]
        exact ⟨trivial, trivial, hsl _ _ (by omega), hw _ (by omega), hw _ (by omega), hw _ (by omega),
          hw _ (by omega)⟩

set_option maxRecDepth 100000 in
/-- Witness for C15: the run on `twoSampleDatagram` with the rule `ownRule`,
which mutates both samples. -/
theorem enrichPacket_keeps_header_witness :
    ∃ (out : Bytes) (e : Bool), enrichPacket [ownRule] twoSampleDatagram = .ok (out, e) ∧
      twoSampleDatagram.length ≤ out.length ∧
      (∀ err, Parse twoSampleDatagram = .error (.error err) → out = twoSampleDatagram) ∧
      ∀ d, Parse twoSampleDatagram = .ok d →
        slice out 0 (headerLength d.AgentAddrType)
          = slice twoSampleDatagram 0 (headerLength d.AgentAddrType) ∧
        ∃ d', Parse out = .ok d' ∧ d'.Version = d.Version ∧
          d'.AgentAddrType = d.AgentAddrType ∧ d'.AgentAddr = d.AgentAddr ∧
          d'.SubAgentID = d.SubAgentID ∧ d'.SequenceNum = d.SequenceNum ∧
          d'.Uptime = d.Uptime ∧ d'.NumSamples = d.NumSamples := by
  have hok : (enrichPacket [ownRule] twoSampleDatagram).toBool = true := by decide
  obtain ⟨r, h⟩ : ∃ r, enrichPacket [ownRule] twoSampleDatagram = .ok r := by
    cases h : enrichPacket [ownRule] twoSampleDatagram with
    | error e => rw [h] at hok; cases hok
    | ok r => exact ⟨r, rfl⟩
  exact ⟨r.1, r.2, h, enrichPacket_keeps_header [ownRule] twoSampleDatagram r.1 r.2 h⟩

/-! ## Reading a buffer whose tail was moved -/

theorem u32At_shift {a b : Bytes} {m c off : Nat}
    (h : ∀ i, m ≤ i → byteAt b (i + c) = byteAt a i) (ho : m ≤ off) :
    u32At b (off + c) = u32At a off := by
  unfold u32At
  have e1 : off + c + 1 = off + 1 + c := by omega
  have e2 : off + c + 2 = off + 2 + c := by omega
  have e3 : off + c + 3 = off + 3 + c := by omega
  rw [e1, e2, e3, h off ho, h (off + 1) (by omega), h (off + 2) (by omega), h (off + 3) (by omega)]

theorem slice_shift {a b : Bytes} {m c lo hi : Nat}
    (h : ∀ i, m ≤ i → byteAt b (i + c) = byteAt a i) (hlo : m ≤ lo) (ha : hi ≤ a.length)
    (hb : hi + c ≤ b.length) : slice b (lo + c) (hi + c) = slice a lo hi := by
  apply List.ext_getElem?
  intro i
  simp only [slice, List.getElem?_take, List.getElem?_drop]
  have e : hi + c - (lo + c) = hi - lo := by omega
  rw [e]
  split
  · rw [getElem?_eq_byteAt (show lo + c + i < b.length by omega),
      getElem?_eq_byteAt (show lo + i < a.length by omega)]
    have e2 : lo + c + i = lo + i + c := by omega
    rw [e2, h _ (by omega)]
  · rfl

theorem wordLoop_shift {a b : Bytes} {m c : Nat} (hl : b.length = a.length + c)
    (h : ∀ i, m ≤ i → byteAt b (i + c) = byteAt a i) (n : Nat) {off : Nat} (ho : m ≤ off)
    (acc : List Nat) {r : Nat × List Nat} (hr : wordLoop a n off acc = .ok r) :
    wordLoop b n (off + c) acc = .ok (r.1 + c, r.2) := by
  induction n generalizing off acc with
  | zero =>
    simp only [wordLoop] at hr ⊢
    injection hr with hr
    subst hr
    rfl
  | succ n ih =>
    unfold wordLoop at hr ⊢
    by_cases hb : off + 4 ≤ a.length
    · have hb' : off + c + 4 ≤ b.length := by omega
      rw [if_pos hb, Uint32_ok hb] at hr
      rw [if_pos hb', Uint32_ok hb', u32At_shift h ho]
      simp only [Except.bind] at hr ⊢
      have e : off + c + 4 = off + 4 + c := by omega
      rw [e]
      exact ih (by omega) _ hr
    · have hb' : ¬ off + c + 4 ≤ b.length := by omega
      rw [if_neg hb] at hr
      rw [if_neg hb']
      injection hr with hr
      subst hr
      rfl

/-- The tail of a gateway payload whose zero path-length word at `q` was
replaced by the words 1, 2, 1, `v`: the path is `[v]`, the communities and the
local preference are those of the payload before. -/
theorem gatewayTail_spliced {D D' : Bytes} {q v : Nat}
    (hl : D'.length = D.length + 12) (hq : q + 4 ≤ D.length) (h0 : u32At D q = 0)
    (w1 : u32At D' q = 1) (w3 : u32At D' (q + 8) = 1)
    (w4 : u32At D' (q + 12) = v)
    (hsh : ∀ i, q + 4 ≤ i → byteAt D' (i + 12) = byteAt D i) :
    ∃ c cs lp, gatewayTail D q = .ok (0, [], c, cs, lp) ∧
      gatewayTail D' q = .ok (1, [v], c, cs, lp) := by
  have last : ∀ (x : Nat) (c : Nat) (cs : List Nat), q + 4 ≤ x →
      ∃ lp, (if x + 4 ≤ D.length then Uint32 D x else .ok 0) = Except.ok lp ∧
        (if x + 12 + 4 ≤ D'.length then Uint32 D' (x + 12) else .ok 0) = Except.ok lp := by
    intro x c cs hx
    by_cases hb : x + 4 ≤ D.length
    · have hb' : x + 12 + 4 ≤ D'.length := by omega
      rw [if_pos hb, if_pos hb', Uint32_ok hb, Uint32_ok hb', u32At_shift hsh hx]
      exact ⟨_, rfl, rfl⟩
    · have hb' : ¬ x + 12 + 4 ≤ D'.length := by omega
      rw [if_neg hb, if_neg hb']
      exact ⟨_, rfl, rfl⟩
  have eD : gatewayTail D q =
      ((if q + 4 + 4 ≤ D.length then
          (Uint32 D (q + 4)).bind fun commLen =>
          (wordLoop D commLen (q + 4 + 4) []).bind fun r => .ok (commLen, r.2, r.1)
        else .ok (0, [], q + 4)).bind fun (comm : Nat × List Nat × Nat) =>
      (if comm.2.2 + 4 ≤ D.length then Uint32 D comm.2.2 else .ok 0).bind fun localPref =>
      (.ok (0, [], comm.1, comm.2.1, localPref) :
        Except Fault (Nat × List Nat × Nat × List Nat × Nat))) := by
    unfold gatewayTail
    rw [if_pos hq, Uint32_ok hq, h0]
    rfl
  have eD' : gatewayTail D' q =
      ((if q + 16 + 4 ≤ D'.length then
          (Uint32 D' (q + 16)).bind fun commLen =>
          (wordLoop D' commLen (q + 16 + 4) []).bind fun r => .ok (commLen, r.2, r.1)
        else .ok (0, [], q + 16)).bind fun (comm : Nat × List Nat × Nat) =>
      (if comm.2.2 + 4 ≤ D'.length then Uint32 D' comm.2.2 else .ok 0).bind fun localPref =>
      (.ok (1, [v], comm.1, comm.2.1, localPref) :
        Except Fault (Nat × List Nat × Nat × List Nat × Nat))) := by
    unfold gatewayTail
    rw [if_pos (show q + 4 ≤ D'.length by omega), Uint32_ok (show q + 4 ≤ D'.length by omega), w1]
    simp only [Except.bind, segmentLoop, wordLoop]
    rw [if_pos (show q + 4 + 8 ≤ D'.length by omega),
      Uint32_ok (show q + 4 + 4 ≤ D'.length by omega),
      Uint32_ok (show q + 4 + 4 + 4 ≤ D'.length by omega)]
    have e8 : q + 4 + 4 = q + 8 := by omega
    simp only [e8, w3, wordLoop]
    rw [if_pos (show q + 4 + 8 + 4 ≤ D'.length by omega),
      Uint32_ok (show q + 4 + 8 + 4 ≤ D'.length by omega)]
    have e12 : q + 4 + 8 = q + 12 := by omega
    simp only [e12, w4, List.nil_append]
    rfl
  rw [eD, eD']
  by_cases hc : q + 4 + 4 ≤ D.length
  · have hc' : q + 16 + 4 ≤ D'.length := by omega
    rw [if_pos hc, if_pos hc', Uint32_ok hc, Uint32_ok hc']
    have e16 : q + 16 = q + 4 + 12 := by omega
    have e20 : q + 16 + 4 = q + 4 + 4 + 12 := by omega
    rw [e20, e16, u32At_shift hsh (Nat.le_refl _)]
    simp only [Except.bind]
    obtain ⟨r, hr⟩ := wordLoop_ok D (u32At D (q + 4)) (q + 4 + 4) []
    have hge := wordLoop_fst_ge hr
    rw [hr, wordLoop_shift hl hsh _ (by omega) _ hr]
    simp only
    obtain ⟨lp, l1, l2⟩ := last r.1 (u32At D (q + 4)) r.2 (by omega)
    rw [l1, l2]
    exact ⟨_, _, _, rfl, rfl⟩
  · have hc' : ¬ q + 16 + 4 ≤ D'.length := by omega
    rw [if_neg hc, if_neg hc']
    simp only [Except.bind]
    obtain ⟨lp, l1, l2⟩ := last (q + 4) 0 [] (Nat.le_refl _)
    have e16 : q + 16 = q + 4 + 12 := by omega
    rw [e16, l1, l2]
    exact ⟨_, _, _, rfl, rfl⟩


theorem gatewayTail_fst {D : Bytes} {q : Nat} {t : Nat × List Nat × Nat × List Nat × Nat}
    (hq : q + 4 ≤ D.length) (h : gatewayTail D q = .ok t) : t.1 = u32At D q := by
  unfold gatewayTail at h
  rw [if_pos hq, Uint32_ok hq] at h
  simp only [Except.bind] at h
  obtain ⟨r, hr⟩ := segmentLoop_ok D (u32At D q) (q + 4) []
  rw [hr] at h
  simp only at h
  split at h
  · cases h
  · rename_i comm hcomm
    split at h
    · cases h
    · injection h with h
      subst h
      rfl

/-- The gateway payload whose zero path-length word was replaced by the words
1, 2, 1, `v` parses to the same record with the path `[v]`. -/
theorem ParseExtendedGateway_spliced {D D' : Bytes} {g : ExtendedGateway} {hop v : Nat}
    (h : ParseExtendedGateway D = .ok g)
    (ht : (u32At D 0 = 1 ∧ hop = 8) ∨ (u32At D 0 = 2 ∧ hop = 20))
    (h0 : g.DstASPathLen = 0) (hw : hop + 16 ≤ D.length)
    (hl : D'.length = D.length + 12)
    (hpre : ∀ i, i < hop + 12 → byteAt D' i = byteAt D i)
    (w1 : u32At D' (hop + 12) = 1) (w3 : u32At D' (hop + 12 + 8) = 1)
    (w4 : u32At D' (hop + 12 + 12) = v)
    (hsh : ∀ i, hop + 12 + 4 ≤ i → byteAt D' (i + 12) = byteAt D i) :
    ParseExtendedGateway D' = .ok { g with DstASPathLen := 1, DstASPath := [v] } := by
  have hop8 : 8 ≤ hop := by rcases ht with ⟨_, rfl⟩ | ⟨_, rfl⟩ <;> omega
  have e : ∀ x, x + 4 ≤ hop + 12 → u32At D' x = u32At D x :=
    fun x hx => u32At_congr fun i _ _ => hpre i (by omega)
  have hsl : slice D' 4 hop = slice D 4 hop :=
    slice_eq_of_byteAt (by omega) (by omega) fun i _ _ => hpre i (by omega)
  rw [ParseExtendedGateway_eq ht (by omega)] at h
  rw [ParseExtendedGateway_eq (by rw [e 0 (by omega)]; exact ht) (by omega)]
  cases hg : gatewayTail D (hop + 12) with
  | error x => rw [hg] at h; cases h
  | ok t =>
    rw [hg] at h
    simp only [Except.bind] at h
    injection h with h
    subst h
    have hz : u32At D (hop + 12) = 0 := by
      rw [← gatewayTail_fst (by omega) hg]
      exact h0
    obtain ⟨c, cs, lp, t1, t2⟩ := gatewayTail_spliced hl (by omega) hz w1 w3 w4 hsh
    rw [hg] at t1
    injection t1 with t1
    subst t1
    rw [t2, e 0 (by omega), e hop (by omega), e (hop + 4) (by omega), e (hop + 8) (by omega), hsl]
    rfl

/-! ## The buffer `ModifyDstAS` builds -/

theorem byteAt_append_left {a b : Bytes} {i : Nat} (h : i < a.length) :
    byteAt (a ++ b) i = byteAt a i := by
  simp [byteAt, List.getD_eq_getElem?_getD, List.getElem?_append_left h]

theorem byteAt_append_right {a b : Bytes} {i : Nat} (h : a.length ≤ i) :
    byteAt (a ++ b) i = byteAt b (i - a.length) := by
  simp [byteAt, List.getD_eq_getElem?_getD, List.getElem?_append_right h]

theorem byteAt_drop (a : Bytes) (n i : Nat) : byteAt (a.drop n) i = byteAt a (n + i) := by
  simp [byteAt, List.getD_eq_getElem?_getD, List.getElem?_drop]

theorem byteAt_splice_mid {p : Bytes} {off cnt j : Nat} {ins : Bytes} (ho : off ≤ p.length)
    (hj : j < ins.length) : byteAt (splice p off cnt ins) (off + j) = byteAt ins j := by
  unfold splice
  have hlen : (List.take off p).length = off := by simp; omega
  rw [List.append_assoc, byteAt_append_right (by omega), hlen, byteAt_append_left (by omega)]
  congr 1
  omega

theorem byteAt_splice_ge {p : Bytes} {off cnt i : Nat} {ins : Bytes} (ho : off ≤ p.length)
    (hi : off + cnt ≤ i) : byteAt (splice p off cnt ins) (i - cnt + ins.length) = byteAt p i := by
  unfold splice
  have hlen : (List.take off p).length = off := by simp; omega
  rw [List.append_assoc, byteAt_append_right (by omega), hlen, byteAt_append_right (by omega),
    byteAt_drop]
  congr 1
  omega

theorem ModifyDstAS_of_valid {p : Bytes} {so ro hop : Nat} (v : Nat)
    (ht : (u32At p (so + 8 + ro + 8) = 1 ∧ hop = 8) ∨ (u32At p (so + 8 + ro + 8) = 2 ∧ hop = 20))
    (hs : so + 8 + u32At p (so + 4) ≤ p.length)
    (hr : so + 8 + ro + 8 + u32At p (so + 8 + ro + 4) ≤ p.length)
    (hq : so + 8 + ro + 8 + hop + 12 + 4 ≤ p.length)
    (h0 : u32At p (so + 8 + ro + 8 + hop + 12) = 0) :
    ModifyDstAS p so ro v =
      (writeU32
        (writeU32
          (splice p (so + 8 + ro + 8 + hop + 12) 4
            (wordBytes 1 ++ wordBytes 2 ++ wordBytes 1 ++ wordBytes v))
          (so + 8 + ro + 4) (u32At p (so + 8 + ro + 4) + 12))
        (so + 4) (u32At p (so + 4) + 12), true) := by
  have n1 : ¬ so + 8 > p.length := by omega
  have n2 : ¬ so + 8 + u32At p (so + 4) > p.length := by omega
  have n3 : ¬ so + 8 + ro + 8 > p.length := by omega
  have n4 : ¬ so + 8 + ro + 8 + u32At p (so + 8 + ro + 4) > p.length := by omega
  have n5 : ¬ so + 8 + ro + 8 + 4 > p.length := by omega
  unfold ModifyDstAS
  simp only [if_neg n1, if_neg n2, if_neg n3, if_neg n4, if_neg n5]
  rcases ht with ⟨t, rfl⟩ | ⟨t, rfl⟩
  · have n6 : ¬ (u32At p (so + 8 + ro + 8) ≠ 1 ∧ u32At p (so + 8 + ro + 8) ≠ 2) := by
      rw [t]; simp
    have n7 : ¬ so + 8 + ro + 8 + 4 + 4 + 12 + 4 > p.length := by omega
    have e : so + 8 + ro + 8 + 4 + 4 + 12 = so + 8 + ro + 8 + 8 + 12 := by omega
    have n8 : ¬ u32At p (so + 8 + ro + 8 + 4 + 4 + 12) ≠ 0 := by rw [e, h0]; simp
    rw [if_neg n6]
    simp only [t, if_true]
    rw [if_neg n7, if_neg n8, e]
  · have n6 : ¬ (u32At p (so + 8 + ro + 8) ≠ 1 ∧ u32At p (so + 8 + ro + 8) ≠ 2) := by
      rw [t]; simp
    have n7 : ¬ so + 8 + ro + 8 + 4 + 16 + 12 + 4 > p.length := by omega
    have e : so + 8 + ro + 8 + 4 + 16 + 12 = so + 8 + ro + 8 + 20 + 12 := by omega
    have n8 : ¬ u32At p (so + 8 + ro + 8 + 4 + 16 + 12) ≠ 0 := by rw [e, h0]; simp
    rw [if_neg n6]
    simp only [t, show (2 : Nat) ≠ 1 by omega, if_false]
    rw [if_neg n7, if_neg n8, e]

theorem u32At_append_right (x y : Bytes) (k : Nat) : u32At (x ++ y) (x.length + k) = u32At y k := by
  unfold u32At
  rw [byteAt_append_right (by omega), byteAt_append_right (by omega),
    byteAt_append_right (by omega), byteAt_append_right (by omega)]
  have e0 : x.length + k - x.length = k := by omega
  have e1 : x.length + k + 1 - x.length = k + 1 := by omega
  have e2 : x.length + k + 2 - x.length = k + 2 := by omega
  have e3 : x.length + k + 3 - x.length = k + 3 := by omega
  rw [e0, e1, e2, e3]

theorem u32At_wordBytes_append {v : Nat} (hv : v < 4294967296) (rest : Bytes) :
    u32At (wordBytes v ++ rest) 0 = v := by
  have : u32At (wordBytes v ++ rest) 0
      = be32 (byteOf v 24) (byteOf v 16) (byteOf v 8) (byteOf v 0) := rfl
  rw [this, be32_byteOf hv]

theorem slice_splice_mid {p : Bytes} {off cnt : Nat} {ins : Bytes} (ho : off ≤ p.length) :
    slice (splice p off cnt ins) off (off + ins.length) = ins := by
  have hlen : (List.take off p).length = off := by simp; omega
  unfold slice splice
  rw [List.append_assoc, List.drop_append_of_le_length (by omega),
    List.drop_eq_nil_of_le (by omega), List.nil_append]
  have e : off + ins.length - off = ins.length := by omega
  rw [e, List.take_left']
  rfl

/-- The buffer `ModifyDstAS` returns on a record with a zero path-length word,
byte by byte. -/
theorem ModifyDstAS_bytes {p : Bytes} {so ro hop : Nat} (v : Nat)
    (ht : (u32At p (so + 8 + ro + 8) = 1 ∧ hop = 8) ∨ (u32At p (so + 8 + ro + 8) = 2 ∧ hop = 20))
    (hs : so + 8 + u32At p (so + 4) ≤ p.length)
    (hr : so + 8 + ro + 8 + u32At p (so + 8 + ro + 4) ≤ p.length)
    (hq : so + 8 + ro + 8 + hop + 12 + 4 ≤ p.length)
    (h0 : u32At p (so + 8 + ro + 8 + hop + 12) = 0)
    (hb : p.length + 12 < 4294967296) :
    (ModifyDstAS p so ro v).2 = true ∧
    (ModifyDstAS p so ro v).1.length = p.length + 12 ∧
    (∀ i, i < so + 8 + ro + 8 + hop + 12 → ¬ (so + 4 ≤ i ∧ i < so + 8) →
      ¬ (so + 8 + ro + 4 ≤ i ∧ i < so + 8 + ro + 8) →
      byteAt (ModifyDstAS p so ro v).1 i = byteAt p i) ∧
    u32At (ModifyDstAS p so ro v).1 (so + 4) = u32At p (so + 4) + 12 ∧
    u32At (ModifyDstAS p so ro v).1 (so + 8 + ro + 4) = u32At p (so + 8 + ro + 4) + 12 ∧
    slice (ModifyDstAS p so ro v).1 (so + 8 + ro + 8 + hop + 12) (so + 8 + ro + 8 + hop + 12 + 16)
      = wordBytes 1 ++ wordBytes 2 ++ wordBytes 1 ++ wordBytes v ∧
    (∀ i, so + 8 + ro + 8 + hop + 12 + 4 ≤ i →
      byteAt (ModifyDstAS p so ro v).1 (i + 12) = byteAt p i) := by
  rw [ModifyDstAS_of_valid v ht hs hr hq h0]
  have hSlen : (splice p (so + 8 + ro + 8 + hop + 12) 4
      (wordBytes 1 ++ wordBytes 2 ++ wordBytes 1 ++ wordBytes v)).length = p.length + 12 := by
    rw [length_splice (by omega)]
    simp [length_wordBytes]
    omega
  refine ⟨rfl, ?_, ?_, ?_, ?_, ?_, ?_⟩
  · simp only
    rw [length_writeU32, length_writeU32, hSlen]
  · intro i h1 h2 h3
    simp only
    rw [byteAt_writeU32_of_ne (by omega), byteAt_writeU32_of_ne (by omega),
      byteAt_splice_lt h1 (by omega)]
  · simp only
    rw [u32At_writeU32 (by rw [length_writeU32, hSlen]; omega)]
    exact Nat.mod_eq_of_lt (by omega)
  · simp only
    rw [u32At_writeU32_of_disjoint (by omega), u32At_writeU32 (by rw [hSlen]; omega)]
    exact Nat.mod_eq_of_lt (by omega)
  · simp only
    have e := @slice_splice_mid p (so + 8 + ro + 8 + hop + 12) 4
      (wordBytes 1 ++ wordBytes 2 ++ wordBytes 1 ++ wordBytes v) (by omega)
    have e16 : (wordBytes 1 ++ wordBytes 2 ++ wordBytes 1 ++ wordBytes v).length = 16 := rfl
    rw [e16] at e
    refine Eq.trans ?_ e
    apply slice_eq_of_byteAt
    · rw [length_writeU32, length_writeU32, hSlen]; omega
    · rw [hSlen]; omega
    · intro i h1 h2
      rw [byteAt_writeU32_of_ne (by omega), byteAt_writeU32_of_ne (by omega)]
  · intro i hi
    simp only
    rw [byteAt_writeU32_of_ne (by omega), byteAt_writeU32_of_ne (by omega)]
    have := @byteAt_splice_ge p (so + 8 + ro + 8 + hop + 12) 4 i
      (wordBytes 1 ++ wordBytes 2 ++ wordBytes 1 ++ wordBytes v) (by omega) (by omega)
    have e16 : (wordBytes 1 ++ wordBytes 2 ++ wordBytes 1 ++ wordBytes v).length = 16 := rfl
    rw [e16] at this
    have e : i + 12 = i - 4 + 16 := by omega
    rw [e, this]

/-- The four words at the splice point. -/
theorem spliced_words {P' : Bytes} {q v : Nat} (hv : v < 4294967296)
    (h : slice P' q (q + 16) = wordBytes 1 ++ wordBytes 2 ++ wordBytes 1 ++ wordBytes v) :
    u32At P' q = 1 ∧ u32At P' (q + 4) = 2 ∧ u32At P' (q + 8) = 1 ∧ u32At P' (q + 12) = v := by
  have e : ∀ k, k + 4 ≤ 16 → u32At P' (q + k)
      = u32At (wordBytes 1 ++ wordBytes 2 ++ wordBytes 1 ++ wordBytes v) k := by
    intro k hk
    rw [← h, u32At_slice (by omega)]
  have a1 : ∀ (x : Nat) (rest : Bytes) (k : Nat),
      u32At (wordBytes x ++ rest) (4 + k) = u32At rest k :=
    fun x rest k => u32At_append_right (wordBytes x) rest k
  have hW : wordBytes 1 ++ wordBytes 2 ++ wordBytes 1 ++ wordBytes v
      = wordBytes 1 ++ (wordBytes 2 ++ (wordBytes 1 ++ (wordBytes v ++ []))) := by
    simp
  rw [hW] at e
  refine ⟨?_, ?_, ?_, ?_⟩
  · rw [← Nat.add_zero q, e 0 (by omega)]
    exact u32At_wordBytes_append (by omega) _
  · rw [e 4 (by omega), a1 1 _ 0]
    exact u32At_wordBytes_append (by omega) _
  · rw [e 8 (by omega), a1 1 _ 4, a1 2 _ 0]
    exact u32At_wordBytes_append (by omega) _
  · rw [e 12 (by omega), a1 1 _ 8, a1 2 _ 4, a1 1 _ 0]
    exact u32At_wordBytes_append hv _

/-- The gateway record after `ModifyDstAS`, from what is known about the bytes
of the buffer it returned. -/
theorem gatewayAt_spliced {p P' : Bytes} {so ro hop v : Nat} {g : ExtendedGateway}
    (hv : v < 4294967296)
    (hg : gatewayAt p so ro = .ok g) (h0 : g.DstASPathLen = 0)
    (ht : (u32At p (so + 8 + ro + 8) = 1 ∧ hop = 8) ∨ (u32At p (so + 8 + ro + 8) = 2 ∧ hop = 20))
    (hr : so + 8 + ro + 8 + u32At p (so + 8 + ro + 4) ≤ p.length)
    (hw : hop + 16 ≤ u32At p (so + 8 + ro + 4))
    (hl : P'.length = p.length + 12)
    (hpre : ∀ i, so + 8 + ro + 8 ≤ i → i < so + 8 + ro + 8 + hop + 12 → byteAt P' i = byteAt p i)
    (hlen : u32At P' (so + 8 + ro + 4) = u32At p (so + 8 + ro + 4) + 12)
    (hwords : slice P' (so + 8 + ro + 8 + hop + 12) (so + 8 + ro + 8 + hop + 12 + 16)
      = wordBytes 1 ++ wordBytes 2 ++ wordBytes 1 ++ wordBytes v)
    (hsh : ∀ i, so + 8 + ro + 8 + hop + 12 + 4 ≤ i → byteAt P' (i + 12) = byteAt p i) :
    gatewayAt P' so ro = .ok { g with DstASPathLen := 1, DstASPath := [v] } := by
  unfold gatewayAt at hg ⊢
  rw [hlen]
  obtain ⟨w1, _, w3, w4⟩ := spliced_words hv hwords
  refine @ParseExtendedGateway_spliced _ _ _ hop _ hg ?_ h0 ?_ ?_ ?_ ?_ ?_ ?_ ?_
  · rw [u32At_slice (by omega)]
    exact ht
  · rw [slice_length hr]; omega
  · rw [slice_length hr, slice_length (by omega)]; omega
  · intro i hi
    rw [byteAt_slice (by omega), byteAt_slice (by omega)]
    exact hpre _ (by omega) (by omega)
  · rw [u32At_slice (by omega)]
    rw [← w1]
    congr 1
  · rw [u32At_slice (by omega)]
    rw [← w3]
    congr 1
  · rw [u32At_slice (by omega)]
    rw [← w4]
    congr 1
  · intro i hi
    by_cases hlt : i < u32At p (so + 8 + ro + 4)
    · rw [byteAt_slice (by omega), byteAt_slice (by omega)]
      have e : so + 8 + ro + 8 + (i + 12) = so + 8 + ro + 8 + i + 12 := by omega
      rw [e]
      exact hsh _ (by omega)
    · rw [byteAt_of_length_le, byteAt_of_length_le]
      · rw [slice_length hr]; omega
      · rw [slice_length (by omega)]; omega

/-! ## The walk over a buffer that was spliced -/

theorem walkOffset_ge (data : Bytes) (start n : Nat) : start ≤ walkOffset data start n := by
  have := walkOffset_mono data start (Nat.zero_le n)
  have h0 : walkOffset data start 0 = start := rfl
  omega

theorem walkOffset_add (data : Bytes) (start j n : Nat) :
    walkOffset data start (j + n) = walkOffset data (walkOffset data start j) n := by
  induction n with
  | zero => rfl
  | succ n ih =>
    rw [← Nat.add_assoc, walkOffset, walkOffset, ih]

theorem walkOffset_congr_lt {a b : Bytes} {lim : Nat}
    (h : ∀ i, i < lim → byteAt b i = byteAt a i) (start : Nat) {j : Nat}
    (hj : walkOffset a start j ≤ lim) : walkOffset b start j = walkOffset a start j := by
  induction j with
  | zero => rfl
  | succ j ih =>
    have hj' : walkOffset a start j + 8 + u32At a (walkOffset a start j + 4) ≤ lim := hj
    have e := ih (by omega)
    show walkOffset b start j + 8 + u32At b (walkOffset b start j + 4)
      = walkOffset a start j + 8 + u32At a (walkOffset a start j + 4)
    have e2 : u32At b (walkOffset a start j + 4) = u32At a (walkOffset a start j + 4) :=
      u32At_congr fun i _ _ => h i (by omega)
    rw [e, e2]

theorem walkOffset_shift {a b : Bytes} {m c : Nat}
    (h : ∀ i, m ≤ i → byteAt b (i + c) = byteAt a i) {off : Nat} (ho : m ≤ off) (n : Nat) :
    walkOffset b (off + c) n = walkOffset a off n + c := by
  induction n with
  | zero => rfl
  | succ n ih =>
    rw [walkOffset, walkOffset, ih]
    have hge := walkOffset_ge a off n
    have e : walkOffset a off n + c + 4 = walkOffset a off n + 4 + c := by omega
    rw [e, u32At_shift h (by omega)]
    omega

/-- C11.  `set_dst_as` on a record whose path-length word is 0.  Let the
sample at `so` be inside the buffer, the record at `ro` inside the sample, the
record parse to `g` with `DstASPathLen = 0` and hold its path-length word (the
word after the next hop and the three AS words; `hop` is 8 for an IPv4 next
hop, 20 for an IPv6 one), and `v` be a 32-bit value.  Then `ModifyDstAS` returns
`ok = true` and a buffer exactly 12 bytes longer, in which the four words at
the place of the zero path-length word are 1, 2 (AS_SEQUENCE), 1, `v`, the
record length and the sample length are each 12 more, every byte before the
splice point other than those of the two length words is unchanged and every
byte after the old path-length word is unchanged, 12 places further.
`ParseExtendedGateway` of the new record payload gives `g` with
`DstASPathLen = 1` and `DstASPath = [v]`, every other field as it was.  If the
walk over the samples reached the sample at `so` and ended at the end of the
buffer before, it ends at the end of the new buffer. -/
theorem ModifyDstAS_splices (p : Bytes) (so ro v : Nat) (g : ExtendedGateway)
    (hv : v < 4294967296) (hb : p.length + 12 < 4294967296)
    (hs : so + 8 + u32At p (so + 4) ≤ p.length)
    (hr : ro + 8 + u32At p (so + 8 + ro + 4) ≤ u32At p (so + 4))
    (hg : gatewayAt p so ro = .ok g) (h0 : g.DstASPathLen = 0)
    (hw : (if g.NextHopType = 1 then 8 else 20) + 16 ≤ u32At p (so + 8 + ro + 4)) :
    (ModifyDstAS p so ro v).2 = true ∧
    (ModifyDstAS p so ro v).1.length = p.length + 12 ∧
    slice (ModifyDstAS p so ro v).1
        (so + 8 + ro + 8 + (if g.NextHopType = 1 then 8 else 20) + 12)
        (so + 8 + ro + 8 + (if g.NextHopType = 1 then 8 else 20) + 12 + 16)
      = wordBytes 1 ++ wordBytes 2 ++ wordBytes 1 ++ wordBytes v ∧
    u32At (ModifyDstAS p so ro v).1 (so + 8 + ro + 4) = u32At p (so + 8 + ro + 4) + 12 ∧
    u32At (ModifyDstAS p so ro v).1 (so + 4) = u32At p (so + 4) + 12 ∧
    (∀ i, i < so + 8 + ro + 8 + (if g.NextHopType = 1 then 8 else 20) + 12 →
      ¬ (so + 4 ≤ i ∧ i < so + 8) → ¬ (so + 8 + ro + 4 ≤ i ∧ i < so + 8 + ro + 8) →
      byteAt (ModifyDstAS p so ro v).1 i = byteAt p i) ∧
    (∀ i, so + 8 + ro + 8 + (if g.NextHopType = 1 then 8 else 20) + 12 + 4 ≤ i →
      byteAt (ModifyDstAS p so ro v).1 (i + 12) = byteAt p i) ∧
    gatewayAt (ModifyDstAS p so ro v).1 so ro
      = .ok { g with DstASPathLen := 1, DstASPath := [v] } ∧
    (∀ H n j, j < n → walkOffset p H j = so → walkOffset p H n = p.length →
      walkOffset (ModifyDstAS p so ro v).1 H n = (ModifyDstAS p so ro v).1.length) := by
  have hr' : so + 8 + ro + 8 + u32At p (so + 8 + ro + 4) ≤ p.length := by omega
  have hgf := hg
  unfold gatewayAt at hgf
  obtain ⟨hop, ht, hlen, hty, _⟩ := ParseExtendedGateway_ok_fields hgf
  rw [slice_length hr'] at hlen
  rw [u32At_slice (by omega)] at ht hty
  simp only [Nat.add_zero] at ht hty
  have hhop : (if g.NextHopType = 1 then 8 else 20) = hop := by
    rw [hty]
    rcases ht with ⟨t, rfl⟩ | ⟨t, rfl⟩ <;> simp [t]
  rw [hhop] at hw ⊢
  have hz : u32At p (so + 8 + ro + 8 + hop + 12) = 0 := by
    have hg2 := hgf
    rw [ParseExtendedGateway_eq (by rw [u32At_slice (by omega)]; exact ht)
      (by rw [slice_length hr']; omega)] at hg2
    cases hgt : gatewayTail (slice p (so + 8 + ro + 8)
        (so + 8 + ro + 8 + u32At p (so + 8 + ro + 4))) (hop + 12) with
    | error x => rw [hgt] at hg2; cases hg2
    | ok t =>
      rw [hgt] at hg2
      simp only [Except.bind] at hg2
      injection hg2 with hg2
      have e1 := gatewayTail_fst (by rw [slice_length hr']; omega) hgt
      rw [u32At_slice (by omega)] at e1
      have e2 : g.DstASPathLen = t.1 := by rw [← hg2]
      have e3 : so + 8 + ro + 8 + (hop + 12) = so + 8 + ro + 8 + hop + 12 := by omega
      rw [← e3, ← e1, ← e2, h0]
  obtain ⟨b1, b2, b3, b4, b5, b6, b7⟩ :=
    ModifyDstAS_bytes v ht hs hr' (by omega) hz hb
  have hop8 : 8 ≤ hop := by rcases ht with ⟨_, rfl⟩ | ⟨_, rfl⟩ <;> omega
  refine ⟨b1, b2, b6, b5, b4, b3, b7, ?_, ?_⟩
  · exact gatewayAt_spliced hv hg h0 ht hr' hw b2
      (fun i h1 h2 => b3 i h2 (by omega) (by omega)) b5 b6 b7
  · intro H n j hj hso hend
    have hpre : ∀ i, i < so → byteAt (ModifyDstAS p so ro v).1 i = byteAt p i :=
      fun i hi => b3 i (by omega) (by omega) (by omega)
    have e1 : walkOffset (ModifyDstAS p so ro v).1 H j = so := by
      rw [walkOffset_congr_lt hpre H (by omega), hso]
    have e2 : walkOffset (ModifyDstAS p so ro v).1 H (j + 1)
        = walkOffset p H (j + 1) + 12 := by
      rw [walkOffset, walkOffset, e1, hso, b4]
      omega
    have hn : n = (j + 1) + (n - (j + 1)) := by omega
    have e3 : walkOffset p H (j + 1) = so + 8 + u32At p (so + 4) := by
      rw [walkOffset, hso]
    rw [hn, walkOffset_add, e2,
      @walkOffset_shift p _ (so + 8 + ro + 8 + hop + 12 + 4) 12 b7 _ (by omega),
      ← walkOffset_add, ← hn, hend, b2]

set_option maxRecDepth 100000 in
/-- Witness for C11: the gateway record of `inboundDatagram` (sample at 28,
record at 92, IPv4 next hop, empty path) with the value 65001. -/
theorem ModifyDstAS_splices_witness :
    (ModifyDstAS inboundDatagram 28 92 65001).2 = true ∧
    (ModifyDstAS inboundDatagram 28 92 65001).1.length = inboundDatagram.length + 12 ∧
    u32At (ModifyDstAS inboundDatagram 28 92 65001).1 (28 + 8 + 92 + 4) = 32 + 12 ∧
    u32At (ModifyDstAS inboundDatagram 28 92 65001).1 (28 + 4) = 132 + 12 ∧
    gatewayAt (ModifyDstAS inboundDatagram 28 92 65001).1 28 92
      = .ok { inboundGateway with DstASPathLen := 1, DstASPath := [65001] } ∧
    walkOffset (ModifyDstAS inboundDatagram 28 92 65001).1 28 1
      = (ModifyDstAS inboundDatagram 28 92 65001).1.length := by
  obtain ⟨h1, h2, _, h4, h5, _, _, h8, h9⟩ :=
    ModifyDstAS_splices inboundDatagram 28 92 65001 inboundGateway (by decide) (by decide)
      (by decide) (by decide) (by decide) (by decide) (by decide)
  exact ⟨h1, h2, h4, h5, h8, h9 28 1 0 (by decide) (by decide) (by decide)⟩

/-! ## The scenario predicates, unfolded -/

theorem emptyPathSample_inv {rules : List EnrichmentRule} {v : Nat} {s : Sample}
    (h : emptyPathSample rules v s = true) :
    s.Enterprise = 0 ∧ (s.Format = 1 ∨ s.Format = 3) ∧
    ∃ fs raw eg g, ParseFlowSample s.Data (s.Format == 3) = .ok fs ∧ fs.Records = [raw, eg] ∧
      raw.Enterprise = 0 ∧ raw.Format = 1 ∧ eg.Enterprise = 0 ∧ eg.Format = 1003 ∧
      (rules.find? fun r => ipIn (GetSrcDstIPFromRawPacket raw.Data).2 r.IPNet).map
        EnrichmentRule.SetAS = some v ∧
      ParseExtendedGateway eg.Data = .ok g ∧ g.DstASPathLen = 0 ∧
      (if g.NextHopType = 1 then 8 else 20) + 16 ≤ eg.Length := by
  unfold emptyPathSample at h
  simp only [Bool.and_eq_true, Bool.or_eq_true, beq_iff_eq] at h
  obtain ⟨⟨h1, h2⟩, h3⟩ := h
  refine ⟨h1, h2, ?_⟩
  split at h3
  · rename_i fs hfs
    split at h3
    · rename_i raw eg hrec
      simp only [Bool.and_eq_true, beq_iff_eq] at h3
      obtain ⟨⟨⟨⟨⟨r1, r2⟩, r3⟩, r4⟩, r5⟩, r6⟩ := h3
      split at r6
      · rename_i g hg
        simp only [Bool.and_eq_true, beq_iff_eq, decide_eq_true_eq] at r6
        exact ⟨fs, raw, eg, g, hfs, hrec, r1, r2, r3, r4, r5, hg, r6.1, r6.2⟩
      · cases r6
    · cases h3
  · cases h3

theorem dstPathIs_of {v : Nat} {s : Sample} {fs : FlowSample} {raw eg : FlowRecord}
    {g : ExtendedGateway} (hfs : ParseFlowSample s.Data (s.Format == 3) = .ok fs)
    (hrec : fs.Records = [raw, eg]) (r1 : raw.Enterprise = 0) (r2 : raw.Format = 1)
    (r3 : eg.Enterprise = 0) (r4 : eg.Format = 1003) (hg : ParseExtendedGateway eg.Data = .ok g)
    (g1 : g.DstASPathLen = 1) (g2 : g.DstASPath = [v]) : dstPathIs v s = true := by
  unfold dstPathIs
  rw [hfs]
  simp only [hrec, hg, r1, r2, r3, r4, g1, g2]
  simp

theorem dstPathIs_congr {v : Nat} {s s' : Sample} (hf : s'.Format = s.Format)
    (hd : s'.Data = s.Data) : dstPathIs v s' = dstPathIs v s := by
  unfold dstPathIs
  rw [hf, hd]

/-- The elements `tlv` returns are the elements at the positions of the walk. -/
theorem tlv_eq_sampleAt (data : Bytes) (n start : Nat) :
    tlv data n start
      = (List.range (tlv data n start).length).map
          (fun j => sampleAt data (walkOffset data start j)) := by
  apply List.ext_getElem?
  intro j
  by_cases hj : j < (tlv data n start).length
  · obtain ⟨_, hoff⟩ := (tlv_walk data n start).2.1 j hj
    rw [List.getElem?_map, List.getElem?_range hj]
    rw [List.getElem?_eq_getElem hj] at hoff ⊢
    simp only [Option.map_some', Option.some.injEq] at hoff ⊢
    have hm := tlv_mem (List.getElem_mem hj)
    rw [← hoff]
    obtain ⟨_, _, m3, m4, m5, m6⟩ := hm
    cases hx : (tlv data n start)[j] with
    | mk e f l dt o =>
      rw [hx] at m3 m4 m5 m6
      simp only at m3 m4 m5 m6
      subst m5 m6 m3
      subst m4
      rfl
  · rw [List.getElem?_eq_none (by omega), List.getElem?_eq_none (by simp; omega)]

/-! ## The records of a sample whose gateway record grew -/

theorem tlv_succ (data : Bytes) (n off : Nat) :
    tlv data (n + 1) off =
      if off + 8 ≤ data.length ∧ off + 8 + u32At data (off + 4) ≤ data.length then
        sampleAt data off :: tlv data n (off + 8 + u32At data (off + 4))
      else [] := rfl

/-- The walk stops on a buffer whose tail was moved where it stopped before. -/
theorem tlv_nil_shift {a b : Bytes} {m c : Nat} (hl : b.length = a.length + c)
    (h : ∀ i, m ≤ i → byteAt b (i + c) = byteAt a i) {n off : Nat} (ho : m ≤ off)
    (hn : tlv a n off = []) : tlv b n (off + c) = [] := by
  cases n with
  | zero => rfl
  | succ n =>
    rw [tlv_succ] at hn ⊢
    have e : off + c + 4 = off + 4 + c := by omega
    rw [e, u32At_shift h (by omega)]
    split at hn
    · cases hn
    · rename_i hc
      rw [if_neg (by omega)]

/-- A two-record walk, taken apart. -/
theorem tlv_pair_inv {data : Bytes} {n start : Nat} {x y : Sample}
    (h : tlv data n start = [x, y]) :
    ∃ m, n = m + 2 ∧ x = sampleAt data start ∧
      start + 8 + u32At data (start + 4) ≤ data.length ∧
      y = sampleAt data (start + 8 + u32At data (start + 4)) ∧
      y.Offset + 8 + y.Length ≤ data.length ∧
      tlv data m (y.Offset + 8 + y.Length) = [] := by
  cases n with
  | zero => cases h
  | succ n =>
    rw [tlv_succ] at h
    split at h
    · rename_i hc
      injection h with hx hrest
      cases n with
      | zero => cases hrest
      | succ m =>
        rw [tlv_succ] at hrest
        split at hrest
        · rename_i hc2
          injection hrest with hy hnil
          subst hy
          exact ⟨m, rfl, hx.symm, hc.2, rfl, hc2.2, hnil⟩
        · cases hrest
    · cases h

/-- The records of a flow sample with two records after the second record grew
by `c` bytes: everything up to the second record's tag word is as before, its
length word is `c` more, and what followed it follows it still. -/
theorem records_grown {D D' : Bytes} {expanded : Bool} {fs : FlowSample} {raw eg : FlowRecord}
    {c : Nat} (hfs : ParseFlowSample D expanded = .ok fs) (hrec : fs.Records = [raw, eg])
    (hl : D'.length = D.length + c)
    (hpre : ∀ i, i < eg.Offset + 4 → byteAt D' i = byteAt D i)
    (hlen : u32At D' (eg.Offset + 4) = eg.Length + c)
    (hsh : ∀ i, eg.Offset + 8 + eg.Length ≤ i → byteAt D' (i + c) = byteAt D i) :
    ∃ fs', ParseFlowSample D' expanded = .ok fs' ∧
      fs'.Records = [sampleAt D' raw.Offset, sampleAt D' eg.Offset] ∧
      (sampleAt D' raw.Offset).Enterprise = raw.Enterprise ∧
      (sampleAt D' raw.Offset).Format = raw.Format ∧
      (sampleAt D' eg.Offset).Enterprise = eg.Enterprise ∧
      (sampleAt D' eg.Offset).Format = eg.Format := by
  obtain ⟨hdr, hcase, hlenD, hR⟩ := ParseFlowSample_ok_inv hfs
  rw [hrec] at hR
  obtain ⟨m, hn, hx, hfit1, hy, hfit2, hnil⟩ := tlv_pair_inv hR.symm
  have hro : eg.Offset = hdr + 8 + u32At D (hdr + 4) := by rw [hy]; rfl
  have hrawo : raw.Offset = hdr := by rw [hx]; rfl
  have hrl : eg.Length = u32At D (eg.Offset + 4) := by rw [hy]; rfl
  have hdr32 : 32 ≤ hdr := by rcases hcase with ⟨_, rfl⟩ | ⟨_, rfl⟩ <;> omega
  have ew : ∀ x, x + 4 ≤ eg.Offset + 4 → u32At D' x = u32At D x :=
    fun x hx => u32At_congr fun i _ _ => hpre i (by omega)
  have hR' : tlv D' (u32At D' (hdr - 4)) hdr = [sampleAt D' raw.Offset, sampleAt D' eg.Offset] := by
    rw [ew (hdr - 4) (by omega), hn, tlv_succ, if_pos ⟨by omega, by rw [ew _ (by omega)]; omega⟩,
      ew (hdr + 4) (by omega), ← hro, tlv_succ, if_pos ⟨by omega, by rw [hlen]; omega⟩, hlen,
      hrawo]
    have e : eg.Offset + 8 + (eg.Length + c) = eg.Offset + 8 + eg.Length + c := by omega
    rw [e, tlv_nil_shift hl hsh (Nat.le_refl _) hnil]
  have htag : ∀ x, x + 4 ≤ eg.Offset + 4 → (sampleAt D' x).Enterprise = (sampleAt D x).Enterprise ∧
      (sampleAt D' x).Format = (sampleAt D x).Format := by
    intro x hx
    simp only [sampleAt, ew x hx]
    exact ⟨trivial, trivial⟩
  have hraw : raw = sampleAt D raw.Offset := by rw [hrawo]; exact hx
  have heg : eg = sampleAt D eg.Offset := by rw [hro]; exact hy
  have t1 := htag raw.Offset (by omega)
  have t2 := htag eg.Offset (by omega)
  rw [← hraw] at t1
  rw [← heg] at t2
  rcases hcase with ⟨rfl, rfl⟩ | ⟨rfl, rfl⟩
  · exact ⟨_, ParseFlowSample_compact (by omega), hR', t1.1, t1.2, t2.1, t2.2⟩
  · exact ⟨_, ParseFlowSample_expanded (by omega), hR', t1.1, t1.2, t2.1, t2.2⟩

/-! ## The writes of the source side stay inside the three AS words -/

theorem byteAt_poke_outside {k : Nat} {p : Bytes} {so ro v hop i : Nat}
    (ht : (u32At p (so + 8 + ro + 8) = 1 ∧ hop = 8) ∨ (u32At p (so + 8 + ro + 8) = 2 ∧ hop = 20))
    (hi : i < so + 8 + ro + 8 + hop + k ∨ so + 8 + ro + 8 + hop + k + 4 ≤ i) :
    byteAt (poke k p so ro v) i = byteAt p i := by
  unfold poke
  cases hf : fieldPos k p so ro with
  | none => rfl
  | some pos =>
    obtain ⟨_, _, _, hpos⟩ := fieldPos_some hf
    have : pos = so + 8 + ro + 8 + hop + k := by
      rcases ht with ⟨t, rfl⟩ | ⟨t, rfl⟩ <;> rcases hpos with ⟨t', rfl⟩ | ⟨t', rfl⟩ <;> omega
    subst this
    exact byteAt_writeU32_of_ne (by omega)

theorem hopType_poke {k : Nat} {p : Bytes} {so ro v hop : Nat}
    (ht : (u32At p (so + 8 + ro + 8) = 1 ∧ hop = 8) ∨ (u32At p (so + 8 + ro + 8) = 2 ∧ hop = 20)) :
    (u32At (poke k p so ro v) (so + 8 + ro + 8) = 1 ∧ hop = 8) ∨
      (u32At (poke k p so ro v) (so + 8 + ro + 8) = 2 ∧ hop = 20) := by
  have e : u32At (poke k p so ro v) (so + 8 + ro + 8) = u32At p (so + 8 + ro + 8) :=
    u32At_congr fun i _ _ =>
      byteAt_poke_outside ht (by rcases ht with ⟨_, rfl⟩ | ⟨_, rfl⟩ <;> omega)
  rw [e]
  exact ht

/-- The writes of `applySrcRule` keep the length and every byte outside the
router AS, source AS and source peer AS words of the record. -/
theorem srcWrites_outside {c1 c2 : Prop} [Decidable c1] [Decidable c2] {p : Bytes}
    {so ro v hop : Nat}
    (ht : (u32At p (so + 8 + ro + 8) = 1 ∧ hop = 8) ∨ (u32At p (so + 8 + ro + 8) = 2 ∧ hop = 20)) :
    ((if c1 then fun q => poke 0 q so ro v else id)
        ((if c2 then fun q => poke 8 q so ro v else id) (poke 4 p so ro v))).length = p.length ∧
    ∀ i, i < so + 8 + ro + 8 + hop ∨ so + 8 + ro + 8 + hop + 12 ≤ i →
      byteAt ((if c1 then fun q => poke 0 q so ro v else id)
        ((if c2 then fun q => poke 8 q so ro v else id) (poke 4 p so ro v))) i = byteAt p i := by
  have t4 := @hopType_poke 4 p so ro v hop ht
  have t8 := @hopType_poke 8 (poke 4 p so ro v) so ro v hop t4
  by_cases h1 : c1 <;> by_cases h2 : c2 <;>
    simp only [h1, h2, if_true, if_false, id, length_poke, true_and]
  · intro i hi
    rw [byteAt_poke_outside t8 (by omega), byteAt_poke_outside t4 (by omega),
      byteAt_poke_outside ht (by omega)]
  · intro i hi
    rw [byteAt_poke_outside t4 (by omega), byteAt_poke_outside ht (by omega)]
  · intro i hi
    rw [byteAt_poke_outside t4 (by omega), byteAt_poke_outside ht (by omega)]
  · intro i hi
    rw [byteAt_poke_outside ht (by omega)]

theorem srcSide_outside {srcIP : Option Bytes} {so ro hop : Nat} {eg : ExtendedGateway}
    {rules : List EnrichmentRule} {st st1 : EnrichState}
    (h1 : srcSide srcIP so ro eg rules st = .ok st1)
    (ht : (u32At st.packet (so + 8 + ro + 8) = 1 ∧ hop = 8) ∨
      (u32At st.packet (so + 8 + ro + 8) = 2 ∧ hop = 20)) :
    st1.packet.length = st.packet.length ∧
    ∀ i, i < so + 8 + ro + 8 + hop ∨ so + 8 + ro + 8 + hop + 12 ≤ i →
      byteAt st1.packet i = byteAt st.packet i := by
  obtain ⟨_, hpk⟩ := srcSide_ok_inv h1
  rw [hpk]
  cases hf : rules.find? (fun r => shouldApply r srcIP eg) with
  | none => exact ⟨rfl, fun _ _ => rfl⟩
  | some rule => exact srcWrites_outside ht

/-- The next-hop type and the path-length word of a record that parses. -/
theorem gatewayAt_pathWord {p : Bytes} {so ro : Nat} {g : ExtendedGateway}
    (hg : gatewayAt p so ro = .ok g)
    (hr : so + 8 + ro + 8 + u32At p (so + 8 + ro + 4) ≤ p.length) :
    ∃ hop, ((u32At p (so + 8 + ro + 8) = 1 ∧ hop = 8) ∨
        (u32At p (so + 8 + ro + 8) = 2 ∧ hop = 20)) ∧
      hop + 12 ≤ u32At p (so + 8 + ro + 4) ∧ (if g.NextHopType = 1 then 8 else 20) = hop ∧
      (g.DstASPathLen = 0 → hop + 16 ≤ u32At p (so + 8 + ro + 4) →
        u32At p (so + 8 + ro + 8 + hop + 12) = 0) := by
  have hgf := hg
  unfold gatewayAt at hgf
  obtain ⟨hop, ht, hlen, hty, _⟩ := ParseExtendedGateway_ok_fields hgf
  rw [slice_length hr] at hlen
  rw [u32At_slice (by omega)] at ht hty
  simp only [Nat.add_zero] at ht hty
  have hhop : (if g.NextHopType = 1 then 8 else 20) = hop := by
    rw [hty]
    rcases ht with ⟨t, rfl⟩ | ⟨t, rfl⟩ <;> simp [t]
  refine ⟨hop, ht, by omega, hhop, ?_⟩
  intro h0 hw
  have hg2 := hgf
  rw [ParseExtendedGateway_eq (by rw [u32At_slice (by omega)]; exact ht)
    (by rw [slice_length hr]; omega)] at hg2
  cases hgt : gatewayTail (slice p (so + 8 + ro + 8)
      (so + 8 + ro + 8 + u32At p (so + 8 + ro + 4))) (hop + 12) with
  | error x => rw [hgt] at hg2; cases hg2
  | ok t =>
    rw [hgt] at hg2
    simp only [Except.bind] at hg2
    injection hg2 with hg2
    have e1 := gatewayTail_fst (by rw [slice_length hr]; omega) hgt
    rw [u32At_slice (by omega)] at e1
    have e2 : g.DstASPathLen = t.1 := by rw [← hg2]
    have e3 : so + 8 + ro + 8 + (hop + 12) = so + 8 + ro + 8 + hop + 12 := by omega
    rw [← e3, ← e1, ← e2, h0]

/-! ## The processing of a gateway record with an empty path and a matching
destination -/

theorem processGateway_splices {rules : List EnrichmentRule} {v : Nat}
    {srcIP dstIP : Option Bytes} {so ro : Nat} {g : ExtendedGateway} {st : EnrichState}
    (hv : ∀ q ∈ rules, q.SetAS < 4294967296)
    (hfind : (rules.find? fun r => ipIn dstIP r.IPNet).map EnrichmentRule.SetAS = some v)
    (hs : so + 8 + u32At st.packet (so + 4) ≤ st.packet.length)
    (hr : ro + 8 + u32At st.packet (so + 8 + ro + 4) ≤ u32At st.packet (so + 4))
    (hg : gatewayAt st.packet so ro = .ok g) (h0 : g.DstASPathLen = 0)
    (hw : (if g.NextHopType = 1 then 8 else 20) + 16 ≤ u32At st.packet (so + 8 + ro + 4))
    (hb : st.packet.length + 12 < 4294967296) :
    ∃ st2 g2, processGateway rules srcIP dstIP so ro g st = .ok st2 ∧
      st2.packet.length = st.packet.length + 12 ∧
      (∀ i, i < so + 8 + ro + 4 → ¬ (so + 4 ≤ i ∧ i < so + 8) →
        byteAt st2.packet i = byteAt st.packet i) ∧
      u32At st2.packet (so + 4) = u32At st.packet (so + 4) + 12 ∧
      u32At st2.packet (so + 8 + ro + 4) = u32At st.packet (so + 8 + ro + 4) + 12 ∧
      (∀ i, so + 8 + ro + 8 + u32At st.packet (so + 8 + ro + 4) ≤ i →
        byteAt st2.packet (i + 12) = byteAt st.packet i) ∧
      gatewayAt st2.packet so ro = .ok g2 ∧ g2.DstASPathLen = 1 ∧ g2.DstASPath = [v] := by
  have hr' : so + 8 + ro + 8 + u32At st.packet (so + 8 + ro + 4) ≤ st.packet.length := by omega
  obtain ⟨hop, ht, hlen12, hhop, hzero⟩ := gatewayAt_pathWord hg hr'
  rw [hhop] at hw
  have hz := hzero h0 hw
  have hop8 : 8 ≤ hop := by rcases ht with ⟨_, rfl⟩ | ⟨_, rfl⟩ <;> omega
  -- the source side
  obtain ⟨st1, e1, _, _⟩ := srcSide_ok srcIP so ro g rules st
    (not_wraps_of_fit (Or.inl (by omega)))
  obtain ⟨l1, a1⟩ := srcSide_outside e1 ht
  obtain ⟨g1, hg1, g1len, _⟩ := gatewayAt_srcSide e1 hg hs hr' hv
  have w1 : ∀ x, x + 4 ≤ so + 8 + ro + 8 + hop ∨ so + 8 + ro + 8 + hop + 12 ≤ x →
      u32At st1.packet x = u32At st.packet x :=
    fun x hx => u32At_congr fun i _ _ => a1 i (by omega)
  have ht1 : (u32At st1.packet (so + 8 + ro + 8) = 1 ∧ hop = 8) ∨
      (u32At st1.packet (so + 8 + ro + 8) = 2 ∧ hop = 20) := by
    rw [w1 _ (by omega)]; exact ht
  have hs1 : so + 8 + u32At st1.packet (so + 4) ≤ st1.packet.length := by
    rw [w1 _ (by omega), l1]; exact hs
  have hr1 : so + 8 + ro + 8 + u32At st1.packet (so + 8 + ro + 4) ≤ st1.packet.length := by
    rw [w1 _ (by omega), l1]; exact hr'
  have hz1 : u32At st1.packet (so + 8 + ro + 8 + hop + 12) = 0 := by
    rw [w1 _ (by omega)]; exact hz
  -- the rule that fires on the destination side
  obtain ⟨r, hfr, hrv⟩ : ∃ r, rules.find? (fun r => ipIn dstIP r.IPNet) = some r ∧ r.SetAS = v := by
    cases hf : rules.find? (fun r => ipIn dstIP r.IPNet) with
    | none => rw [hf] at hfind; cases hfind
    | some r =>
      rw [hf] at hfind
      simp only [Option.map_some', Option.some.injEq] at hfind
      exact ⟨r, rfl, hfind⟩
  obtain ⟨hpr, pre, post, hsplit, hpre⟩ := List.find?_eq_some.mp hfr
  have hvv : v < 4294967296 := by
    rw [← hrv]
    exact hv r (List.mem_of_find?_eq_some hfr)
  obtain ⟨st2, e2, hpk2, _, _⟩ := applyDstRule_ok r so ro g st1
    (fun _ => not_wraps_of_fit
      (Or.inl (by have := length_ModifyDstAS_le st1.packet so ro r.SetAS; omega)))
  rw [hrv] at hpk2
  have hrun : processGateway rules srcIP dstIP so ro g st = .ok st2 := by
    unfold processGateway
    rw [e1]
    simp only [Except.bind, h0, if_true]
    rw [hsplit, dstSide_of_first post st1 (fun q hq => by simpa using hpre q hq) hpr]
    exact e2
  -- the buffer `ModifyDstAS` built
  obtain ⟨_, b2, b3, b4, b5, b6, b7⟩ :=
    ModifyDstAS_bytes v ht1 hs1 hr1 (by rw [w1 _ (by omega)] at hr1; omega) hz1
      (by rw [l1]; exact hb)
  have hgs := gatewayAt_spliced hvv hg1 (by rw [g1len]; exact h0) ht1 hr1
    (by rw [w1 _ (by omega)]; exact hw) b2 (fun i h1 h2 => b3 i h2 (by omega) (by omega)) b5 b6 b7
  have ht2 : (u32At (ModifyDstAS st1.packet so ro v).1 (so + 8 + ro + 8) = 1 ∧ hop = 8) ∨
      (u32At (ModifyDstAS st1.packet so ro v).1 (so + 8 + ro + 8) = 2 ∧ hop = 20) := by
    have : u32At (ModifyDstAS st1.packet so ro v).1 (so + 8 + ro + 8)
        = u32At st1.packet (so + 8 + ro + 8) :=
      u32At_congr fun i _ _ => b3 i (by omega) (by omega) (by omega)
    rw [this]; exact ht1
  have hs2 : so + 8 + u32At (ModifyDstAS st1.packet so ro v).1 (so + 4)
      ≤ (ModifyDstAS st1.packet so ro v).1.length := by
    rw [b4, b2]; omega
  have hr2 : so + 8 + ro + 8 + u32At (ModifyDstAS st1.packet so ro v).1 (so + 8 + ro + 4)
      ≤ (ModifyDstAS st1.packet so ro v).1.length := by
    rw [b5, b2]; omega
  -- the router AS write that may follow
  have key : ∀ X : Bytes, X.length = (ModifyDstAS st1.packet so ro v).1.length →
      (∀ i, i < so + 8 + ro + 8 + hop ∨ so + 8 + ro + 8 + hop + 4 ≤ i →
        byteAt X i = byteAt (ModifyDstAS st1.packet so ro v).1 i) →
      (∃ g2, gatewayAt X so ro = .ok g2 ∧ g2.DstASPathLen = 1 ∧ g2.DstASPath = [v]) →
      st2.packet = X →
      ∃ st2 g2, processGateway rules srcIP dstIP so ro g st = .ok st2 ∧
        st2.packet.length = st.packet.length + 12 ∧
        (∀ i, i < so + 8 + ro + 4 → ¬ (so + 4 ≤ i ∧ i < so + 8) →
          byteAt st2.packet i = byteAt st.packet i) ∧
        u32At st2.packet (so + 4) = u32At st.packet (so + 4) + 12 ∧
        u32At st2.packet (so + 8 + ro + 4) = u32At st.packet (so + 8 + ro + 4) + 12 ∧
        (∀ i, so + 8 + ro + 8 + u32At st.packet (so + 8 + ro + 4) ≤ i →
          byteAt st2.packet (i + 12) = byteAt st.packet i) ∧
        gatewayAt st2.packet so ro = .ok g2 ∧ g2.DstASPathLen = 1 ∧ g2.DstASPath = [v] := by
    intro X hXl hXa ⟨g2, hXg, p1, p2⟩ hX
    refine ⟨st2, g2, hrun, ?_, ?_, ?_, ?_, ?_, ?_, p1, p2⟩
    · rw [hX, hXl, b2, l1]
    · intro i h1 h2
      rw [hX, hXa i (by omega), b3 i (by omega) h2 (by omega), a1 i (by omega)]
    · rw [hX, u32At_congr (fun i _ _ => hXa i (by omega)), b4, w1 _ (by omega)]
    · rw [hX, u32At_congr (fun i _ _ => hXa i (by omega)), b5, w1 _ (by omega)]
    · intro i hi
      rw [hX, hXa _ (by omega), b7 i (by omega), a1 i (by omega)]
    · rw [hX]; exact hXg
  by_cases ha : g.AS = 0
  · simp only [ha, if_true] at hpk2
    obtain ⟨hgp, _, _⟩ := @gatewayAt_poke _ so ro 0 v _ hgs hs2 hr2 (by omega) hvv
    exact key _ (length_poke _ _ _ _ _) (fun i hi => byteAt_poke_outside ht2 (by omega))
      ⟨_, hgp, rfl, rfl⟩ hpk2
  · simp only [ha, if_false, id] at hpk2
    exact key _ rfl (fun _ _ => rfl) ⟨_, hgs, rfl, rfl⟩ hpk2

/-! ## The processing of a sample with an empty path and a matching destination -/

theorem slice_slice {d : Bytes} {a b c e : Nat} (h1 : a + e ≤ b) :
    slice (slice d a b) c e = slice d (a + c) (a + e) := by
  apply List.ext_getElem?
  intro i
  simp only [slice, List.getElem?_take, List.getElem?_drop]
  have e1 : a + e - (a + c) = e - c := by omega
  rw [e1]
  by_cases hi : i < e - c
  · have hi2 : c + i < b - a := by omega
    simp only [if_pos hi, if_pos hi2, Nat.add_assoc]
  · simp only [if_neg hi]

/-- The processing of a sample keeps the length of the caller's array and every
byte of it before the sample header. -/
theorem processSample_view {rules : List EnrichmentRule} {sample : Sample}
    {st st' : EnrichState} (h : processSample rules sample st = .ok st') :
    st'.view.length = st.view.length ∧
    ∀ i, i < sample.Offset → byteAt st'.view i = byteAt st.view i := by
  refine processSample_rel
    (fun a b => b.view.length = a.view.length ∧
      ∀ i, i < sample.Offset → byteAt b.view i = byteAt a.view i) sample
    ?_ ?_ ?_ ?_ ?_ h
  · intro st
    exact ⟨rfl, fun _ _ => rfl⟩
  · rintro a b c ⟨l1, h1⟩ ⟨l2, h2⟩
    exact ⟨by rw [l2, l1], fun i hi => by rw [h2 i hi, h1 i hi]⟩
  · intro st
    exact ⟨rfl, fun _ _ => rfl⟩
  · intro st st' op k ro v hs
    obtain ⟨_, hs⟩ := inPlace_ok_inv hs
    subst hs
    cases hr : st.resized with
    | none =>
      simp only [EnrichState.setPacket, hr, EnrichState.packet, Option.getD_none, length_poke]
      exact ⟨trivial, fun i hi => byteAt_poke_lt (by omega)⟩
    | some b =>
      simp only [EnrichState.setPacket, hr]
      exact ⟨trivial, fun _ _ => trivial⟩
  · intro st ro v
    split
    · exact ⟨rfl, fun _ _ => rfl⟩
    · exact ⟨rfl, fun _ _ => rfl⟩


theorem rawPacketIPs_pair {raw eg : FlowRecord} (r1 : raw.Enterprise = 0) (r2 : raw.Format = 1) :
    rawPacketIPs [raw, eg] = GetSrcDstIPFromRawPacket raw.Data := by
  simp [rawPacketIPs, r1, r2]

/-- The processing of a sample of the scenario: the sample is still intact in
the caller's array and in the packet; afterwards the packet is 12 bytes longer,
the sample's tag word is as it was and its length word 12 more, what followed
the sample follows it still, and the sample parses to a raw packet header
record and a gateway record with the path `[v]`. -/
theorem processSample_splices {rules : List EnrichmentRule} {v : Nat} {P : Bytes} {so : Nat}
    {st : EnrichState} (hv : ∀ q ∈ rules, q.SetAS < 4294967296)
    (hfit : so + 8 + u32At P (so + 4) ≤ P.length)
    (hs : emptyPathSample rules v (sampleAt P so) = true)
    (hview : st.view.length = P.length ∧
      ∀ i, i < so + 8 + u32At P (so + 4) → byteAt st.view i = byteAt P i)
    (hpk : P.length ≤ st.packet.length ∧
      ∀ i, i < so + 8 + u32At P (so + 4) → byteAt st.packet i = byteAt P i)
    (hb : st.packet.length + 12 < 4294967296) :
    ∃ st1, processSample rules (sampleAt P so) st = .ok st1 ∧
      st1.view.length = P.length ∧ (∀ i, i < so → byteAt st1.view i = byteAt P i) ∧
      st1.packet.length = st.packet.length + 12 ∧
      (∀ i, i < so → byteAt st1.packet i = byteAt P i) ∧
      u32At st1.packet so = u32At P so ∧ u32At st1.packet (so + 4) = u32At P (so + 4) + 12 ∧
      (∀ i, so + 8 + u32At P (so + 4) ≤ i → byteAt st1.packet (i + 12) = byteAt st.packet i) ∧
      dstPathIs v (sampleAt st1.packet so) = true := by
  obtain ⟨hE, hF, fs, raw, eg, g, hfs, hrec, r1, r2, r3, r4, hrule, hgd, h0, hw⟩ :=
    emptyPathSample_inv hs
  have hDlen : (sampleAt P so).Data.length = u32At P (so + 4) := by
    show (slice P (so + 8) (so + 8 + u32At P (so + 4))).length = _
    rw [slice_length hfit]; omega
  have hmem : eg ∈ fs.Records := by rw [hrec]; simp
  obtain ⟨ro32, roFit, roLen, roData, _, _⟩ := ParseFlowSample_records_mem hfs hmem
  rw [hDlen] at roFit
  have roLen' : eg.Length = u32At P (so + 8 + eg.Offset + 4) := by
    rw [roLen]
    show u32At (slice P (so + 8) (so + 8 + u32At P (so + 4))) (eg.Offset + 4) = _
    rw [u32At_slice (by omega)]
    have e : so + 8 + (eg.Offset + 4) = so + 8 + eg.Offset + 4 := by omega
    rw [e]
  have roData' : eg.Data = slice P (so + 8 + eg.Offset + 8) (so + 8 + eg.Offset + 8 + eg.Length) := by
    rw [roData]
    show slice (slice P (so + 8) (so + 8 + u32At P (so + 4))) _ _ = _
    rw [slice_slice (by omega)]
    have e : so + 8 + (eg.Offset + 8 + eg.Length) = so + 8 + eg.Offset + 8 + eg.Length := by omega
    have e' : so + 8 + (eg.Offset + 8) = so + 8 + eg.Offset + 8 := by omega
    rw [e, e']
  -- what the parsers read through the caller's array
  have hD : sampleData st.view (sampleAt P so) = (sampleAt P so).Data :=
    slice_eq_of_byteAt (by rw [hview.1]; exact hfit) hfit fun i _ hi => hview.2 i hi
  have hRD : recordData st.view (sampleAt P so) eg = eg.Data := by
    have e : recordData st.view (sampleAt P so) eg
        = slice st.view (so + 8 + eg.Offset + 8) (so + 8 + eg.Offset + 8 + eg.Length) := rfl
    rw [e, roData']
    exact slice_eq_of_byteAt (by rw [hview.1]; omega) (by omega)
      fun i _ hi => hview.2 i (by omega)
  -- the packet around the record
  have wp : ∀ x, x + 4 ≤ so + 8 + u32At P (so + 4) → u32At st.packet x = u32At P x :=
    fun x hx => u32At_congr fun i _ _ => hpk.2 i (by omega)
  have hgp : gatewayAt st.packet so eg.Offset = .ok g := by
    unfold gatewayAt
    rw [wp _ (by omega), ← roLen', ← hgd, roData']
    congr 1
    exact slice_eq_of_byteAt (by omega) (by omega) fun i _ hi => hpk.2 i (by omega)
  have hrule' : (rules.find? fun r => ipIn (rawPacketIPs fs.Records).2 r.IPNet).map
      EnrichmentRule.SetAS = some v := by
    rw [hrec, rawPacketIPs_pair r1 r2]; exact hrule
  obtain ⟨st2, g2, hrun, c1, c2, c3, c4, c5, c6, c7, c8⟩ :=
    @processGateway_splices rules v (rawPacketIPs fs.Records).1 (rawPacketIPs fs.Records).2 so
      eg.Offset g st hv hrule'
      (by rw [wp _ (by omega)]; omega)
      (by rw [wp _ (by omega), wp _ (by omega), ← roLen']; omega)
      hgp h0 (by rw [wp _ (by omega), ← roLen']; exact hw) hb
  rw [wp _ (by omega)] at c3
  rw [wp _ (by omega), ← roLen'] at c4 c5
  have hproc : processSample rules (sampleAt P so) st = .ok st2 := by
    unfold processSample
    rw [if_neg (by rw [hE]; simp), if_neg (by rcases hF with h | h <;> rw [h] <;> simp), hD, hfs]
    simp only
    rw [hrec]
    unfold recordLoop
    have p1 : processRecord rules (rawPacketIPs [raw, eg]).1 (rawPacketIPs [raw, eg]).2
        (sampleAt P so) raw st = .ok st := by
      unfold processRecord
      rw [if_pos (Or.inr (by rw [r2]; decide))]
    rw [p1]
    simp only [Except.bind]
    unfold recordLoop
    have p2 : processRecord rules (rawPacketIPs [raw, eg]).1 (rawPacketIPs [raw, eg]).2
        (sampleAt P so) eg st = .ok st2 := by
      unfold processRecord
      rw [if_neg (by rw [r3, r4]; simp), hRD, hgd]
      simp only
      rw [← hrec]
      exact hrun
    rw [p2]
    rfl
  obtain ⟨v1, v2⟩ := processSample_view hproc
  obtain ⟨_, f2⟩ := processSample_frame hproc
  have hso : (sampleAt P so).Offset = so := rfl
  rw [hso] at v2 f2
  have htag : u32At st2.packet so = u32At P so := by
    rw [← wp so (by omega)]
    exact u32At_congr fun i _ _ => c2 i (by omega) (by omega)
  refine ⟨st2, hproc, by rw [v1, hview.1], fun i hi => by rw [v2 i hi, hview.2 i (by omega)], c1,
    fun i hi => by rw [f2 i hi, hpk.2 i (by omega)], htag, c3, fun i hi => c5 i (by omega), ?_⟩
  -- the sample parsed from the new packet
  have hl' : (sampleAt st2.packet so).Data.length = (sampleAt P so).Data.length + 12 := by
    rw [hDlen]
    show (slice st2.packet (so + 8) (so + 8 + u32At st2.packet (so + 4))).length = _
    rw [c3, slice_length (by omega)]; omega
  have hFmt : (sampleAt st2.packet so).Format = (sampleAt P so).Format := by
    show u32At st2.packet so &&& 0xFFF = u32At P so &&& 0xFFF
    rw [htag]
  have bD' : ∀ i, i < u32At P (so + 4) + 12 →
      byteAt (sampleAt st2.packet so).Data i = byteAt st2.packet (so + 8 + i) := by
    intro i hi
    show byteAt (slice st2.packet (so + 8) (so + 8 + u32At st2.packet (so + 4))) i = _
    rw [c3]
    exact byteAt_slice (by omega)
  have bD : ∀ i, i < u32At P (so + 4) →
      byteAt (sampleAt P so).Data i = byteAt P (so + 8 + i) :=
    fun i hi => byteAt_slice (by omega)
  obtain ⟨fs', hfs', hrec', t1, t2, t3, t4⟩ :=
    @records_grown (sampleAt P so).Data (sampleAt st2.packet so).Data
      ((sampleAt P so).Format == 3) fs raw eg 12 hfs hrec hl'
      (fun i hi => by
        rw [bD' i (by omega), bD i (by omega), c2 _ (by omega) (by omega), hpk.2 _ (by omega)])
      (by
        show u32At (slice st2.packet (so + 8) (so + 8 + u32At st2.packet (so + 4)))
          (eg.Offset + 4) = _
        rw [c3, u32At_slice (by omega)]
        have e : so + 8 + (eg.Offset + 4) = so + 8 + eg.Offset + 4 := by omega
        rw [e, c4])
      (fun i hi => by
        by_cases hlt : i < u32At P (so + 4)
        · rw [bD' _ (by omega), bD i hlt]
          have e : so + 8 + (i + 12) = so + 8 + i + 12 := by omega
          rw [e, c5 _ (by omega), hpk.2 _ (by omega)]
        · rw [byteAt_of_length_le, byteAt_of_length_le]
          · rw [hDlen]; omega
          · rw [hl', hDlen]; omega)
  have hdat : (sampleAt (sampleAt st2.packet so).Data eg.Offset).Data
      = slice st2.packet (so + 8 + eg.Offset + 8) (so + 8 + eg.Offset + 8 + (eg.Length + 12)) := by
    show slice (slice st2.packet (so + 8) (so + 8 + u32At st2.packet (so + 4))) (eg.Offset + 8)
      (eg.Offset + 8 + u32At (slice st2.packet (so + 8) (so + 8 + u32At st2.packet (so + 4)))
        (eg.Offset + 4)) = _
    rw [c3, u32At_slice (by omega)]
    have e : so + 8 + (eg.Offset + 4) = so + 8 + eg.Offset + 4 := by omega
    rw [e, c4, slice_slice (by omega)]
    have e1 : so + 8 + (eg.Offset + 8) = so + 8 + eg.Offset + 8 := by omega
    have e2 : so + 8 + (eg.Offset + 8 + (eg.Length + 12))
        = so + 8 + eg.Offset + 8 + (eg.Length + 12) := by omega
    rw [e1, e2]
  have hgw : ParseExtendedGateway (sampleAt (sampleAt st2.packet so).Data eg.Offset).Data
      = .ok g2 := by
    rw [hdat]
    unfold gatewayAt at c6
    rw [c4] at c6
    exact c6
  rw [← hFmt] at hfs'
  exact dstPathIs_of hfs' hrec' (by rw [t1, r1]) (by rw [t2, r2]) (by rw [t3, r3])
    (by rw [t4, r4]) hgw c7 c8

/-! ## The run over a datagram whose samples all take the splice -/

theorem slice_shift_all {a b : Bytes} {m c lo hi : Nat} (hl : b.length = a.length + c)
    (h : ∀ i, m ≤ i → byteAt b (i + c) = byteAt a i) (hlo : m ≤ lo) :
    slice b (lo + c) (hi + c) = slice a lo hi := by
  apply List.ext_getElem?
  intro i
  simp only [slice, List.getElem?_take, List.getElem?_drop]
  have e : hi + c - (lo + c) = hi - lo := by omega
  rw [e]
  split
  · by_cases hin : lo + i < a.length
    · rw [getElem?_eq_byteAt (show lo + c + i < b.length by omega), getElem?_eq_byteAt hin]
      have e2 : lo + c + i = lo + i + c := by omega
      rw [e2, h _ (by omega)]
    · rw [List.getElem?_eq_none (by omega), List.getElem?_eq_none (by omega)]
  · rfl

theorem sampleAt_shift {a b : Bytes} {m c x : Nat} (hl : b.length = a.length + c)
    (h : ∀ i, m ≤ i → byteAt b (i + c) = byteAt a i) (hx : m ≤ x) :
    (sampleAt b (x + c)).Format = (sampleAt a x).Format ∧
    (sampleAt b (x + c)).Data = (sampleAt a x).Data := by
  constructor
  · show u32At b (x + c) &&& 0xFFF = u32At a x &&& 0xFFF
    rw [u32At_shift h hx]
  · show slice b (x + c + 8) (x + c + 8 + u32At b (x + c + 4))
      = slice a (x + 8) (x + 8 + u32At a (x + 4))
    have e1 : x + c + 4 = x + 4 + c := by omega
    have e2 : x + c + 8 = x + 8 + c := by omega
    rw [e1, u32At_shift h (by omega), e2]
    have e3 : x + 8 + c + u32At a (x + 4) = x + 8 + u32At a (x + 4) + c := by omega
    rw [e3]
    exact slice_shift_all hl h (by omega)

theorem sampleLoop_splices {rules : List EnrichmentRule} {v : Nat} {P : Bytes} {H N : Nat}
    (hv : ∀ q ∈ rules, q.SetAS < 4294967296)
    (hfit : ∀ j, j < N → fitsAt P H j)
    (hs : ∀ j, j < N → emptyPathSample rules v (sampleAt P (walkOffset P H j)) = true)
    (hb : P.length + 12 * N < 4294967296) (k : Nat) (hk : k ≤ N) (st : EnrichState)
    (I1 : st.view.length = P.length ∧
      ∀ i, i < walkOffset P H k → byteAt st.view i = byteAt P i)
    (I2 : st.packet.length = P.length + 12 * (N - k) ∧
      ∀ i, i < walkOffset P H k → byteAt st.packet i = byteAt P i)
    (I3 : ∀ n, k + n ≤ N →
      walkOffset st.packet (walkOffset P H k) n = walkOffset P H (k + n) + 12 * n)
    (I4 : ∀ n, k + n < N →
      dstPathIs v (sampleAt st.packet (walkOffset P H (k + n) + 12 * n)) = true) :
    ∃ st', sampleLoop rules
        (((List.range k).map fun j => sampleAt P (walkOffset P H j)).reverse) st = .ok st' ∧
      st'.packet.length = P.length + 12 * N ∧
      (∀ i, i < H → byteAt st'.packet i = byteAt P i) ∧
      (∀ n, n ≤ N → walkOffset st'.packet H n = walkOffset P H n + 12 * n) ∧
      (∀ n, n < N → dstPathIs v (sampleAt st'.packet (walkOffset P H n + 12 * n)) = true) := by
  induction k generalizing st with
  | zero =>
    refine ⟨st, rfl, by rw [I2.1]; rfl, I2.2, ?_, ?_⟩
    · intro n hn
      have := I3 n (by omega)
      rw [Nat.zero_add] at this
      exact this
    · intro n hn
      have := I4 n (by omega)
      rw [Nat.zero_add] at this
      exact this
  | succ k ih =>
    rw [List.range_succ, List.map_append, List.reverse_append]
    simp only [List.map_cons, List.map_nil, List.reverse_cons, List.reverse_nil, List.nil_append,
      List.singleton_append]
    unfold sampleLoop
    have hw1 : walkOffset P H (k + 1)
        = walkOffset P H k + 8 + u32At P (walkOffset P H k + 4) := rfl
    have hf := hfit k (by omega)
    have hf2 : walkOffset P H (k + 1) ≤ P.length := hf.2
    rw [hw1] at I1 I2 hf2
    obtain ⟨st1, e1, v1, v2, p1, p2, t1, t2, sh, dp⟩ :=
      @processSample_splices rules v P (walkOffset P H k) st hv hf2 (hs k (by omega)) I1
        ⟨by rw [I2.1]; omega, I2.2⟩ (by rw [I2.1]; omega)
    rw [e1]
    simp only [Except.bind]
    have hl1 : st1.packet.length = st.packet.length + 12 := p1
    refine ih (by omega) st1 ⟨v1, v2⟩ ⟨by rw [p1, I2.1]; omega, p2⟩ ?_ ?_
    · intro n hn
      cases n with
      | zero => rfl
      | succ m =>
        rw [walkOffset_succ_start, t2]
        have e : walkOffset P H k + 8 + (u32At P (walkOffset P H k + 4) + 12)
            = walkOffset P H k + 8 + u32At P (walkOffset P H k + 4) + 12 := by omega
        rw [e, walkOffset_shift sh (Nat.le_refl _), ← hw1, I3 m (by omega)]
        have e2 : k + 1 + m = k + (m + 1) := by omega
        rw [e2]
        omega
    · intro n hn
      cases n with
      | zero => exact dp
      | succ m =>
        have hge : walkOffset P H (k + 1) ≤ walkOffset P H (k + 1 + m) + 12 * m := by
          have := walkOffset_mono P H (show k + 1 ≤ k + 1 + m by omega)
          omega
        rw [hw1] at hge
        obtain ⟨f1, f2⟩ := sampleAt_shift hl1 sh hge
        have e2 : k + (m + 1) = k + 1 + m := by omega
        have e3 : walkOffset P H (k + 1 + m) + 12 * (m + 1)
            = walkOffset P H (k + 1 + m) + 12 * m + 12 := by omega
        rw [e2, e3, dstPathIs_congr f1 f2]
        exact I4 m (by omega)

theorem tlv_full {data : Bytes} {n start : Nat} (h : ∀ j, j < n → fitsAt data start j) :
    (tlv data n start).length = n := by
  obtain ⟨h1, _, h3⟩ := tlv_walk data n start
  by_contra hne
  have hlt : (tlv data n start).length < n := by omega
  exact h3 hlt (h _ hlt)

/-- What `Parse` returns on a buffer that starts with the header of a datagram
it accepts. -/
theorem Parse_of_header {P out : Bytes} {d : Datagram} (hp : Parse P = .ok d)
    (hl : P.length ≤ out.length)
    (hh : ∀ i, i < headerLength d.AgentAddrType → byteAt out i = byteAt P i) :
    ∃ d', Parse out = .ok d' ∧ d'.NumSamples = d.NumSamples ∧
      d'.AgentAddrType = d.AgentAddrType ∧
      d'.Samples = tlv out d.NumSamples (headerLength d.AgentAddrType) := by
  obtain ⟨ht, hlen, _, hv0, hty, _, _, _, _, hnum, _, _⟩ := Parse_ok_fields hp
  have hw : ∀ off, off + 4 ≤ headerLength d.AgentAddrType → u32At out off = u32At P off :=
    fun off ho => u32At_congr fun i _ _ => hh i (by omega)
  rcases ht with ht | ht
  · have hhl : headerLength d.AgentAddrType = 28 := by simp [headerLength, ht]
    rw [hhl] at hw hnum hlen ⊢
    refine ⟨_, Parse_ipv4 (show 28 ≤ out.length by omega) (by rw [hw 0 (by omega)]; exact hv0)
      (by rw [hw 4 (by omega), ← hty]; exact ht), ?_, ?_, ?_⟩
    · show u32At out 24 = _
      rw [hw 24 (by omega), hnum]
    · exact ht.symm
    · show tlv out (u32At out 24) 28 = _
      rw [hw 24 (by omega), hnum]
  · have hhl : headerLength d.AgentAddrType = 40 := by simp [headerLength, ht]
    rw [hhl] at hw hnum hlen ⊢
    refine ⟨_, Parse_ipv6 (show 40 ≤ out.length by omega) (by rw [hw 0 (by omega)]; exact hv0)
      (by rw [hw 4 (by omega), ← hty]; exact ht), ?_, ?_, ?_⟩
    · show u32At out 36 = _
      rw [hw 36 (by omega), hnum]
    · exact ht.symm
    · show tlv out (u32At out 36) 40 = _
      rw [hw 36 (by omega), hnum]

/-- The run of `enrichPacket` on a datagram all of whose samples are of the
scenario: every sample takes the splice, from the last to the first. -/
theorem enrichRun_splices {rules : List EnrichmentRule} {v : Nat} {P : Bytes} {d : Datagram}
    (hp : Parse P = .ok d) (hN : d.Samples.length = d.NumSamples)
    (hs : ∀ s ∈ d.Samples, emptyPathSample rules v s = true)
    (hv : ∀ q ∈ rules, q.SetAS < 4294967296)
    (hb : P.length + 12 * d.NumSamples < 4294967296) :
    ∃ st d', enrichRun rules P = .ok st ∧ st.packet.length = P.length + 12 * d.NumSamples ∧
      Parse st.packet = .ok d' ∧ d'.NumSamples = d.NumSamples ∧
      d.Samples = (List.range d.NumSamples).map
        (fun j => sampleAt P (walkOffset P (headerLength d.AgentAddrType) j)) ∧
      d'.Samples = (List.range d.NumSamples).map
        (fun j => sampleAt st.packet (walkOffset P (headerLength d.AgentAddrType) j + 12 * j)) ∧
      ∀ n, n < d.NumSamples → dstPathIs v
        (sampleAt st.packet (walkOffset P (headerLength d.AgentAddrType) n + 12 * n)) = true := by
  have hsam : d.Samples = tlv P d.NumSamples (headerLength d.AgentAddrType) :=
    (Parse_ok_fields hp).2.2.2.2.2.2.2.2.2.2.1
  have hlenT : (tlv P d.NumSamples (headerLength d.AgentAddrType)).length = d.NumSamples := by
    rw [← hsam]; exact hN
  have hfit : ∀ j, j < d.NumSamples → fitsAt P (headerLength d.AgentAddrType) j :=
    fun j hj => ((tlv_walk P d.NumSamples (headerLength d.AgentAddrType)).2.1 j
      (by rw [hlenT]; exact hj)).1
  have hEq : d.Samples = (List.range d.NumSamples).map
      (fun j => sampleAt P (walkOffset P (headerLength d.AgentAddrType) j)) := by
    have := tlv_eq_sampleAt P d.NumSamples (headerLength d.AgentAddrType)
    rw [hlenT] at this
    rw [hsam]
    exact this
  have hs' : ∀ j, j < d.NumSamples → emptyPathSample rules v
      (sampleAt P (walkOffset P (headerLength d.AgentAddrType) j)) = true := by
    intro j hj
    apply hs
    rw [hEq]
    exact List.mem_map.mpr ⟨j, List.mem_range.mpr hj, rfl⟩
  obtain ⟨st, e, hlen, hhdr, hwalk, hdp⟩ :=
    sampleLoop_splices hv hfit hs' hb d.NumSamples (Nat.le_refl _) (EnrichState.init P)
      ⟨rfl, fun _ _ => rfl⟩ ⟨by simp [EnrichState.init, EnrichState.packet], fun _ _ => rfl⟩
      (fun n hn => by
        have : n = 0 := by omega
        subst this
        rfl)
      (fun n hn => by omega)
  have hrun : enrichRun rules P = .ok st := by
    unfold enrichRun
    rw [hp]
    show sampleLoop rules d.Samples.reverse (EnrichState.init P) = _
    rw [hEq]
    exact e
  obtain ⟨d', hp', hn', _, hsam'⟩ := Parse_of_header hp (by omega) hhdr
  have hfit' : ∀ j, j < d.NumSamples → fitsAt st.packet (headerLength d.AgentAddrType) j := by
    intro j hj
    have f := hfit j hj
    unfold fitsAt at f ⊢
    rw [hwalk j (by omega), hwalk (j + 1) (by omega), hlen]
    constructor <;> omega
  have hEq' : d'.Samples = (List.range d.NumSamples).map
      (fun j => sampleAt st.packet
        (walkOffset P (headerLength d.AgentAddrType) j + 12 * j)) := by
    have := tlv_eq_sampleAt st.packet d.NumSamples (headerLength d.AgentAddrType)
    rw [tlv_full hfit'] at this
    rw [hsam', this]
    apply List.map_congr_left
    intro j hj
    rw [hwalk j (by have := List.mem_range.mp hj; omega)]
  exact ⟨st, d', hrun, hlen, hp', hn', hEq, hEq', hdp⟩

/-- C12.  Let `P` be a datagram that `Parse` accepts with all its
`sample_count` samples, each a flow sample holding a Raw Packet Header record
and an Extended Gateway record with an empty destination AS path, and let the
first rule whose network holds the destination address set the AS `v` in every
sample (rule values are 32-bit, the buffer stays below 2^32 bytes).  Then
`enrichPacket` returns a buffer exactly 12 bytes per sample longer; `Parse` of
it succeeds with the same sample count in the header and as many samples, and
every sample parses to a gateway record with the destination AS path `[v]`. -/
theorem enrichPacket_all_samples (rules : List EnrichmentRule) (v : Nat) (P : Bytes)
    (d : Datagram) (hp : Parse P = .ok d) (hN : d.Samples.length = d.NumSamples)
    (hs : ∀ s ∈ d.Samples, emptyPathSample rules v s = true)
    (hv : ∀ q ∈ rules, q.SetAS < 4294967296)
    (hb : P.length + 12 * d.NumSamples < 4294967296) :
    ∃ out e d', enrichPacket rules P = .ok (out, e) ∧
      out.length = P.length + 12 * d.NumSamples ∧ Parse out = .ok d' ∧
      d'.Samples.length = d.NumSamples ∧ d'.NumSamples = d.NumSamples ∧
      ∀ s ∈ d'.Samples, dstPathIs v s = true := by
  obtain ⟨st, d', hrun, hlen, hp', hn', _, hEq', hdp⟩ := enrichRun_splices hp hN hs hv hb
  refine ⟨st.packet, st.enriched, d', ?_, hlen, hp', ?_, hn', ?_⟩
  · unfold enrichPacket
    rw [hrun]
    rfl
  · rw [hEq']
    simp
  · intro s hs'
    rw [hEq'] at hs'
    obtain ⟨j, hj, rfl⟩ := List.mem_map.mp hs'
    exact hdp j (List.mem_range.mp hj)

set_option maxRecDepth 100000 in
/-- Witness for C12: `twoSampleDatagram` with the rules `otherRule` (whose
network holds neither destination) and `ownRule`. -/
theorem enrichPacket_all_samples_witness :
    ∃ out e d', enrichPacket [otherRule, ownRule] twoSampleDatagram = .ok (out, e) ∧
      out.length = twoSampleDatagram.length + 12 * 2 ∧ Parse out = .ok d' ∧
      d'.Samples.length = 2 ∧ d'.NumSamples = 2 ∧
      ∀ s ∈ d'.Samples, dstPathIs 65001 s = true :=
  enrichPacket_all_samples [otherRule, ownRule] 65001 twoSampleDatagram _
    (Parse_ipv4 (by decide) (by decide) (by decide)) (by decide) (by decide) (by decide)
    (by decide)

set_option maxRecDepth 100000 in
/-- C13, as stated, fails.  On `twoSampleDatagram` with the rule `ownRule` both
samples carry an empty destination AS path and both are enriched; the
sample-offset table is `[28, 168]` before and `[28, 180]` after, so the offset
at index 0 (one mutated sample has a greater index) is unchanged, not 12 more,
and the offset at index 1 (no mutated sample has a greater index) is 12 more,
not unchanged. -/
theorem offsets_shift_by_later_splices_fails :
    enrichPacket [ownRule] twoSampleDatagram = .ok (twoSampleEnriched, true) ∧
    (∀ s ∈ tlv twoSampleDatagram 2 28, emptyPathSample [ownRule] 65001 s = true) ∧
    (∀ s ∈ tlv twoSampleEnriched 2 28, dstPathIs 65001 s = true) ∧
    offsetTable twoSampleDatagram = [28, 168] ∧ offsetTable twoSampleEnriched = [28, 180] ∧
    ¬ (∀ i, i < 2 → (offsetTable twoSampleEnriched)[i]?
        = ((offsetTable twoSampleDatagram)[i]?).map (fun x => x + 12 * (2 - 1 - i))) := by
  decide

/-- C13, amended.  For a datagram whose samples all carry an empty destination
AS path and are all enriched, the sample offset recomputed by a fresh parse at
sample index `i` is the pre-enrichment offset at index `i` plus `12 * i`: 12
bytes for each mutated sample with an index smaller than `i`. -/
theorem offsets_shift_by_earlier_splices (rules : List EnrichmentRule) (v : Nat) (P : Bytes)
    (d : Datagram) (hp : Parse P = .ok d) (hN : d.Samples.length = d.NumSamples)
    (hs : ∀ s ∈ d.Samples, emptyPathSample rules v s = true)
    (hv : ∀ q ∈ rules, q.SetAS < 4294967296)
    (hb : P.length + 12 * d.NumSamples < 4294967296) :
    ∃ out e, enrichPacket rules P = .ok (out, e) ∧
      (offsetTable P).length = d.NumSamples ∧ (offsetTable out).length = d.NumSamples ∧
      ∀ i, i < d.NumSamples →
        (offsetTable out)[i]? = ((offsetTable P)[i]?).map (fun x => x + 12 * i) := by
  obtain ⟨st, d', hrun, hlen, hp', hn', hEq, hEq', hdp⟩ := enrichRun_splices hp hN hs hv hb
  have t1 : offsetTable P = (List.range d.NumSamples).map
      (fun j => walkOffset P (headerLength d.AgentAddrType) j) := by
    unfold offsetTable
    rw [hp]
    simp only
    rw [hEq, List.map_map]
    rfl
  have t2 : offsetTable st.packet = (List.range d.NumSamples).map
      (fun j => walkOffset P (headerLength d.AgentAddrType) j + 12 * j) := by
    unfold offsetTable
    rw [hp']
    simp only
    rw [hEq', List.map_map]
    rfl
  refine ⟨st.packet, st.enriched, ?_, by rw [t1]; simp, by rw [t2]; simp, ?_⟩
  · unfold enrichPacket
    rw [hrun]
    rfl
  · intro i hi
    rw [t1, t2, List.getElem?_map, List.getElem?_map, List.getElem?_range hi]
    rfl

set_option maxRecDepth 100000 in
/-- Witness for the amended C13: `twoSampleDatagram` with the rule `ownRule`. -/
theorem offsets_shift_by_earlier_splices_witness :
    ∃ out e, enrichPacket [ownRule] twoSampleDatagram = .ok (out, e) ∧
      (offsetTable twoSampleDatagram).length = 2 ∧ (offsetTable out).length = 2 ∧
      ∀ i, i < 2 →
        (offsetTable out)[i]? = ((offsetTable twoSampleDatagram)[i]?).map (fun x => x + 12 * i) :=
  offsets_shift_by_earlier_splices [ownRule] 65001 twoSampleDatagram _
    (Parse_ipv4 (by decide) (by decide) (by decide)) (by decide) (by decide) (by decide)
    (by decide)

/-! ## `ParseExtendedGateway` is total -/

theorem ParseExtendedGateway_short {data : Bytes} (h : data.length < 20) :
    ParseExtendedGateway data = .error (.error .gatewayTooShort) := by
  simp [ParseExtendedGateway, h]

theorem ParseExtendedGateway_hopType {data : Bytes} (h : 20 ≤ data.length)
    (h1 : u32At data 0 ≠ 1) (h2 : u32At data 0 ≠ 2) :
    ParseExtendedGateway data = .error (.error .unsupportedNextHopType) := by
  have h' : ¬ data.length < 20 := by omega
  simp [ParseExtendedGateway, h', Uint32_ok (show 0 + 4 ≤ data.length by omega), Except.bind, h1,
    h2]

theorem ParseExtendedGateway_ipv6_short {data : Bytes} (h : 20 ≤ data.length)
    (h2 : u32At data 0 = 2) (hs : data.length < 32) :
    ParseExtendedGateway data = .error (.error .gatewayTooShortForAS) := by
  have h' : ¬ data.length < 20 := by omega
  simp [ParseExtendedGateway, h', Uint32_ok (show 0 + 4 ≤ data.length by omega), Except.bind, h2,
    Slice_ok (show 4 ≤ 20 by omega) h, hs]

/-- C21.  `ParseExtendedGateway` is total and fails exactly when the fixed
prefix is not wholly present or the next-hop type is unsupported.  On every
payload it returns (no read leaves the payload, so it never panics); it returns
an error exactly when the payload is shorter than 20 bytes, or the next-hop
type is neither 1 nor 2, or the next-hop type is 2 and the payload is shorter
than 32 bytes; on every other payload it returns a record, whatever the
segment count, the segment lengths and the community count say. -/
theorem ParseExtendedGateway_total (data : Bytes) :
    ParseExtendedGateway data ≠ .error .panic ∧
    ((∃ e, ParseExtendedGateway data = .error (.error e)) ↔
      (data.length < 20 ∨ (u32At data 0 ≠ 1 ∧ u32At data 0 ≠ 2) ∨
        (u32At data 0 = 2 ∧ data.length < 32))) ∧
    (¬ (data.length < 20 ∨ (u32At data 0 ≠ 1 ∧ u32At data 0 ≠ 2) ∨
        (u32At data 0 = 2 ∧ data.length < 32)) →
      ∃ g, ParseExtendedGateway data = .ok g) := by
  by_cases hl : data.length < 20
  · rw [ParseExtendedGateway_short hl]
    exact ⟨by simp, ⟨fun _ => Or.inl hl, fun _ => ⟨_, rfl⟩⟩, fun h => absurd (Or.inl hl) h⟩
  · by_cases h1 : u32At data 0 = 1
    · obtain ⟨g, hg, _⟩ := @ParseExtendedGateway_ok_of_fixed data 8 (Or.inl ⟨h1, rfl⟩) (by omega)
      rw [hg]
      refine ⟨by simp, ⟨?_, ?_⟩, fun _ => ⟨g, rfl⟩⟩
      · rintro ⟨e, he⟩
        cases he
      · rintro (h | ⟨h, _⟩ | ⟨h, _⟩)
        · exact absurd h hl
        · exact absurd h1 h
        · rw [h1] at h; cases h
    · by_cases h2 : u32At data 0 = 2
      · by_cases hs : data.length < 32
        · rw [ParseExtendedGateway_ipv6_short (by omega) h2 hs]
          exact ⟨by simp, ⟨fun _ => Or.inr (Or.inr ⟨h2, hs⟩), fun _ => ⟨_, rfl⟩⟩,
            fun h => absurd (Or.inr (Or.inr ⟨h2, hs⟩)) h⟩
        · obtain ⟨g, hg, _⟩ :=
            @ParseExtendedGateway_ok_of_fixed data 20 (Or.inr ⟨h2, rfl⟩) (by omega)
          rw [hg]
          refine ⟨by simp, ⟨?_, ?_⟩, fun _ => ⟨g, rfl⟩⟩
          · rintro ⟨e, he⟩
            cases he
          · rintro (h | ⟨_, h⟩ | ⟨_, h⟩)
            · exact absurd h hl
            · exact absurd h2 h
            · exact absurd h hs
      · rw [ParseExtendedGateway_hopType (by omega) h1 h2]
        exact ⟨by simp, ⟨fun _ => Or.inr (Or.inl ⟨h1, h2⟩), fun _ => ⟨_, rfl⟩⟩,
          fun h => absurd (Or.inr (Or.inl ⟨h1, h2⟩)) h⟩

/-- Witness for C21: a 24-byte payload with an IPv4 next hop that announces
4 billion path segments parses; the same payload with next-hop type 2 is too
short. -/
theorem ParseExtendedGateway_total_witness :
    (∃ g, ParseExtendedGateway
      [0, 0, 0, 1, 192, 0, 2, 1, 0, 0, 0, 42, 0, 0, 251, 244, 0, 0, 0, 0, 255, 255, 255, 255]
        = .ok g) ∧
    (∃ e, ParseExtendedGateway
      [0, 0, 0, 2, 192, 0, 2, 1, 0, 0, 0, 42, 0, 0, 251, 244, 0, 0, 0, 0, 255, 255, 255, 255]
        = .error (.error e)) :=
  ⟨(ParseExtendedGateway_total _).2.2 (by decide),
   (ParseExtendedGateway_total _).2.1.mpr (by decide)⟩

/-! ## `GetSrcIPFromRawPacket` -/

theorem Uint16_ok {data : Bytes} {off : Nat} (h : off + 2 ≤ data.length) :
    Uint16 data off = .ok (u16At data off) := by
  simp [Uint16, h]

/-- Fewer than 34 captured bytes: no address. -/
theorem GetSrcIPFromRawPacket_short {data : Bytes} (h : u32At data 12 < 34) :
    GetSrcIPFromRawPacket data = .ok none := by
  unfold GetSrcIPFromRawPacket
  by_cases hl : data.length < 20
  · rw [if_pos hl]
  · rw [if_neg hl, Uint32_ok (show 0 + 4 ≤ data.length by omega),
      Uint32_ok (show 12 + 4 ≤ data.length by omega)]
    simp only [Except.bind]
    by_cases hc : 16 + u32At data 12 > data.length ∨ u32At data 12 < 20
    · rw [if_pos hc]
    · rw [if_neg hc, Slice_ok (by omega) (by omega)]
      simp only
      rw [if_neg (by rw [slice_length (by omega)]; omega)]

/-- At least 34 captured bytes, all inside the payload: the decision the code
takes on the captured bytes. -/
theorem GetSrcIPFromRawPacket_long {data : Bytes} (hl : 34 ≤ u32At data 12)
    (hcap : 16 + u32At data 12 ≤ data.length) :
    GetSrcIPFromRawPacket data =
      if u16At (slice data 16 (16 + u32At data 12)) 12 = 0x0800 then
        .ok (some (slice (slice data 16 (16 + u32At data 12)) 26 30))
      else if u16At (slice data 16 (16 + u32At data 12)) 12 = 0x86DD then
        if 54 ≤ u32At data 12 then .ok (some (slice (slice data 16 (16 + u32At data 12)) 22 38))
        else .ok none
      else if u16At (slice data 16 (16 + u32At data 12)) 12 = 0x8100 then
        if 38 ≤ u32At data 12 ∧ u16At (slice data 16 (16 + u32At data 12)) 16 = 0x0800 then
          .ok (some (slice (slice data 16 (16 + u32At data 12)) 30 34))
        else .ok none
      else .ok none := by
  have hlen : (slice data 16 (16 + u32At data 12)).length = u32At data 12 := by
    rw [slice_length hcap]; omega
  unfold GetSrcIPFromRawPacket
  rw [if_neg (by omega), Uint32_ok (show 0 + 4 ≤ data.length by omega),
    Uint32_ok (show 12 + 4 ≤ data.length by omega)]
  simp only [Except.bind]
  rw [if_neg (by omega), Slice_ok (by omega) hcap]
  simp only
  rw [if_pos (by rw [hlen]; omega), Uint16_ok (by rw [hlen]; omega)]
  simp only [hlen]
  by_cases e4 : u16At (slice data 16 (16 + u32At data 12)) 12 = 0x0800
  · rw [if_pos e4, if_pos e4, if_pos (by omega), Slice_ok (by omega) (by rw [hlen]; omega)]
  · rw [if_neg e4, if_neg e4]
    by_cases e6 : u16At (slice data 16 (16 + u32At data 12)) 12 = 0x86DD
    · rw [if_pos e6, if_pos e6]
      by_cases h54 : 54 ≤ u32At data 12
      · rw [if_pos h54, if_pos h54, Slice_ok (by omega) (by rw [hlen]; omega)]
      · rw [if_neg h54, if_neg h54]
    · rw [if_neg e6, if_neg e6]
      by_cases e8 : u16At (slice data 16 (16 + u32At data 12)) 12 = 0x8100
      · rw [if_pos e8, if_pos e8]
        by_cases h38 : 38 ≤ u32At data 12
        · rw [if_pos h38, Uint16_ok (by rw [hlen]; omega)]
          simp only
          by_cases ei : u16At (slice data 16 (16 + u32At data 12)) 16 = 0x0800
          · rw [if_pos ⟨ei, h38⟩, if_pos ⟨h38, ei⟩, Slice_ok (by omega) (by rw [hlen]; omega)]
          · rw [if_neg (fun h => ei h.1), if_neg (fun h => ei h.2)]
        · rw [if_neg h38, if_neg (fun h => h38 h.1)]
      · rw [if_neg e8, if_neg e8]

/-- `GetSrcIPFromRawPacket` returns on every payload: no read leaves the
payload or the captured portion. -/
theorem GetSrcIPFromRawPacket_ok (data : Bytes) : ∃ r, GetSrcIPFromRawPacket data = .ok r := by
  by_cases hs : u32At data 12 < 34
  · exact ⟨_, GetSrcIPFromRawPacket_short hs⟩
  · by_cases hcap : 16 + u32At data 12 ≤ data.length
    · rw [GetSrcIPFromRawPacket_long (by omega) hcap]
      repeat' split
      all_goals exact ⟨_, rfl⟩
    · refine ⟨none, ?_⟩
      unfold GetSrcIPFromRawPacket
      by_cases hl : data.length < 20
      · rw [if_pos hl]
      · rw [if_neg hl, Uint32_ok (show 0 + 4 ≤ data.length by omega),
          Uint32_ok (show 12 + 4 ≤ data.length by omega)]
        simp only [Except.bind]
        rw [if_pos (Or.inl (by omega))]

set_option maxRecDepth 100000 in
/-- C22, as stated, fails.  The captured portion of `shortIPv4RawHeader` is
30 bytes of an untagged Ethernet frame with EtherType 0x0800; bytes 12..16 of
the IPv4 header (10.0.0.5) lie inside it, at 26..30 of the captured portion,
and `GetSrcIPFromRawPacket` returns no address. -/
theorem GetSrcIPFromRawPacket_short_capture :
    16 + u32At shortIPv4RawHeader 12 = shortIPv4RawHeader.length ∧
    u16At (slice shortIPv4RawHeader 16 (16 + u32At shortIPv4RawHeader 12)) 12 = 0x0800 ∧
    14 + 16 ≤ u32At shortIPv4RawHeader 12 ∧
    slice (slice shortIPv4RawHeader 16 (16 + u32At shortIPv4RawHeader 12)) 26 30 = [10, 0, 0, 5] ∧
    GetSrcIPFromRawPacket shortIPv4RawHeader = .ok none := by
  decide

/-- C22, amended.  For every Raw Packet Header payload whose captured portion
(the `header length` bytes after the 16-byte prefix) lies inside it and holds
an untagged Ethernet frame: with EtherType 0x0800 the result is bytes 12..16 of
the IPv4 header when at least 34 bytes are captured (the whole IPv4 header) and
no address otherwise; with EtherType 0x86DD it is bytes 8..24 of the IPv6
header when at least 54 bytes are captured (the whole IPv6 header) and no
address otherwise.  On every payload the function returns: no read leaves the
payload or the captured portion. -/
theorem GetSrcIPFromRawPacket_untagged (data : Bytes) :
    (∃ r, GetSrcIPFromRawPacket data = .ok r) ∧
    (16 + u32At data 12 ≤ data.length →
      (u16At (slice data 16 (16 + u32At data 12)) 12 = 0x0800 →
        (34 ≤ u32At data 12 → GetSrcIPFromRawPacket data
          = .ok (some (slice (slice data 16 (16 + u32At data 12)) (14 + 12) (14 + 16)))) ∧
        (u32At data 12 < 34 → GetSrcIPFromRawPacket data = .ok none)) ∧
      (u16At (slice data 16 (16 + u32At data 12)) 12 = 0x86DD →
        (54 ≤ u32At data 12 → GetSrcIPFromRawPacket data
          = .ok (some (slice (slice data 16 (16 + u32At data 12)) (14 + 8) (14 + 24)))) ∧
        (u32At data 12 < 54 → GetSrcIPFromRawPacket data = .ok none))) := by
  refine ⟨GetSrcIPFromRawPacket_ok data, fun hcap => ⟨fun e4 => ⟨fun h => ?_, fun h => ?_⟩,
    fun e6 => ⟨fun h => ?_, fun h => ?_⟩⟩⟩
  · rw [GetSrcIPFromRawPacket_long h hcap, if_pos e4]
  · exact GetSrcIPFromRawPacket_short h
  · rw [GetSrcIPFromRawPacket_long (by omega) hcap, if_neg (by rw [e6]; decide), if_pos e6,
      if_pos h]
  · by_cases hs : u32At data 12 < 34
    · exact GetSrcIPFromRawPacket_short hs
    · rw [GetSrcIPFromRawPacket_long (by omega) hcap, if_neg (by rw [e6]; decide), if_pos e6,
        if_neg (by omega)]

set_option maxRecDepth 100000 in
/-- Witness for the amended C22: the raw packet header record of
`outboundDatagram` (IPv4, 34 bytes captured, source 10.0.0.5) and
`ipv6RawHeader` (IPv6, 54 bytes captured, source 2001:db8::5). -/
theorem GetSrcIPFromRawPacket_untagged_witness :
    GetSrcIPFromRawPacket (slice outboundDatagram 76 128) = .ok (some [10, 0, 0, 5]) ∧
    GetSrcIPFromRawPacket ipv6RawHeader
      = .ok (some [32, 1, 13, 184, 0, 0, 0, 0, 0, 0, 0, 0, 0, 0, 0, 5]) :=
  ⟨((GetSrcIPFromRawPacket_untagged (slice outboundDatagram 76 128)).2 (by decide)).1 (by decide)
      |>.1 (by decide) |>.trans (by decide),
   ((GetSrcIPFromRawPacket_untagged ipv6RawHeader).2 (by decide)).2 (by decide)
      |>.1 (by decide) |>.trans (by decide)⟩

/-- A VLAN-tagged frame with inner EtherType 0x0800 and at least 38 captured
bytes: the source address is bytes 12..16 of the IPv4 header that starts after
the 18-byte tagged Ethernet header. -/
theorem GetSrcIPFromRawPacket_vlan_ipv4 {data : Bytes} (hcap : 16 + u32At data 12 ≤ data.length)
    (h38 : 38 ≤ u32At data 12)
    (e8 : u16At (slice data 16 (16 + u32At data 12)) 12 = 0x8100)
    (e4 : u16At (slice data 16 (16 + u32At data 12)) 16 = 0x0800) :
    GetSrcIPFromRawPacket data
      = .ok (some (slice (slice data 16 (16 + u32At data 12)) (18 + 12) (18 + 16))) := by
  rw [GetSrcIPFromRawPacket_long (by omega) hcap, if_neg (by rw [e8]; decide),
    if_neg (by rw [e8]; decide), if_pos e8, if_pos ⟨h38, e4⟩]

set_option maxRecDepth 100000 in
/-- C23: for an outer EtherType 0x8100 the inspector is to skip the VLAN tag
and return the source address both for an inner IPv4 and for an inner IPv6
header.  The code breaks this for IPv6.  The captured portion of
`vlanIPv6RawHeader` is a whole VLAN-tagged frame with inner EtherType 0x86DD
whose source address 2001:db8::5 is at bytes 8..24 of the IPv6 header (26..42
of the captured portion), and `GetSrcIPFromRawPacket` returns no address; on
the untagged frame `ipv6RawHeader` and on the tagged IPv4 frame
`vlanIPv4RawHeader` it returns the source address. -/
theorem GetSrcIPFromRawPacket_vlan_ipv6_missed :
    16 + u32At vlanIPv6RawHeader 12 = vlanIPv6RawHeader.length ∧
    u16At (slice vlanIPv6RawHeader 16 (16 + u32At vlanIPv6RawHeader 12)) 12 = 0x8100 ∧
    u16At (slice vlanIPv6RawHeader 16 (16 + u32At vlanIPv6RawHeader 12)) 16 = 0x86DD ∧
    slice (slice vlanIPv6RawHeader 16 (16 + u32At vlanIPv6RawHeader 12)) (18 + 8) (18 + 24)
      = [32, 1, 13, 184, 0, 0, 0, 0, 0, 0, 0, 0, 0, 0, 0, 5] ∧
    GetSrcIPFromRawPacket vlanIPv6RawHeader = .ok none ∧
    GetSrcIPFromRawPacket ipv6RawHeader
      = .ok (some [32, 1, 13, 184, 0, 0, 0, 0, 0, 0, 0, 0, 0, 0, 0, 5]) ∧
    GetSrcIPFromRawPacket vlanIPv4RawHeader = .ok (some [10, 0, 0, 5]) := by
  decide

/-! ## Whitelist and reload (`config.go`) -/

theorem whitelistLoop_some (nets : List IPNet) (ip : Bytes) :
    whitelistLoop (nets.map some) ip = .ok (nets.any fun n => n.Contains ip) := by
  induction nets with
  | nil => rfl
  | cons n rest ih =>
    simp only [List.map_cons, whitelistLoop, List.any_cons]
    by_cases h : n.Contains ip = true
    · simp [h]
    · have h' : n.Contains ip = false := by simpa using h
      simp [h', ih]

theorem parseRules_error {env : ConfigEnv} {rules : List EnrichmentRule} {e : ConfigError}
    (h : parseRules env rules = .error e) :
    ∃ r ∈ rules, env.ParseCIDR r.Network = none ∧ e = .invalidNetwork r.Network := by
  induction rules with
  | nil => cases h
  | cons r rest ih =>
    unfold parseRules at h
    cases hc : env.ParseCIDR r.Network with
    | none =>
      rw [hc] at h
      injection h with h
      exact ⟨r, List.mem_cons_self _ _, hc, h.symm⟩
    | some n =>
      rw [hc] at h
      simp only at h
      cases hr : parseRules env rest with
      | error e' =>
        rw [hr] at h
        injection h with h
        subst h
        obtain ⟨q, hq, h1, h2⟩ := ih hr
        exact ⟨q, List.mem_cons_of_mem _ hq, h1, h2⟩
      | ok rs => rw [hr] at h; cases h

theorem parseRules_of_invalid {env : ConfigEnv} {rules : List EnrichmentRule}
    (h : ∃ r ∈ rules, env.ParseCIDR r.Network = none) : ∃ e, parseRules env rules = .error e := by
  induction rules with
  | nil => obtain ⟨r, hr, _⟩ := h; cases hr
  | cons r rest ih =>
    unfold parseRules
    cases hc : env.ParseCIDR r.Network with
    | none => exact ⟨_, rfl⟩
    | some n =>
      simp only
      obtain ⟨q, hq, hn⟩ := h
      rcases List.mem_cons.mp hq with rfl | hq
      · rw [hc] at hn; cases hn
      · obtain ⟨e, he⟩ := ih ⟨q, hq, hn⟩
        rw [he]
        exact ⟨e, rfl⟩

theorem parseWhitelist_error {env : ConfigEnv} {srcs : List String} {e : ConfigError}
    (h : parseWhitelist env srcs = .error e) :
    ∃ s ∈ srcs, env.ParseCIDR s = none ∧ env.ParseIP s = none ∧
      e = .invalidWhitelistSource s := by
  induction srcs with
  | nil => cases h
  | cons s rest ih =>
    unfold parseWhitelist at h
    cases hc : env.ParseCIDR s with
    | some n =>
      rw [hc] at h
      simp only [Except.bind] at h
      cases hr : parseWhitelist env rest with
      | error e' =>
        rw [hr] at h
        injection h with h
        subst h
        obtain ⟨q, hq, h1, h2, h3⟩ := ih hr
        exact ⟨q, List.mem_cons_of_mem _ hq, h1, h2, h3⟩
      | ok rs => rw [hr] at h; cases h
    | none =>
      rw [hc] at h
      cases hp : env.ParseIP s with
      | none =>
        rw [hp] at h
        injection h with h
        exact ⟨s, List.mem_cons_self _ _, hc, hp, h.symm⟩
      | some b =>
        rw [hp] at h
        cases b <;>
        · simp only [Except.bind] at h
          cases hr : parseWhitelist env rest with
          | error e' =>
            rw [hr] at h
            injection h with h
            subst h
            obtain ⟨q, hq, h1, h2, h3⟩ := ih hr
            exact ⟨q, List.mem_cons_of_mem _ hq, h1, h2, h3⟩
          | ok rs => rw [hr] at h; cases h

theorem parseWhitelist_of_invalid {env : ConfigEnv} {srcs : List String}
    (h : ∃ s ∈ srcs, env.ParseCIDR s = none ∧ env.ParseIP s = none) :
    ∃ e, parseWhitelist env srcs = .error e := by
  induction srcs with
  | nil => obtain ⟨r, hr, _⟩ := h; cases hr
  | cons s rest ih =>
    obtain ⟨q, hq, hn1, hn2⟩ := h
    unfold parseWhitelist
    rcases List.mem_cons.mp hq with rfl | hq
    · rw [hn1, hn2]
      exact ⟨_, rfl⟩
    · obtain ⟨e, he⟩ := ih ⟨q, hq, hn1, hn2⟩
      rw [he]
      cases hc : env.ParseCIDR s with
      | some n => exact ⟨e, rfl⟩
      | none =>
        cases hp : env.ParseIP s with
        | none => exact ⟨_, rfl⟩
        | some b => cases b <;> exact ⟨e, rfl⟩

/-- The networks `parse` appends are non-nil when every bare address that
`net.ParseIP` accepts gives a valid CIDR once `/32` or `/128` is added. -/
theorem parseWhitelist_some {env : ConfigEnv}
    (h32 : ∀ s, env.ParseIP s = some true → (env.ParseCIDR (s ++ "/32")).isSome = true)
    (h128 : ∀ s, env.ParseIP s = some false → (env.ParseCIDR (s ++ "/128")).isSome = true)
    {srcs : List String} {nets : List (Option IPNet)} (h : parseWhitelist env srcs = .ok nets) :
    nets.length = srcs.length ∧ ∃ ns : List IPNet, nets = ns.map some := by
  induction srcs generalizing nets with
  | nil =>
    simp only [parseWhitelist] at h
    injection h with h
    subst h
    exact ⟨rfl, [], rfl⟩
  | cons s rest ih =>
    unfold parseWhitelist at h
    have key : ∀ n : Option IPNet, n.isSome = true →
        ((Except.ok n : Except ConfigError (Option IPNet)).bind fun ipnet =>
          (parseWhitelist env rest).bind fun rest' => .ok (ipnet :: rest')) = .ok nets →
        nets.length = (s :: rest).length ∧ ∃ ns : List IPNet, nets = ns.map some := by
      intro n hn hh
      simp only [Except.bind] at hh
      cases hr : parseWhitelist env rest with
      | error e' => rw [hr] at hh; cases hh
      | ok rs =>
        rw [hr] at hh
        injection hh with hh
        subst hh
        obtain ⟨l, ns, hns⟩ := ih hr
        obtain ⟨m, rfl⟩ := Option.isSome_iff_exists.mp hn
        exact ⟨by simp [l], m :: ns, by simp [hns]⟩
    cases hc : env.ParseCIDR s with
    | some n =>
      rw [hc] at h
      exact key (some n) rfl h
    | none =>
      rw [hc] at h
      cases hp : env.ParseIP s with
      | none => rw [hp] at h; cases h
      | some b =>
        rw [hp] at h
        cases b
        · exact key _ (h128 s hp) h
        · exact key _ (h32 s hp) h

theorem Load_security {env : ConfigEnv} {path : String} {c : Config} (h : Load env path = .ok c)
    (hU : ∀ data cfg, env.Unmarshal data = some cfg → cfg.Security.WhitelistNets = []) :
    ∃ nets, parseWhitelist env c.Security.WhitelistSources = .ok nets ∧
      c.Security.WhitelistNets = nets := by
  unfold Load at h
  cases hr : env.ReadFile path with
  | none => rw [hr] at h; cases h
  | some data =>
    rw [hr] at h
    simp only at h
    cases hu : env.Unmarshal data with
    | none => rw [hu] at h; cases h
    | some cfg =>
      rw [hu] at h
      simp only at h
      unfold Config.parse at h
      cases h1 : parseRules env cfg.Enrichment.Rules with
      | error e => rw [h1] at h; cases h
      | ok rules =>
        rw [h1] at h
        simp only [Except.bind] at h
        cases h2 : parseWhitelist env cfg.Security.WhitelistSources with
        | error e => rw [h2] at h; cases h
        | ok nets =>
          rw [h2] at h
          simp only at h
          injection h with h
          subst h
          exact ⟨nets, h2, by simp [hU data cfg hu]⟩

/-- C24.  `IsWhitelisted(ip)` is true exactly when the whitelist is disabled or
a configured whitelist network contains `ip`.  With the whitelist disabled the
answer is true for every address; for a configuration whose whitelist networks
are `nets` the call returns, and returns true exactly when the whitelist is
disabled or some network of `nets` contains `ip`; with the whitelist enabled
and no network every address is rejected.  A loaded configuration has one
network per configured source (none when no source is configured), the
`yaml:"-"` field being nil after decoding and every bare address that
`net.ParseIP` accepts being a valid CIDR once `/32` or `/128` is added. -/
theorem IsWhitelisted_iff (c : Config) (ip : Bytes) :
    (c.Security.WhitelistEnabled = false → c.IsWhitelisted ip = .ok true) ∧
    (∀ nets : List IPNet, c.Security.WhitelistNets = nets.map some →
      (∃ b, c.IsWhitelisted ip = .ok b) ∧
      (c.IsWhitelisted ip = .ok true ↔
        (c.Security.WhitelistEnabled = false ∨ ∃ n ∈ nets, n.Contains ip = true))) ∧
    (c.Security.WhitelistEnabled = true → c.Security.WhitelistNets = [] →
      c.IsWhitelisted ip = .ok false) ∧
    (∀ (env : ConfigEnv) (path : String), Load env path = .ok c →
      (∀ data cfg, env.Unmarshal data = some cfg → cfg.Security.WhitelistNets = []) →
      (∀ s, env.ParseIP s = some true → (env.ParseCIDR (s ++ "/32")).isSome = true) →
      (∀ s, env.ParseIP s = some false → (env.ParseCIDR (s ++ "/128")).isSome = true) →
      c.Security.WhitelistNets.length = c.Security.WhitelistSources.length ∧
      ∃ nets : List IPNet, c.Security.WhitelistNets = nets.map some) := by
  refine ⟨?_, ?_, ?_, ?_⟩
  · intro h
    simp [Config.IsWhitelisted, h]
  · intro nets hn
    unfold Config.IsWhitelisted
    rw [hn, whitelistLoop_some]
    cases he : c.Security.WhitelistEnabled
    · simp
    · simp
  · intro h hn
    simp [Config.IsWhitelisted, h, hn, whitelistLoop]
  · intro env path hl hU h32 h128
    obtain ⟨nets, hp, hn⟩ := Load_security hl hU
    rw [hn]
    exact parseWhitelist_some h32 h128 hp

/-- Witness for C24: `liveConfig` (whitelist enabled, network 10.1.1.0/24)
allows 10.1.1.9 and rejects 10.2.2.2; with the whitelist disabled 10.2.2.2 is
allowed; with the whitelist enabled and no network 10.1.1.9 is rejected. -/
theorem IsWhitelisted_iff_witness :
    liveConfig.IsWhitelisted [10, 1, 1, 9] = .ok true ∧
    liveConfig.IsWhitelisted [10, 2, 2, 2] ≠ .ok true ∧
    Config.IsWhitelisted
      { liveConfig with Security := { liveConfig.Security with WhitelistEnabled := false } }
      [10, 2, 2, 2] = .ok true ∧
    Config.IsWhitelisted
      { liveConfig with Security := { liveConfig.Security with WhitelistNets := [] } }
      [10, 1, 1, 9] = .ok false :=
  ⟨((IsWhitelisted_iff liveConfig [10, 1, 1, 9]).2.1 [cidr4 10 1 1 0 24] rfl).2.mpr
      (Or.inr ⟨_, List.mem_singleton.mpr rfl, by decide⟩),
   fun h => by
    rcases ((IsWhitelisted_iff liveConfig [10, 2, 2, 2]).2.1 [cidr4 10 1 1 0 24] rfl).2.mp h
      with h | ⟨n, hn, hc⟩
    · exact absurd h (by decide)
    · rw [List.mem_singleton.mp hn] at hc
      exact absurd hc (by decide),
   (IsWhitelisted_iff _ _).1 rfl,
   (IsWhitelisted_iff _ _).2.2.1 rfl rfl⟩

theorem Config.parse_error_iff (env : ConfigEnv) (n : Config) :
    (∃ e, n.parse env = .error e) ↔
      ((∃ r ∈ n.Enrichment.Rules, env.ParseCIDR r.Network = none) ∨
       (∃ s ∈ n.Security.WhitelistSources, env.ParseCIDR s = none ∧ env.ParseIP s = none)) := by
  unfold Config.parse
  constructor
  · rintro ⟨e, he⟩
    cases h1 : parseRules env n.Enrichment.Rules with
    | error e1 =>
      obtain ⟨r, hr, hn, _⟩ := parseRules_error h1
      exact Or.inl ⟨r, hr, hn⟩
    | ok rules =>
      rw [h1] at he
      simp only [Except.bind] at he
      cases h2 : parseWhitelist env n.Security.WhitelistSources with
      | error e2 =>
        obtain ⟨s, hs, hn1, hn2, _⟩ := parseWhitelist_error h2
        exact Or.inr ⟨s, hs, hn1, hn2⟩
      | ok nets => rw [h2] at he; cases he
  · rintro (h | h)
    · obtain ⟨e, he⟩ := parseRules_of_invalid h
      rw [he]
      exact ⟨e, rfl⟩
    · cases h1 : parseRules env n.Enrichment.Rules with
      | error e1 => exact ⟨e1, rfl⟩
      | ok rules =>
        obtain ⟨e, he⟩ := parseWhitelist_of_invalid h
        simp only [Except.bind]
        rw [he]
        exact ⟨e, rfl⟩

theorem Reload_readFile {env : ConfigEnv} {c : Config} {path : String}
    (h : env.ReadFile path = none) : c.Reload env path = (c, some .readFile) := by
  unfold Config.Reload
  rw [h]

theorem Reload_yaml {env : ConfigEnv} {c : Config} {path data : String}
    (h : env.ReadFile path = some data) (hu : env.Unmarshal data = none) :
    c.Reload env path = (c, some .yaml) := by
  unfold Config.Reload
  rw [h]
  simp only [hu]

theorem Reload_parse {env : ConfigEnv} {c n : Config} {path data : String} {e : ConfigError}
    (h : env.ReadFile path = some data) (hu : env.Unmarshal data = some n)
    (hp : n.parse env = .error e) : c.Reload env path = (c, some e) := by
  unfold Config.Reload
  rw [h]
  simp only [hu, hp]

theorem Reload_ok {env : ConfigEnv} {c n n' : Config} {path data : String}
    (h : env.ReadFile path = some data) (hu : env.Unmarshal data = some n)
    (hp : n.parse env = .ok n') :
    c.Reload env path =
      ({ c with
          Enrichment := n'.Enrichment
          Security := n'.Security
          Telegram := n'.Telegram
          Logging := { c.Logging with Level := n'.Logging.Level } }, none) := by
  unfold Config.Reload
  rw [h]
  simp only [hu, hp]

/-- C27.  Reload is atomic on failure.  `Reload` returns an error exactly when
the file cannot be read, or it is not valid YAML, or a rule network of the new
configuration is not a valid CIDR, or a whitelist source of it is neither a
valid CIDR nor a valid address; whenever it returns an error the live
configuration is what it was before the call.  When it returns nil the
enrichment rules, the security section and the notification section are those
of the parsed new configuration, the log level is the new one, and the listen
address, the HTTP section, the destinations and the other logging fields are
unchanged. -/
theorem Reload_atomic (env : ConfigEnv) (c : Config) (path : String) :
    ((c.Reload env path).2 ≠ none → (c.Reload env path).1 = c) ∧
    ((c.Reload env path).2 ≠ none ↔
      (env.ReadFile path = none ∨
       ∃ data, env.ReadFile path = some data ∧
        (env.Unmarshal data = none ∨
         ∃ n, env.Unmarshal data = some n ∧
          ((∃ r ∈ n.Enrichment.Rules, env.ParseCIDR r.Network = none) ∨
           (∃ s ∈ n.Security.WhitelistSources,
              env.ParseCIDR s = none ∧ env.ParseIP s = none))))) ∧
    ((c.Reload env path).2 = none →
      ∃ data n n', env.ReadFile path = some data ∧ env.Unmarshal data = some n ∧
        n.parse env = .ok n' ∧
        (c.Reload env path).1.Enrichment = n'.Enrichment ∧
        (c.Reload env path).1.Security = n'.Security ∧
        (c.Reload env path).1.Telegram = n'.Telegram ∧
        (c.Reload env path).1.Logging.Level = n'.Logging.Level ∧
        (c.Reload env path).1.Logging.Format = c.Logging.Format ∧
        (c.Reload env path).1.Logging.StatsInterval = c.Logging.StatsInterval ∧
        (c.Reload env path).1.Listen = c.Listen ∧ (c.Reload env path).1.HTTP = c.HTTP ∧
        (c.Reload env path).1.Destinations = c.Destinations) := by
  cases hr : env.ReadFile path with
  | none =>
    rw [Reload_readFile hr]
    refine ⟨fun _ => rfl, ⟨fun _ => Or.inl rfl, fun _ => ?_⟩, fun h => ?_⟩
    · exact fun h => Option.noConfusion h
    · exact Option.noConfusion h
  | some data =>
    cases hu : env.Unmarshal data with
    | none =>
      rw [Reload_yaml hr hu]
      refine ⟨fun _ => rfl, ⟨fun _ => Or.inr ⟨data, rfl, Or.inl hu⟩, fun _ => ?_⟩, fun h => ?_⟩
      · exact fun h => Option.noConfusion h
      · exact Option.noConfusion h
    | some n =>
      cases hp : n.parse env with
      | error e =>
        rw [Reload_parse hr hu hp]
        refine ⟨fun _ => rfl,
          ⟨fun _ => Or.inr ⟨data, rfl, Or.inr ⟨n, hu, ?_⟩⟩, fun _ => ?_⟩, fun h => ?_⟩
        · exact (Config.parse_error_iff env n).mp ⟨e, hp⟩
        · exact fun h => Option.noConfusion h
        · exact Option.noConfusion h
      | ok n' =>
        rw [Reload_ok hr hu hp]
        refine ⟨fun h => absurd rfl h, ⟨fun h => absurd rfl h, ?_⟩, fun _ =>
          ⟨data, n, n', rfl, hu, hp, rfl, rfl, rfl, rfl, rfl, rfl, rfl, rfl, rfl⟩⟩
        rintro (h | ⟨d, hd, h⟩)
        · cases h
        · injection hd with hd
          subst hd
          rcases h with h | ⟨m, hm, h⟩
          · rw [hu] at h; cases h
          · rw [hu] at hm
            injection hm with hm
            subst hm
            obtain ⟨e, he⟩ := (Config.parse_error_iff env n).mpr h
            rw [hp] at he
            cases he

/-- Witness for C27: with `liveConfig` live, reloading an unreadable path, a
file that is not YAML and a file with an invalid rule network each return an
error and leave `liveConfig`; reloading `good.yaml` returns nil, takes the log
level `debug` and the rules of the file and keeps the listen port 6343 and the
two destinations. -/
theorem Reload_atomic_witness :
    (liveConfig.Reload fileEnv "missing.yaml").1 = liveConfig ∧
    (liveConfig.Reload fileEnv "garbage.yaml").1 = liveConfig ∧
    (liveConfig.Reload fileEnv "bad-rule.yaml").1 = liveConfig ∧
    (liveConfig.Reload fileEnv "bad-rule.yaml").2 = some (.invalidNetwork "not-a-network") ∧
    (liveConfig.Reload fileEnv "good.yaml").2 = none ∧
    (liveConfig.Reload fileEnv "good.yaml").1.Logging.Level = "debug" ∧
    (liveConfig.Reload fileEnv "good.yaml").1.Listen = liveConfig.Listen ∧
    (liveConfig.Reload fileEnv "good.yaml").1.Destinations = liveConfig.Destinations :=
  ⟨(Reload_atomic fileEnv liveConfig "missing.yaml").1 (by decide),
   (Reload_atomic fileEnv liveConfig "garbage.yaml").1 (by decide),
   (Reload_atomic fileEnv liveConfig "bad-rule.yaml").1 (by decide),
   by decide, by decide, by decide,
   by
    obtain ⟨_, _, _, _, _, _, _, _, _, _, _, _, h, _, _⟩ :=
      (Reload_atomic fileEnv liveConfig "good.yaml").2.2 (by decide)
    exact h,
   by
    obtain ⟨_, _, _, _, _, _, _, _, _, _, _, _, _, _, h⟩ :=
      (Reload_atomic fileEnv liveConfig "good.yaml").2.2 (by decide)
    exact h⟩

/-! ## Failover (`main.go`, lines 331-468) -/

theorem sendTarget_cases (table : List Destination) (healthy : Nat → Bool) (i : Nat) :
    (sendTarget table healthy i = i ∧
      ¬ ∃ j, (table[i]?).bind (fun d => d.FailoverDst) = some j ∧ healthy i = false ∧
        healthy j = true) ∨
    (∃ j, (table[i]?).bind (fun d => d.FailoverDst) = some j ∧ healthy i = false ∧
      healthy j = true ∧ sendTarget table healthy i = j) := by
  unfold sendTarget
  cases hf : (table[i]?).bind (fun d => d.FailoverDst) with
  | none => exact Or.inl ⟨rfl, by simp⟩
  | some j =>
    simp only
    by_cases hc : (!healthy i && healthy j) = true
    · rw [if_pos hc]
      simp only [Bool.and_eq_true, Bool.not_eq_true'] at hc
      exact Or.inr ⟨j, rfl, hc.1, hc.2, rfl⟩
    · rw [if_neg hc]
      refine Or.inl ⟨rfl, ?_⟩
      rintro ⟨k, hk, h1, h2⟩
      injection hk with hk
      subst hk
      exact hc (by simp [h1, h2])

/-- C25.  Failover target selection.  For the destination `d` at index `i` of
the table, `sendToDestination` writes to the socket of the failover peer
exactly when `d` is unhealthy, the peer exists and the peer is healthy; when
`d` is healthy, when it has no peer, and when `d` and the peer are both
unhealthy it writes to the socket of `d` itself.  The write made for the
destination at index `i` when a datagram is forwarded to all destinations goes
to that socket with the datagram as payload. -/
theorem sendTarget_failover (table : List Destination) (healthy : Nat → Bool) (i : Nat)
    (d : Destination) (hd : table[i]? = some d) :
    (∀ j, d.FailoverDst = some j → healthy i = false → healthy j = true →
      sendTarget table healthy i = j) ∧
    (healthy i = true → sendTarget table healthy i = i) ∧
    (d.FailoverDst = none → sendTarget table healthy i = i) ∧
    (∀ j, d.FailoverDst = some j → healthy j = false → sendTarget table healthy i = i) ∧
    (sendTarget table healthy i ≠ i →
      ∃ j, d.FailoverDst = some j ∧ healthy i = false ∧ healthy j = true ∧
        sendTarget table healthy i = j) ∧
    ∀ packet, (forwardAll table healthy packet)[i]?
      = some ⟨sendTarget table healthy i, packet⟩ := by
  have hb : (table[i]?).bind (fun d => d.FailoverDst) = d.FailoverDst := by rw [hd]; rfl
  have hc := sendTarget_cases table healthy i
  rw [hb] at hc
  refine ⟨?_, ?_, ?_, ?_, ?_, ?_⟩
  · intro j hj h1 h2
    rcases hc with ⟨_, hn⟩ | ⟨k, hk, _, _, e⟩
    · exact absurd ⟨j, hj, h1, h2⟩ hn
    · rw [hj] at hk
      injection hk with hk
      rw [e, hk]
  · intro h
    rcases hc with ⟨e, _⟩ | ⟨k, _, h1, _, _⟩
    · exact e
    · rw [h] at h1; cases h1
  · intro h
    rcases hc with ⟨e, _⟩ | ⟨k, hk, _, _, _⟩
    · exact e
    · rw [h] at hk; cases hk
  · intro j hj h
    rcases hc with ⟨e, _⟩ | ⟨k, hk, _, h2, _⟩
    · exact e
    · rw [hj] at hk
      injection hk with hk
      subst hk
      rw [h] at h2; cases h2
  · intro hne
    rcases hc with ⟨e, _⟩ | ⟨k, hk, h1, h2, e⟩
    · exact absurd e hne
    · exact ⟨k, hk, h1, h2, e⟩
  · intro packet
    have hi : i < table.length := by
      by_contra hcon
      rw [List.getElem?_eq_none (by omega)] at hd
      cases hd
    unfold forwardAll
    rw [List.getElem?_map, List.getElem?_range hi]
    rfl

/-- Witness for C25: in the table of `primaryDest` and `backupDest`, with the
primary unhealthy and the backup healthy the write for the primary goes to the
backup's socket; with both unhealthy it goes to the primary's own socket. -/
theorem sendTarget_failover_witness :
    sendTarget [⟨primaryDest, some 1⟩, ⟨backupDest, none⟩] (fun k => k == 1) 0 = 1 ∧
    sendTarget [⟨primaryDest, some 1⟩, ⟨backupDest, none⟩] (fun _ => false) 0 = 0 :=
  ⟨(sendTarget_failover _ (fun k => k == 1) 0 ⟨primaryDest, some 1⟩ rfl).1 1 rfl rfl rfl,
   (sendTarget_failover _ (fun _ => false) 0 ⟨primaryDest, some 1⟩ rfl).2.2.2.1 1 rfl rfl⟩

/-- A failover link set by `setupDestinations` points into the table. -/
theorem setupDestinations_failover {resolve dial : DestinationConfig → Bool}
    {cfgs : List DestinationConfig} {table : List Destination}
    (h : setupDestinations resolve dial cfgs = .ok table) {i j : Nat} {d : Destination}
    (hd : table[i]? = some d) (hf : d.FailoverDst = some j) : j < table.length := by
  unfold setupDestinations at h
  cases he : enabledDestinations resolve dial cfgs with
  | error e => rw [he] at h; cases h
  | ok t =>
    rw [he] at h
    simp only [Except.bind] at h
    split at h
    · cases h
    · injection h with h
      subst h
      rw [List.getElem?_map] at hd
      cases hc : t[i]? with
      | none => rw [hc] at hd; cases hd
      | some c =>
        rw [hc] at hd
        simp only [Option.map_some', Option.some.injEq] at hd
        subst hd
        simp only at hf
        split at hf
        · unfold destMapLookup at hf
          have hm := List.mem_of_find?_eq_some hf
          rw [List.mem_reverse, List.mem_range] at hm
          simpa using hm
        · cases hf

theorem countP_target {table : List Destination} {healthy : Nat → Bool} {j : Nat}
    (hj : healthy j = true) (l : List Nat) (hn : l.Nodup) :
    l.countP (fun k => decide (sendTarget table healthy k = j))
      = (if j ∈ l then 1 else 0) +
        l.countP (fun k => !healthy k && ((table[k]?).bind (fun d => d.FailoverDst) == some j)) := by
  induction l with
  | nil => simp
  | cons k rest ih =>
    obtain ⟨hk, hrest⟩ := List.nodup_cons.mp hn
    rw [List.countP_cons, List.countP_cons, ih hrest]
    by_cases hkj : k = j
    · subst hkj
      have ht : sendTarget table healthy k = k := by
        rcases sendTarget_cases table healthy k with ⟨e, _⟩ | ⟨m, _, h1, _, _⟩
        · exact e
        · rw [hj] at h1; cases h1
      simp [ht, hk, hj]
      omega
    · have hiff : sendTarget table healthy k = j ↔
          (healthy k = false ∧ (table[k]?).bind (fun d => d.FailoverDst) = some j) := by
        rcases sendTarget_cases table healthy k with ⟨e, hno⟩ | ⟨m, hm, h1, h2, e⟩
        · rw [e]
          constructor
          · intro h; exact absurd h hkj
          · rintro ⟨h1, h2⟩
            exact absurd ⟨j, h2, h1, hj⟩ hno
        · rw [e]
          constructor
          · intro h; subst h; exact ⟨h1, hm⟩
          · rintro ⟨_, h⟩
            rw [hm] at h
            injection h
      have hmem : (j ∈ k :: rest) ↔ j ∈ rest := by
        rw [List.mem_cons]
        constructor
        · rintro (h | h)
          · exact absurd h.symm hkj
          · exact h
        · exact Or.inr
      by_cases hq : healthy k = false ∧ (table[k]?).bind (fun d => d.FailoverDst) = some j
      · have := hiff.mpr hq
        simp [this, hq.1, hq.2, hmem]
        omega
      · have hnt : ¬ sendTarget table healthy k = j := fun h => hq (hiff.mp h)
        have hq' : (!healthy k && ((table[k]?).bind (fun d => d.FailoverDst) == some j)) = false := by
          by_contra hcon
          simp only [Bool.not_eq_false, Bool.and_eq_true, Bool.not_eq_true', beq_iff_eq] at hcon
          exact hq hcon
        simp [hnt, hq', hmem]

set_option maxRecDepth 100000 in
/-- C26, as stated, fails.  `setupDestinations` on `primaryDest` and
`backupDest` gives a table of both, the backup being the failover peer of the
primary; with the primary unhealthy and the backup healthy, forwarding one
datagram makes two writes on the backup's socket, one for the primary and one
for the backup itself, and none on the primary's socket. -/
theorem forwardAll_writes_twice_on_peer :
    setupDestinations (fun _ => true) (fun _ => true) [primaryDest, backupDest]
      = .ok [⟨primaryDest, some 1⟩, ⟨backupDest, none⟩] ∧
    forwardAll [⟨primaryDest, some 1⟩, ⟨backupDest, none⟩] (fun k => k == 1) [0, 0, 0, 5]
      = [⟨1, [0, 0, 0, 5]⟩, ⟨1, [0, 0, 0, 5]⟩] ∧
    (forwardAll [⟨primaryDest, some 1⟩, ⟨backupDest, none⟩] (fun k => k == 1) [0, 0, 0, 5]).countP
      (fun w => w.socket = 1) = 2 ∧
    (forwardAll [⟨primaryDest, some 1⟩, ⟨backupDest, none⟩] (fun k => k == 1) [0, 0, 0, 5]).countP
      (fun w => w.socket = 0) = 0 := by
  decide

/-- C26, amended.  For every destination table built by `setupDestinations` in
which the destination at index `i` is unhealthy and its failover peer, at index
`j`, is healthy, forwarding one datagram to all destinations makes no write on
the socket of `i`; on the socket of `j` it makes one write for `j` itself and
one for every unhealthy destination whose failover peer is `j`, the one at `i`
among them, hence at least two. -/
theorem forwardAll_failover (resolve dial : DestinationConfig → Bool)
    (cfgs : List DestinationConfig) (table : List Destination) (healthy : Nat → Bool)
    (packet : Bytes) (i j : Nat) (d : Destination)
    (hs : setupDestinations resolve dial cfgs = .ok table) (hd : table[i]? = some d)
    (hf : d.FailoverDst = some j) (hi : healthy i = false) (hj : healthy j = true) :
    (forwardAll table healthy packet).countP (fun w => w.socket = i) = 0 ∧
    (forwardAll table healthy packet).countP (fun w => w.socket = j)
      = 1 + (List.range table.length).countP
          (fun k => !healthy k && ((table[k]?).bind (fun d => d.FailoverDst) == some j)) ∧
    2 ≤ (forwardAll table healthy packet).countP (fun w => w.socket = j) ∧
    (forwardAll table healthy packet)[i]? = some ⟨j, packet⟩ ∧
    (forwardAll table healthy packet)[j]? = some ⟨j, packet⟩ := by
  have hjlt : j < table.length := setupDestinations_failover hs hd hf
  have hilt : i < table.length := by
    by_contra hcon
    rw [List.getElem?_eq_none (by omega)] at hd
    cases hd
  have hb : (table[i]?).bind (fun d => d.FailoverDst) = some j := by rw [hd]; exact hf
  have hti : sendTarget table healthy i = j := by
    rcases sendTarget_cases table healthy i with ⟨_, hn⟩ | ⟨k, hk, _, _, e⟩
    · exact absurd ⟨j, hb, hi, hj⟩ hn
    · rw [hb] at hk
      injection hk with hk
      rw [e, hk]
  have htj : sendTarget table healthy j = j := by
    rcases sendTarget_cases table healthy j with ⟨e, _⟩ | ⟨m, _, h1, _, _⟩
    · exact e
    · rw [hj] at h1; cases h1
  have hcount : (forwardAll table healthy packet).countP (fun w => w.socket = j)
      = 1 + (List.range table.length).countP
          (fun k => !healthy k && ((table[k]?).bind (fun d => d.FailoverDst) == some j)) := by
    unfold forwardAll
    rw [List.countP_map]
    have := @countP_target table healthy j hj (List.range table.length) (List.nodup_range _)
    rw [if_pos (List.mem_range.mpr hjlt)] at this
    rw [← this]
    rfl
  refine ⟨?_, hcount, ?_, ?_, ?_⟩
  · unfold forwardAll
    rw [List.countP_map, List.countP_eq_zero]
    intro k _
    simp only [Function.comp, decide_eq_true_eq]
    intro hk
    rcases sendTarget_cases table healthy k with ⟨e, hn⟩ | ⟨m, _, _, h2, e⟩
    · rw [e] at hk
      subst hk
      rw [hti] at e
      rw [e] at hj
      rw [hi] at hj
      cases hj
    · rw [e] at hk
      subst hk
      rw [hi] at h2
      cases h2
  · rw [hcount]
    have hpos : 0 < (List.range table.length).countP
        (fun k => !healthy k && ((table[k]?).bind (fun d => d.FailoverDst) == some j)) := by
      rw [List.countP_pos_iff]
      exact ⟨i, List.mem_range.mpr hilt, by simp [hi, hb]⟩
    omega
  · unfold forwardAll
    rw [List.getElem?_map, List.getElem?_range hilt]
    simp [hti]
  · unfold forwardAll
    rw [List.getElem?_map, List.getElem?_range hjlt]
    simp [htj]

/-- Witness for the amended C26: the table of `primaryDest` and `backupDest`
with the primary unhealthy and the backup healthy. -/
theorem forwardAll_failover_witness :
    (forwardAll [⟨primaryDest, some 1⟩, ⟨backupDest, none⟩] (fun k => k == 1)
      [0, 0, 0, 5]).countP (fun w => w.socket = 0) = 0 ∧
    2 ≤ (forwardAll [⟨primaryDest, some 1⟩, ⟨backupDest, none⟩] (fun k => k == 1)
      [0, 0, 0, 5]).countP (fun w => w.socket = 1) :=
  have h := forwardAll_failover (fun _ => true) (fun _ => true) [primaryDest, backupDest]
    [⟨primaryDest, some 1⟩, ⟨backupDest, none⟩] (fun k => k == 1) [0, 0, 0, 5] 0 1
    ⟨primaryDest, some 1⟩ (by decide) rfl rfl rfl rfl
  ⟨h.1, h.2.2.1⟩

/-! ## Record offsets after a splice in the same sample (`main.go`, lines 541-645) -/

set_option maxRecDepth 1000000 in
set_option maxHeartbeats 4000000 in
/-- C28 fails on `twoGatewayDatagram` with the rule `ownRule`.  The sample at
offset 28 holds two Extended Gateway records, at offsets 92 and 132 of its
payload.  The calls made for the first record are given the 208-byte input, in
which the word at `28 + 8 + 92` is the tag 1003; `ModifyDstAS` then returns a
220-byte buffer.  The calls made for the second record are given that buffer
with the record offset 132 read before the splice: the word at `28 + 8 + 132`
in it is 65001, a word of the first record's new path segment, and the tag of
the second record is at `28 + 8 + 144`.  Both calls leave the buffer as it is,
so the second record goes out with source AS 64500 and an empty path. -/
theorem enrichPacket_stale_record_offset :
    (enrichRun [ownRule] twoGatewayDatagram).toOption.map
        (fun st => st.calls.map fun c =>
          (c.sig, c.packet.length, u32At c.packet (c.sampleOffset + 8 + c.recordOffset)))
      = some [((.srcAS, 28, 92, 65001), 208, 1003), ((.dstAS, 28, 92, 65001), 208, 1003),
              ((.srcAS, 28, 132, 65001), 220, 65001), ((.dstAS, 28, 132, 65001), 220, 65001)] ∧
    (enrichRun [ownRule] twoGatewayDatagram).toOption.map
        (fun st => (st.calls.drop 2).map fun c =>
          (u32At c.packet (28 + 8 + 144), decide (ModifySrcAS c.packet 28 132 65001 = .ok c.packet),
            (ModifyDstAS c.packet 28 132 65001).2))
      = some [(1003, true, false), (1003, true, false)] ∧
    (enrichPacket [ownRule] twoGatewayDatagram).toOption.map
        (fun r => (r.2, r.1.length, [u32At r.1 (28 + 8 + 92), u32At r.1 (28 + 8 + 92 + 20),
          u32At r.1 (28 + 8 + 92 + 28), u32At r.1 (28 + 8 + 144), u32At r.1 (28 + 8 + 144 + 20),
          u32At r.1 (28 + 8 + 144 + 28)]))
      = some (true, 220, [1003, 65001, 1, 1003, 64500, 0]) := by
  refine ⟨?_, ?_, ?_⟩
  · decide
  · decide
  · decide

/-! ## Where `ModifySrcAS` writes (`sflow.go`, lines 388-441) -/

/-- C29, as stated, fails.  In `shortRecordPacket` the record header at offset
8 gives the record payload as the bytes 16..27 and the sample header gives the
sample payload as the bytes 8..19.  `ModifySrcAS` with both offsets 0 writes the
bytes 28..31: byte 30 changes, it is beyond the record payload, and the record
payload ends beyond the sample payload. -/
theorem ModifySrcAS_writes_beyond_record :
    ModifySrcAS shortRecordPacket 0 0 65001
      = .ok [0, 0, 0, 1, 0, 0, 0, 12, 0, 0, 3, 235, 0, 0, 0, 12, 0, 0, 0, 1, 192, 0, 2, 1,
             0, 0, 0, 42, 0, 0, 253, 233] ∧
    byteAt [0, 0, 0, 1, 0, 0, 0, 12, 0, 0, 3, 235, 0, 0, 0, 12, 0, 0, 0, 1, 192, 0, 2, 1,
            0, 0, 0, 42, 0, 0, 253, 233] 30 ≠ byteAt shortRecordPacket 30 ∧
    ¬ 30 < 0 + 8 + 0 + 8 + u32At shortRecordPacket (0 + 8 + 0 + 4) ∧
    ¬ 0 + 8 + 0 + 8 + u32At shortRecordPacket (0 + 8 + 0 + 4)
        ≤ 0 + 8 + u32At shortRecordPacket (0 + 4) := by
  decide

/-- C29, amended.  For every packet, offsets and value, if `ModifySrcAS`
changes the byte at `i` then `i` is one of the 4 bytes at `record_data_start +
4 + addr_len + 4` (`addr_len` 4 for next-hop type 1, 16 for type 2), these 4
bytes lie within the packet, and the record payload and the sample payload,
as their length fields give them, each end within the packet.  The byte lies
within the record payload when the record length is at least `4 + addr_len +
8`, and the record payload within the sample payload when the sample length is
at least `record_off + 8 + record_length`; neither is checked. -/
theorem ModifySrcAS_writes_within_packet (packet : Bytes) (so ro v : Nat) (out : Bytes) (i : Nat)
    (h : ModifySrcAS packet so ro v = .ok out) (hi : byteAt out i ≠ byteAt packet i) :
    ∃ addrLen, ((u32At packet (so + 8 + ro + 8) = 1 ∧ addrLen = 4) ∨
        (u32At packet (so + 8 + ro + 8) = 2 ∧ addrLen = 16)) ∧
      so + 8 + ro + 8 + 4 + addrLen + 4 ≤ i ∧ i < so + 8 + ro + 8 + 4 + addrLen + 4 + 4 ∧
      so + 8 + ro + 8 + 4 + addrLen + 4 + 4 ≤ packet.length ∧
      so + 8 + ro + 8 + u32At packet (so + 8 + ro + 4) ≤ packet.length ∧
      so + 8 + u32At packet (so + 4) ≤ packet.length ∧
      (4 + addrLen + 8 ≤ u32At packet (so + 8 + ro + 4) →
        so + 8 + ro + 8 ≤ i ∧ i < so + 8 + ro + 8 + u32At packet (so + 8 + ro + 4)) ∧
      (ro + 8 + u32At packet (so + 8 + ro + 4) ≤ u32At packet (so + 4) →
        so + 8 ≤ so + 8 + ro + 8 ∧
        so + 8 + ro + 8 + u32At packet (so + 8 + ro + 4) ≤ so + 8 + u32At packet (so + 4)) := by
  obtain ⟨_, h⟩ := @setASField_ok_inv 4 packet so ro v out h
  subst h
  unfold poke at hi
  cases hp : fieldPos 4 packet so ro with
  | none => rw [hp] at hi; exact absurd rfl hi
  | some pos =>
    rw [hp] at hi
    simp only at hi
    obtain ⟨h1, h2, hlen, ht⟩ := fieldPos_some hp
    have hin : pos ≤ i ∧ i < pos + 4 := by
      by_contra hcon
      exact hi (byteAt_writeU32_of_ne (by omega))
    rcases ht with ⟨t, rfl⟩ | ⟨t, rfl⟩
    · exact ⟨4, Or.inl ⟨t, rfl⟩, hin.1, hin.2, by omega, h2, h1, fun _ => ⟨by omega, by omega⟩,
        fun _ => ⟨by omega, by omega⟩⟩
    · exact ⟨16, Or.inr ⟨t, rfl⟩, hin.1, hin.2, by omega, h2, h1, fun _ => ⟨by omega, by omega⟩,
        fun _ => ⟨by omega, by omega⟩⟩

/-- Witness for the amended C29: the write of `ModifySrcAS` into
`shortRecordPacket`, at byte 30. -/
theorem ModifySrcAS_writes_within_packet_witness :
    ∃ addrLen, ((u32At shortRecordPacket (0 + 8 + 0 + 8) = 1 ∧ addrLen = 4) ∨
        (u32At shortRecordPacket (0 + 8 + 0 + 8) = 2 ∧ addrLen = 16)) ∧
      0 + 8 + 0 + 8 + 4 + addrLen + 4 ≤ 30 ∧ 30 < 0 + 8 + 0 + 8 + 4 + addrLen + 4 + 4 ∧
      0 + 8 + 0 + 8 + 4 + addrLen + 4 + 4 ≤ shortRecordPacket.length :=
  have h := ModifySrcAS_writes_within_packet shortRecordPacket 0 0 65001
    [0, 0, 0, 1, 0, 0, 0, 12, 0, 0, 3, 235, 0, 0, 0, 12, 0, 0, 0, 1, 192, 0, 2, 1,
     0, 0, 0, 42, 0, 0, 253, 233] 30 (by decide) (by decide)
  h.imp fun _ hh => ⟨hh.1, hh.2.1, hh.2.2.1, hh.2.2.2.1⟩

/-! ## What the flag `enriched` reports (`main.go`, lines 555-648) -/

/-- A reflexive and transitive relation between states that holds across what
is done for a rule that fires on the source side and across what is done for a
rule that fires on the destination side holds across the loop over the
samples. -/
theorem sampleLoop_rules_rel (R : EnrichState → EnrichState → Prop)
    (hrefl : ∀ st, R st st)
    (htrans : ∀ a b c, R a b → R b c → R a c)
    (hsrcRule : ∀ (rule : EnrichmentRule) (so ro : Nat) (eg : ExtendedGateway)
      (st st' : EnrichState), applySrcRule rule so ro eg st = .ok st' → R st st')
    (hdstRule : ∀ (rule : EnrichmentRule) (so ro : Nat) (eg : ExtendedGateway)
      (st st' : EnrichState), applyDstRule rule so ro eg st = .ok st' → R st st')
    {rules : List EnrichmentRule} {samples : List Sample} {st st' : EnrichState}
    (h : sampleLoop rules samples st = .ok st') : R st st' := by
  have hsrc : ∀ (srcIP : Option Bytes) (so ro : Nat) (eg : ExtendedGateway)
      (rs : List EnrichmentRule) (a b : EnrichState),
      srcSide srcIP so ro eg rs a = .ok b → R a b := by
    intro srcIP so ro eg rs a b hs
    induction rs with
    | nil =>
      simp only [srcSide] at hs
      injection hs with hs
      subst hs
      exact hrefl _
    | cons rule rest ih =>
      unfold srcSide at hs
      by_cases hf : shouldApply rule srcIP eg = true
      · simp only [hf, if_true] at hs
        exact hsrcRule _ _ _ _ _ _ hs
      · simp only [hf] at hs
        exact ih hs
  have hdstS : ∀ (dstIP : Option Bytes) (so ro : Nat) (eg : ExtendedGateway)
      (rs : List EnrichmentRule) (a b : EnrichState),
      dstSide dstIP so ro eg rs a = .ok b → R a b := by
    intro dstIP so ro eg rs a b hs
    induction rs with
    | nil =>
      simp only [dstSide] at hs
      injection hs with hs
      subst hs
      exact hrefl _
    | cons rule rest ih =>
      unfold dstSide at hs
      by_cases hf : ipIn dstIP rule.IPNet = true
      · simp only [hf, if_true] at hs
        exact hdstRule _ _ _ _ _ _ hs
      · simp only [hf] at hs
        exact ih hs
  have hgw : ∀ (srcIP dstIP : Option Bytes) (so ro : Nat) (eg : ExtendedGateway)
      (a b : EnrichState), processGateway rules srcIP dstIP so ro eg a = .ok b → R a b := by
    intro srcIP dstIP so ro eg a b hs
    unfold processGateway at hs
    cases h1 : srcSide srcIP so ro eg rules a with
    | error e => rw [h1] at hs; cases hs
    | ok st1 =>
      rw [h1] at hs
      simp only [Except.bind] at hs
      have r1 := hsrc _ _ _ _ _ _ _ h1
      by_cases hp : eg.DstASPathLen = 0
      · simp only [hp, if_true] at hs
        exact htrans _ _ _ r1 (hdstS _ _ _ _ _ _ _ hs)
      · simp only [hp, if_false] at hs
        injection hs with hs
        subst hs
        exact r1
  have hrec : ∀ (srcIP dstIP : Option Bytes) (sample : Sample) (record : FlowRecord)
      (a b : EnrichState), processRecord rules srcIP dstIP sample record a = .ok b → R a b := by
    intro srcIP dstIP sample record a b hs
    unfold processRecord at hs
    split at hs
    · injection hs with hs
      subst hs
      exact hrefl _
    · split at hs
      · injection hs with hs
        subst hs
        exact hrefl _
      · cases hs
      · exact hgw _ _ _ _ _ _ _ hs
  have hloop : ∀ (srcIP dstIP : Option Bytes) (sample : Sample) (records : List FlowRecord)
      (a b : EnrichState), recordLoop rules srcIP dstIP sample records a = .ok b → R a b := by
    intro srcIP dstIP sample records
    induction records with
    | nil =>
      intro a b hs
      simp only [recordLoop] at hs
      injection hs with hs
      subst hs
      exact hrefl _
    | cons r rest ih =>
      intro a b hs
      unfold recordLoop at hs
      cases h1 : processRecord rules srcIP dstIP sample r a with
      | error e => rw [h1] at hs; cases hs
      | ok st1 =>
        rw [h1] at hs
        simp only [Except.bind] at hs
        exact htrans _ _ _ (hrec _ _ _ _ _ _ h1) (ih _ _ hs)
  have hsample : ∀ (sample : Sample) (a b : EnrichState),
      processSample rules sample a = .ok b → R a b := by
    intro sample a b hs
    unfold processSample at hs
    split at hs
    · injection hs with hs
      subst hs
      exact hrefl _
    · split at hs
      · injection hs with hs
        subst hs
        exact hrefl _
      · split at hs
        · injection hs with hs
          subst hs
          exact hrefl _
        · cases hs
        · exact hloop _ _ _ _ _ _ hs
  induction samples generalizing st with
  | nil =>
    simp only [sampleLoop] at h
    injection h with h
    subst h
    exact hrefl _
  | cons s rest ih =>
    unfold sampleLoop at h
    cases h1 : processSample rules s st with
    | error e => rw [h1] at h; cases h
    | ok st1 =>
      rw [h1] at h
      simp only [Except.bind] at h
      exact htrans _ _ _ (hsample _ _ _ h1) (ih h)

set_option maxRecDepth 1000000 in
/-- C30, as stated, fails.  On `settledDatagram` the rule `forceRule` fires on
the source side and `ModifySrcAS` writes 65001 over the source AS 65001: the
bytes returned are the bytes given, and `enriched` is true. -/
theorem enrichPacket_flag_without_change :
    enrichPacket [forceRule] settledDatagram = .ok (settledDatagram, true) := by
  decide

/-- C30, amended.  For every datagram and rule set, if `enrichPacket` returns
then `enriched` is true exactly when a rule fired with a mutator call that
writes in place (`ModifySrcAS`, `ModifySrcPeerAS`, `ModifyRouterAS`) or with a
`ModifyDstAS` call that reported success; the write may store what the field
held already, so the returned bytes need not differ from the bytes given.
When `enriched` is false the returned bytes are the bytes given. -/
theorem enrichPacket_flag (rules : List EnrichmentRule) (packet out : Bytes) (enriched : Bool)
    (h : enrichPacket rules packet = .ok (out, enriched)) :
    ∃ st, enrichRun rules packet = .ok st ∧ st.packet = out ∧
      (enriched = true ↔
        ∃ c ∈ st.calls, c.op ≠ .dstAS ∨
          (ModifyDstAS c.packet c.sampleOffset c.recordOffset c.value).2 = true) ∧
      (enriched = false → out = packet) := by
  unfold enrichPacket at h
  cases hr : enrichRun rules packet with
  | error e => rw [hr] at h; cases h
  | ok st =>
    rw [hr] at h
    simp only [Except.bind] at h
    injection h with h
    injection h with hp he
    subst hp
    subst he
    refine ⟨st, rfl, rfl, ?_⟩
    have key : ∃ rest, st.calls = (EnrichState.init packet).calls ++ rest ∧
        (st.enriched = true ↔ ((EnrichState.init packet).enriched = true ∨
          ∃ c ∈ rest, c.op ≠ .dstAS ∨
            (ModifyDstAS c.packet c.sampleOffset c.recordOffset c.value).2 = true)) ∧
        (st.enriched = false → st.packet = (EnrichState.init packet).packet) := by
      unfold enrichRun at hr
      split at hr
      · injection hr with hr
        subst hr
        exact ⟨[], by simp, by simp, fun _ => rfl⟩
      · cases hr
      · refine sampleLoop_rules_rel
          (fun a b => ∃ rest, b.calls = a.calls ++ rest ∧
            (b.enriched = true ↔ (a.enriched = true ∨
              ∃ c ∈ rest, c.op ≠ .dstAS ∨
                (ModifyDstAS c.packet c.sampleOffset c.recordOffset c.value).2 = true)) ∧
            (b.enriched = false → b.packet = a.packet)) ?_ ?_ ?_ ?_ hr
        · intro a
          exact ⟨[], by simp, by simp, fun _ => rfl⟩
        · rintro a b c ⟨r1, c1, e1, p1⟩ ⟨r2, c2, e2, p2⟩
          refine ⟨r1 ++ r2, by rw [c2, c1, List.append_assoc], ?_, ?_⟩
          · rw [e2, e1]
            constructor
            · rintro ((ha | ⟨x, hx, hxe⟩) | ⟨x, hx, hxe⟩)
              · exact Or.inl ha
              · exact Or.inr ⟨x, List.mem_append_left _ hx, hxe⟩
              · exact Or.inr ⟨x, List.mem_append_right _ hx, hxe⟩
            · rintro (ha | ⟨x, hx, hxe⟩)
              · exact Or.inl (Or.inl ha)
              · rcases List.mem_append.mp hx with hx | hx
                · exact Or.inl (Or.inr ⟨x, hx, hxe⟩)
                · exact Or.inr ⟨x, hx, hxe⟩
          · intro hc
            have hb : b.enriched = false := by
              cases hbe : b.enriched with
              | false => rfl
              | true =>
                have := e2.mpr (Or.inl hbe)
                rw [hc] at this
                cases this
            rw [p2 hc, p1 hb]
        · intro rule so ro eg a b hs
          obtain ⟨b', e, hen, _, _, c, rest, hc, hceq, _⟩ :=
            applySrcRule_ok rule so ro eg a (applySrcRule_ok_inv hs)
          rw [e] at hs
          injection hs with hs
          subst hs
          refine ⟨c :: rest, hc, ?_, ?_⟩
          · constructor
            · intro _
              refine Or.inr ⟨c, List.mem_cons_self _ _, Or.inl ?_⟩
              rw [hceq]
              intro hcon
              cases hcon
            · intro _
              exact hen
          · intro hf
            rw [hen] at hf
            cases hf
        · intro rule so ro eg a b hs
          obtain ⟨b', e, hpk, hen, rest, hc, hrest, hnil⟩ :=
            applyDstRule_ok rule so ro eg a (fun ha => applyDstRule_ok_inv hs ha)
          rw [e] at hs
          injection hs with hs
          subst hs
          refine ⟨_ :: rest, hc, ?_, ?_⟩
          · rw [hen]
            constructor
            · rintro (ha | hok | hz)
              · exact Or.inl ha
              · exact Or.inr ⟨_, List.mem_cons_self _ _, Or.inr hok⟩
              · have hne : rest ≠ [] := fun hcon => (hnil.mp hcon) hz
                obtain ⟨x, hx⟩ := List.exists_mem_of_ne_nil rest hne
                refine Or.inr ⟨x, List.mem_cons_of_mem _ hx, Or.inl ?_⟩
                rw [hrest x hx]
                intro hcon
                cases hcon
            · rintro (ha | ⟨x, hx, hxe⟩)
              · exact Or.inl ha
              · rcases List.mem_cons.mp hx with hx | hx
                · subst hx
                  rcases hxe with hxe | hxe
                  · exact absurd rfl hxe
                  · exact Or.inr (Or.inl hxe)
                · refine Or.inr (Or.inr ?_)
                  by_contra hz
                  rw [hnil.mpr hz] at hx
                  cases hx
          · intro hf
            have hno : ¬ (a.enriched = true ∨
                (ModifyDstAS a.packet so ro rule.SetAS).2 = true ∨ eg.AS = 0) := by
              intro hcon
              rw [hen.mpr hcon] at hf
              cases hf
            have hz : ¬ eg.AS = 0 := fun hcon => hno (Or.inr (Or.inr hcon))
            have hfail : (ModifyDstAS a.packet so ro rule.SetAS).2 = false := by
              cases hok : (ModifyDstAS a.packet so ro rule.SetAS).2 with
              | false => rfl
              | true => exact absurd (Or.inr (Or.inl hok)) hno
            rw [hpk, if_neg hz, ModifyDstAS_fst_of_fail hfail]
            rfl
    obtain ⟨rest, hc, hen, hpk⟩ := key
    have hc' : st.calls = rest := by rw [hc]; rfl
    refine ⟨?_, fun hf => hpk hf⟩
    rw [hen, hc']
    constructor
    · rintro (ha | hx)
      · cases ha
      · exact hx
    · exact Or.inr

set_option maxRecDepth 1000000 in
/-- Witness for the amended C30: the run of `forceRule` on `settledDatagram`,
which returns the bytes given with `enriched` true. -/
theorem enrichPacket_flag_witness :
    ∃ st, enrichRun [forceRule] settledDatagram = .ok st ∧ st.packet = settledDatagram ∧
      (true = true ↔
        ∃ c ∈ st.calls, c.op ≠ .dstAS ∨
          (ModifyDstAS c.packet c.sampleOffset c.recordOffset c.value).2 = true) ∧
      (true = false → settledDatagram = settledDatagram) :=
  enrichPacket_flag [forceRule] settledDatagram settledDatagram true (by decide)

/-! ## Rules that fire on a record after a splice in the same sample -/

set_option maxRecDepth 1000000 in
set_option maxHeartbeats 4000000 in
/-- C6 fails on `twoGatewayDatagram` with the rule `ownRule`.  The second
Extended Gateway record of the sample, at offset 132 of the payload, parses
with source AS 64500 and the source address 10.0.0.5 lies in the rule's
network, so the rule fires for it: `ModifySrcAS` is called with the rule's
`set_as` 65001 and `enriched` is set.  The call is given the buffer
`ModifyDstAS` returned for the first record together with the record offset
read before that splice; its checks fail and it writes nothing.  In the bytes
returned the first record has source AS 65001 and the second, now at offset
144, still has source AS 64500. -/
theorem enrichPacket_fired_rule_writes_nothing :
    (gatewayAt twoGatewayDatagram 28 132).toOption.map
        (fun g => (g.SrcAS, shouldApply ownRule (some [10, 0, 0, 5]) g)) = some (64500, true) ∧
    (enrichRun [ownRule] twoGatewayDatagram).toOption.map
        (fun st => (st.calls.filter fun c => c.op = .srcAS).map Call.sig)
      = some [(.srcAS, 28, 92, 65001), (.srcAS, 28, 132, 65001)] ∧
    (enrichPacket [ownRule] twoGatewayDatagram).toOption.map
        (fun r => (r.2, (gatewayAt r.1 28 92).toOption.map (fun g => g.SrcAS),
          (gatewayAt r.1 28 144).toOption.map (fun g => g.SrcAS)))
      = some (true, some 65001, some 64500) := by
  refine ⟨?_, ?_, ?_⟩
  · decide
  · decide
  · decide

set_option maxRecDepth 1000000 in
set_option maxHeartbeats 4000000 in
/-- C7 fails on `outboundDatagram` with the rules `ownRule` and `dnsRule`.
The record parses with router AS 0 and source peer AS 0.  The source side fires
with `ownRule` and writes its `set_as` 65001 to the source AS, the source peer
AS and the router AS.  The destination side then fires with `dnsRule`; it
tests the router AS parsed before the source side wrote, finds 0, and calls
`ModifyRouterAS` with 65002 on a buffer whose router AS is 65001.  In the bytes
returned the router AS is 65002, not the `set_as` of the rule that fired on the
source side. -/
theorem enrichPacket_router_as_overwritten :
    (gatewayAt outboundDatagram 28 92).toOption.map (fun g => [g.AS, g.SrcAS, g.SrcPeerAS])
      = some [0, 64500, 0] ∧
    (enrichRun [ownRule, dnsRule] outboundDatagram).toOption.map
        (fun st => st.calls.map fun c => (c.sig, u32At c.packet (28 + 8 + 92 + 8 + 4 + 4)))
      = some [((.srcAS, 28, 92, 65001), 0), ((.srcPeerAS, 28, 92, 65001), 0),
              ((.routerAS, 28, 92, 65001), 0), ((.dstAS, 28, 92, 65002), 65001),
              ((.routerAS, 28, 92, 65002), 65001)] ∧
    (enrichPacket [ownRule, dnsRule] outboundDatagram).toOption.map
        (fun r => (r.2, (gatewayAt r.1 28 92).toOption.map
          (fun g => [g.AS, g.SrcAS, g.SrcPeerAS])))
      = some (true, some [65002, 65001, 65001]) := by
  refine ⟨?_, ?_, ?_⟩
  · decide
  · decide
  · decide

set_option maxRecDepth 1000000 in
set_option maxHeartbeats 4000000 in
/-- C8 fails on `fourGatewayDatagram` with the rule `ownRule`.  The record at
offset 172 of the sample payload parses with a destination AS path of length
1, the AS 3356, and no `ModifyDstAS` call is made for it.  The first two
records have an empty path and `ModifyDstAS` returns a longer buffer for each.
The rule then fires on the source side of the record at offset 216, and
`ModifySrcAS` is called with that record offset on the buffer that has grown by
24 bytes: it writes 65001 over the last word of the record before it.  In the
bytes returned the record that came in with the path 3356, now at offset 196,
has the path 65001. -/
theorem enrichPacket_path_overwritten :
    (gatewayAt fourGatewayDatagram 28 172).toOption.map
        (fun g => (g.DstASPathLen, g.DstASPath)) = some (1, [3356]) ∧
    (enrichRun [ownRule] fourGatewayDatagram).toOption.map
        (fun st => st.calls.map fun c => (c.sig, c.packet.length))
      = some [((.dstAS, 28, 92, 65001), 304), ((.dstAS, 28, 132, 65001), 316),
              ((.srcAS, 28, 216, 65001), 328)] ∧
    (enrichPacket [ownRule] fourGatewayDatagram).toOption.map
        (fun r => (r.2, r.1.length, (gatewayAt r.1 28 196).toOption.map
          (fun g => (g.DstASPathLen, g.DstASPath))))
      = some (true, 328, some (1, [65001])) := by
  refine ⟨?_, ?_, ?_⟩
  · decide
  · decide
  · decide

end SFlow
